import Mathlib

/-!
# aform: validation pipeline and form aggregation

Shallow embedding of the Go package `aform` (fields, the sanitize / validate /
customize pipeline, and the form-level binding and validation latch).

Conventions of the embedding

* A Go `string` is a `List Char` (`Str`).
* A Go `[]Error` is an `ErrorList = Option (List Error)`: `none` is the nil
  slice, `some []` the empty non-nil slice (the source tests `errs != nil`).
* A Go `map[string]V` is an association list with unique-key updates
  (`mapGet`, `mapSet`, `mapDelete`); the nil map is the empty list.
* A Go panic is the `Except.error` branch of `Except Abort _`.
* Functions of other libraries that the package calls (HTML unescaping, the
  bluemonday strict policy, `strings.ToLower`, the e-mail pattern of the rule
  engine, language matching) are the fields of a `Lib` record passed to the
  definitions that reach them.
-/

namespace Aform

/-- Go strings, as lists of characters. -/
abbrev Str := List Char

/-- The single quote character, U+0027. -/
def quoteChar : Char := Char.ofNat 39

/-- Language tags of `golang.org/x/text/language`, by their `String()`. -/
abbrev LangTag := Str

/-- Functions of external libraries reached by the package. -/
structure Lib where
  /-- Go `html.UnescapeString`. -/
  unescapeString : Str → Str
  /-- Go `bluemonday.StrictPolicy().Sanitize`. -/
  strictSanitize : Str → Str
  /-- Go `strings.ToLower`. -/
  toLower : Str → Str
  /-- The `email` rule of the rule engine (a regular expression there). -/
  isEmail : Str → Bool
  /-- Go `language.MatchStrings(language.NewMatcher(available), langs...)`, first result. -/
  matchStrings : List LangTag → List Str → LangTag

/-- Abnormal termination: a Go panic, or the model running out of fuel. -/
inductive Abort where
  /-- Rule engine: `Undefined validation function` for this tag name. -/
  | undefinedValidation (tag : Str)
  /-- Rule engine: `Invalid validation tag` (empty tag name). -/
  | invalidValidation
  /-- Rule engine: a numeric parameter that `strconv.ParseInt` rejects. -/
  | badParam (tag param : Str)
  /-- Rule engine: a rule that is well-formed for the library but is not one of
  the six rules this package emits; its behaviour is not modelled. -/
  | ruleOutsideModel (tag : Str)
  /-- A failed Go type assertion. -/
  | typeAssertion
  /-- The `unknown field type` panic of `disguiseFieldForValidation`. -/
  | unknownFieldType
  /-- A panic raised by caller-supplied code. -/
  | userPanic (msg : Str)
  /-- The model ran out of fuel (not a behaviour of the program). -/
  | outOfFuel
  deriving DecidableEq, Repr

/-! ## Error model (`error.go`) -/

def BooleanErrorCode : Str := "boolean".toList
def EmailErrorCode : Str := "email".toList
def ChoiceErrorCode : Str := "oneof".toList
def MinLengthErrorCode : Str := "min".toList
def MaxLengthErrorCode : Str := "max".toList
def RequiredErrorCode : Str := "required".toList
def URLErrorCode : Str := "url".toList

def RequiredErrorMessageEn : Str := "This field is required".toList
def RequiredErrorMessageFr : Str := "Ce champ est obligatoire".toList

def customizableErrors : List Str :=
  [BooleanErrorCode, EmailErrorCode, ChoiceErrorCode, MinLengthErrorCode,
   MaxLengthErrorCode, RequiredErrorCode, URLErrorCode]

/-- Go values of interface type `error` that are not nil.
`aformNil`/`aformWrap` are values of the package's own `Error` struct used as
an `error`; `foreign`/`foreignWrap` are errors of other packages, with the code
they expose (if they implement `Code()`) and the error they unwrap to. -/
inductive GoError where
  | errorFromFieldError (tag param : Str)
  | simpleError (code fr en : Str)
  | foreign (msg : Str) (code : Option Str)
  | foreignWrap (msg : Str) (code : Option Str) (inner : GoError)
  | aformNil (tag : Str)
  | aformWrap (tag : Str) (inner : GoError)
  deriving DecidableEq, Repr

/-- The struct `Error`: an optional code and a wrapped cause. -/
structure Error where
  tag : Str
  err : Option GoError
  deriving DecidableEq, Repr

/-- A Go `[]Error`; `none` is the nil slice. -/
abbrev ErrorList := Option (List Error)

/-- Go `len(errs)`. -/
def ErrorList.len : ErrorList → Nat
  | none => 0
  | some l => l.length

/-- The elements of a Go `[]Error`. -/
def ErrorList.elems : ErrorList → List Error
  | none => []
  | some l => l

/-- Go `append(a, b...)` on `[]Error`: nil is kept only when nothing is appended to nil. -/
def ErrorList.append : ErrorList → List Error → ErrorList
  | none, [] => none
  | none, b => some b
  | some a, b => some (a ++ b)

/-- Result of `errors.As(err, &ec)` followed by `ec.Code()`, for `ec` of the
interface type `errorCoder`: the code of the first error in the chain that has
a `Code()` method; `none` when no error in the chain has one. -/
def codeAs : GoError → Option Str
  | .errorFromFieldError tag _ => some tag
  | .simpleError code _ _ => some code
  | .foreign _ code => code
  | .foreignWrap _ (some c) _ => some c
  | .foreignWrap _ none inner => codeAs inner
  | .aformNil tag => some tag
  | .aformWrap tag inner =>
      if tag ≠ [] then some tag else some ((codeAs inner).getD [])

/-- Method `Error.Code`. -/
def Error.Code (e : Error) : Str :=
  if e.tag ≠ [] then e.tag
  else match e.err with
    | none => []
    | some c => (codeAs c).getD []

/-- Function `ErrorWrap`. -/
def ErrorWrap (err : Option GoError) : Error := { tag := [], err := err }

/-- Function `ErrorWrapWithCode`. -/
def ErrorWrapWithCode (err : Option GoError) (code : Str) : Error := { tag := code, err := err }

/-- Result of `errors.As(err, &e)` for `e` of the struct type `Error`. -/
def asError : GoError → Option Error
  | .errorFromFieldError _ _ => none
  | .simpleError _ _ _ => none
  | .foreign _ _ => none
  | .foreignWrap _ _ inner => asError inner
  | .aformNil tag => some { tag := tag, err := none }
  | .aformWrap tag inner => some { tag := tag, err := some inner }

/-- Function `errorWrapIfNotAsError`. -/
def errorWrapIfNotAsError (err : Option GoError) : Error :=
  match err with
  | none => ErrorWrap none
  | some c =>
    match asError c with
    | some e => e
    | none => ErrorWrap (some c)

/-- A value of the struct `Error` used as a Go `error`. -/
def Error.toGoError (e : Error) : GoError :=
  match e.err with
  | none => .aformNil e.tag
  | some c => .aformWrap e.tag c

/-- Method `Unwrap` of `Error`; `none` is the nil error. -/
def Error.Unwrap (e : Error) : Option GoError := e.err

/-- Method `Error()` of a Go `error` that is not nil. The message of an
`errorFromFieldError` is its English translation, made by the translator of the
rule engine: `fieldMessage tag param` stands for that text. -/
def GoError.message (fieldMessage : Str → Str → Str) : GoError → Str
  | .errorFromFieldError tag param => fieldMessage tag param
  | .simpleError _ _ _ => RequiredErrorMessageEn
  | .foreign msg _ => msg
  | .foreignWrap msg _ _ => msg
  | .aformNil _ => []
  | .aformWrap _ inner => GoError.message fieldMessage inner

set_option linter.dupNamespace false in
/-- Method `Error()` of `Error`. -/
def Error.Error (fieldMessage : Str → Str → Str) (e : Error) : Str :=
  match e.err with
  | none => []
  | some c => c.message fieldMessage

/-- The method `Code()` of a Go `error` itself, `none` when its type has no such
method: what a caller reads from a value of type `ErrorCoderTranslator`. -/
def GoError.ownCode : GoError → Option Str
  | .errorFromFieldError tag _ => some tag
  | .simpleError code _ _ => some code
  | .foreign _ code => code
  | .foreignWrap _ code _ => code
  | .aformNil tag => some (Error.Code { tag := tag, err := none })
  | .aformWrap tag inner => some (Error.Code { tag := tag, err := some inner })

/-! ## Go maps as association lists -/

/-- Go `map[string]V`. -/
abbrev GoMap (V : Type) := List (Str × V)

/-- Go `v, ok := m[k]`. -/
def mapGet {V : Type} (m : GoMap V) (k : Str) : Option V :=
  match m with
  | [] => none
  | (k1, v) :: rest => if k1 = k then some v else mapGet rest k

/-- Go `delete(m, k)`. -/
def mapDelete {V : Type} (m : GoMap V) (k : Str) : GoMap V :=
  m.filter (fun p => decide (p.1 ≠ k))

/-- Go `m[k] = v`. -/
def mapSet {V : Type} (m : GoMap V) (k : Str) (v : V) : GoMap V :=
  (k, v) :: mapDelete m k

/-- Go `_, ok := m[k]`. -/
def mapHas {V : Type} (m : GoMap V) (k : Str) : Bool := (mapGet m k).isSome

/-- Function `customizeErrors`. -/
def customizeErrors (errors : ErrorList) (customized : GoMap Error) : ErrorList :=
  match errors with
  | none => none
  | some [] => some []
  | some l => some (l.map (fun e =>
      match mapGet customized e.Code with
      | some ce => ce
      | none => e))

/-- Variable `requiredError`. -/
def requiredError : Error :=
  ErrorWrap (some (.simpleError RequiredErrorCode RequiredErrorMessageFr RequiredErrorMessageEn))

/-! ## Rule engine (`validation.go` and the calls it makes into `validator/v10`)

The engine is the library `github.com/go-playground/validator/v10`, reached
through `validate.Var(value, tag)`. The model covers the tag grammar of the
library (rules separated by `,`, alternatives by `|`, parameter after the first
`=`, the escapes `0x2C` and `0x7C` in parameters) and the six rules that this
package emits: `required`, `min`, `max`, `email`, `oneof` and the `boolean` rule
that `defaultValidate` registers. The library parses the whole tag before it
checks the value, and stops at the first rule that fails. -/

/-- Go `strings.Split(s, sep)` for a one-character separator. -/
def splitOnChar (c : Char) : Str → List Str
  | [] => [[]]
  | x :: xs =>
    if x = c then [] :: splitOnChar c xs
    else match splitOnChar c xs with
      | [] => [[x]]
      | p :: ps => (x :: p) :: ps

/-- Go `strings.SplitN(s, "=", 2)`: the text before the first `=`, and the text
after it when there is one. -/
def splitKeyParam : Str → Str × Option Str
  | [] => ([], none)
  | x :: xs =>
    if x = '=' then ([], some xs)
    else ((x :: (splitKeyParam xs).1), (splitKeyParam xs).2)

/-- Go `strings.Join(parts, sep)`. -/
def joinWith (sep : Str) : List Str → Str
  | [] => []
  | [a] => a
  | a :: b :: rest => a ++ sep ++ joinWith sep (b :: rest)

/-- Worker of `replaceAll`: `skip` characters of a match are still to be dropped. -/
def replaceGo (old new : Str) : Nat → Str → Str
  | _, [] => []
  | skip + 1, _ :: rest => replaceGo old new skip rest
  | 0, c :: rest =>
    if old.isPrefixOf (c :: rest) then new ++ replaceGo old new (old.length - 1) rest
    else c :: replaceGo old new 0 rest

/-- Go `strings.Replace(s, old, new, -1)` for a non-empty `old`. -/
def replaceAll (old new : Str) (s : Str) : Str := replaceGo old new 0 s

/-- Whitespace of the regular-expression class `\s` of Go: tab, newline, form feed,
carriage return, space. -/
def isRegexSpace (c : Char) : Bool :=
  c = Char.ofNat 9 || c = Char.ofNat 10 || c = Char.ofNat 12 || c = Char.ofNat 13 || c = ' '

/-- Scanner state of `splitParams`. -/
inductive ScanState where
  | idle
  | quoted (acc : Str)
  | bare (acc : Str)

/-- Worker of `splitParams`: leftmost-first matching of the pattern
`[quote][^quote]*[quote]|\S+`. From `idle`, a quote that has a closing quote later
on starts a quoted match; any other non-space character starts a run of
non-space characters. -/
def splitParamsGo : ScanState → Str → List Str
  | .idle, [] => []
  | .quoted acc, [] => [acc]
  | .bare acc, [] => [acc]
  | .idle, c :: rest =>
    if c = quoteChar ∧ quoteChar ∈ rest then splitParamsGo (.quoted [c]) rest
    else if isRegexSpace c then splitParamsGo .idle rest
    else splitParamsGo (.bare [c]) rest
  | .quoted acc, c :: rest =>
    if c = quoteChar then (acc ++ [c]) :: splitParamsGo .idle rest
    else splitParamsGo (.quoted (acc ++ [c])) rest
  | .bare acc, c :: rest =>
    if isRegexSpace c then acc :: splitParamsGo .idle rest
    else splitParamsGo (.bare (acc ++ [c])) rest

/-- The library call `splitParamsRegex.FindAllString(s, -1)`. -/
def splitParams (s : Str) : List Str := splitParamsGo .idle s

/-- The library function `parseOneOfParam2`: the matches of `splitParams` with
every quote character removed. -/
def parseOneOfParam2 (s : Str) : List Str :=
  (splitParams s).map (fun v => v.filter (fun c => decide (c ≠ quoteChar)))

/-- Function `parseBool` (`booleanfield.go`); `none` is the error result. -/
def parseBool (v : Str) : Option Bool :=
  if v ∈ ["1".toList, "t".toList, "T".toList, "true".toList, "TRUE".toList,
          "True".toList, "on".toList, "ON".toList, "On".toList] then some true
  else if v ∈ ["0".toList, "f".toList, "F".toList, "false".toList, "FALSE".toList,
          "False".toList, "off".toList, "OFF".toList, "Off".toList] then some false
  else none

/-- The rules of the engine that the package emits. -/
inductive Rule where
  | required | min | max | email | oneof | boolean
  deriving DecidableEq, Repr

/-- The tag name of a rule. -/
def Rule.name : Rule → Str
  | .required => RequiredErrorCode
  | .min => MinLengthErrorCode
  | .max => MaxLengthErrorCode
  | .email => EmailErrorCode
  | .oneof => ChoiceErrorCode
  | .boolean => BooleanErrorCode

/-- Characters of the tag names registered in the library: lower-case ASCII
letters, digits and the underscore. -/
def isTagNameChar (c : Char) : Bool := c.isLower || c.isDigit || c = '_'

/-- The lookup `v.validations[tag]` of the tag parser. An empty name and a name
that no validation is registered under make the library panic. -/
def lookupValidation (name : Str) : Except Abort Rule :=
  if name = [] then .error .invalidValidation
  else if name = RequiredErrorCode then .ok .required
  else if name = MinLengthErrorCode then .ok .min
  else if name = MaxLengthErrorCode then .ok .max
  else if name = EmailErrorCode then .ok .email
  else if name = ChoiceErrorCode then .ok .oneof
  else if name = BooleanErrorCode then .ok .boolean
  else if name.all isTagNameChar then .error (.ruleOutsideModel name)
  else .error (.undefinedValidation name)

/-- One alternative of a tag: name before the first `=`, parameter after it with
the escapes `0x2C` and `0x7C` replaced by `,` and `|`. -/
def parseOrVal (orVal : Str) : Except Abort (Rule × Str) :=
  match lookupValidation (splitKeyParam orVal).1 with
  | .error a => .error a
  | .ok r =>
    match (splitKeyParam orVal).2 with
    | none => .ok (r, [])
    | some p => .ok (r, replaceAll "0x7C".toList ['|'] (replaceAll "0x2C".toList [','] p))

/-- Monadic map over a list in `Except Abort`, left to right, stopping at the first abort. -/
def mapExcept {α β : Type} (f : α → Except Abort β) : List α → Except Abort (List β)
  | [] => .ok []
  | a :: rest =>
    match f a with
    | .error e => .error e
    | .ok b =>
      match mapExcept f rest with
      | .error e => .error e
      | .ok bs => .ok (b :: bs)

/-- One rule of a tag. A rule with alternatives (`|`) is outside the model once
all its names are known to the library. -/
def parseTag (t : Str) : Except Abort (Rule × Str) :=
  match splitOnChar '|' t with
  | [single] => parseOrVal single
  | orVals =>
    match mapExcept parseOrVal orVals with
    | .error a => .error a
    | .ok _ => .error (.ruleOutsideModel t)

/-- The library function `parseFieldTagsRecursive` on a tag without alias. -/
def parseFieldTags (tag : Str) : Except Abort (List (Rule × Str)) :=
  mapExcept parseTag (splitOnChar ',' tag)

/-- Decimal value of a string of digits. -/
def decimalValue (s : Str) : Nat :=
  s.foldl (fun n c => 10 * n + (c.toNat - '0'.toNat)) 0

/-- The library function `asInt`: `strconv.ParseInt(param, 0, 64)`, panicking on
failure. Decimal parameters are modelled; a parameter with a character that no
integer literal has is a failure. -/
def asInt (rule : Rule) (param : Str) : Except Abort Nat :=
  if param ≠ [] ∧ param.all Char.isDigit ∧ (param.length = 1 ∨ param.head? ≠ some '0') then
    if decimalValue param < 2 ^ 63 then .ok (decimalValue param)
    else .error (.badParam rule.name param)
  else if param = [] ∨ param.any (fun c => !(c.isAlphanum || c = '_' || c = '+' || c = '-')) then
    .error (.badParam rule.name param)
  else .error (.ruleOutsideModel rule.name)

/-- The validation function of one rule on a string value. -/
def checkRule (L : Lib) (rule : Rule) (param : Str) (value : Str) : Except Abort Bool :=
  match rule with
  | .required => .ok (decide (value ≠ []))
  | .min =>
    match asInt rule param with
    | .error a => .error a
    | .ok p => .ok (decide (p ≤ value.length))
  | .max =>
    match asInt rule param with
    | .error a => .error a
    | .ok p => .ok (decide (value.length ≤ p))
  | .email => .ok (L.isEmail value)
  | .oneof => .ok (decide (value ∈ parseOneOfParam2 param))
  | .boolean => .ok ((parseBool value).isSome)

/-- The rule loop of `traverseField`: the first failing rule is reported, with
its tag name and parameter, and ends the loop. -/
def runRules (L : Lib) (value : Str) : List (Rule × Str) → Except Abort (Option (Str × Str))
  | [] => .ok none
  | (r, p) :: rest =>
    match checkRule L r p value with
    | .error a => .error a
    | .ok true => runRules L value rest
    | .ok false => .ok (some (r.name, p))

/-- The library call `validate.Var(value, tag)` on a string value: the violation,
if any. -/
def engineVar (L : Lib) (value : Str) (tag : Str) : Except Abort (Option (Str × Str)) :=
  if tag = [] ∨ tag = ['-'] then .ok none
  else
    match parseFieldTags tag with
    | .error a => .error a
    | .ok rules => runRules L value rules

/-- Function `validateValue`. -/
def validateValue (L : Lib) (value : Str) (tag : Str) : Except Abort ErrorList :=
  match engineVar L value tag with
  | .error a => .error a
  | .ok none => .ok none
  | .ok (some (t, p)) => .ok (some [ErrorWrap (some (.errorFromFieldError t p))])

/-- Function `buildValidationRules`. -/
def buildValidationRules (required : Bool) (rules : List Str) : Str :=
  joinWith [','] ((if required then [RequiredErrorCode] else []) ++ rules)

/-- Function `buildValidationChoicesRule`. -/
def buildValidationChoicesRule (choices : List Str) : Str :=
  ChoiceErrorCode ++ ['='] ++ joinWith [' '] (choices.map (fun c => [quoteChar] ++ c ++ [quoteChar]))

/-- Go `strconv.FormatUint(n, 10)`. -/
def formatUint (n : Nat) : Str := (Nat.toDigits 10 n)

/-- Function `buildValidationMinRule`. -/
def buildValidationMinRule (min : Nat) : Str := MinLengthErrorCode ++ ['='] ++ formatUint min

/-- Function `buildValidationMaxRule`. -/
def buildValidationMaxRule (max : Nat) : Str := MaxLengthErrorCode ++ ['='] ++ formatUint max

/-! ## Sanitization (`sanitization.go`) -/

/-- Go `unicode.IsSpace`. -/
def isUnicodeSpace (c : Char) : Bool :=
  (9 ≤ c.toNat && c.toNat ≤ 13) || c.toNat = 32 || c.toNat = 133 || c.toNat = 160 ||
  c.toNat = 5760 || (8192 ≤ c.toNat && c.toNat ≤ 8202) || c.toNat = 8232 || c.toNat = 8233 ||
  c.toNat = 8239 || c.toNat = 8287 || c.toNat = 12288

/-- Function `trimSpace` (Go `strings.TrimSpace`). -/
def trimSpace (value : Str) : Str :=
  ((value.dropWhile isUnicodeSpace).reverse.dropWhile isUnicodeSpace).reverse

/-- The call `reg.ReplaceAllString(value, " ")` for the pattern `\r?\n`: every
newline, together with a carriage return right before it, becomes one space. -/
def replaceNewlines : Str → Str
  | [] => []
  | [c] => if c = Char.ofNat 10 then [' '] else [c]
  | c :: d :: rest =>
    if c = Char.ofNat 13 ∧ d = Char.ofNat 10 then ' ' :: replaceNewlines rest
    else if c = Char.ofNat 10 then ' ' :: replaceNewlines (d :: rest)
    else c :: replaceNewlines (d :: rest)

/-- Function `removeNewlineAndTrimSpace`. -/
def removeNewlineAndTrimSpace (value : Str) : Str := trimSpace (replaceNewlines value)

/-- Function `sanitizeToNoHTML`. -/
def sanitizeToNoHTML (L : Lib) (value : Str) : Str :=
  L.unescapeString (L.strictSanitize (L.unescapeString value))

/-- Function `sanitizeToPlainText`. -/
def sanitizeToPlainText (L : Lib) (value : Str) : Str := sanitizeToNoHTML L (trimSpace value)

/-- Function `sanitizeToOneLinePlainText`. -/
def sanitizeToOneLinePlainText (L : Lib) (value : Str) : Str :=
  sanitizeToNoHTML L (removeNewlineAndTrimSpace value)

/-! ## Names and auto ids (`autoid.go`) -/

def defaultAutoID : Str := "id_%s".toList
def disabledAutoID : Str := []
def defaultLabelSuffix : Str := []

/-- The call `singleSpacePattern.ReplaceAllString(name, "_")` for the pattern `\s+`;
`inRun` tells that the previous character was whitespace. -/
def replaceSpaceRuns : Bool → Str → Str
  | _, [] => []
  | inRun, c :: rest =>
    if isRegexSpace c then
      (if inRun then replaceSpaceRuns true rest else '_' :: replaceSpaceRuns true rest)
    else c :: replaceSpaceRuns false rest

/-- Function `normalizedName`. -/
def normalizedName (L : Lib) (name : Str) : Str := L.toLower (replaceSpaceRuns false name)

/-- Go `strings.Count(s, old)` for a non-empty `old`: non-overlapping occurrences;
`skip` characters of a counted occurrence are still to be passed. -/
def countGo (old : Str) : Nat → Str → Nat
  | _, [] => 0
  | skip + 1, _ :: rest => countGo old skip rest
  | 0, c :: rest =>
    if old.isPrefixOf (c :: rest) then 1 + countGo old (old.length - 1) rest
    else countGo old 0 rest

/-- Function `isDisabledAutoID`. -/
def isDisabledAutoID (autoID : Str) : Bool := decide (autoID = disabledAutoID)

/-- Function `validAutoID`; `none` is the nil error. -/
def validAutoID (autoID : Str) : Option GoError :=
  if isDisabledAutoID autoID then none
  else if countGo "%s".toList 0 autoID = 1 then none
  else some (.foreign ("autoID must contain one %s verb".toList ++ autoID) none)

/-! ## Locales (`translation.go`) -/

def languageEnglish : LangTag := "en".toList
def languageFrench : LangTag := "fr".toList
def languageUnd : LangTag := "und".toList
def languages : List LangTag := [languageEnglish, languageFrench]
def defaultLanguage : LangTag := languageEnglish

/-- Function `selectLanguage`. -/
def selectLanguage (L : Lib) (availableLanguages : List LangTag) (matchingLangStrings : List Str) :
    LangTag :=
  if L.matchStrings availableLanguages matchingLangStrings = languageUnd then defaultLanguage
  else if L.matchStrings availableLanguages matchingLangStrings ∉ languages then defaultLanguage
  else L.matchStrings availableLanguages matchingLangStrings

/-! ## Fields (`field.go`, `widget.go`, `choicefieldoption.go`) -/

/-- Type `FieldType` (a Go string type); `other` stands for any other string. -/
inductive FieldType where
  | BooleanFieldType | CharFieldType | EmailFieldType | URLFieldType
  | ChoiceFieldType | MultipleChoiceFieldType
  | other (s : Str)
  deriving DecidableEq, Repr

/-- Type `Widget` (a Go string type); `other` stands for any other string. -/
inductive Widget where
  | TextInput | EmailInput | URLInput | PasswordInput | HiddenInput | TextArea
  | CheckboxInput | Select | SelectMultiple | RadioSelect | CheckboxSelectMultiple
  | other (s : Str)
  deriving DecidableEq, Repr

/-- Method `Widget.defaultSanitizeFunc`. -/
def Widget.defaultSanitizeFunc (L : Lib) (t : Widget) : Str → Str :=
  match t with
  | .TextArea => sanitizeToPlainText L
  | _ => sanitizeToOneLinePlainText L

/-- Struct `ChoiceFieldOption`. -/
structure ChoiceFieldOption where
  Value : Str
  Label : Str
  deriving DecidableEq, Repr

/-- Type `choiceFieldOptionGroup`, a Go `map[string][]ChoiceFieldOption`. The one
place that builds such a map, `AddChoiceOptions`, gives it exactly one key, the
group label, so the map is its only entry here. -/
structure choiceFieldOptionGroup where
  label : Str
  options : List ChoiceFieldOption
  deriving DecidableEq, Repr

/-- Method `choiceFieldOptionGroup.values`. -/
def choiceFieldOptionGroup.values (g : choiceFieldOptionGroup) : List Str :=
  g.options.map (fun o => o.Value)

/-- Type `ValidationFunc`; the result is in `Except Abort` because a validation
function may panic. -/
abbrev ValidationFunc := Str → Bool → Except Abort ErrorList

/-- Type `SanitizationFunc`. -/
abbrev SanitizationFunc := Str → Str

/-- The fields of struct `Field` that are not functions. -/
structure FieldData where
  name : Str
  boundValues : List Str
  errors : ErrorList
  optionGroups : List choiceFieldOptionGroup
  fieldType : FieldType
  widget : Widget
  autoID : Str
  requiredCSSClass : Str
  errorCSSClass : Str
  attrs : GoMap Str
  label : Str
  labelSuffix : Str
  isSafe : Bool
  helpText : Str
  minLength : Nat
  maxLength : Nat
  notRequired : Bool
  disabled : Bool
  customErrors : GoMap Error
  locale : LangTag

/-- Struct `Field`. The default validation functions are Go closures over the
pointer to the field and read its constraints when they are called; the stored
function therefore takes the data of the field at the time of the call. -/
structure Field extends FieldData where
  sanitizeFunc : Option SanitizationFunc
  validateFunc : FieldData → ValidationFunc

/-- Struct `BooleanField`. -/
structure BooleanField extends Field where
  initialValue : Str

/-- Struct `CharField`. -/
structure CharField extends Field where
  initialValue : Str
  emptyValue : Str

/-- Struct `EmailField`. -/
structure EmailField extends Field where
  initialValue : Str
  emptyValue : Str

/-- Struct `ChoiceField`. -/
structure ChoiceField extends Field where
  initialValue : Str

/-- Struct `MultipleChoiceField`. -/
structure MultipleChoiceField extends Field where
  initialValues : List Str

/-- Method `Field.Type`. -/
def Field.Type (fld : Field) : FieldType := fld.fieldType

/-- Method `Field.Name`. -/
def Field.Name (fld : Field) : Str := fld.name

/-- Function `normalizedNameForField`. -/
def normalizedNameForField (L : Lib) (fld : Field) : Str := normalizedName L fld.Name

/-- Method `Field.HTMLName`. -/
def Field.HTMLName (L : Lib) (fld : Field) : Str := normalizedNameForField L fld

/-- Method `Field.Required`. -/
def Field.Required (fld : Field) : Bool := !fld.notRequired

/-- Method `Field.HasErrors`. -/
def Field.HasErrors (fld : Field) : Bool := decide (fld.errors.len > 0)

/-- Method `Field.currentSanitizeFunc`. -/
def Field.currentSanitizeFunc (L : Lib) (fld : Field) : SanitizationFunc :=
  match fld.sanitizeFunc with
  | some f => f
  | none => fld.widget.defaultSanitizeFunc L

/-- Method `Field.sanitize`. -/
def Field.sanitize (L : Lib) (fld : Field) (value : Str) : Str := fld.currentSanitizeFunc L value

/-- Method `Field.SetSanitizeFunc`. -/
def Field.SetSanitizeFunc (L : Lib) (fld : Field) (update : SanitizationFunc → SanitizationFunc) :
    Field :=
  { fld with sanitizeFunc := some (update (fld.currentSanitizeFunc L)) }

/-- Method `Field.SetValidateFunc`. -/
def Field.SetValidateFunc (fld : Field) (update : ValidationFunc → ValidationFunc) : Field :=
  { fld with validateFunc := fun d => update (fld.validateFunc d) }

/-- Method `Field.SetNotRequired`. -/
def Field.SetNotRequired (fld : Field) : Field := { fld with notRequired := true }

/-- Method `Field.SetLabelSuffix`. -/
def Field.SetLabelSuffix (fld : Field) (labelSuffix : Str) : Field :=
  { fld with labelSuffix := labelSuffix }

/-- Method `Field.SetAutoID`: the field, and the error returned. -/
def Field.SetAutoID (fld : Field) (autoID : Str) : Field × Option GoError :=
  match validAutoID autoID with
  | some e => (fld, some e)
  | none => ({ fld with autoID := autoID }, none)

/-- Method `Field.SetRequiredCSSClass`. -/
def Field.SetRequiredCSSClass (fld : Field) (cls : Str) : Field :=
  { fld with requiredCSSClass := cls }

/-- Method `Field.SetErrorCSSClass`. -/
def Field.SetErrorCSSClass (fld : Field) (cls : Str) : Field := { fld with errorCSSClass := cls }

/-- Method `Field.SetWidget`. -/
def Field.SetWidget (fld : Field) (widget : Widget) : Field := { fld with widget := widget }

/-- Method `Field.SetLocale`. -/
def Field.SetLocale (fld : Field) (locale : LangTag) : Field := { fld with locale := locale }

/-- Method `Field.AddChoiceOptions`. -/
def Field.AddChoiceOptions (fld : Field) (label : Str) (options : List ChoiceFieldOption) : Field :=
  { fld with optionGroups := fld.optionGroups ++ [{ label := label, options := options }] }

/-- Method `Field.addError`. -/
def Field.addError (fld : Field) (err : Error) : Field :=
  { fld with errors := fld.errors.append [err] }

/-- Method `Field.CustomizeError`; it panics on a code that is not customizable. -/
def Field.CustomizeError (fld : Field) (err : Option GoError) : Except Abort Field :=
  let e := errorWrapIfNotAsError err
  if e.Code ∈ customizableErrors then
    .ok { fld with customErrors := mapSet fld.customErrors e.Code e }
  else .error (.userPanic ("CustomizeError called with a nonexisting Error code".toList))

/-! ## Default validation functions and `Clean` -/

/-- Rules of the length constraints, shared by `charFieldValidationFunc` and
`emailFieldValidationFunc`. -/
def lengthRules (d : FieldData) : List Str :=
  (if d.minLength > 0 then [buildValidationMinRule d.minLength] else []) ++
  (if d.maxLength > 0 then [buildValidationMaxRule d.maxLength] else [])

/-- Function `booleanFieldValidation`. -/
def booleanFieldValidation (L : Lib) : ValidationFunc :=
  fun value required => validateValue L value (buildValidationRules required [BooleanErrorCode])

/-- Function `charFieldValidationFunc`. -/
def charFieldValidationFunc (L : Lib) (d : FieldData) : ValidationFunc :=
  fun value required => validateValue L value (buildValidationRules required (lengthRules d))

/-- Function `emailFieldValidationFunc`. -/
def emailFieldValidationFunc (L : Lib) (d : FieldData) : ValidationFunc :=
  fun value required =>
    validateValue L value (buildValidationRules required (lengthRules d ++ [EmailErrorCode]))

/-- The loop that collects the option values of all groups. -/
def allChoices (d : FieldData) : List Str :=
  d.optionGroups.foldl (fun choices group => choices ++ group.values) []

/-- Function `choiceFieldValidationFunc`. -/
def choiceFieldValidationFunc (L : Lib) (d : FieldData) : ValidationFunc :=
  fun value required =>
    if !required && decide (value.length = 0) then .ok (some [])
    else validateValue L value
      (buildValidationRules required [buildValidationChoicesRule (allChoices d)])

/-- Function `multipleChoiceFieldValidationFunc`. -/
def multipleChoiceFieldValidationFunc (L : Lib) (d : FieldData) : ValidationFunc :=
  fun value _ =>
    if value.length = 0 then .ok (some [])
    else validateValue L value
      (buildValidationRules false [buildValidationChoicesRule (allChoices d)])

/-- What a `Clean` call leaves and returns: the field after the call, the
cleaned value, the error list. -/
structure CleanResult (F V : Type) where
  fld : F
  value : V
  errs : ErrorList

/-- The body shared, word for word, by the `Clean` methods of `BooleanField`,
`CharField`, `EmailField` and `ChoiceField`; `emptyValue` is the result of the
`EmptyValue` method of the field. -/
def Field.cleanSingle (L : Lib) (fld : Field) (emptyValue : Str) (value : Str) :
    Except Abort (CleanResult Field Str) :=
  let fld1 : Field := { fld with boundValues := [value] }
  if fld1.notRequired && decide ((fld1.sanitize L value).length = 0) then
    .ok { fld := fld1, value := emptyValue, errs := none }
  else
    match fld1.validateFunc fld1.toFieldData (fld1.sanitize L value) (!fld1.notRequired) with
    | .error a => .error a
    | .ok errs =>
      .ok { fld := { fld1 with errors := customizeErrors errs fld1.customErrors },
            value := fld1.sanitize L value,
            errs := customizeErrors errs fld1.customErrors }

/-- Function `boolToValue`. -/
def boolToValue (b : Bool) : Str := if b then "on".toList else "off".toList

/-- Function `valueToBool`. -/
def valueToBool (v : Str) : Bool := (parseBool v).getD false

/-- Method `BooleanField.EmptyValue`. -/
def BooleanField.EmptyValue (_fld : BooleanField) : Str := boolToValue false

/-- Method `CharField.EmptyValue`. -/
def CharField.EmptyValue (fld : CharField) : Str := fld.emptyValue

/-- Method `EmailField.EmptyValue`. -/
def EmailField.EmptyValue (fld : EmailField) : Str := fld.emptyValue

/-- Method `ChoiceField.EmptyValue`. -/
def ChoiceField.EmptyValue (_fld : ChoiceField) : Str := []

/-- Method `MultipleChoiceField.EmptyValue`. -/
def MultipleChoiceField.EmptyValue (_fld : MultipleChoiceField) : List Str := []

/-- Method `BooleanField.Clean`. -/
def BooleanField.Clean (L : Lib) (fld : BooleanField) (value : Str) :
    Except Abort (CleanResult BooleanField Str) :=
  match fld.toField.cleanSingle L fld.EmptyValue value with
  | .error a => .error a
  | .ok r => .ok { fld := { fld with toField := r.fld }, value := r.value, errs := r.errs }

/-- Method `CharField.Clean`. -/
def CharField.Clean (L : Lib) (fld : CharField) (value : Str) :
    Except Abort (CleanResult CharField Str) :=
  match fld.toField.cleanSingle L fld.EmptyValue value with
  | .error a => .error a
  | .ok r => .ok { fld := { fld with toField := r.fld }, value := r.value, errs := r.errs }

/-- Method `EmailField.Clean`. -/
def EmailField.Clean (L : Lib) (fld : EmailField) (value : Str) :
    Except Abort (CleanResult EmailField Str) :=
  match fld.toField.cleanSingle L fld.EmptyValue value with
  | .error a => .error a
  | .ok r => .ok { fld := { fld with toField := r.fld }, value := r.value, errs := r.errs }

/-- Method `ChoiceField.Clean`. -/
def ChoiceField.Clean (L : Lib) (fld : ChoiceField) (value : Str) :
    Except Abort (CleanResult ChoiceField Str) :=
  match fld.toField.cleanSingle L fld.EmptyValue value with
  | .error a => .error a
  | .ok r => .ok { fld := { fld with toField := r.fld }, value := r.value, errs := r.errs }

/-- Function `multipleChoiceCleanShouldReturnEmptyValue`. -/
def multipleChoiceCleanShouldReturnEmptyValue (values : List Str) (required : Bool) : Bool :=
  values.foldl (fun noValue value => if value.length > 0 then false else noValue) true && !required

/-- Function `multipleChoiceIsRequiredValidation`. -/
def multipleChoiceIsRequiredValidation (values : List Str) (required : Bool) : Bool :=
  if !required then true
  else values.any (fun value => decide (value.length > 0))

/-- The validation loop of `MultipleChoiceField.Clean`: every sanitized value is
validated with `required = false`; the customized errors of a value that has
some are appended to `allErrors`. -/
def multipleChoiceValidateAll (fld : Field) : List Str → ErrorList → Except Abort ErrorList
  | [], allErrors => .ok allErrors
  | sanitizedValue :: rest, allErrors =>
    match fld.validateFunc fld.toFieldData sanitizedValue false with
    | .error a => .error a
    | .ok errors =>
      if errors.len > 0 then
        multipleChoiceValidateAll fld rest
          (allErrors.append (customizeErrors errors fld.customErrors).elems)
      else multipleChoiceValidateAll fld rest allErrors

/-- Method `MultipleChoiceField.Clean`. -/
def MultipleChoiceField.Clean (L : Lib) (fld : MultipleChoiceField) (values : List Str) :
    Except Abort (CleanResult MultipleChoiceField (List Str)) :=
  let fld1 : MultipleChoiceField := { fld with boundValues := values }
  let sanitizedValues := values.map (fun value => fld1.toField.sanitize L value)
  if multipleChoiceCleanShouldReturnEmptyValue sanitizedValues (!fld1.notRequired) then
    .ok { fld := fld1, value := fld1.EmptyValue, errs := none }
  else if !multipleChoiceIsRequiredValidation sanitizedValues (!fld1.notRequired) then
    .ok { fld := { fld1 with errors := some [requiredError] }, value := sanitizedValues,
          errs := some [requiredError] }
  else
    match multipleChoiceValidateAll fld1.toField sanitizedValues none with
    | .error a => .error a
    | .ok allErrors =>
      .ok { fld := { fld1 with errors := allErrors }, value := sanitizedValues, errs := allErrors }

/-- Method `BooleanField.MustBoolean`: the field after the call and the value
returned; it panics when `Clean` returned an error. -/
def BooleanField.MustBoolean (L : Lib) (fld : BooleanField) (value : Str) :
    Except Abort (BooleanField × Bool) :=
  match fld.Clean L value with
  | .error a => .error a
  | .ok r =>
    if r.errs.len > 0 then
      .error (.userPanic ("MustBoolean called on ".toList ++ r.fld.name
        ++ " field with an invalid boolean value: ".toList ++ r.value))
    else .ok (r.fld, valueToBool r.value)

/-- Method `EmailField.MustEmail`: the field after the call and the value
returned; it panics when `Clean` returned an error. -/
def EmailField.MustEmail (L : Lib) (fld : EmailField) (value : Str) :
    Except Abort (EmailField × Str) :=
  match fld.Clean L value with
  | .error a => .error a
  | .ok r =>
    if r.errs.len > 0 then
      .error (.userPanic ("MustEmail called on ".toList ++ r.fld.name
        ++ " field with an invalid email value: ".toList ++ r.value))
    else .ok (r.fld, r.value)

/-! ## Field constructors -/

/-- Type `FieldOption`: the field after the option ran, with the error the option
returned if any; an option may panic. -/
abbrev FieldOption := Field → Except Abort (Field × Option GoError)

/-- The option loop of the constructors: it stops at the first option that returns
an error. -/
def applyFieldOptions : List FieldOption → Field → Except Abort (Field × Option GoError)
  | [], fld => .ok (fld, none)
  | opt :: rest, fld =>
    match opt fld with
    | .error a => .error a
    | .ok (fld1, some e) => .ok (fld1, some e)
    | .ok (fld1, none) => applyFieldOptions rest fld1

/-- Function `IsNotRequired`. -/
def IsNotRequired : FieldOption := fun fld => .ok (fld.SetNotRequired, none)

/-- Function `WithChoiceOptions`. -/
def WithChoiceOptions (options : List ChoiceFieldOption) : FieldOption :=
  fun fld => .ok (fld.AddChoiceOptions [] options, none)

/-- Function `WithGroupedChoiceOptions`. -/
def WithGroupedChoiceOptions (label : Str) (options : List ChoiceFieldOption) : FieldOption :=
  fun fld => .ok (fld.AddChoiceOptions label options, none)

/-- Function `WithWidget`. -/
def WithWidget (widget : Widget) : FieldOption := fun fld => .ok (fld.SetWidget widget, none)

/-- The `Field` literal shared by the constructors, before the type-specific
entries are set. -/
def baseField (name : Str) (boundValues : List Str) (fieldType : FieldType) (widget : Widget)
    (validateFunc : FieldData → ValidationFunc) : Field :=
  { name := name, boundValues := boundValues, errors := some [], optionGroups := [],
    fieldType := fieldType, widget := widget, autoID := defaultAutoID, requiredCSSClass := [],
    errorCSSClass := [], attrs := [], label := name, labelSuffix := defaultLabelSuffix,
    isSafe := false, helpText := [], minLength := 0, maxLength := 0, notRequired := false,
    disabled := false, customErrors := [], locale := defaultLanguage, sanitizeFunc := none,
    validateFunc := validateFunc }

/-- Function `NewBooleanField`; the result is `.ok none` when an option returned an error. -/
def NewBooleanField (L : Lib) (name : Str) (initial : Bool) (opts : List FieldOption) :
    Except Abort (Option BooleanField) :=
  match applyFieldOptions opts
      (baseField name [boolToValue initial] .BooleanFieldType .CheckboxInput
        (fun _ => booleanFieldValidation L)) with
  | .error a => .error a
  | .ok (_, some _) => .ok none
  | .ok (fld, none) => .ok (some { toField := fld, initialValue := boolToValue initial })

/-- Function `NewCharField`. -/
def NewCharField (L : Lib) (name initial empty : Str) (min max : Nat) (opts : List FieldOption) :
    Except Abort (Option CharField) :=
  match applyFieldOptions opts
      { baseField name [initial] .CharFieldType .TextInput (charFieldValidationFunc L) with
        minLength := min, maxLength := max } with
  | .error a => .error a
  | .ok (_, some _) => .ok none
  | .ok (fld, none) => .ok (some { toField := fld, initialValue := initial, emptyValue := empty })

/-- Function `NewEmailField`. -/
def NewEmailField (L : Lib) (name initial empty : Str) (min max : Nat) (opts : List FieldOption) :
    Except Abort (Option EmailField) :=
  match applyFieldOptions opts
      { baseField name [initial] .EmailFieldType .EmailInput (emailFieldValidationFunc L) with
        minLength := min, maxLength := max } with
  | .error a => .error a
  | .ok (_, some _) => .ok none
  | .ok (fld, none) => .ok (some { toField := fld, initialValue := initial, emptyValue := empty })

/-- Function `NewChoiceField`. -/
def NewChoiceField (L : Lib) (name initial : Str) (opts : List FieldOption) :
    Except Abort (Option ChoiceField) :=
  match applyFieldOptions opts
      (baseField name [initial] .ChoiceFieldType .Select (choiceFieldValidationFunc L)) with
  | .error a => .error a
  | .ok (_, some _) => .ok none
  | .ok (fld, none) => .ok (some { toField := fld, initialValue := initial })

/-- Function `NewMultipleChoiceField`. -/
def NewMultipleChoiceField (L : Lib) (name : Str) (initials : List Str) (opts : List FieldOption) :
    Except Abort (Option MultipleChoiceField) :=
  match applyFieldOptions opts
      (baseField name initials .MultipleChoiceFieldType .SelectMultiple
        (multipleChoiceFieldValidationFunc L)) with
  | .error a => .error a
  | .ok (_, some _) => .ok none
  | .ok (fld, none) => .ok (some { toField := fld, initialValues := initials })

/-- Function `DefaultBooleanField`. -/
def DefaultBooleanField (L : Lib) (name : Str) (opts : List FieldOption) :
    Except Abort (Option BooleanField) := NewBooleanField L name false opts

/-- Function `DefaultCharField`. -/
def DefaultCharField (L : Lib) (name : Str) (opts : List FieldOption) :
    Except Abort (Option CharField) := NewCharField L name [] [] 0 256 opts

/-- Constant `defaultEmailMaxLength`. -/
def defaultEmailMaxLength : Nat := 254

/-- Function `DefaultEmailField`. -/
def DefaultEmailField (L : Lib) (name : Str) (opts : List FieldOption) :
    Except Abort (Option EmailField) := NewEmailField L name [] [] 0 defaultEmailMaxLength opts

/-- Function `DefaultChoiceField`. -/
def DefaultChoiceField (L : Lib) (name : Str) (opts : List FieldOption) :
    Except Abort (Option ChoiceField) := NewChoiceField L name [] opts

/-- Function `DefaultMultipleChoiceField`. -/
def DefaultMultipleChoiceField (L : Lib) (name : Str) (opts : List FieldOption) :
    Except Abort (Option MultipleChoiceField) := NewMultipleChoiceField L name [] opts

/-! ## Forms (`form.go`, `formvalidation.go`) -/

/-- The interface `fieldInterface`: a pointer to a field of one of the five
concrete field types. -/
inductive fieldInterface where
  | boolean (fld : BooleanField)
  | char (fld : CharField)
  | email (fld : EmailField)
  | choice (fld : ChoiceField)
  | multipleChoice (fld : MultipleChoiceField)

/-- Method `field()` of `fieldInterface`. -/
def fieldInterface.field : fieldInterface → Field
  | .boolean fld => fld.toField
  | .char fld => fld.toField
  | .email fld => fld.toField
  | .choice fld => fld.toField
  | .multipleChoice fld => fld.toField

/-- A method of `*Field` that updates the field, called through the interface. -/
def fieldInterface.update (g : Field → Field) : fieldInterface → fieldInterface
  | .boolean fld => .boolean { fld with toField := g fld.toField }
  | .char fld => .char { fld with toField := g fld.toField }
  | .email fld => .email { fld with toField := g fld.toField }
  | .choice fld => .choice { fld with toField := g fld.toField }
  | .multipleChoice fld => .multipleChoice { fld with toField := g fld.toField }

/-- An event of the instrumentation: a `Clean` call made by the validation pass
(normalized name of the field, values passed), or an invocation of the
form-level clean function. -/
inductive Event where
  | clean (name : Str) (values : List Str)
  | hook
  deriving DecidableEq, Repr

/-- A form-level clean function, `func(*Form)`, as the sequence of calls it makes
on the form it receives, each continuation taking what the call returned. The
calls are the exported methods of `*Form` that read or change the binding and
validation state; such a function returns (it does not panic) and reaches the
fields only through the form. -/
inductive HookProg where
  | done
  | AddError (field : Str) (err : Option GoError) (k : Option GoError → HookProg)
  | IsValid (k : Bool → HookProg)
  | CleanedData (k : GoMap (List Str) → HookProg)
  | Errors (k : GoMap ErrorList → HookProg)
  | IsBound (k : Bool → HookProg)
  | BindData (data : GoMap (List Str)) (langs : List Str) (k : HookProg)
  | SetCleanFunc (clean : HookProg) (k : HookProg)

/-- Struct `Form`. `trace` is instrumentation that the source does not have: the
log of the `Clean` calls and clean-function invocations made so far. -/
structure Form where
  fields : List fieldInterface
  autoID : Str
  requiredCSSClass : Str
  errorCSSClass : Str
  labelSuffix : Str
  bound : Bool
  validated : Bool
  fieldNames : List Str
  boundData : GoMap (List Str)
  cleanedData : GoMap (List Str)
  errors : GoMap ErrorList
  cleanFunc : HookProg
  locales : List LangTag
  trace : List Event

/-- Function `propagateLabelSuffix`. -/
def propagateLabelSuffix (fields : List fieldInterface) (labelSuffix : Str) : List fieldInterface :=
  fields.map (fun fld =>
    if fld.field.labelSuffix ≠ defaultLabelSuffix then fld
    else fld.update (fun x => x.SetLabelSuffix labelSuffix))

/-- Function `propagateRequiredCSSClass`. -/
def propagateRequiredCSSClass (fields : List fieldInterface) (cls : Str) : List fieldInterface :=
  fields.map (fun fld => fld.update (fun x => x.SetRequiredCSSClass cls))

/-- Function `propagateRequiredCSSClassIfNotEmpty`. -/
def propagateRequiredCSSClassIfNotEmpty (fields : List fieldInterface) (cls : Str) :
    List fieldInterface :=
  if cls.length = 0 then fields else propagateRequiredCSSClass fields cls

/-- Function `propagateErrorCSSClass`. -/
def propagateErrorCSSClass (fields : List fieldInterface) (cls : Str) : List fieldInterface :=
  fields.map (fun fld => fld.update (fun x => x.SetErrorCSSClass cls))

/-- Function `propagateErrorCSSClassIfNotEmpty`. -/
def propagateErrorCSSClassIfNotEmpty (fields : List fieldInterface) (cls : Str) :
    List fieldInterface :=
  if cls.length = 0 then fields else propagateErrorCSSClass fields cls

/-- Function `propagateLocalesIfNotEmpty`. -/
def propagateLocalesIfNotEmpty (fields : List fieldInterface) (locales : List LangTag) :
    List fieldInterface :=
  fields.map (fun fld => fld.update (fun x => x.SetLocale (locales.headD defaultLanguage)))

/-- The loop of `propagateAutoIDIfNotDefault`: it returns at the first `SetAutoID`
that fails, leaving the remaining fields as they are. -/
def propagateAutoIDLoop (autoID : Str) : List fieldInterface → List fieldInterface × Option GoError
  | [] => ([], none)
  | fld :: rest =>
    if fld.field.autoID ≠ defaultAutoID then
      (fld :: (propagateAutoIDLoop autoID rest).1, (propagateAutoIDLoop autoID rest).2)
    else
      match (fld.field.SetAutoID autoID).2 with
      | some e => (fld :: rest, some e)
      | none =>
        (fld.update (fun x => (x.SetAutoID autoID).1) :: (propagateAutoIDLoop autoID rest).1,
         (propagateAutoIDLoop autoID rest).2)

/-- Function `propagateAutoIDIfNotDefault`. -/
def propagateAutoIDIfNotDefault (fields : List fieldInterface) (autoID : Str) :
    List fieldInterface × Option GoError :=
  if autoID = defaultAutoID then (fields, none) else propagateAutoIDLoop autoID fields

/-- Method `Form.addField`: the form, and the error returned. -/
def Form.addField (L : Lib) (f : Form) (fld : fieldInterface) : Form × Option GoError :=
  let p := propagateAutoIDIfNotDefault
    (propagateLocalesIfNotEmpty
      (propagateErrorCSSClassIfNotEmpty
        (propagateRequiredCSSClassIfNotEmpty
          (propagateLabelSuffix [fld] f.labelSuffix) f.requiredCSSClass) f.errorCSSClass)
      f.locales) f.autoID
  ({ f with fields := f.fields ++ p.1,
            fieldNames := f.fieldNames ++ [normalizedNameForField L fld.field] }, p.2)

/-- Function `setAndPropagateAutoID`. -/
def setAndPropagateAutoID (f : Form) (autoID : Str) : Form × Option GoError :=
  let p := propagateAutoIDIfNotDefault f.fields autoID
  ({ f with autoID := autoID, fields := p.1 }, p.2)

/-- The values of type `FormOption` that the package provides. -/
inductive FormOption where
  | WithBooleanField (fld : BooleanField)
  | WithCharField (fld : CharField)
  | WithEmailField (fld : EmailField)
  | WithChoiceField (fld : ChoiceField)
  | WithMultipleChoiceField (fld : MultipleChoiceField)
  | WithAutoID (autoID : Str)
  | DisableAutoID
  | WithLabelSuffix (labelSuffix : Str)
  | WithRequiredCSSClass (cls : Str)
  | WithErrorCSSClass (cls : Str)
  | WithLocales (locales : List LangTag)

/-- The function that a `FormOption` is: the form after it ran, and the error it returned. -/
def FormOption.run (L : Lib) (opt : FormOption) (f : Form) : Form × Option GoError :=
  match opt with
  | .WithBooleanField fld => f.addField L (.boolean fld)
  | .WithCharField fld => f.addField L (.char fld)
  | .WithEmailField fld => f.addField L (.email fld)
  | .WithChoiceField fld => f.addField L (.choice fld)
  | .WithMultipleChoiceField fld => f.addField L (.multipleChoice fld)
  | .WithAutoID autoID =>
    match validAutoID autoID with
    | some e => (f, some e)
    | none => setAndPropagateAutoID f autoID
  | .DisableAutoID => setAndPropagateAutoID f []
  | .WithLabelSuffix labelSuffix =>
    ({ f with labelSuffix := labelSuffix, fields := propagateLabelSuffix f.fields labelSuffix },
     none)
  | .WithRequiredCSSClass cls =>
    ({ f with requiredCSSClass := cls, fields := propagateRequiredCSSClass f.fields cls }, none)
  | .WithErrorCSSClass cls =>
    ({ f with errorCSSClass := cls, fields := propagateErrorCSSClass f.fields cls }, none)
  | .WithLocales locales =>
    ({ f with locales := locales, fields := propagateLocalesIfNotEmpty f.fields locales }, none)

/-- The form literal of `New`. -/
def emptyForm : Form :=
  { fields := [], autoID := defaultAutoID, requiredCSSClass := [], errorCSSClass := [],
    labelSuffix := [], bound := false, validated := false, fieldNames := [], boundData := [],
    cleanedData := [], errors := [], cleanFunc := .done, locales := [], trace := [] }

/-- The option loop of `New`. -/
def applyFormOptions (L : Lib) : List FormOption → Form → Except GoError Form
  | [], f => .ok f
  | opt :: rest, f =>
    match (opt.run L f).2 with
    | some e => .error e
    | none => applyFormOptions L rest (opt.run L f).1

/-- Function `New`; `.error e` is the result `(nil, e)`. -/
def New (L : Lib) (opts : List FormOption) : Except GoError Form := applyFormOptions L opts emptyForm

/-- The filter loop of `BindData`. -/
def filterData (data : GoMap (List Str)) : List Str → GoMap (List Str) → GoMap (List Str)
  | [], filteredData => filteredData
  | name :: rest, filteredData =>
    match mapGet data name with
    | some values => filterData data rest (mapSet filteredData name values)
    | none => filterData data rest filteredData

/-- Method `Form.BindData`. -/
def Form.BindData (L : Lib) (f : Form) (data : GoMap (List Str)) (langs : List Str) : Form :=
  if f.bound then f
  else
    { f with bound := true, boundData := filterData data f.fieldNames [],
             fields := propagateLocalesIfNotEmpty f.fields [selectLanguage L f.locales langs] }

/-- Method `Form.IsBound`. -/
def Form.IsBound (f : Form) : Bool := f.bound

/-- Method `Form.SetCleanFunc`. -/
def Form.SetCleanFunc (f : Form) (clean : HookProg) : Form := { f with cleanFunc := clean }

/-- The test of the search loop of `internalFieldByName`: the HTML name of the
field is `field` or the normalized `field`. -/
def fieldMatches (L : Lib) (field : Str) (fld : fieldInterface) : Bool :=
  decide (fld.field.HTMLName L = field) || decide (fld.field.HTMLName L = normalizedName L field)

/-- Method `Form.internalFieldByName`: the first matching field, or `none` for the
error result. -/
def Form.internalFieldByName (L : Lib) (f : Form) (field : Str) : Option fieldInterface :=
  f.fields.find? (fieldMatches L field)

/-- An update made through the pointer that a search loop returned: the first
element that passes the test is replaced. -/
def updateFirst {α : Type} (p : α → Bool) (g : α → α) : List α → List α
  | [] => []
  | a :: rest => if p a then g a :: rest else a :: updateFirst p g rest

/-- Method `Form.AddError`: the form after the call, and the error returned. -/
def Form.AddError (L : Lib) (f : Form) (field : Str) (fieldErr : Option GoError) :
    Form × Option GoError :=
  if !f.validated then
    (f, some (.foreign "you can't add an error to a form not already validated".toList none))
  else
    match f.internalFieldByName L field with
    | none => (f, some (.foreign ("no field with this name ".toList ++ field) none))
    | some fld =>
      ({ f with
          fields := updateFirst (fieldMatches L field)
            (fun x => x.update (fun y => y.addError (errorWrapIfNotAsError fieldErr))) f.fields,
          errors := mapSet f.errors (normalizedNameForField L fld.field)
            (((mapGet f.errors (normalizedNameForField L fld.field)).getD none).append
              [errorWrapIfNotAsError fieldErr]),
          cleanedData := mapDelete f.cleanedData (normalizedNameForField L fld.field) }, none)

/-- Method `Clean` of `singleValueDisguisedInMultipleValueValidationStateProvider`,
on the result of the `Clean` of the wrapped field for the first value. -/
def disguisedResult {F : Type} (wrap : F → fieldInterface) (r : CleanResult F Str) :
    fieldInterface × List Str × ErrorList :=
  match r.errs with
  | some errs => (wrap r.fld, [], some errs)
  | none => (wrap r.fld, [r.value], none)

/-- The first value of the list, or the empty string: what the disguised `Clean`
passes on. -/
def firstValue (values : List Str) : Str :=
  if values.length > 0 then values.headD [] else []

/-- The calls `disguiseFieldForValidation(fld).Clean(values)` of the validation
pass: the field after the call, the cleaned values, the errors. The type
assertions fail when the dynamic type of the field has no `Clean` method of the
asserted signature. -/
def cleanForValidation (L : Lib) (fld : fieldInterface) (values : List Str) :
    Except Abort (fieldInterface × List Str × ErrorList) :=
  match fld.field.Type with
  | .MultipleChoiceFieldType =>
    match fld with
    | .multipleChoice x =>
      match x.Clean L values with
      | .error a => .error a
      | .ok r => .ok (.multipleChoice r.fld, r.value, r.errs)
    | _ => .error .typeAssertion
  | .other _ => .error .unknownFieldType
  | _ =>
    match fld with
    | .boolean x =>
      match x.Clean L (firstValue values) with
      | .error a => .error a
      | .ok r => .ok (disguisedResult .boolean r)
    | .char x =>
      match x.Clean L (firstValue values) with
      | .error a => .error a
      | .ok r => .ok (disguisedResult .char r)
    | .email x =>
      match x.Clean L (firstValue values) with
      | .error a => .error a
      | .ok r => .ok (disguisedResult .email r)
    | .choice x =>
      match x.Clean L (firstValue values) with
      | .error a => .error a
      | .ok r => .ok (disguisedResult .choice r)
    | .multipleChoice _ => .error .typeAssertion

/-- State of the field loop of `doValidationIfNeeded`: the fields cleaned so far,
the two local maps, and the log of the calls. -/
structure PassState where
  cleaned : List fieldInterface
  cleanedData : GoMap (List Str)
  errors : GoMap ErrorList
  log : List Event

/-- The values bound to a name, `[]string{}` when there are none. -/
def boundValuesFor (boundData : GoMap (List Str)) (nName : Str) : List Str :=
  match mapGet boundData nName with
  | some values => values
  | none => []

/-- The field loop of `doValidationIfNeeded`. -/
def validationLoop (L : Lib) (boundData : GoMap (List Str)) :
    List fieldInterface → PassState → Except Abort PassState
  | [], st => .ok st
  | fld :: rest, st =>
    match cleanForValidation L fld
        (boundValuesFor boundData (normalizedNameForField L fld.field)) with
    | .error a => .error a
    | .ok (fld1, cleanValues, errs) =>
      match errs with
      | some e =>
        validationLoop L boundData rest
          { cleaned := st.cleaned ++ [fld1],
            cleanedData := st.cleanedData,
            errors := mapSet st.errors (normalizedNameForField L fld.field) (some e),
            log := st.log ++ [.clean (normalizedNameForField L fld.field)
              (boundValuesFor boundData (normalizedNameForField L fld.field))] }
      | none =>
        validationLoop L boundData rest
          { cleaned := st.cleaned ++ [fld1],
            cleanedData := mapSet st.cleanedData (normalizedNameForField L fld.field) cleanValues,
            errors := st.errors,
            log := st.log ++ [.clean (normalizedNameForField L fld.field)
              (boundValuesFor boundData (normalizedNameForField L fld.field))] }

/-- The copy loop of `Form.Errors`. -/
def copyErrors (errors : GoMap ErrorList) : GoMap ErrorList :=
  errors.map (fun p => (p.1, some p.2.elems))

/-- Method `Form.CleanedData`, `doValidationIfNeeded` being `validate`. -/
def cleanedDataWith (validate : Form → Except Abort Form) (f : Form) :
    Except Abort (Form × GoMap (List Str)) :=
  if !f.IsBound then .ok (f, [])
  else
    match validate f with
    | .error a => .error a
    | .ok f1 => .ok (f1, f1.cleanedData)

/-- Method `Form.Errors`, `doValidationIfNeeded` being `validate`. -/
def errorsWith (validate : Form → Except Abort Form) (f : Form) :
    Except Abort (Form × GoMap ErrorList) :=
  if !f.IsBound then .ok (f, [])
  else
    match validate f with
    | .error a => .error a
    | .ok f1 => .ok (f1, copyErrors f1.errors)

/-- Method `Form.IsValid`, `doValidationIfNeeded` being `validate`. -/
def isValidWith (validate : Form → Except Abort Form) (f : Form) : Except Abort (Form × Bool) :=
  if !f.IsBound then .ok (f, false)
  else
    match validate f with
    | .error a => .error a
    | .ok f1 =>
      match errorsWith validate f1 with
      | .error a => .error a
      | .ok (f2, errs) => .ok (f2, decide (errs.length = 0))

/-- A form-level clean function run on a form; `validate` is `doValidationIfNeeded`
as the accessors called by the function reach it. -/
def runHook (L : Lib) (validate : Form → Except Abort Form) : HookProg → Form → Except Abort Form
  | .done, f => .ok f
  | .AddError field err k, f =>
    runHook L validate (k (f.AddError L field err).2) (f.AddError L field err).1
  | .IsValid k, f =>
    match isValidWith validate f with
    | .error a => .error a
    | .ok (f1, b) => runHook L validate (k b) f1
  | .CleanedData k, f =>
    match cleanedDataWith validate f with
    | .error a => .error a
    | .ok (f1, d) => runHook L validate (k d) f1
  | .Errors k, f =>
    match errorsWith validate f with
    | .error a => .error a
    | .ok (f1, e) => runHook L validate (k e) f1
  | .IsBound k, f => runHook L validate (k f.IsBound) f
  | .BindData data langs k, f => runHook L validate k (f.BindData L data langs)
  | .SetCleanFunc clean k, f => runHook L validate k (f.SetCleanFunc clean)

/-- Method `Form.doValidationIfNeeded`. The fuel bounds the nesting of validation
passes: a pass is entered only when `validated` is false, and the accessors
called from the clean function reach the method with one unit less. -/
def Form.doValidationIfNeeded (L : Lib) : Nat → Form → Except Abort Form
  | 0, f => if f.validated then .ok f else .error .outOfFuel
  | n + 1, f =>
    if f.validated then .ok f
    else
      match validationLoop L f.boundData f.fields
          { cleaned := [], cleanedData := [], errors := [], log := [] } with
      | .error a => .error a
      | .ok st =>
        runHook L (fun g => Form.doValidationIfNeeded L n g) f.cleanFunc
          { f with validated := true, fields := st.cleaned, cleanedData := st.cleanedData,
                   errors := st.errors, trace := f.trace ++ st.log ++ [.hook] }

/-- Method `Form.IsValid`. -/
def Form.IsValid (L : Lib) (fuel : Nat) (f : Form) : Except Abort (Form × Bool) :=
  isValidWith (Form.doValidationIfNeeded L fuel) f

/-- Method `Form.CleanedData`. -/
def Form.CleanedData (L : Lib) (fuel : Nat) (f : Form) : Except Abort (Form × GoMap (List Str)) :=
  cleanedDataWith (Form.doValidationIfNeeded L fuel) f

/-- Method `Form.Errors`. -/
def Form.Errors (L : Lib) (fuel : Nat) (f : Form) : Except Abort (Form × GoMap ErrorList) :=
  errorsWith (Form.doValidationIfNeeded L fuel) f

/-! ## Sample inputs

Concrete inputs for the closed statements. `sampleLib` fixes the library
functions on the plain ASCII texts used there: no markup and no entity, so the
HTML functions return their argument; ASCII lower-casing; an address is a text
that contains `@`; the language matcher returns the first preferred language
that is available, `und` when there is none. -/

/-- Library functions for the closed statements. -/
def sampleLib : Lib :=
  { unescapeString := fun s => s
    strictSanitize := fun s => s
    toLower := fun s => s.map Char.toLower
    isEmail := fun s => decide ('@' ∈ s)
    matchStrings := fun available langs =>
      match langs.find? (fun l => decide (l ∈ available)) with
      | some l => l
      | none => languageUnd }

/-- The field `DefaultChoiceField("color", WithChoiceOptions([{Value: "a,b", Label: "AB"}]))`. -/
def commaChoiceField (L : Lib) : ChoiceField :=
  { toField := (baseField "color".toList [[]] .ChoiceFieldType .Select
      (choiceFieldValidationFunc L)).AddChoiceOptions [] [⟨"a,b".toList, "AB".toList⟩],
    initialValue := [] }

/-- The option value `x'y`. -/
def quoteValue : Str := ['x', quoteChar, 'y']

/-- The field `DefaultChoiceField("color", WithChoiceOptions([{Value: "x'y", Label: "XY"}]))`. -/
def quoteChoiceField (L : Lib) : ChoiceField :=
  { toField := (baseField "color".toList [[]] .ChoiceFieldType .Select
      (choiceFieldValidationFunc L)).AddChoiceOptions [] [⟨quoteValue, "XY".toList⟩],
    initialValue := [] }

/-- The field `DefaultMultipleChoiceField("tags", WithChoiceOptions([{x, X}, {y, Y}]))`. -/
def xyMultipleChoiceField (L : Lib) : MultipleChoiceField :=
  { toField := (baseField "tags".toList [] .MultipleChoiceFieldType .SelectMultiple
      (multipleChoiceFieldValidationFunc L)).AddChoiceOptions []
        [⟨"x".toList, "X".toList⟩, ⟨"y".toList, "Y".toList⟩],
    initialValues := [] }

/-- The normalized names of the fields of a form, in declaration order: what
`addField` appends to `fieldNames`, and the keys under which the validation
pass files its results. -/
def Form.declaredNames (L : Lib) (f : Form) : List Str :=
  f.fields.map (fun fld => normalizedNameForField L fld.field)

/-- A name is a key of the cleaned data or of the errors. -/
def filedIn (cleanedData : GoMap (List Str)) (errors : GoMap ErrorList) (k : Str) : Prop :=
  mapHas cleanedData k = true ∨ mapHas errors k = true

/-- No name is a key of the cleaned data and of the errors at the same time. -/
def disjointKeys (cleanedData : GoMap (List Str)) (errors : GoMap ErrorList) : Prop :=
  ∀ k, ¬ (mapHas cleanedData k = true ∧ mapHas errors k = true)

/-- The `Clean` call that the validation pass makes on a field for the data bound
to the form. -/
def cleanBound (L : Lib) (boundData : GoMap (List Str)) (fld : fieldInterface) :
    Except Abort (fieldInterface × List Str × ErrorList) :=
  cleanForValidation L fld (boundValuesFor boundData (normalizedNameForField L fld.field))

/-- The event that the validation pass logs for a field. -/
def cleanEvent (L : Lib) (boundData : GoMap (List Str)) (fld : fieldInterface) : Event :=
  .clean (normalizedNameForField L fld.field)
    (boundValuesFor boundData (normalizedNameForField L fld.field))

/-- What every form option keeps: the form stays unbound and not validated, its
result maps stay empty, and `fieldNames` stays the list of the normalized names
of the fields. -/
def freshForm (L : Lib) (f : Form) : Prop :=
  f.bound = false ∧ f.validated = false ∧ f.cleanedData = [] ∧ f.errors = []
    ∧ f.fieldNames = f.declaredNames L

/-- The form states reachable through `New`, `BindData`, `SetCleanFunc`, the
accessors `IsValid`, `CleanedData` and `Errors`, and `AddError`. -/
inductive Reachable (L : Lib) : Form → Prop where
  | new (opts : List FormOption) (f : Form) (h : New L opts = .ok f) : Reachable L f
  | bindData (f : Form) (data : GoMap (List Str)) (langs : List Str) (h : Reachable L f) :
      Reachable L (f.BindData L data langs)
  | setCleanFunc (f : Form) (clean : HookProg) (h : Reachable L f) :
      Reachable L (f.SetCleanFunc clean)
  | isValid (f f1 : Form) (n : Nat) (b : Bool) (h : Reachable L f)
      (hr : Form.IsValid L n f = .ok (f1, b)) : Reachable L f1
  | cleanedData (f f1 : Form) (n : Nat) (d : GoMap (List Str)) (h : Reachable L f)
      (hr : Form.CleanedData L n f = .ok (f1, d)) : Reachable L f1
  | errors (f f1 : Form) (n : Nat) (e : GoMap ErrorList) (h : Reachable L f)
      (hr : Form.Errors L n f = .ok (f1, e)) : Reachable L f1
  | addError (f : Form) (field : Str) (err : Option GoError) (h : Reachable L f) :
      Reachable L (f.AddError L field err).1

/-- One step of a form keeps the declared names, and keeps the result maps
without a common key when the declared names are pairwise distinct. -/
def keepsDisjoint (L : Lib) (f f1 : Form) : Prop :=
  f1.declaredNames L = f.declaredNames L
    ∧ ((f.declaredNames L).Nodup → disjointKeys f.cleanedData f.errors →
        disjointKeys f1.cleanedData f1.errors)

/-- The char field `DefaultCharField(name)`, with `IsNotRequired()` when `notRequired`. -/
def sampleCharField (name : Str) (notRequired : Bool) : CharField :=
  { toField := { baseField name [[]] .CharFieldType .TextInput (charFieldValidationFunc sampleLib)
                 with maxLength := 256, notRequired := notRequired },
    initialValue := [], emptyValue := [] }

/-- Options of a form with two fields of the same normalized name, the first
required and the second not. -/
def sameNameOptions : List FormOption :=
  [.WithCharField (sampleCharField "Name".toList false),
   .WithCharField (sampleCharField "name".toList true)]

/-- Options of a form with a required field `Name` and a field `Nick` that is not required. -/
def twoFieldOptions : List FormOption :=
  [.WithCharField (sampleCharField "Name".toList false),
   .WithCharField (sampleCharField "Nick".toList true)]

/-- The form of `sameNameOptions`, bound to no data. -/
def sameNameForm : Form :=
  match New sampleLib sameNameOptions with
  | .ok f => f.BindData sampleLib [] []
  | .error _ => emptyForm

/-- The form of `twoFieldOptions`, bound to a value for `nick` and a value for a
name that no field has. -/
def twoFieldForm : Form :=
  match New sampleLib twoFieldOptions with
  | .ok f => f.BindData sampleLib
      [("nick".toList, ["bob".toList]), ("other".toList, ["x".toList])] []
  | .error _ => emptyForm

/-- A validation function installed with `SetValidateFunc` that reports no error
with the empty slice `[]Error{}`, as `choiceFieldValidationFunc` does. -/
def emptySliceValidator : ValidationFunc → ValidationFunc :=
  fun _ => fun _ _ => .ok (some [])

/-- The field `DefaultCharField("name")` after `SetValidateFunc(emptySliceValidator)`. -/
def emptySliceField (L : Lib) : CharField :=
  { toField := Field.SetValidateFunc
      { baseField "name".toList [[]] .CharFieldType .TextInput (charFieldValidationFunc L)
        with maxLength := 256 } emptySliceValidator,
    initialValue := [], emptyValue := [] }

/-- The values `x`, `not_an_option`, `y`. -/
def sampleChoiceValues : List Str := ["x".toList, "not_an_option".toList, "y".toList]

/-- The form `twoFieldForm` after `IsValid`. -/
def twoFieldValidated : Form :=
  match Form.IsValid sampleLib 1 twoFieldForm with
  | .ok (f, _) => f
  | .error _ => emptyForm

/-- A rule that holds neither separator of the rule grammar and that the tag
parser accepts. -/
def parsesAlone (rule : Str) : Prop :=
  ',' ∉ rule ∧ '|' ∉ rule ∧ ∃ res, parseOrVal rule = .ok res

/-- Every override is filed under its own code: what `CustomizeError`, the only
writer of the map, keeps. -/
def customErrorsFiledByCode (m : GoMap Error) : Prop :=
  ∀ k e, mapGet m k = some e → e.Code = k

/-- The library functions return the empty string on the empty string. -/
def keepsEmpty (L : Lib) : Prop :=
  L.unescapeString [] = [] ∧ L.strictSanitize [] = []

/-- The text `old` occurs in `s`. -/
def occursIn (old s : Str) : Bool := s.tails.any (fun t => old.isPrefixOf t)

/-- An option value that the rule grammar passes through unchanged: no quote, no
comma, no pipe, and none of the escapes `0x2C` and `0x7C`. -/
def plainChoice (v : Str) : Prop :=
  quoteChar ∉ v ∧ ',' ∉ v ∧ '|' ∉ v
    ∧ occursIn "0x2C".toList v = false ∧ occursIn "0x7C".toList v = false

/-- An option value between single quotes, as `buildValidationChoicesRule` writes it. -/
def quoted (v : Str) : Str := [quoteChar] ++ v ++ [quoteChar]

/-- The field `DefaultChoiceField("pet", WithChoiceOptions([{one monkey}, {two monkeys}]))`. -/
def spaceChoiceField : ChoiceField :=
  { toField := (baseField "pet".toList [[]] .ChoiceFieldType .Select
      (choiceFieldValidationFunc sampleLib)).AddChoiceOptions []
        [⟨"one monkey".toList, "One".toList⟩, ⟨"two monkeys".toList, "Two".toList⟩],
    initialValue := [] }

/-- The field `Nick` of `twoFieldValidated`, as `AddError` finds it. -/
def nickValidated : fieldInterface :=
  match twoFieldValidated.internalFieldByName sampleLib "Nick".toList with
  | some fld => fld
  | none => .char (sampleCharField "Nick".toList true)

/-- The error `errors.New("taken")`. -/
def takenError : GoError := .foreign "taken".toList none

/-- The validation function of the field does not read the error list stored on
the field, the one part of the field that `Clean` writes besides the bound
values it receives. -/
def validateIgnoresErrors (fld : Field) : Prop :=
  ∀ (d : FieldData) (es : ErrorList), fld.validateFunc { d with errors := es } = fld.validateFunc d

/-- What `Clean("bob")` returns on the required char field `Name`. -/
def cleanedBob : CleanResult CharField Str :=
  match (sampleCharField "Name".toList false).Clean sampleLib "bob".toList with
  | .ok r => r
  | .error _ => { fld := sampleCharField "Name".toList false, value := [], errs := none }

/-- The field `DefaultEmailField("email", IsNotRequired())`. -/
def optionalEmailField : EmailField :=
  { toField := { baseField "email".toList [[]] .EmailFieldType .EmailInput
                   (emailFieldValidationFunc sampleLib)
                 with maxLength := defaultEmailMaxLength, notRequired := true },
    initialValue := [], emptyValue := [] }

/-- The override `ErrorWrapWithCode(errors.New("pick one"), RequiredErrorCode)`. -/
def pickOneError : Error :=
  ErrorWrapWithCode (some (.foreign "pick one".toList none)) RequiredErrorCode

/-- The field `DefaultMultipleChoiceField("tags", WithChoiceOptions([{x, X}, {y, Y}]))`
after `CustomizeError(pickOneError)`. -/
def customizedTagsField : MultipleChoiceField :=
  match (xyMultipleChoiceField sampleLib).toField.CustomizeError (some pickOneError.toGoError) with
  | .ok fld => { xyMultipleChoiceField sampleLib with toField := fld }
  | .error _ => xyMultipleChoiceField sampleLib

/-- The field `DefaultCharField("Name")` after `CustomizeError(pickOneError)`. -/
def customizedNameField : CharField :=
  match (sampleCharField "Name".toList false).toField.CustomizeError
      (some pickOneError.toGoError) with
  | .ok fld => { sampleCharField "Name".toList false with toField := fld }
  | .error _ => sampleCharField "Name".toList false

/-- The field types that `disguiseFieldForValidation` sends to the single-value
adapter. -/
def FieldType.isSingleValue : FieldType → Bool
  | .BooleanFieldType => true
  | .CharFieldType => true
  | .EmailFieldType => true
  | .URLFieldType => true
  | .ChoiceFieldType => true
  | .MultipleChoiceFieldType => false
  | .other _ => false

/-- A field of one of the four single-value struct types whose field type is one
that the dispatch of the validation pass sends to the single-value adapter. -/
def fieldInterface.isSingleValue (fld : fieldInterface) : Bool :=
  fld.field.Type.isSingleValue &&
    match fld with
    | .multipleChoice _ => false
    | _ => true

/-- The dynamic type of the field is the one that its field type names: what the
five constructors build. -/
def fieldInterface.wellTyped : fieldInterface → Bool
  | .boolean fld => decide (fld.fieldType = .BooleanFieldType)
  | .char fld => decide (fld.fieldType = .CharFieldType)
  | .email fld => decide (fld.fieldType = .EmailFieldType)
  | .choice fld => decide (fld.fieldType = .ChoiceFieldType)
  | .multipleChoice fld => decide (fld.fieldType = .MultipleChoiceFieldType)

/-- The method `Clean(value string)` of a field, called through the interface
`singleValueValidationStateProvider`; `*MultipleChoiceField` does not implement
the interface. -/
def fieldInterface.CleanValue (L : Lib) (fld : fieldInterface) (value : Str) :
    Except Abort (CleanResult fieldInterface Str) :=
  match fld with
  | .boolean x =>
    match x.Clean L value with
    | .error a => .error a
    | .ok r => .ok { fld := .boolean r.fld, value := r.value, errs := r.errs }
  | .char x =>
    match x.Clean L value with
    | .error a => .error a
    | .ok r => .ok { fld := .char r.fld, value := r.value, errs := r.errs }
  | .email x =>
    match x.Clean L value with
    | .error a => .error a
    | .ok r => .ok { fld := .email r.fld, value := r.value, errs := r.errs }
  | .choice x =>
    match x.Clean L value with
    | .error a => .error a
    | .ok r => .ok { fld := .choice r.fld, value := r.value, errs := r.errs }
  | .multipleChoice _ => .error .typeAssertion

/-- The validation function of the field is one of the four default validation
functions of the single-value field types. -/
def hasDefaultSingleValidation (L : Lib) (fld : Field) : Prop :=
  fld.validateFunc = (fun _ => booleanFieldValidation L)
    ∨ fld.validateFunc = charFieldValidationFunc L
    ∨ fld.validateFunc = emailFieldValidationFunc L
    ∨ fld.validateFunc = choiceFieldValidationFunc L

/-- The field `Nick` of `twoFieldForm`, the second field of the form. -/
def nickBound : fieldInterface :=
  match twoFieldForm.fields with
  | [_, fld] => fld
  | _ => .char (sampleCharField "Nick".toList true)

/-- What the `Clean` calls of the validation pass return on `twoFieldForm`. -/
def twoFieldResults : List (fieldInterface × List Str × ErrorList) :=
  match mapExcept (cleanBound sampleLib twoFieldForm.boundData) twoFieldForm.fields with
  | .ok results => results
  | .error _ => []

/-- What `Clean("bob")` returns on the field `Nick` of `twoFieldForm`. -/
def nickCleaned : CleanResult fieldInterface Str :=
  match nickBound.CleanValue sampleLib "bob".toList with
  | .ok r => r
  | .error _ => { fld := nickBound, value := [], errs := none }

/-- A rule that holds neither separator of the rule grammar, that the tag parser
accepts, and whose check returns on every value. -/
def parsesSafely (rule : Str) : Prop :=
  ',' ∉ rule ∧ '|' ∉ rule
    ∧ ∃ r p, parseOrVal rule = .ok (r, p)
      ∧ ∀ (L : Lib) (value : Str), ∃ b, checkRule L r p value = .ok b

/-- The default validation function of the dynamic type of a field: the one that
the constructor of the type installs. -/
def defaultValidateFunc (L : Lib) : fieldInterface → FieldData → ValidationFunc
  | .boolean _ => fun _ => booleanFieldValidation L
  | .char _ => charFieldValidationFunc L
  | .email _ => emailFieldValidationFunc L
  | .choice _ => choiceFieldValidationFunc L
  | .multipleChoice _ => multipleChoiceFieldValidationFunc L

/-- A field as the constructors build it, with the default validation function of
its type, length bounds that `strconv.ParseInt` reads back, and option values
without comma and pipe. The sanitization function, the overrides and the stored
state are arbitrary. -/
def plainField (L : Lib) (fld : fieldInterface) : Prop :=
  fld.wellTyped = true
    ∧ fld.field.validateFunc = defaultValidateFunc L fld
    ∧ fld.field.minLength < 2 ^ 63 ∧ fld.field.maxLength < 2 ^ 63
    ∧ ',' ∉ (allChoices fld.field.toFieldData).flatten
    ∧ '|' ∉ (allChoices fld.field.toFieldData).flatten

/-- The form that `New` builds from `twoFieldOptions`, before any data is bound. -/
def twoFieldNew : Form :=
  match New sampleLib twoFieldOptions with
  | .ok f => f
  | .error _ => emptyForm

/-- A field option that leaves the field type as it is. -/
def keepsFieldType (opt : FieldOption) : Prop :=
  ∀ x y e, opt x = .ok (y, e) → y.fieldType = x.fieldType

/-- The number of positions of `s` at which the text `old` occurs. -/
def countOccurrences (old s : Str) : Nat := (s.tails.filter (fun t => old.isPrefixOf t)).length

/-- The auto-id pattern of a field after a form pushed its own pattern to it: the
field keeps a pattern that is not the library default and takes the pattern of
the form otherwise. -/
def pushedAutoID (formAutoID : Str) (fld : Field) : Str :=
  if fld.autoID ≠ defaultAutoID then fld.autoID else formAutoID

/-- The label suffix of a field after a form pushed its own suffix to it. -/
def pushedLabelSuffix (formLabelSuffix : Str) (fld : Field) : Str :=
  if fld.labelSuffix ≠ defaultLabelSuffix then fld.labelSuffix else formLabelSuffix

/-- A field keeps its own settings: an auto-id pattern and a label suffix that are
not the library defaults are the same afterwards. -/
def keepsOwnSettings (old new : fieldInterface) : Prop :=
  (old.field.autoID ≠ defaultAutoID → new.field.autoID = old.field.autoID)
    ∧ (old.field.labelSuffix ≠ defaultLabelSuffix → new.field.labelSuffix = old.field.labelSuffix)

/-- Every field of the first list is at the same position of the second list and
has kept its own settings. -/
def fieldsKeepOwnSettings (old new : List fieldInterface) : Prop :=
  ∀ (i : Nat) (o : fieldInterface), old[i]? = some o →
    ∃ n : fieldInterface, new[i]? = some n ∧ keepsOwnSettings o n

/-- A field that holds the library default for the auto-id pattern, or for the
label suffix, holds the value of the form. -/
def holdsFormDefaults (f : Form) (fld : fieldInterface) : Prop :=
  (fld.field.autoID = defaultAutoID → f.autoID = defaultAutoID)
    ∧ (fld.field.labelSuffix = defaultLabelSuffix → f.labelSuffix = defaultLabelSuffix)

/-- What `propagateAutoIDIfNotDefault` does to one field when no error is returned. -/
def pushAutoID (autoID : Str) (fld : fieldInterface) : fieldInterface :=
  if fld.field.autoID ≠ defaultAutoID then fld else fld.update (fun x => { x with autoID := autoID })

/-- What `propagateLabelSuffix` does to one field. -/
def pushLabelSuffix (labelSuffix : Str) (fld : fieldInterface) : fieldInterface :=
  if fld.field.labelSuffix ≠ defaultLabelSuffix then fld
  else fld.update (fun x => { x with labelSuffix := labelSuffix })

/-- The field `DefaultCharField("Name")` with its own auto-id pattern `own_%s` and
its own label suffix `?`. -/
def ownSettingsField : CharField :=
  { toField := { (sampleCharField "Name".toList false).toField with
                 autoID := "own_%s".toList, labelSuffix := "?".toList },
    initialValue := [], emptyValue := [] }

/-- Options of a form: a field with its own settings, a default field, then
`WithAutoID("f_%s")`, `WithLabelSuffix(":")`, `DisableAutoID()` and a last default field. -/
def ownSettingsOptions : List FormOption :=
  [.WithCharField ownSettingsField,
   .WithCharField (sampleCharField "Nick".toList true),
   .WithAutoID "f_%s".toList,
   .WithLabelSuffix ":".toList,
   .DisableAutoID,
   .WithCharField (sampleCharField "Mail".toList true)]

/-- The double quote character, U+0022. -/
def dquoteChar : Char := Char.ofNat 34

/-- A value of a type of constraint `AttrValue`: a string or an integer. -/
inductive AttrValue where
  | str (s : Str)
  | int (i : Int)
  deriving DecidableEq, Repr

/-- Go `fmt.Sprint(v)` for a value of a string type or of an integer type. -/
def AttrValue.sprint : AttrValue → Str
  | .str s => s
  | .int i => if i < 0 then '-' :: formatUint i.natAbs else formatUint i.natAbs

/-- Interface `Attributable`, with its two implementations `nameValueAttr` and `boolAttr`. -/
inductive Attributable where
  | nameValueAttr (n : Str) (v : AttrValue)
  | boolAttr (n : Str)
  deriving DecidableEq, Repr

/-- Function `Attr`. -/
def Attr (name : Str) (value : AttrValue) : Attributable := .nameValueAttr name value

/-- Function `BoolAttr`. -/
def BoolAttr (name : Str) : Attributable := .boolAttr name

/-- Method `name()` of `Attributable`. -/
def Attributable.name : Attributable → Str
  | .nameValueAttr n _ => n
  | .boolAttr n => n

/-- Method `attribute()` of `Attributable`. -/
def Attributable.attribute : Attributable → GoMap Str
  | .nameValueAttr n v => [(n, v.sprint)]
  | .boolAttr n => [(n, [])]

/-- The list `l` of `panicOnForbiddenAttributeName`. -/
def forbiddenAttributeNames : List Str := ["type".toList, "name".toList, "value".toList]

/-- The map `m` of `panicOnForbiddenAttributeName`: the panic message of each forbidden name. -/
def forbiddenAttributeMessages : GoMap Str :=
  [("type".toList,
    "You can't directly set type with functions WithAttributes or SetAttributes. To change the type, use a different Field and/or set a different Widget on an existing Field.".toList),
   ("name".toList,
    "You can't directly set name with functions WithAttributes or SetAttributes. To change the name attribute, set a different name to the Field when you create it.".toList),
   ("value".toList,
    "You can't directly set value with functions WithAttributes or SetAttributes. To change the value attribute, set an initial value when you create the field or bind values with BindRequest or BindData.".toList)]

/-- Function `panicOnForbiddenAttributeName`. -/
def panicOnForbiddenAttributeName : List Attributable → Except Abort Unit
  | [] => .ok ()
  | attr :: rest =>
    if forbiddenAttributeNames.contains attr.name then
      .error (.userPanic ((mapGet forbiddenAttributeMessages attr.name).getD []))
    else panicOnForbiddenAttributeName rest

/-- Go `maps.Copy(dst, src)`. -/
def mapsCopy {V : Type} (dst src : GoMap V) : GoMap V :=
  src.foldl (fun m p => mapSet m p.1 p.2) dst

/-- Function `attributableListToAttrs`. -/
def attributableListToAttrs (attrs : List Attributable) : Except Abort (GoMap Str) :=
  match panicOnForbiddenAttributeName attrs with
  | .error a => .error a
  | .ok _ => .ok (attrs.foldl (fun output attr => mapsCopy output attr.attribute) [])

/-- Method `Field.SetAttributes`: the field after the call, and the panic when the
call panicked. The nil map is the empty association list. -/
def Field.SetAttributes (fld : Field) (attrs : List Attributable) : Field × Option Abort :=
  match attributableListToAttrs attrs with
  | .error a => (fld, some a)
  | .ok a =>
    if fld.attrs = [] then ({ fld with attrs := a }, none)
    else ({ fld with attrs := mapsCopy fld.attrs a }, none)

/-- Function `WithAttributes`. -/
def WithAttributes (attrs : List Attributable) : FieldOption :=
  fun fld =>
    match fld.SetAttributes attrs with
    | (_, some a) => .error a
    | (fld1, none) => .ok (fld1, none)

/-- The value that an attribute stands for: the stringified value of a name/value
attribute, the empty string for a boolean attribute. -/
def Attributable.stringValue : Attributable → Str
  | .nameValueAttr _ v => v.sprint
  | .boolAttr _ => []

/-- The value of the last attribute of the list that is named `k`. -/
def lastValueOf (attrs : List Attributable) (k : Str) : Option Str :=
  (attrs.reverse.find? (fun a => decide (a.name = k))).map Attributable.stringValue

/-- The keys of a map, in the order of the association list. -/
def mapKeys {V : Type} (m : GoMap V) : List Str := m.map Prod.fst

/-- No attribute of the list has a forbidden name. -/
def noForbiddenName (attrs : List Attributable) : Prop :=
  ∀ a ∈ attrs, a.name ∉ forbiddenAttributeNames

/-- The list `[BoolAttr("alpha"), Attr("alpha", "X"), Attr("size", 7)]`. -/
def sampleAttributes : List Attributable :=
  [BoolAttr "alpha".toList, Attr "alpha".toList (.str "X".toList), Attr "size".toList (.int 7)]

/-- Go `a < b` on strings: the byte-wise comparison of the UTF-8 encodings, which
is the lexicographic order of the code points. -/
def strLess : Str → Str → Bool
  | [], [] => false
  | [], _ :: _ => true
  | _ :: _, [] => false
  | c :: s, d :: t =>
    if c.toNat < d.toNat then true
    else if d.toNat < c.toNat then false
    else strLess s t

/-- Insertion of a string into an ascending list, before the first string that is greater. -/
def insertSorted (s : Str) : List Str → List Str
  | [] => [s]
  | t :: rest => if strLess s t then s :: t :: rest else t :: insertSorted s rest

/-- Go `slices.SortFunc(output, func(a, b template.HTMLAttr) bool { return a < b })`:
the ascending arrangement of the strings of the list. -/
def sortStrings : List Str → List Str
  | [] => []
  | s :: rest => insertSorted s (sortStrings rest)

/-- The list is ascending: no string is less than a string that stands before it. -/
def ascending (l : List Str) : Prop := l.Pairwise (fun a b => strLess b a = false)

/-- Function `keyValueToHTMLAttr`; with two strings `fmt.Sprintf("%s=\"%s\"", key, value)`
is the key, the equals sign and the value between double quotes. -/
def keyValueToHTMLAttr (key value : Str) : Str :=
  if value.length > 0 then key ++ ['=', dquoteChar] ++ value ++ [dquoteChar] else key

/-- Function `htmlAttributeFromKey`. -/
def htmlAttributeFromKey (key : Str) (attrs : GoMap Str) : List Str :=
  match mapGet attrs key with
  | some value => [keyValueToHTMLAttr key value]
  | none => []

/-- Function `htmlAttributeFromKeyPrefix`; the loop over the map takes the entries
in the order of the association list, and the sort makes the result independent
of that order. -/
def htmlAttributeFromKeyPrefix (pre : Str) (attrs : GoMap Str) : List Str :=
  sortStrings ((attrs.filter (fun e => pre.isPrefixOf e.1)).map
    (fun e => keyValueToHTMLAttr e.1 e.2))

/-- Variable `attrNameList`. -/
def attrNameList : List Str :=
  ["class".toList, "id".toList, "name".toList, "src".toList, "for".toList, "type".toList,
   "href".toList, "value".toList, "minlength".toList, "maxlength".toList, "title".toList,
   "alt".toList, "role".toList]

/-- Variable `attrPrefixList`. -/
def attrPrefixList : List Str := ["data-".toList, "aria-".toList]

/-- The keys that the loop of `remainingAttributes` does not skip. -/
def isRemainingKey (key : Str) : Bool :=
  !(attrNameList.contains key) && !(attrPrefixList.any (fun pre => pre.isPrefixOf key))

/-- Function `remainingAttributes`. -/
def remainingAttributes (attrs : GoMap Str) : List Str :=
  sortStrings ((attrs.filter (fun e => isRemainingKey e.1)).map
    (fun e => keyValueToHTMLAttr e.1 e.2))

/-- The named and prefixed buckets of `HTMLAttributes`: the slice `output` before
the remainder is appended. -/
def namedAndPrefixedAttributes (a : GoMap Str) : List Str :=
  htmlAttributeFromKey "class".toList a
    ++ htmlAttributeFromKey "id".toList a
    ++ htmlAttributeFromKey "name".toList a
    ++ htmlAttributeFromKeyPrefix "data-".toList a
    ++ htmlAttributeFromKey "src".toList a
    ++ htmlAttributeFromKey "for".toList a
    ++ htmlAttributeFromKey "type".toList a
    ++ htmlAttributeFromKey "href".toList a
    ++ htmlAttributeFromKey "value".toList a
    ++ htmlAttributeFromKey "minlength".toList a
    ++ htmlAttributeFromKey "maxlength".toList a
    ++ htmlAttributeFromKey "title".toList a
    ++ htmlAttributeFromKey "alt".toList a
    ++ htmlAttributeFromKey "role".toList a
    ++ htmlAttributeFromKeyPrefix "aria-".toList a

/-- Method `tmplAttrs.HTMLAttributes`. The length of a map is the length of the
association list, in which every key stands once. -/
def tmplAttrs.HTMLAttributes (a : GoMap Str) : List Str :=
  if (namedAndPrefixedAttributes a).length < a.length then
    namedAndPrefixedAttributes a ++ remainingAttributes a
  else namedAndPrefixedAttributes a

/-- Method `tmplAttrs.Value`. -/
def tmplAttrs.Value (a : GoMap Str) (name : Str) : Str :=
  match mapGet a name with
  | some value => value
  | none => []

/-- Method `tmplAttrs.Attr`. -/
def tmplAttrs.Attr (a : GoMap Str) (name : Str) : Str :=
  match mapGet a name with
  | some value => keyValueToHTMLAttr name value
  | none => []

/-- The rendered entries of the map whose key satisfies `p`, in the order of the
association list. -/
def renderedWhere (a : GoMap Str) (p : Str → Bool) : List Str :=
  (a.filter (fun e => p e.1)).map (fun e => keyValueToHTMLAttr e.1 e.2)

/-- The rendered entries whose key is one of `keys`, key by key. -/
def renderedAt (keys : List Str) (a : GoMap Str) : List Str :=
  keys.flatMap (fun k => renderedWhere a (fun key => decide (key = k)))

/-- The buckets of `HTMLAttributes` before any sorting. -/
def unsortedBuckets (a : GoMap Str) : List Str :=
  renderedAt ["class".toList, "id".toList, "name".toList] a
    ++ (renderedWhere a (fun key => "data-".toList.isPrefixOf key)
    ++ (renderedAt ["src".toList, "for".toList, "type".toList, "href".toList, "value".toList,
          "minlength".toList, "maxlength".toList, "title".toList, "alt".toList, "role".toList] a
    ++ (renderedWhere a (fun key => "aria-".toList.isPrefixOf key)
    ++ renderedWhere a isRemainingKey)))

/-- A map with two keys of the `data-` bucket, one a prefix of the other. -/
def dataUserAttrs : GoMap Str :=
  [("data-user".toList, "1".toList), ("data-user-id".toList, "2".toList)]

/-- A map with keys of several buckets, in no particular order. -/
def mixedAttrs : GoMap Str :=
  [("zeta".toList, []), ("data-b".toList, "2".toList), ("aria-label".toList, "x".toList),
   ("id".toList, "me".toList), ("data-a".toList, "1".toList), ("alt".toList, "a".toList),
   ("class".toList, "big".toList)]

/-- The rendering that goes by the form of the attribute, whatever the value: the
bare name for a boolean attribute, the name, the equals sign and the stringified
value between double quotes for a name/value attribute. -/
def renderByForm : Attributable → Str
  | .boolAttr n => n
  | .nameValueAttr n v => n ++ ['=', dquoteChar] ++ v.sprint ++ [dquoteChar]

/-- Method `Widget.optionWidget`. -/
def Widget.optionWidget : Widget → Widget
  | .CheckboxSelectMultiple => .CheckboxInput
  | t => t

/-- Method `Widget.isInput`. -/
def Widget.isInput (t : Widget) : Bool :=
  [Widget.TextInput, .EmailInput, .URLInput, .PasswordInput, .HiddenInput, .TextArea,
   .CheckboxInput].contains t

/-- Method `Widget.isChoice`. -/
def Widget.isChoice (t : Widget) : Bool :=
  [Widget.Select, .RadioSelect, .SelectMultiple, .CheckboxSelectMultiple].contains t

/-- Method `Widget.isMultiChoice`. -/
def Widget.isMultiChoice (t : Widget) : Bool :=
  t == .SelectMultiple || t == .CheckboxSelectMultiple

/-- Method `Widget.selectedAttr`: the name and the value of the attribute, `none`
when the second result is `false`. -/
def Widget.selectedAttr (t : Widget) (selected : Bool) : Option (Str × Str) :=
  if !selected then none
  else
    match t with
    | .TextInput | .EmailInput | .URLInput | .PasswordInput | .HiddenInput | .TextArea => none
    | .CheckboxInput | .CheckboxSelectMultiple => some ("checked".toList, [])
    | .Select | .SelectMultiple => some ("selected".toList, [])
    | .RadioSelect => some ("checked".toList, [])
    | .other _ => none

/-- Method `Widget.noAttrValue`. -/
def Widget.noAttrValue (t : Widget) : Bool := t == .CheckboxInput

/-- Struct `widgetInput`; `WidgetType` is its field `Type`. -/
structure widgetInput where
  WidgetType : Widget
  Name : Str
  Value : Str
  Attrs : GoMap Str
  deriving DecidableEq, Repr

/-- Struct `widgetOption`, which embeds `widgetInput`. -/
structure widgetOption extends widgetInput where
  Label : Str
  WrapLabel : Bool
  deriving DecidableEq, Repr

/-- A value of type `map[string][]widgetOption` as `choiceFieldOptionGroup.widget`
builds it: one entry, the label of the group and the options. -/
structure widgetOptionGroup where
  label : Str
  options : List widgetOption
  deriving DecidableEq, Repr

/-- Function `normalizedGroupID`; `fmt.Sprintf("_%d", index)` is an underscore and
the decimal digits of the index. The indices are of type `uint`; they count
options, so they do not wrap. -/
def normalizedGroupID (normalizedID : Str) (index : Nat) : Str :=
  normalizedID ++ ('_' :: formatUint index)

/-- Function `normalizedSubGroupID`. -/
def normalizedSubGroupID (normalizedID : Str) (index subIndex : Nat) : Str :=
  normalizedID ++ ('_' :: formatUint index ++ '_' :: formatUint subIndex)

/-- Method `ChoiceFieldOption.widget`. -/
def ChoiceFieldOption.widget (o : ChoiceFieldOption) (inputWidget : Widget) (htmlName : Str)
    (selected : Bool) (attrs : GoMap Str) : widgetOption :=
  { Label := o.Label, WrapLabel := true, WidgetType := inputWidget, Name := htmlName,
    Value := o.Value,
    Attrs := match inputWidget.selectedAttr selected with
      | some selectedAttr => mapSet attrs selectedAttr.1 selectedAttr.2
      | none => attrs }

/-- The map `attrs` that `choiceFieldOptionGroup.widget` builds for the option at index `i`. -/
def optionIDAttrs (baseID groupName : Str) (groupIndex i : Nat) : GoMap Str :=
  if baseID.length > 0 then
    if groupName.length > 0 then
      mapSet [] "id".toList (normalizedSubGroupID baseID groupIndex i)
    else mapSet [] "id".toList (normalizedGroupID baseID (groupIndex + i))
  else []

/-- Method `choiceFieldOptionGroup.widget`. -/
def choiceFieldOptionGroup.widget (g : choiceFieldOptionGroup) (inputWidget : Widget)
    (baseID htmlName : Str) (groupIndex : Nat) (selected : List Str) : widgetOptionGroup :=
  { label := g.label,
    options := g.options.enum.map (fun p =>
      p.2.widget inputWidget htmlName (selected.contains p.2.Value)
        (optionIDAttrs baseID g.label groupIndex p.1)) }

/-- Function `indexesUsedByGroup`. -/
def indexesUsedByGroup (group : widgetOptionGroup) : Nat :=
  if group.label.length > 0 then 1 else group.options.length

/-- The loop of `fieldGroupsToWidgetGroups`, from the value `groupIndex` on. -/
def widgetGroupsFrom (optionWidget : Widget) (baseID htmlName : Str) (selected : List Str) :
    Nat → List choiceFieldOptionGroup → List widgetOptionGroup
  | _, [] => []
  | groupIndex, group :: rest =>
    group.widget optionWidget baseID htmlName groupIndex selected
      :: widgetGroupsFrom optionWidget baseID htmlName selected
          (groupIndex
            + indexesUsedByGroup (group.widget optionWidget baseID htmlName groupIndex selected))
          rest

/-- Function `fieldGroupsToWidgetGroups`. -/
def fieldGroupsToWidgetGroups (groups : List choiceFieldOptionGroup) (optionWidget : Widget)
    (baseID htmlName : Str) (selected : List Str) : List widgetOptionGroup :=
  widgetGroupsFrom optionWidget baseID htmlName selected 0 groups

/-- The slots that a group uses: one for each option of a group without label,
one for a group with a label, whatever its size. -/
def slotsUsed (g : choiceFieldOptionGroup) : Nat :=
  if g.label = [] then g.options.length else 1

/-- The first slot of the group at position `n`: the slots are counted from 0, in
the order of the groups. -/
def firstSlot (groups : List choiceFieldOptionGroup) (n : Nat) : Nat :=
  ((groups.take n).map slotsUsed).sum

/-- The id of the option at index `j` of the group at position `n`, by slots: the
base id, an underscore and the slot of the option for a group without label; the
base id, an underscore, the slot of the group, an underscore and `j` for a group
with a label. -/
def slotID (baseID : Str) (groups : List choiceFieldOptionGroup) (g : choiceFieldOptionGroup)
    (n j : Nat) : Str :=
  if g.label = [] then baseID ++ "_".toList ++ formatUint (firstSlot groups n + j)
  else baseID ++ "_".toList ++ formatUint (firstSlot groups n) ++ "_".toList ++ formatUint j

/-- Two options without group, a group `G` of three options, one option without group. -/
def sampleGroups : List choiceFieldOptionGroup :=
  [{ label := [], options := [{ Value := "a".toList, Label := "A".toList },
                              { Value := "b".toList, Label := "B".toList }] },
   { label := "G".toList, options := [{ Value := "c".toList, Label := "C".toList },
                                      { Value := "d".toList, Label := "D".toList },
                                      { Value := "e".toList, Label := "E".toList }] },
   { label := [], options := [{ Value := "f".toList, Label := "F".toList }] }]

/-- The ids of the options of the groups, in the order of the groups and of their
options; `none` for an option without id. -/
def optionIDs (groups : List widgetOptionGroup) : List (Option Str) :=
  groups.flatMap (fun g => g.options.map (fun w => mapGet w.Attrs "id".toList))

/-- The text that the indices of an id are written as: for each index an
underscore and its decimal digits. -/
def encodeIndexes (l : List Nat) : Str := l.flatMap (fun n => '_' :: formatUint n)

/-- The indices in the ids of the options of a group whose first slot is `s`: the
slot of the option for a group without label, the slot of the group and the
index of the option for a group with a label. -/
def groupAddrs (g : choiceFieldOptionGroup) (s : Nat) : List (List Nat) :=
  (List.range g.options.length).map (fun j => if g.label = [] then [s + j] else [s, j])

/-- The indices in the ids of all options, the first group being at slot `s`. -/
def allAddrs : Nat → List choiceFieldOptionGroup → List (List Nat)
  | _, [] => []
  | s, g :: rest => groupAddrs g s ++ allAddrs (s + slotsUsed g) rest

/-- The slots of the items of a group whose first slot is `s`: one item for each
option of a group without label, one item for a group with a label. -/
def itemSlots (g : choiceFieldOptionGroup) (s : Nat) : List Nat :=
  if g.label = [] then (List.range g.options.length).map (fun j => s + j) else [s]

/-- The slots of all items in render order, the first group being at slot `s`. -/
def allItemSlots : Nat → List choiceFieldOptionGroup → List Nat
  | _, [] => []
  | s, g :: rest => itemSlots g s ++ allItemSlots (s + slotsUsed g) rest

/-- Method `Field.AutoID`. -/
def Field.AutoID (fld : Field) : Str := fld.autoID

/-- Function `hasID`. -/
def hasID (fld : Field) : Bool := !isDisabledAutoID fld.AutoID

/-- Function `normalizedIDForField`; `sprintf` is Go `fmt.Sprintf` with one argument. -/
def normalizedIDForField (sprintf : Str → Str → Str) (L : Lib) (fld : Field) : Str :=
  if !hasID fld then disabledAutoID
  else sprintf fld.AutoID (L.toLower (replaceSpaceRuns false fld.Name))

/-- The value of type `Widget` as a string. -/
def Widget.string : Widget → Str
  | .TextInput => "TextInput".toList
  | .EmailInput => "EmailInput".toList
  | .URLInput => "URLInput".toList
  | .PasswordInput => "PasswordInput".toList
  | .HiddenInput => "HiddenInput".toList
  | .TextArea => "TextArea".toList
  | .CheckboxInput => "CheckboxInput".toList
  | .Select => "Select".toList
  | .SelectMultiple => "SelectMultiple".toList
  | .RadioSelect => "RadioSelect".toList
  | .CheckboxSelectMultiple => "CheckboxSelectMultiple".toList
  | .other s => s

/-- The function literal `values` of `Field.widgetChoice`, applied to
`fld.widget.isMultiChoice()`. -/
def Field.choiceValues (fld : Field) : List Str :=
  if fld.widget.isMultiChoice then fld.boundValues
  else if fld.boundValues.length > 0 then fld.boundValues.take 1
  else []

/-- Method `Field.widgetGroups`. -/
def Field.widgetGroups (sprintf : Str → Str → Str) (L : Lib) (fld : Field)
    (selected : List Str) : List widgetOptionGroup :=
  fieldGroupsToWidgetGroups fld.optionGroups fld.widget.optionWidget
    (normalizedIDForField sprintf L fld) (normalizedNameForField L fld) selected

/-- Method `Field.widgetChoice`, up to the fields `Values` and `Groups` of the
`widgetChoice` that it gives to the template; it panics when the widget is not a
choice widget. -/
def Field.widgetChoiceGroups (sprintf : Str → Str → Str) (L : Lib) (fld : Field) :
    Except Abort (List Str × List widgetOptionGroup) :=
  if !fld.widget.isChoice then
    .error (.userPanic ("*aform.Field: incompatible type ".toList ++ fld.widget.string))
  else .ok (fld.choiceValues, fld.widgetGroups sprintf L fld.choiceValues)

/-- The name of the selection attribute of a choice widget: `selected` for
`Select` and `SelectMultiple`, `checked` for `RadioSelect` and `CheckboxSelectMultiple`. -/
def selectionAttrName : Widget → Str
  | .Select | .SelectMultiple => "selected".toList
  | _ => "checked".toList

/-- The value counts as selected: it is one of the bound values for a widget with
multiple choice, and it is the first bound value otherwise. -/
def isSelectedValue (fld : Field) (value : Str) : Bool :=
  if fld.widget.isMultiChoice then decide (value ∈ fld.boundValues)
  else decide (fld.boundValues.head? = some value)

/-- Go `fmt.Sprintf(pattern, arg)` on a pattern whose only verb is one `%s`. -/
def sprintfOneVerb : Str → Str → Str
  | [], _ => []
  | [c], _ => [c]
  | c :: d :: rest, arg =>
    if c = '%' ∧ d = 's' then arg ++ rest else c :: sprintfOneVerb (d :: rest) arg

/-- A field with the widget `CheckboxSelectMultiple`, the sample groups as options
and the bound values `a` and `e`. -/
def checkboxesField : Field :=
  { baseField "Pick".toList ["a".toList, "e".toList] .MultipleChoiceFieldType
      .CheckboxSelectMultiple (multipleChoiceFieldValidationFunc sampleLib) with
    optionGroups := sampleGroups }

/-- The field `checkboxesField` with the widget `RadioSelect`. -/
def radioField : Field := { checkboxesField with widget := .RadioSelect }

/-- The keys of the attributes of the options, in the order of the groups and of
their options. -/
def optionAttrKeys (groups : List widgetOptionGroup) : List (Str × List Str) :=
  groups.flatMap (fun g => g.options.map (fun w => (w.Value, mapKeys w.Attrs)))

/-- The run of whitespace read so far, as it is written out: one space when a
newline is in it, the run itself otherwise. -/
def flushRun (run : Str) (hasNewline : Bool) : Str := if hasNewline then [' '] else run

/-- Every newline together with the whitespace around it becomes one space;
`run` is the whitespace read since the last other character and `hasNewline`
tells that a newline is in it. -/
def collapseNewlinesFrom (run : Str) (hasNewline : Bool) : Str → Str
  | [] => flushRun run hasNewline
  | c :: rest =>
    if isUnicodeSpace c then
      collapseNewlinesFrom (run ++ [c]) (hasNewline || decide (c = Char.ofNat 10)) rest
    else flushRun run hasNewline ++ c :: collapseNewlinesFrom [] false rest

/-- The sanitizer in the order of the words "markup is stripped first, then the
text is trimmed, and each embedded newline together with the whitespace around
it is collapsed into exactly one space". -/
def oneLineStripTrimCollapse (L : Lib) (value : Str) : Str :=
  collapseNewlinesFrom [] false (trimSpace (sanitizeToNoHTML L value))

/-- The text `a`, space, newline, space, `b`. -/
def spacedNewline : Str := ['a', ' ', Char.ofNat 10, ' ', 'b']

/-- A map of twenty keys: every named bucket, both prefixed buckets twice, and
three keys of the remainder. -/
def fullAttrs : GoMap Str :=
  [("role".toList, "r".toList), ("zeta".toList, []), ("class".toList, "c".toList),
   ("aria-b".toList, "2".toList), ("id".toList, "i".toList), ("data-b".toList, []),
   ("name".toList, "n".toList), ("src".toList, "s".toList), ("for".toList, "f".toList),
   ("type".toList, "t".toList), ("href".toList, "h".toList), ("value".toList, "v".toList),
   ("minlength".toList, "1".toList), ("maxlength".toList, "9".toList),
   ("title".toList, []), ("alt".toList, "a".toList), ("aria-a".toList, "1".toList),
   ("data-a".toList, "1".toList), ("required".toList, []), ("disabled".toList, [])]

/-- Go `len(s)`: the number of bytes of the UTF-8 encoding. -/
def byteLen (s : Str) : Nat := (s.map Char.utf8Size).sum

/-- The scan of `strings.LastIndexAny`: `pos` is the byte index of the next
character and `found` the byte index of the last character of `chars` seen. -/
def lastIndexAnyFrom (chars : Str) (pos : Nat) (found : Int) : Str → Int
  | [] => found
  | c :: rest =>
    lastIndexAnyFrom chars (pos + c.utf8Size) (if c ∈ chars then (pos : Int) else found) rest

/-- Go `strings.LastIndexAny(s, chars)`: the byte index of the last character of
`s` that is in `chars`, and -1 when there is none. -/
def lastIndexAny (s chars : Str) : Int := lastIndexAnyFrom chars 0 (-1) s

/-- Function `labelWithSuffix`. -/
def labelWithSuffix (lbl suffix : Str) : Str :=
  if suffix.length = 0 then lbl
  else if lastIndexAny lbl ".!?:".toList = (byteLen lbl : Int) - 1 then lbl
  else lbl ++ suffix

/-- The displayed label by the rule "the label followed by the suffix, except
that it is the label unchanged when the suffix is empty or when the last
character of the label is one of `.`, `!`, `?`, `:`". -/
def labelThenSuffix (lbl suffix : Str) : Str :=
  if suffix = [] then lbl
  else
    match lbl.getLast? with
    | some c => if c ∈ ".!?:".toList then lbl else lbl ++ suffix
    | none => lbl ++ suffix

/-- The calls `fld.CustomizeError(err)` for the errors of the list, in order; the
first call that panics ends the sequence. -/
def customizeAll : Field → List (Option GoError) → Except Abort Field
  | fld, [] => .ok fld
  | fld, err :: rest =>
    match fld.CustomizeError err with
    | .error a => .error a
    | .ok fld1 => customizeAll fld1 rest

/-- The overrides `pick one` for the code `required` and `too long` for the code
`max`, then another override for `required`. -/
def sampleOverrides : List (Option GoError) :=
  [some pickOneError.toGoError,
   some (ErrorWrapWithCode (some (.foreign "too long".toList none)) MaxLengthErrorCode).toGoError,
   some (.simpleError RequiredErrorCode "obligatoire".toList "mandatory".toList)]

/-- The required CSS class of a field (`required` true) or its error CSS class. -/
def classOf (required : Bool) (fld : Field) : Str :=
  if required then fld.requiredCSSClass else fld.errorCSSClass

/-- The required CSS class of a form (`required` true) or its error CSS class. -/
def formClassOf (required : Bool) (f : Form) : Str :=
  if required then f.requiredCSSClass else f.errorCSSClass

/-- The option is `WithRequiredCSSClass` (`required` true) or `WithErrorCSSClass`. -/
def setsClass (required : Bool) : FormOption → Bool
  | .WithRequiredCSSClass _ => required
  | .WithErrorCSSClass _ => !required
  | _ => false

/-- The class that a field has after it is attached to a form with the class
`formClass`: its own class when the class of the form is empty, the class of the
form otherwise. -/
def attachedClass (formClass own : Str) : Str := if formClass.length = 0 then own else formClass

/-- Every field of the first list is at the same position of the second list,
with the class it had. -/
def fieldsKeepClass (required : Bool) (old new : List fieldInterface) : Prop :=
  ∀ (i : Nat) (o : fieldInterface), old[i]? = some o →
    ∃ n : fieldInterface, new[i]? = some n ∧ classOf required n.field = classOf required o.field

/-- The field `DefaultCharField("Name")` after `SetRequiredCSSClass("mine")` and
`SetErrorCSSClass("bad")`. -/
def ownClassesField : CharField :=
  { toField := ((sampleCharField "Name".toList false).toField.SetRequiredCSSClass
      "mine".toList).SetErrorCSSClass "bad".toList,
    initialValue := [], emptyValue := [] }

/-- What the statements on normalized names need of Go `strings.ToLower`: it
brings no whitespace into a text that has none, and lower-casing a lower-cased
text changes nothing. -/
def lowerIsPlain (L : Lib) : Prop :=
  (∀ s : Str, (∀ c ∈ s, isRegexSpace c = false) → ∀ c ∈ L.toLower s, isRegexSpace c = false)
    ∧ ∀ s : Str, L.toLower (L.toLower s) = L.toLower s

/-- The last character of the text, if any, is not whitespace. -/
def endsOutsideSpace (s : Str) : Prop := ∀ c, s.getLast? = some c → isRegexSpace c = false

/-- The first character of the text, if any, is not whitespace. -/
def startsOutsideSpace (s : Str) : Prop := ∀ c, s.head? = some c → isRegexSpace c = false

/-- The name of the test "with blank everywhere": space, `test`, space, newline,
space, `test`, two spaces, with two letters in upper case. -/
def blankEverywhere : Str :=
  [' ', 't', 'E', 's', 't', ' ', Char.ofNat 10, ' ', 'T', 'e', 's', 't', ' ', ' ']

/-- The library functions of `sampleLib`, with the matcher of
`golang.org/x/text/language` on plain tags: `MatchStrings` returns the first
preference that is a supported tag, the first supported tag when no preference
is supported, and `und` when no tag is supported. -/
def firstSupportedLib : Lib :=
  { sampleLib with
    matchStrings := fun available langs =>
      match langs.find? (fun l => decide (l ∈ available)) with
      | some l => l
      | none => available.headD languageUnd }

/-- The form of `WithLocales([French])` and the two fields `Name` and `Nick`,
bound with the preference `de`. -/
def frenchFirstForm : Form :=
  match New firstSupportedLib (.WithLocales [languageFrench] :: twoFieldOptions) with
  | .ok f => f.BindData firstSupportedLib [] ["de".toList]
  | .error _ => emptyForm

/-- Function `normalizedDescribedByIDForErr`; `fmt.Sprintf("err_%d_", index)` is
`err_`, the decimal digits of the index and an underscore. -/
def normalizedDescribedByIDForErr (sprintf : Str → Str → Str) (L : Lib) (fld : Field)
    (index : Nat) : Str :=
  "err_".toList ++ formatUint index ++ "_".toList ++ normalizedIDForField sprintf L fld

/-- Function `normalizedDescribedByIDErrList`. -/
def normalizedDescribedByIDErrList (sprintf : Str → Str → Str) (L : Lib) (fld : Field)
    (numberOfError : Nat) : List Str :=
  (List.range numberOfError).map (normalizedDescribedByIDForErr sprintf L fld)

/-- Function `normalizedDescribedByIDForHelpText`. -/
def normalizedDescribedByIDForHelpText (sprintf : Str → Str → Str) (L : Lib) (fld : Field) :
    Str :=
  "helptext_".toList ++ normalizedIDForField sprintf L fld

/-- Method `Field.labelCSSClassList`. -/
def Field.labelCSSClassList (fld : Field) : List Str :=
  if !fld.notRequired && decide (fld.requiredCSSClass.length > 0) then [fld.requiredCSSClass]
  else []

/-- Method `Field.widgetCSSClassList`. -/
def Field.widgetCSSClassList (fld : Field) : List Str :=
  if fld.HasErrors && decide (fld.errorCSSClass.length > 0) then [fld.errorCSSClass] else []

/-- The slice `ariaDescribedBy` of `attributesForField`, which is built when the
field has an id. -/
def ariaDescribedByIDs (sprintf : Str → Str → Str) (L : Lib) (fld : Field) : List Str :=
  (if fld.helpText.length > 0 then [normalizedDescribedByIDForHelpText sprintf L fld] else [])
    ++ (if fld.HasErrors then normalizedDescribedByIDErrList sprintf L fld fld.errors.len
        else [])

/-- The map `attrs` of `attributesForField` before the custom attributes are
copied into it. -/
def computedAttributes (sprintf : Str → Str → Str) (L : Lib) (fld : Field) : GoMap Str :=
  let a1 : GoMap Str := if fld.widget.isMultiChoice then mapSet [] "multiple".toList [] else []
  let a2 := if hasID fld then mapSet a1 "id".toList (normalizedIDForField sprintf L fld) else a1
  let a3 := if !fld.notRequired then mapSet a2 "required".toList [] else a2
  let a4 := if fld.disabled then mapSet a3 "disabled".toList [] else a3
  let a5 := if fld.HasErrors then mapSet a4 "aria-invalid".toList "true".toList else a4
  let a6 :=
    if hasID fld then
      if (ariaDescribedByIDs sprintf L fld).length > 0 then
        mapSet a5 "aria-describedby".toList (joinWith " ".toList (ariaDescribedByIDs sprintf L fld))
      else a5
    else a5
  let a7 := if fld.minLength > 0 then mapSet a6 "minlength".toList (formatUint fld.minLength) else a6
  if fld.maxLength > 0 then mapSet a7 "maxlength".toList (formatUint fld.maxLength) else a7

/-- Function `attributesForField`. -/
def attributesForField (sprintf : Str → Str → Str) (L : Lib) (fld : Field)
    (classes : List Str) : GoMap Str :=
  let attrs := mapsCopy (computedAttributes sprintf L fld) fld.attrs
  if classes.length > 0 then
    match mapGet attrs "class".toList with
    | some classesFromAttributes =>
      mapSet attrs "class".toList (joinWith " ".toList (classes ++ [classesFromAttributes]))
    | none => mapSet attrs "class".toList (joinWith " ".toList classes)
  else attrs

/-- Method `Field.widgetInput`, up to the `widgetInput` that it gives to the
template; it panics when the widget is not an input widget. -/
def Field.widgetInput (sprintf : Str → Str → Str) (L : Lib) (fld : Field) :
    Except Abort widgetInput :=
  if !fld.widget.isInput then
    .error (.userPanic ("*aform.Field: incompatible type ".toList ++ fld.widget.string))
  else
    let attrs := attributesForField sprintf L fld fld.widgetCSSClassList
    let value := if fld.boundValues.length > 0 then fld.boundValues.headD [] else []
    .ok { WidgetType := fld.widget, Name := normalizedNameForField L fld,
          Value := if fld.widget.noAttrValue then [] else value,
          Attrs := match fld.widget.selectedAttr (valueToBool value) with
            | some selectedAttr => mapSet attrs selectedAttr.1 selectedAttr.2
            | none => attrs }

/-- Struct `label`. -/
structure label where
  UseTag : Bool
  Label : Str
  Suffix : Str
  LabelWithSuffix : Str
  Attrs : GoMap Str
  deriving DecidableEq, Repr

/-- Function `newLabel`. -/
def newLabel (useTag : Bool) (lbl suffix : Str) (attrs : GoMap Str) : label :=
  { UseTag := useTag, Label := lbl, Suffix := suffix,
    LabelWithSuffix := labelWithSuffix lbl suffix, Attrs := attrs }

/-- Method `Field.labelOrLegendTag`, up to the `label` that it gives to the
template of the label or of the legend. -/
def Field.labelOrLegend (sprintf : Str → Str → Str) (L : Lib) (fld : Field) : label :=
  let attrs : GoMap Str :=
    if hasID fld then mapSet [] "for".toList (normalizedIDForField sprintf L fld) else []
  newLabel (hasID fld) fld.label fld.labelSuffix
    (if fld.labelCSSClassList.length > 0 then
      mapSet attrs "class".toList (joinWith " ".toList fld.labelCSSClassList)
     else attrs)

/-- Method `Field.Errors`, up to the attribute maps of the items of the list that
it gives to the template, one for each error of the field. -/
def Field.errorItemAttrs (sprintf : Str → Str → Str) (L : Lib) (fld : Field) :
    List (GoMap Str) :=
  (List.range fld.errors.len).map (fun i =>
    if hasID fld then mapSet [] "id".toList (normalizedDescribedByIDForErr sprintf L fld i)
    else [])

/-- Method `Field.HelpText`, up to the attribute map that it gives to the
template; `none` when the field has no help text and nothing is rendered. -/
def Field.helpTextAttrs (sprintf : Str → Str → Str) (L : Lib) (fld : Field) :
    Option (GoMap Str) :=
  if fld.helpText.length = 0 then none
  else
    some (if hasID fld then
      mapSet (mapSet [] "class".toList "helptext".toList) "id".toList
        (normalizedDescribedByIDForHelpText sprintf L fld)
    else mapSet [] "class".toList "helptext".toList)

/-- A text field with errors, the error class `bad`, and the custom attributes
`class="wide"`, `required="no"` and `placeholder="x"`. -/
def styledField : Field :=
  { baseField "Name".toList [[]] .CharFieldType .TextInput (charFieldValidationFunc sampleLib) with
    errors := some [requiredError], errorCSSClass := "bad".toList, maxLength := 256,
    attrs := [("class".toList, "wide".toList), ("required".toList, "no".toList),
              ("placeholder".toList, "x".toList)] }

/-- The field `checkboxesField` with the auto id disabled, a help text and an error. -/
def noIDField : Field :=
  { checkboxesField with autoID := [], helpText := "pick".toList, errors := some [requiredError] }

/-- The field `noIDField` with the custom attribute `aria-describedby="hint"`. -/
def describedField : Field :=
  { noIDField with attrs := [("aria-describedby".toList, "hint".toList)] }

/-- Method `EmptyValue` of the validation state provider that the validation pass
builds for the field: the one-element slice of the empty value of a
single-value field, the empty slice of a `MultipleChoiceField`. -/
def fieldInterface.emptyValues : fieldInterface → List Str
  | .boolean x => [x.EmptyValue]
  | .char x => [x.EmptyValue]
  | .email x => [x.EmptyValue]
  | .choice x => [x.EmptyValue]
  | .multipleChoice x => x.EmptyValue

/-- The sanitized values that the `Clean` call of the validation pass computes
from the raw values: the current sanitize function of the field on the first
raw value (the empty string when there is none) for a single-value field, on
every raw value for a `MultipleChoiceField`. -/
def fieldInterface.sanitizedValues (L : Lib) (fld : fieldInterface) (values : List Str) :
    List Str :=
  match fld with
  | .multipleChoice x => values.map (fun value => x.toField.sanitize L value)
  | _ => [fld.field.sanitize L (firstValue values)]

/-- The choice field `pet` of `spaceChoiceField`, not required, and a char field
`Name` that is not required, bound to a padded option and to markup-free text
around blanks. -/
def paddedForm : Form :=
  match New sampleLib
      [.WithChoiceField { spaceChoiceField with notRequired := true },
       .WithCharField (sampleCharField "Name".toList true)] with
  | .ok f => f.BindData sampleLib
      [("pet".toList, ["  one monkey ".toList]), ("name".toList, ["   ".toList])] []
  | .error _ => emptyForm

/-- The form `paddedForm` after its validation pass. -/
def paddedValidated : Form :=
  match Form.doValidationIfNeeded sampleLib 1 paddedForm with
  | .ok f => f
  | .error _ => emptyForm

/-- The error list of every field of the form holds the elements of the error list
that the form stores under the normalized name of the field, none when the
name is not a key of the errors of the form. -/
def errorsAgree (L : Lib) (f : Form) : Prop :=
  ∀ fld ∈ f.fields, fld.field.errors.elems
    = ((mapGet f.errors (normalizedNameForField L fld.field)).getD none).elems

/-- The calls `f.AddError(field, err)` for the pairs of the list, in order. -/
def addErrors (L : Lib) (f : Form) : List (Str × Option GoError) → Form
  | [] => f
  | call :: rest => addErrors L (f.AddError L call.1 call.2).1 rest

/-- Two errors for `Nick`, one for `Name`, one for a name that no field has. -/
def sampleAddErrorCalls : List (Str × Option GoError) :=
  [("Nick".toList, some takenError), ("name".toList, some takenError),
   ("nick".toList, none), ("other".toList, some takenError)]

/-- One run of a clean function on a validated form, as the specification reads:
`AddError`, `BindData` and `SetCleanFunc` act on the form, and the accessors
`IsValid`, `CleanedData`, `Errors` and `IsBound` return what the form stores,
without validating any field and without running a clean function. -/
def cleanFuncRunOnce (L : Lib) : HookProg → Form → Form
  | .done, f => f
  | .AddError field err k, f =>
    cleanFuncRunOnce L (k (f.AddError L field err).2) (f.AddError L field err).1
  | .IsValid k, f =>
    cleanFuncRunOnce L
      (k (if f.bound = true then decide ((copyErrors f.errors).length = 0) else false)) f
  | .CleanedData k, f => cleanFuncRunOnce L (k (if f.bound = true then f.cleanedData else [])) f
  | .Errors k, f => cleanFuncRunOnce L (k (if f.bound = true then copyErrors f.errors else [])) f
  | .IsBound k, f => cleanFuncRunOnce L (k f.IsBound) f
  | .BindData data langs k, f => cleanFuncRunOnce L k (f.BindData L data langs)
  | .SetCleanFunc clean k, f => cleanFuncRunOnce L k (f.SetCleanFunc clean)

/-- A clean function that reads the results through the accessors, as the clean
functions of the tests do, then adds the error `taken` to the field `Nick` when
the accessor `Errors` showed one key, and reads `IsValid` again. -/
def nickTakenHook : HookProg :=
  .IsBound (fun _ => .IsValid (fun _ => .CleanedData (fun _ => .Errors (fun errs =>
    if errs.length = 1 then
      .AddError "Nick".toList (some takenError) (fun _ => .IsValid (fun _ => .done))
    else .done))))

/-- The form `twoFieldForm` after `SetCleanFunc(nickTakenHook)`. -/
def hookedForm : Form := twoFieldForm.SetCleanFunc nickTakenHook

/-- The form `hookedForm` after `IsValid`. -/
def hookedValidated : Form :=
  match Form.IsValid sampleLib 1 hookedForm with
  | .ok (f, _) => f
  | .error _ => emptyForm

/-- The form with the one field `emptySliceField`, bound to the values `ann` and
`bob` for `name`. -/
def emptySliceForm : Form :=
  match New sampleLib [.WithCharField (emptySliceField sampleLib)] with
  | .ok f => f.BindData sampleLib [("name".toList, ["ann".toList, "bob".toList])] []
  | .error _ => emptyForm

/-- The form of `twoFieldOptions`, bound to two values for `nick` and two values
for `name`. -/
def manyValuesForm : Form :=
  match New sampleLib twoFieldOptions with
  | .ok f => f.BindData sampleLib
      [("nick".toList, ["bob".toList, "eve".toList]),
       ("name".toList, ["ann".toList, "zed".toList])] []
  | .error _ => emptyForm

/-- What the `Clean` calls of the validation pass return on `manyValuesForm`. -/
def manyValuesResults : List (fieldInterface × List Str × ErrorList) :=
  match mapExcept (cleanBound sampleLib manyValuesForm.boundData) manyValuesForm.fields with
  | .ok results => results
  | .error _ => []

/-- An error of another package with the code `required` that unwraps to the
`Error` value `ErrorWrapWithCode(errors.New("x"), "nope")`. -/
def requiredOverNope : GoError :=
  .foreignWrap "outer".toList (some RequiredErrorCode)
    (ErrorWrapWithCode (some (.foreign "x".toList none)) "nope".toList).toGoError

/-- An error of another package with the code `nope` that unwraps to the `Error`
value `pickOneError`, of code `required`. -/
def nopeOverRequired : GoError :=
  .foreignWrap "outer".toList (some "nope".toList) pickOneError.toGoError

/-! # Theorems -/

/-! ## Helper lemmas -/

theorem sanitize_setBoundValues (L : Lib) (fld : Field) (values : List Str) (v : Str) :
    Field.sanitize L { fld with boundValues := values } v = Field.sanitize L fld v := rfl

theorem noValue_foldl (values : List Str) (b : Bool) :
    values.foldl (fun noValue value => if value.length > 0 then false else noValue) b
      = (b && values.all (fun v => decide (v = []))) := by
  induction values generalizing b with
  | nil => simp
  | cons v rest ih =>
    simp only [List.foldl_cons, List.all_cons, ih]
    cases v with
    | nil => simp
    | cons c cs => simp

theorem shouldReturnEmpty_eq (values : List Str) (required : Bool) :
    multipleChoiceCleanShouldReturnEmptyValue values required
      = (values.all (fun v => decide (v = [])) && !required) := by
  unfold multipleChoiceCleanShouldReturnEmptyValue
  rw [noValue_foldl]
  simp

theorem isRequiredValidation_eq (values : List Str) (required : Bool) :
    multipleChoiceIsRequiredValidation values required
      = (!required || values.any (fun v => decide (v ≠ []))) := by
  unfold multipleChoiceIsRequiredValidation
  cases required with
  | false => simp
  | true =>
    simp only [Bool.not_true, Bool.false_eq_true, if_false, Bool.false_or]
    congr 1
    funext v
    cases v <;> simp

theorem ErrorList.append_nil (a : ErrorList) : a.append [] = a := by
  cases a with
  | none => rfl
  | some l => simp [ErrorList.append]

theorem ErrorList.append_append (a : ErrorList) (x y : List Error) :
    (a.append x).append y = a.append (x ++ y) := by
  cases a with
  | none =>
    cases x with
    | nil => simp [ErrorList.append]
    | cons e es => simp [ErrorList.append]
  | some l => simp [ErrorList.append]

theorem ErrorList.elems_append (a : ErrorList) (x : List Error) :
    (a.append x).elems = a.elems ++ x := by
  cases a with
  | none => cases x <;> simp [ErrorList.append, ErrorList.elems]
  | some l => simp [ErrorList.append, ErrorList.elems]

theorem ErrorList.len_eq (a : ErrorList) : a.len = a.elems.length := by
  cases a <;> rfl

theorem customizeErrors_elems_length (errors : ErrorList) (customized : GoMap Error) :
    (customizeErrors errors customized).elems.length = errors.elems.length := by
  cases errors with
  | none => rfl
  | some l =>
    cases l with
    | nil => rfl
    | cons e es => simp [customizeErrors, ErrorList.elems]

theorem customizeErrors_len (errors : ErrorList) (customized : GoMap Error) :
    (customizeErrors errors customized).len = errors.len := by
  rw [ErrorList.len_eq, ErrorList.len_eq, customizeErrors_elems_length]

/-- The validation loop of `MultipleChoiceField.Clean` is the left-to-right
traversal of the values: it aborts where a validation aborts, and otherwise
appends the customized errors of every value, in order. -/
theorem multipleChoiceValidateAll_eq (fld : Field) (values : List Str) (acc : ErrorList) :
    multipleChoiceValidateAll fld values acc =
      match mapExcept (fun s => fld.validateFunc fld.toFieldData s false) values with
      | .error a => .error a
      | .ok perValue =>
        .ok (acc.append (perValue.flatMap (fun errs => (customizeErrors errs fld.customErrors).elems))) := by
  induction values generalizing acc with
  | nil => simp [multipleChoiceValidateAll, mapExcept, ErrorList.append_nil]
  | cons v rest ih =>
    simp only [multipleChoiceValidateAll, mapExcept]
    cases hv : fld.validateFunc fld.toFieldData v false with
    | error a => simp
    | ok errors =>
      simp only []
      by_cases hlen : errors.len > 0
      · rw [if_pos hlen, ih]
        cases mapExcept (fun s => fld.validateFunc fld.toFieldData s false) rest with
        | error a => simp
        | ok per => simp [ErrorList.append_append]
      · rw [if_neg hlen, ih]
        cases mapExcept (fun s => fld.validateFunc fld.toFieldData s false) rest with
        | error a => simp
        | ok per =>
          have h0 : (customizeErrors errors fld.customErrors).elems = [] := by
            have := customizeErrors_elems_length errors fld.customErrors
            rw [← ErrorList.len_eq errors] at this
            exact List.length_eq_zero.mp (by omega)
          simp [h0]

theorem validateValue_len_le_one (L : Lib) (value tag : Str) (errs : ErrorList)
    (h : validateValue L value tag = .ok errs) : errs.len ≤ 1 := by
  unfold validateValue at h
  cases hv : engineVar L value tag with
  | error a => simp [hv] at h
  | ok r =>
    cases r with
    | none =>
      simp [hv] at h
      subst h
      simp [ErrorList.len]
    | some tp =>
      obtain ⟨t, p⟩ := tp
      simp [hv] at h
      subst h
      simp [ErrorList.len]

theorem multipleChoiceFieldValidationFunc_len_le_one (L : Lib) (d : FieldData) (value : Str)
    (required : Bool) (errs : ErrorList)
    (h : multipleChoiceFieldValidationFunc L d value required = .ok errs) : errs.len ≤ 1 := by
  unfold multipleChoiceFieldValidationFunc at h
  by_cases hv : value.length = 0
  · simp [hv] at h
    subst h
    simp [ErrorList.len]
  · simp only [hv, if_false] at h
    exact validateValue_len_le_one L _ _ _ h

theorem flatMap_length_le_one_eq_filter (per : List ErrorList) (customized : GoMap Error)
    (h : ∀ errs ∈ per, errs.len ≤ 1) :
    (per.flatMap (fun errs => (customizeErrors errs customized).elems)).length
      = (per.filter (fun errs => decide (errs.len > 0))).length := by
  induction per with
  | nil => rfl
  | cons e rest ih =>
    have he := h e (List.mem_cons_self _ _)
    have hrest := ih (fun x hx => h x (List.mem_cons_of_mem _ hx))
    simp only [List.flatMap_cons, List.length_append, hrest, customizeErrors_elems_length,
      List.filter_cons]
    rw [← ErrorList.len_eq]
    by_cases h0 : e.len > 0
    · simp only [h0, decide_True, if_true, List.length_cons]
      omega
    · simp only [h0, decide_False]
      simp
      omega

theorem mapExcept_mem {α β : Type} (f : α → Except Abort β) (l : List α) (r : List β)
    (h : mapExcept f l = .ok r) : ∀ b ∈ r, ∃ a ∈ l, f a = .ok b := by
  induction l generalizing r with
  | nil =>
    simp [mapExcept] at h
    subst h
    simp
  | cons a rest ih =>
    simp only [mapExcept] at h
    cases ha : f a with
    | error e => simp [ha] at h
    | ok b0 =>
      cases hr : mapExcept f rest with
      | error e => simp [ha, hr] at h
      | ok bs =>
        simp [ha, hr] at h
        subst h
        intro b hb
        rcases List.mem_cons.mp hb with hb | hb
        · exact ⟨a, List.mem_cons_self _ _, by rw [ha, hb]⟩
        · obtain ⟨a1, ha1, hfa1⟩ := ih bs hr b hb
          exact ⟨a1, List.mem_cons_of_mem _ ha1, hfa1⟩

/-! ## Field-level claims -/

/-- C1 (evaluation at the failing input): for every library and every input, the
empty string included, `Clean` on the required choice field built by
`DefaultChoiceField("color", WithChoiceOptions([{Value: "a,b"}]))` panics in the
rule engine with `Undefined validation function` instead of returning the
`required` error. -/
theorem C1_required_choice_clean_panics_on_comma_option (L : Lib) (raw : Str) :
    DefaultChoiceField L "color".toList [WithChoiceOptions [⟨"a,b".toList, "AB".toList⟩]]
        = .ok (some (commaChoiceField L))
    ∧ (commaChoiceField L).Required = true
    ∧ (commaChoiceField L).sanitizeFunc = none
    ∧ (commaChoiceField L).Clean L [] = .error (.undefinedValidation ['b', quoteChar])
    ∧ (commaChoiceField L).Clean L raw = .error (.undefinedValidation ['b', quoteChar]) :=
  ⟨rfl, rfl, rfl, rfl, rfl⟩

/-- C2 (evaluation at the failing input): on the required choice field whose only
option has the value `x'y`, an input sanitized to `x'y`, the option value itself,
gets the error `oneof`, and an input sanitized to `x`, which is no option value,
gets no error. -/
theorem C2_choice_quote_option_misjudged (L : Lib) (raw : Str) :
    DefaultChoiceField L "color".toList [WithChoiceOptions [⟨quoteValue, "XY".toList⟩]]
        = .ok (some (quoteChoiceField L))
    ∧ (quoteChoiceField L).Required = true
    ∧ allChoices (quoteChoiceField L).toFieldData = [quoteValue]
    ∧ ((quoteChoiceField L).toField.sanitize L raw = quoteValue →
        ∃ r, (quoteChoiceField L).Clean L raw = .ok r ∧ r.errs.elems.map Error.Code = [ChoiceErrorCode])
    ∧ ((quoteChoiceField L).toField.sanitize L raw = ['x'] →
        ∃ r, (quoteChoiceField L).Clean L raw = .ok r ∧ r.errs = none) := by
  refine ⟨rfl, rfl, rfl, ?_, ?_⟩
  · intro h
    have h1 : Field.sanitize L { (quoteChoiceField L).toField with boundValues := [raw] } raw
        = quoteValue := h
    simp only [ChoiceField.Clean, Field.cleanSingle, h1]
    exact ⟨_, rfl, rfl⟩
  · intro h
    have h1 : Field.sanitize L { (quoteChoiceField L).toField with boundValues := [raw] } raw
        = ['x'] := h
    simp only [ChoiceField.Clean, Field.cleanSingle, h1]
    exact ⟨_, rfl, rfl⟩

/-- C3: when at least one sanitized value is non-empty, `MultipleChoiceField.Clean`
validates every sanitized value on its own with `required = false`, from left to
right (a panic of a validation is the panic of `Clean`), and returns the
sanitized values in input order with the concatenation, in order, of the
(customized) errors of each value; the list has the length of the input, and
with the default validation function the number of errors is the number of
values whose validation reported an error. -/
theorem C3_multipleChoice_errors_are_concatenated (L : Lib) (fld : MultipleChoiceField)
    (values : List Str) (hne : ∃ v ∈ values, fld.toField.sanitize L v ≠ []) :
    (fld.Clean L values =
      match mapExcept
          (fun s => fld.validateFunc { fld.toFieldData with boundValues := values } s false)
          (values.map (fun v => fld.toField.sanitize L v)) with
      | .error a => .error a
      | .ok perValue =>
        .ok { fld := { fld with
                boundValues := values,
                errors := ErrorList.append none
                  (perValue.flatMap (fun errs => (customizeErrors errs fld.customErrors).elems)) },
              value := values.map (fun v => fld.toField.sanitize L v),
              errs := ErrorList.append none
                (perValue.flatMap (fun errs => (customizeErrors errs fld.customErrors).elems)) })
    ∧ (values.map (fun v => fld.toField.sanitize L v)).length = values.length
    ∧ (fld.validateFunc = multipleChoiceFieldValidationFunc L →
        ∀ perValue, mapExcept
          (fun s => fld.validateFunc { fld.toFieldData with boundValues := values } s false)
          (values.map (fun v => fld.toField.sanitize L v)) = .ok perValue →
        (ErrorList.append none
          (perValue.flatMap (fun errs => (customizeErrors errs fld.customErrors).elems))).len
          = (perValue.filter (fun errs => decide (errs.len > 0))).length) := by
  refine ⟨?_, by simp, ?_⟩
  · obtain ⟨v, hv, hvne⟩ := hne
    have hany : (values.map (fun v => fld.toField.sanitize L v)).any (fun v => decide (v ≠ []))
        = true := by
      rw [List.any_eq_true]
      exact ⟨_, List.mem_map.mpr ⟨v, hv, rfl⟩, by simpa using hvne⟩
    have hall : (values.map (fun v => fld.toField.sanitize L v)).all (fun v => decide (v = []))
        = false := by
      rw [Bool.eq_false_iff]
      intro hall
      rw [List.all_eq_true] at hall
      have := hall _ (List.mem_map.mpr ⟨v, hv, rfl⟩)
      exact hvne (by simpa using this)
    unfold MultipleChoiceField.Clean
    simp only [sanitize_setBoundValues, shouldReturnEmpty_eq, isRequiredValidation_eq, hany, hall,
      Bool.false_and, Bool.or_true, Bool.not_true, Bool.false_eq_true, if_false,
      multipleChoiceValidateAll_eq]
    cases mapExcept
        (fun s => fld.validateFunc { fld.toFieldData with boundValues := values } s false)
        (values.map (fun v => fld.toField.sanitize L v)) with
    | error a => rfl
    | ok per => rfl
  · intro hdef per hper
    rw [ErrorList.len_eq, ErrorList.elems_append]
    simp only [ErrorList.elems, List.nil_append]
    apply flatMap_length_le_one_eq_filter
    intro errs herrs
    obtain ⟨s, _, hs⟩ := mapExcept_mem _ _ _ hper errs herrs
    rw [hdef] at hs
    exact multipleChoiceFieldValidationFunc_len_le_one L _ _ _ _ hs

theorem multipleChoiceClean_all_empty (L : Lib) (fld : MultipleChoiceField)
    (values : List Str) (hall : ∀ v ∈ values, fld.toField.sanitize L v = []) :
    fld.Clean L values =
      .ok (if fld.notRequired = true then
             { fld := { fld with boundValues := values }, value := [], errs := none }
           else
             { fld := { fld with boundValues := values, errors := some [requiredError] },
               value := values.map (fun v => fld.toField.sanitize L v),
               errs := some [requiredError] }) := by
  have hall1 : (values.map (fun v => fld.toField.sanitize L v)).all (fun v => decide (v = []))
      = true := by
    rw [List.all_eq_true]
    intro x hx
    obtain ⟨v, hv, rfl⟩ := List.mem_map.mp hx
    simpa using hall v hv
  have hany : (values.map (fun v => fld.toField.sanitize L v)).any (fun v => decide (v ≠ []))
      = false := by
    rw [Bool.eq_false_iff]
    intro h
    rw [List.any_eq_true] at h
    obtain ⟨x, hx, hxne⟩ := h
    obtain ⟨v, hv, rfl⟩ := List.mem_map.mp hx
    simp [hall v hv] at hxne
  unfold MultipleChoiceField.Clean
  simp only [sanitize_setBoundValues, shouldReturnEmpty_eq, isRequiredValidation_eq, hany, hall1,
    Bool.true_and, Bool.or_false]
  cases hreq : fld.notRequired with
  | true => simp [MultipleChoiceField.EmptyValue]
  | false => simp

/-- C4: when every sanitized value is the empty string (the empty list included),
`MultipleChoiceField.Clean` returns: on a required field, exactly one error, the
required error, whose code is `required`; on a field that is not required, the
empty list and no error. No value is validated. -/
theorem C4_multipleChoice_required_over_whole_list (L : Lib) (fld : MultipleChoiceField)
    (values : List Str) (hall : ∀ v ∈ values, fld.toField.sanitize L v = []) :
    fld.Clean L values =
      .ok (if fld.notRequired = true then
             { fld := { fld with boundValues := values }, value := [], errs := none }
           else
             { fld := { fld with boundValues := values, errors := some [requiredError] },
               value := values.map (fun v => fld.toField.sanitize L v),
               errs := some [requiredError] })
    ∧ requiredError.Code = RequiredErrorCode := by
  refine ⟨?_, rfl⟩
  have hall1 : (values.map (fun v => fld.toField.sanitize L v)).all (fun v => decide (v = []))
      = true := by
    rw [List.all_eq_true]
    intro x hx
    obtain ⟨v, hv, rfl⟩ := List.mem_map.mp hx
    simpa using hall v hv
  have hany : (values.map (fun v => fld.toField.sanitize L v)).any (fun v => decide (v ≠ []))
      = false := by
    rw [Bool.eq_false_iff]
    intro h
    rw [List.any_eq_true] at h
    obtain ⟨x, hx, hxne⟩ := h
    obtain ⟨v, hv, rfl⟩ := List.mem_map.mp hx
    simp [hall v hv] at hxne
  unfold MultipleChoiceField.Clean
  simp only [sanitize_setBoundValues, shouldReturnEmpty_eq, isRequiredValidation_eq, hany, hall1,
    Bool.true_and, Bool.or_false]
  cases hreq : fld.notRequired with
  | true => simp [MultipleChoiceField.EmptyValue]
  | false => simp

/-! ## Lemmas on maps -/

theorem mapGet_mapDelete {V : Type} (m : GoMap V) (k k1 : Str) :
    mapGet (mapDelete m k) k1 = if k = k1 then none else mapGet m k1 := by
  induction m with
  | nil => simp [mapDelete, mapGet]
  | cons p rest ih =>
    obtain ⟨a, v⟩ := p
    unfold mapDelete at ih ⊢
    by_cases hak : a = k
    · subst hak
      simp only [List.filter_cons, ne_eq, not_true_eq_false, decide_False, Bool.false_eq_true,
        if_false, ih]
      by_cases hk : a = k1
      · simp [hk]
      · simp [hk, mapGet]
    · simp only [List.filter_cons, ne_eq, hak, not_false_eq_true, decide_True, if_true, mapGet, ih]
      by_cases hk : k = k1
      · subst hk
        simp [hak]
      · simp [hk]

theorem mapGet_mapSet {V : Type} (m : GoMap V) (k k1 : Str) (v : V) :
    mapGet (mapSet m k v) k1 = if k = k1 then some v else mapGet m k1 := by
  unfold mapSet
  by_cases hk : k = k1
  · simp [mapGet, hk]
  · simp [mapGet, hk, mapGet_mapDelete]

theorem mapGet_copyErrors (m : GoMap ErrorList) (k : Str) :
    mapGet (copyErrors m) k = (mapGet m k).map (fun e => some e.elems) := by
  induction m with
  | nil => rfl
  | cons p rest ih =>
    obtain ⟨a, v⟩ := p
    unfold copyErrors at ih ⊢
    simp only [List.map_cons, mapGet, ih]
    by_cases hak : a = k <;> simp [hak]

theorem mapGet_filterData (data : GoMap (List Str)) (names : List Str) (acc : GoMap (List Str))
    (k : Str) :
    mapGet (filterData data names acc) k =
      if k ∈ names ∧ (mapGet data k).isSome = true then mapGet data k else mapGet acc k := by
  induction names generalizing acc with
  | nil => simp [filterData]
  | cons name rest ih =>
    unfold filterData
    cases hd : mapGet data name with
    | none =>
      simp only [ih, List.mem_cons]
      by_cases hk : k = name
      · subst hk
        simp [hd]
      · simp [hk]
    | some values =>
      simp only [ih, List.mem_cons, mapGet_mapSet]
      by_cases hk : k = name
      · subst hk
        simp [hd]
      · have hk1 : ¬ name = k := fun h => hk h.symm
        simp [hk, hk1]

/-! ## Lemmas on field names -/

theorem fieldInterface.field_update (g : Field → Field) (fld : fieldInterface) :
    (fld.update g).field = g fld.field := by
  cases fld <;> rfl

theorem mapHas_mapSet {V : Type} (m : GoMap V) (k k1 : Str) (v : V) :
    mapHas (mapSet m k v) k1 = (decide (k = k1) || mapHas m k1) := by
  unfold mapHas
  rw [mapGet_mapSet]
  by_cases hk : k = k1 <;> simp [hk]

theorem mapHas_mapDelete {V : Type} (m : GoMap V) (k k1 : Str) :
    mapHas (mapDelete m k) k1 = (!decide (k = k1) && mapHas m k1) := by
  unfold mapHas
  rw [mapGet_mapDelete]
  by_cases hk : k = k1 <;> simp [hk]

theorem mapHas_copyErrors (m : GoMap ErrorList) (k : Str) :
    mapHas (copyErrors m) k = mapHas m k := by
  unfold mapHas
  rw [mapGet_copyErrors]
  cases mapGet m k <;> rfl

theorem cleanSingle_name (L : Lib) (fld : Field) (emptyValue value : Str)
    (r : CleanResult Field Str) (h : fld.cleanSingle L emptyValue value = .ok r) :
    r.fld.name = fld.name := by
  unfold Field.cleanSingle at h
  simp only at h
  split at h
  · injection h with h
    subst h
    rfl
  · split at h
    · cases h
    · injection h with h
      subst h
      rfl

theorem multipleChoiceClean_name (L : Lib) (fld : MultipleChoiceField) (values : List Str)
    (r : CleanResult MultipleChoiceField (List Str)) (h : fld.Clean L values = .ok r) :
    r.fld.name = fld.name := by
  unfold MultipleChoiceField.Clean at h
  simp only at h
  split at h
  · injection h with h
    subst h
    rfl
  · split at h
    · injection h with h
      subst h
      rfl
    · split at h
      · cases h
      · injection h with h
        subst h
        rfl

theorem disguisedResult_fst {F : Type} (wrap : F → fieldInterface) (r : CleanResult F Str) :
    (disguisedResult wrap r).1 = wrap r.fld := by
  unfold disguisedResult
  cases r.errs <;> rfl

theorem cleanForValidation_name (L : Lib) (fld : fieldInterface) (values : List Str)
    (res : fieldInterface × List Str × ErrorList)
    (h : cleanForValidation L fld values = .ok res) :
    res.1.field.name = fld.field.name := by
  cases fld with
  | multipleChoice x =>
    unfold cleanForValidation at h
    split at h
    · simp only at h
      cases hc : x.Clean L values with
      | error a => simp [hc] at h
      | ok r =>
        simp only [hc] at h
        injection h with h
        subst h
        exact multipleChoiceClean_name L x values r hc
    · cases h
    · cases h
  | boolean x =>
    unfold cleanForValidation at h
    split at h
    · cases h
    · cases h
    · simp only [BooleanField.Clean] at h
      cases hc : x.toField.cleanSingle L x.EmptyValue (firstValue values) with
      | error a => simp [hc] at h
      | ok r =>
        simp only [hc] at h
        injection h with h
        subst h
        rw [disguisedResult_fst]
        exact cleanSingle_name L _ _ _ r hc
  | char x =>
    unfold cleanForValidation at h
    split at h
    · cases h
    · cases h
    · simp only [CharField.Clean] at h
      cases hc : x.toField.cleanSingle L x.EmptyValue (firstValue values) with
      | error a => simp [hc] at h
      | ok r =>
        simp only [hc] at h
        injection h with h
        subst h
        rw [disguisedResult_fst]
        exact cleanSingle_name L _ _ _ r hc
  | email x =>
    unfold cleanForValidation at h
    split at h
    · cases h
    · cases h
    · simp only [EmailField.Clean] at h
      cases hc : x.toField.cleanSingle L x.EmptyValue (firstValue values) with
      | error a => simp [hc] at h
      | ok r =>
        simp only [hc] at h
        injection h with h
        subst h
        rw [disguisedResult_fst]
        exact cleanSingle_name L _ _ _ r hc
  | choice x =>
    unfold cleanForValidation at h
    split at h
    · cases h
    · cases h
    · simp only [ChoiceField.Clean] at h
      cases hc : x.toField.cleanSingle L x.EmptyValue (firstValue values) with
      | error a => simp [hc] at h
      | ok r =>
        simp only [hc] at h
        injection h with h
        subst h
        rw [disguisedResult_fst]
        exact cleanSingle_name L _ _ _ r hc

/-! ## The field loop of the validation pass -/

theorem validationLoop_of_error (L : Lib) (bd : GoMap (List Str)) (fields : List fieldInterface)
    (st : PassState) (a : Abort) (h : mapExcept (cleanBound L bd) fields = .error a) :
    validationLoop L bd fields st = .error a := by
  induction fields generalizing st with
  | nil => simp [mapExcept] at h
  | cons fld rest ih =>
    simp only [mapExcept] at h
    unfold validationLoop
    have hcb : cleanForValidation L fld
        (boundValuesFor bd (normalizedNameForField L fld.field)) = cleanBound L bd fld := rfl
    rw [hcb]
    cases hc : cleanBound L bd fld with
    | error e =>
      simp only [hc] at h
      injection h with h
      subst h
      rfl
    | ok res =>
      obtain ⟨fld1, cleanValues, errs⟩ := res
      simp only [hc] at h
      cases hr : mapExcept (cleanBound L bd) rest with
      | ok bs => simp [hr] at h
      | error e =>
        simp only [hr] at h
        injection h with h
        subst h
        cases errs with
        | none => exact ih _ hr
        | some e1 => exact ih _ hr

theorem validationLoop_of_ok (L : Lib) (bd : GoMap (List Str)) (fields : List fieldInterface)
    (st : PassState) (results : List (fieldInterface × List Str × ErrorList))
    (h : mapExcept (cleanBound L bd) fields = .ok results) :
    ∃ st1, validationLoop L bd fields st = .ok st1
      ∧ st1.cleaned = st.cleaned ++ results.map (fun r => r.1)
      ∧ st1.cleaned.map (fun fld => normalizedNameForField L fld.field)
          = st.cleaned.map (fun fld => normalizedNameForField L fld.field)
            ++ fields.map (fun fld => normalizedNameForField L fld.field)
      ∧ st1.log = st.log ++ fields.map (cleanEvent L bd)
      ∧ (∀ k, filedIn st1.cleanedData st1.errors k ↔
          (filedIn st.cleanedData st.errors k
            ∨ k ∈ fields.map (fun fld => normalizedNameForField L fld.field)))
      ∧ (disjointKeys st.cleanedData st.errors →
          (∀ k ∈ fields.map (fun fld => normalizedNameForField L fld.field),
            ¬ filedIn st.cleanedData st.errors k) →
          (fields.map (fun fld => normalizedNameForField L fld.field)).Nodup →
          disjointKeys st1.cleanedData st1.errors) := by
  induction fields generalizing st results with
  | nil =>
    simp only [mapExcept] at h
    injection h with h
    subst h
    refine ⟨st, rfl, by simp, by simp, by simp, by simp, fun hd _ _ => hd⟩
  | cons fld rest ih =>
    simp only [mapExcept] at h
    have hcb : cleanForValidation L fld
        (boundValuesFor bd (normalizedNameForField L fld.field)) = cleanBound L bd fld := rfl
    cases hc : cleanBound L bd fld with
    | error e => simp [hc] at h
    | ok res =>
      obtain ⟨fld1, cleanValues, errs⟩ := res
      simp only [hc] at h
      cases hr : mapExcept (cleanBound L bd) rest with
      | error e => simp [hr] at h
      | ok bs =>
        simp only [hr] at h
        injection h with h
        subst h
        have hname : normalizedNameForField L fld1.field = normalizedNameForField L fld.field := by
          have := cleanForValidation_name L fld _ _ hc
          simp only [normalizedNameForField, Field.Name] at this ⊢
          rw [this]
        unfold validationLoop
        rw [hcb, hc]
        cases errs with
        | some e1 =>
          simp only
          obtain ⟨st1, hst1, hcl, hnm, hlog, hkeys, hdisj⟩ := ih
            { cleaned := st.cleaned ++ [fld1], cleanedData := st.cleanedData,
              errors := mapSet st.errors (normalizedNameForField L fld.field) (some e1),
              log := st.log ++ [.clean (normalizedNameForField L fld.field)
                (boundValuesFor bd (normalizedNameForField L fld.field))] } bs hr
          refine ⟨st1, hst1, ?_, ?_, ?_, ?_, ?_⟩
          · simp [hcl]
          · simp [hnm, hname]
          · simp [hlog, cleanEvent]
          · intro k
            rw [hkeys k]
            simp only [filedIn, mapHas_mapSet, List.map_cons, List.mem_cons, Bool.or_eq_true,
              decide_eq_true_eq]
            constructor
            · rintro ((h1 | h1 | h1) | h1)
              · exact Or.inl (Or.inl h1)
              · exact Or.inr (Or.inl h1.symm)
              · exact Or.inl (Or.inr h1)
              · exact Or.inr (Or.inr h1)
            · rintro ((h1 | h1) | h1 | h1)
              · exact Or.inl (Or.inl h1)
              · exact Or.inl (Or.inr (Or.inr h1))
              · exact Or.inl (Or.inr (Or.inl h1.symm))
              · exact Or.inr h1
          · intro hd hfresh hnodup
            simp only [List.map_cons, List.nodup_cons] at hnodup
            apply hdisj
            · intro k ⟨h1, h2⟩
              simp only [mapHas_mapSet, Bool.or_eq_true, decide_eq_true_eq] at h2
              rcases h2 with h2 | h2
              · subst h2
                exact hfresh _ (by simp) (Or.inl h1)
              · exact hd k ⟨h1, h2⟩
            · intro k hk hin
              simp only [filedIn, mapHas_mapSet, Bool.or_eq_true, decide_eq_true_eq] at hin
              rcases hin with h1 | h1 | h1
              · exact hfresh k (by simp [hk]) (Or.inl h1)
              · subst h1
                exact hnodup.1 hk
              · exact hfresh k (by simp [hk]) (Or.inr h1)
            · exact hnodup.2
        | none =>
          simp only
          obtain ⟨st1, hst1, hcl, hnm, hlog, hkeys, hdisj⟩ := ih
            { cleaned := st.cleaned ++ [fld1],
              cleanedData := mapSet st.cleanedData (normalizedNameForField L fld.field) cleanValues,
              errors := st.errors,
              log := st.log ++ [.clean (normalizedNameForField L fld.field)
                (boundValuesFor bd (normalizedNameForField L fld.field))] } bs hr
          refine ⟨st1, hst1, ?_, ?_, ?_, ?_, ?_⟩
          · simp [hcl]
          · simp [hnm, hname]
          · simp [hlog, cleanEvent]
          · intro k
            rw [hkeys k]
            simp only [filedIn, mapHas_mapSet, List.map_cons, List.mem_cons, Bool.or_eq_true,
              decide_eq_true_eq]
            constructor
            · rintro (((h1 | h1) | h1) | h1)
              · exact Or.inr (Or.inl h1.symm)
              · exact Or.inl (Or.inl h1)
              · exact Or.inl (Or.inr h1)
              · exact Or.inr (Or.inr h1)
            · rintro ((h1 | h1) | h1 | h1)
              · exact Or.inl (Or.inl (Or.inr h1))
              · exact Or.inl (Or.inr h1)
              · exact Or.inl (Or.inl (Or.inl h1.symm))
              · exact Or.inr h1
          · intro hd hfresh hnodup
            simp only [List.map_cons, List.nodup_cons] at hnodup
            apply hdisj
            · intro k ⟨h1, h2⟩
              simp only [mapHas_mapSet, Bool.or_eq_true, decide_eq_true_eq] at h1
              rcases h1 with h1 | h1
              · subst h1
                exact hfresh _ (by simp) (Or.inr h2)
              · exact hd k ⟨h1, h2⟩
            · intro k hk hin
              simp only [filedIn, mapHas_mapSet, Bool.or_eq_true, decide_eq_true_eq] at hin
              rcases hin with (h1 | h1) | h1
              · subst h1
                exact hnodup.1 hk
              · exact hfresh k (by simp [hk]) (Or.inl h1)
              · exact hfresh k (by simp [hk]) (Or.inr h1)
            · exact hnodup.2

/-! ## Operations on a form: what they keep -/

theorem updateFirst_map_eq {α β : Type} (p : α → Bool) (g : α → α) (h : α → β) (l : List α)
    (hg : ∀ a, h (g a) = h a) : (updateFirst p g l).map h = l.map h := by
  induction l with
  | nil => rfl
  | cons a rest ih =>
    unfold updateFirst
    by_cases hp : p a = true
    · simp [hp, hg]
    · simp [hp, ih]

theorem AddError_validated (L : Lib) (f : Form) (field : Str) (err : Option GoError) :
    (f.AddError L field err).1.validated = f.validated := by
  unfold Form.AddError
  split
  · rfl
  · split <;> rfl

theorem AddError_bound (L : Lib) (f : Form) (field : Str) (err : Option GoError) :
    (f.AddError L field err).1.bound = f.bound := by
  unfold Form.AddError
  split
  · rfl
  · split <;> rfl

theorem AddError_trace (L : Lib) (f : Form) (field : Str) (err : Option GoError) :
    (f.AddError L field err).1.trace = f.trace := by
  unfold Form.AddError
  split
  · rfl
  · split <;> rfl

theorem AddError_declaredNames (L : Lib) (f : Form) (field : Str) (err : Option GoError) :
    (f.AddError L field err).1.declaredNames L = f.declaredNames L := by
  unfold Form.AddError
  split
  · rfl
  · split
    · rfl
    · simp only [Form.declaredNames]
      apply updateFirst_map_eq
      intro a
      rw [fieldInterface.field_update]
      rfl

theorem AddError_filedIn (L : Lib) (f : Form) (field : Str) (err : Option GoError) (k : Str)
    (h : filedIn f.cleanedData f.errors k) :
    filedIn (f.AddError L field err).1.cleanedData (f.AddError L field err).1.errors k := by
  unfold Form.AddError
  split
  · exact h
  · split
    · exact h
    · rename_i fld _
      simp only [filedIn, mapHas_mapSet, mapHas_mapDelete, Bool.or_eq_true, Bool.and_eq_true,
        Bool.not_eq_true', decide_eq_true_eq, decide_eq_false_iff_not]
      by_cases hk : normalizedNameForField L fld.field = k
      · exact Or.inr (Or.inl hk)
      · rcases h with h | h
        · exact Or.inl ⟨hk, h⟩
        · exact Or.inr (Or.inr h)

theorem AddError_disjointKeys (L : Lib) (f : Form) (field : Str) (err : Option GoError)
    (h : disjointKeys f.cleanedData f.errors) :
    disjointKeys (f.AddError L field err).1.cleanedData (f.AddError L field err).1.errors := by
  unfold Form.AddError
  split
  · exact h
  · split
    · exact h
    · rename_i fld _
      intro k
      simp only [mapHas_mapSet, mapHas_mapDelete, Bool.or_eq_true, Bool.and_eq_true,
        Bool.not_eq_true', decide_eq_true_eq, decide_eq_false_iff_not]
      rintro ⟨⟨h1, h2⟩, h3 | h3⟩
      · exact h1 h3
      · exact h k ⟨h2, h3⟩

theorem propagateLocales_names (L : Lib) (fields : List fieldInterface) (locales : List LangTag) :
    (propagateLocalesIfNotEmpty fields locales).map (fun fld => normalizedNameForField L fld.field)
      = fields.map (fun fld => normalizedNameForField L fld.field) := by
  unfold propagateLocalesIfNotEmpty
  rw [List.map_map]
  apply List.map_congr_left
  intro a _
  simp only [Function.comp, fieldInterface.field_update]
  rfl

theorem BindData_validated (L : Lib) (f : Form) (data : GoMap (List Str)) (langs : List Str) :
    (f.BindData L data langs).validated = f.validated := by
  unfold Form.BindData
  split <;> rfl

theorem BindData_trace (L : Lib) (f : Form) (data : GoMap (List Str)) (langs : List Str) :
    (f.BindData L data langs).trace = f.trace := by
  unfold Form.BindData
  split <;> rfl

theorem BindData_maps (L : Lib) (f : Form) (data : GoMap (List Str)) (langs : List Str) :
    (f.BindData L data langs).cleanedData = f.cleanedData
      ∧ (f.BindData L data langs).errors = f.errors := by
  unfold Form.BindData
  split <;> exact ⟨rfl, rfl⟩

theorem BindData_declaredNames (L : Lib) (f : Form) (data : GoMap (List Str)) (langs : List Str) :
    (f.BindData L data langs).declaredNames L = f.declaredNames L := by
  unfold Form.BindData
  split
  · rfl
  · exact propagateLocales_names L _ _

theorem BindData_bound_of_bound (L : Lib) (f : Form) (data : GoMap (List Str)) (langs : List Str)
    (h : f.bound = true) : f.BindData L data langs = f := by
  unfold Form.BindData
  simp [h]

/-! ## The clean function and the latch -/

theorem doValidationIfNeeded_validated (L : Lib) (n : Nat) (g : Form) (h : g.validated = true) :
    Form.doValidationIfNeeded L n g = .ok g := by
  cases n <;> simp [Form.doValidationIfNeeded, h]

theorem errorsWith_validated (validate : Form → Except Abort Form)
    (hval : ∀ g, g.validated = true → validate g = .ok g) (g : Form) (h : g.validated = true) :
    errorsWith validate g = .ok (g, if g.bound = true then copyErrors g.errors else []) := by
  unfold errorsWith Form.IsBound
  by_cases hb : g.bound = true
  · simp [hb, hval g h]
  · simp [hb]

theorem cleanedDataWith_validated (validate : Form → Except Abort Form)
    (hval : ∀ g, g.validated = true → validate g = .ok g) (g : Form) (h : g.validated = true) :
    cleanedDataWith validate g = .ok (g, if g.bound = true then g.cleanedData else []) := by
  unfold cleanedDataWith Form.IsBound
  by_cases hb : g.bound = true
  · simp [hb, hval g h]
  · simp [hb]

theorem isValidWith_validated (validate : Form → Except Abort Form)
    (hval : ∀ g, g.validated = true → validate g = .ok g) (g : Form) (h : g.validated = true) :
    isValidWith validate g
      = .ok (g, if g.bound = true then decide ((copyErrors g.errors).length = 0) else false) := by
  unfold isValidWith Form.IsBound
  by_cases hb : g.bound = true
  · simp [hb, hval g h, errorsWith_validated validate hval g h]
  · simp [hb]

/-- A clean function run on a validated form returns, leaves the form validated,
and keeps every property that `AddError`, `BindData` and `SetCleanFunc` keep:
the accessors it calls do not change the form. -/
theorem runHook_inv (L : Lib) (validate : Form → Except Abort Form)
    (hval : ∀ g, g.validated = true → validate g = .ok g) (P : Form → Prop)
    (hAdd : ∀ g field err, g.validated = true → P g → P (g.AddError L field err).1)
    (hBind : ∀ g data langs, g.validated = true → P g → P (g.BindData L data langs))
    (hSet : ∀ g c, g.validated = true → P g → P (g.SetCleanFunc c))
    (prog : HookProg) (f : Form) (hv : f.validated = true) (hP : P f) :
    ∃ f1, runHook L validate prog f = .ok f1 ∧ f1.validated = true ∧ P f1 := by
  induction prog generalizing f with
  | done => exact ⟨f, rfl, hv, hP⟩
  | AddError field err k ih =>
    simp only [runHook]
    exact ih _ _ (by rw [AddError_validated]; exact hv) (hAdd f field err hv hP)
  | IsValid k ih =>
    simp only [runHook, isValidWith_validated validate hval f hv]
    exact ih _ f hv hP
  | CleanedData k ih =>
    simp only [runHook, cleanedDataWith_validated validate hval f hv]
    exact ih _ f hv hP
  | Errors k ih =>
    simp only [runHook, errorsWith_validated validate hval f hv]
    exact ih _ f hv hP
  | IsBound k ih =>
    simp only [runHook]
    exact ih _ f hv hP
  | BindData data langs k ih =>
    simp only [runHook]
    exact ih _ (by rw [BindData_validated]; exact hv) (hBind f data langs hv hP)
  | SetCleanFunc clean k _ ih =>
    simp only [runHook]
    exact ih _ hv (hSet f clean hv hP)

theorem doValidationIfNeeded_unfold (L : Lib) (n : Nat) (f : Form) (hv : f.validated = false) :
    Form.doValidationIfNeeded L (n + 1) f =
      match validationLoop L f.boundData f.fields
          { cleaned := [], cleanedData := [], errors := [], log := [] } with
      | .error a => .error a
      | .ok st =>
        runHook L (fun g => Form.doValidationIfNeeded L n g) f.cleanFunc
          { f with validated := true, fields := st.cleaned, cleanedData := st.cleanedData,
                   errors := st.errors, trace := f.trace ++ st.log ++ [.hook] } := by
  simp [Form.doValidationIfNeeded, hv]

theorem filedIn_nil (k : Str) : ¬ filedIn [] [] k := by
  simp [filedIn, mapHas, mapGet]

theorem disjointKeys_nil : disjointKeys [] [] := by
  intro k
  simp [mapHas, mapGet]

theorem count_hook_cleanEvents (L : Lib) (bd : GoMap (List Str)) (fields : List fieldInterface) :
    (fields.map (cleanEvent L bd)).count Event.hook = 0 := by
  rw [List.count_eq_zero]
  intro h
  obtain ⟨fld, _, hfld⟩ := List.mem_map.mp h
  simp [cleanEvent] at hfld

/-- The first validation pass of a form whose `Clean` calls all return: the pass
returns a validated form, and every property of the form after the field loop
that `AddError`, `BindData` and `SetCleanFunc` keep on validated forms holds of
the result, whatever the clean function does. -/
theorem doValidationIfNeeded_first (L : Lib) (f : Form) (n : Nat) (hv : f.validated = false)
    (results : List (fieldInterface × List Str × ErrorList))
    (hres : mapExcept (cleanBound L f.boundData) f.fields = .ok results)
    (P : Form → Prop)
    (hAdd : ∀ g field err, g.validated = true → P g → P (g.AddError L field err).1)
    (hBind : ∀ g data langs, g.validated = true → P g → P (g.BindData L data langs))
    (hSet : ∀ g c, g.validated = true → P g → P (g.SetCleanFunc c))
    (hP : ∀ st, validationLoop L f.boundData f.fields
        { cleaned := [], cleanedData := [], errors := [], log := [] } = .ok st →
      P { f with validated := true, fields := st.cleaned, cleanedData := st.cleanedData,
                 errors := st.errors, trace := f.trace ++ st.log ++ [.hook] }) :
    ∃ f1, Form.doValidationIfNeeded L (n + 1) f = .ok f1 ∧ f1.validated = true ∧ P f1 := by
  obtain ⟨st1, hst1, -⟩ := validationLoop_of_ok L f.boundData f.fields
    { cleaned := [], cleanedData := [], errors := [], log := [] } results hres
  rw [doValidationIfNeeded_unfold L n f hv, hst1]
  exact runHook_inv L _ (fun g hg => doValidationIfNeeded_validated L n g hg) P hAdd hBind hSet
    f.cleanFunc _ rfl (hP st1 hst1)

/-! ## Form-level claims -/

/-- C5: on a bound form that is not validated yet, the validation pass calls
`Clean` on the fields from first to last, whether or not a call returned errors:
it stops only where a call panics, with that panic. When every call returns,
the pass returns a form whose log is one `Clean` event per declared field, in
declaration order, followed by the clean-function event, and the normalized name
of every declared field is a key of `CleanedData()` or of `Errors()`. -/
theorem C5_every_field_is_cleaned_once_in_order (L : Lib) (f : Form) (n : Nat)
    (hb : f.bound = true) (hv : f.validated = false) :
    (∀ a, mapExcept (cleanBound L f.boundData) f.fields = .error a →
        Form.doValidationIfNeeded L (n + 1) f = .error a)
    ∧ (∀ results, mapExcept (cleanBound L f.boundData) f.fields = .ok results →
        results.length = f.fields.length
        ∧ ∃ f1, Form.doValidationIfNeeded L (n + 1) f = .ok f1
          ∧ f1.trace = f.trace ++ f.fields.map (cleanEvent L f.boundData) ++ [Event.hook]
          ∧ Form.CleanedData L (n + 1) f = .ok (f1, f1.cleanedData)
          ∧ Form.Errors L (n + 1) f = .ok (f1, copyErrors f1.errors)
          ∧ ∀ name ∈ f.declaredNames L,
              mapHas f1.cleanedData name = true ∨ mapHas (copyErrors f1.errors) name = true) := by
  constructor
  · intro a ha
    rw [doValidationIfNeeded_unfold L n f hv, validationLoop_of_error L _ _ _ a ha]
  · intro results hres
    constructor
    · obtain ⟨st1, -, hcl, hnm, -⟩ := validationLoop_of_ok L f.boundData f.fields
        { cleaned := [], cleanedData := [], errors := [], log := [] } results hres
      have := congrArg List.length hnm
      rw [hcl] at this
      simpa using this
    · obtain ⟨f1, hf1, hval1, hT, hB, hK⟩ := doValidationIfNeeded_first L f n hv results hres
        (fun g : Form => g.trace = f.trace ++ f.fields.map (cleanEvent L f.boundData) ++ [Event.hook]
          ∧ g.bound = true
          ∧ ∀ name ∈ f.declaredNames L, filedIn g.cleanedData g.errors name)
        (fun g field err _ hP => ⟨by rw [AddError_trace]; exact hP.1,
          by rw [AddError_bound]; exact hP.2.1,
          fun name hname => AddError_filedIn L g field err name (hP.2.2 name hname)⟩)
        (fun g data langs _ hP => by
          rw [BindData_bound_of_bound L g data langs hP.2.1]
          exact hP)
        (fun g c _ hP => hP)
        (fun st hst => by
          obtain ⟨st1, hst1, -, -, hlog, hkeys, -⟩ := validationLoop_of_ok L f.boundData f.fields
            { cleaned := [], cleanedData := [], errors := [], log := [] } results hres
          rw [hst] at hst1
          injection hst1 with hst1
          subst hst1
          refine ⟨?_, hb, ?_⟩
          · simp [hlog]
          · intro name hname
            exact (hkeys name).mpr (Or.inr hname))
      refine ⟨f1, hf1, hT, ?_, ?_, ?_⟩
      · simp [Form.CleanedData, cleanedDataWith, Form.IsBound, hb, hf1]
      · simp [Form.Errors, errorsWith, Form.IsBound, hb, hf1]
      · intro name hname
        rw [mapHas_copyErrors]
        exact hK name hname

/-! ## `New` and `BindData` -/

theorem update_normalizedName (L : Lib) (g : Field → Field) (hg : ∀ x, (g x).name = x.name)
    (fld : fieldInterface) :
    normalizedNameForField L (fld.update g).field = normalizedNameForField L fld.field := by
  rw [fieldInterface.field_update]
  simp only [normalizedNameForField, Field.Name, hg]

theorem propagateLabelSuffix_names (L : Lib) (fields : List fieldInterface) (labelSuffix : Str) :
    (propagateLabelSuffix fields labelSuffix).map (fun fld => normalizedNameForField L fld.field)
      = fields.map (fun fld => normalizedNameForField L fld.field) := by
  unfold propagateLabelSuffix
  rw [List.map_map]
  apply List.map_congr_left
  intro a _
  simp only [Function.comp]
  split
  · rfl
  · exact update_normalizedName L (fun x => x.SetLabelSuffix labelSuffix) (fun _ => rfl) a

theorem propagateRequiredCSSClass_names (L : Lib) (fields : List fieldInterface) (cls : Str) :
    (propagateRequiredCSSClass fields cls).map (fun fld => normalizedNameForField L fld.field)
      = fields.map (fun fld => normalizedNameForField L fld.field) := by
  unfold propagateRequiredCSSClass
  rw [List.map_map]
  apply List.map_congr_left
  intro a _
  exact update_normalizedName L (fun x => x.SetRequiredCSSClass cls) (fun _ => rfl) a

theorem propagateErrorCSSClass_names (L : Lib) (fields : List fieldInterface) (cls : Str) :
    (propagateErrorCSSClass fields cls).map (fun fld => normalizedNameForField L fld.field)
      = fields.map (fun fld => normalizedNameForField L fld.field) := by
  unfold propagateErrorCSSClass
  rw [List.map_map]
  apply List.map_congr_left
  intro a _
  exact update_normalizedName L (fun x => x.SetErrorCSSClass cls) (fun _ => rfl) a

theorem propagateRequiredCSSClassIfNotEmpty_names (L : Lib) (fields : List fieldInterface)
    (cls : Str) :
    (propagateRequiredCSSClassIfNotEmpty fields cls).map
        (fun fld => normalizedNameForField L fld.field)
      = fields.map (fun fld => normalizedNameForField L fld.field) := by
  unfold propagateRequiredCSSClassIfNotEmpty
  split
  · rfl
  · exact propagateRequiredCSSClass_names L fields cls

theorem propagateErrorCSSClassIfNotEmpty_names (L : Lib) (fields : List fieldInterface)
    (cls : Str) :
    (propagateErrorCSSClassIfNotEmpty fields cls).map
        (fun fld => normalizedNameForField L fld.field)
      = fields.map (fun fld => normalizedNameForField L fld.field) := by
  unfold propagateErrorCSSClassIfNotEmpty
  split
  · rfl
  · exact propagateErrorCSSClass_names L fields cls

theorem SetAutoID_name (fld : Field) (autoID : Str) : (fld.SetAutoID autoID).1.name = fld.name := by
  unfold Field.SetAutoID
  split <;> rfl

theorem propagateAutoIDLoop_names (L : Lib) (autoID : Str) (fields : List fieldInterface) :
    (propagateAutoIDLoop autoID fields).1.map (fun fld => normalizedNameForField L fld.field)
      = fields.map (fun fld => normalizedNameForField L fld.field) := by
  induction fields with
  | nil => rfl
  | cons fld rest ih =>
    unfold propagateAutoIDLoop
    split
    · simp [ih]
    · split
      · rfl
      · simp only [List.map_cons, ih]
        rw [update_normalizedName L _ (fun x => SetAutoID_name x autoID) fld]

theorem propagateAutoIDIfNotDefault_names (L : Lib) (fields : List fieldInterface) (autoID : Str) :
    (propagateAutoIDIfNotDefault fields autoID).1.map
        (fun fld => normalizedNameForField L fld.field)
      = fields.map (fun fld => normalizedNameForField L fld.field) := by
  unfold propagateAutoIDIfNotDefault
  split
  · rfl
  · exact propagateAutoIDLoop_names L autoID fields

theorem addField_fresh (L : Lib) (f : Form) (fld : fieldInterface) (h : freshForm L f) :
    freshForm L (f.addField L fld).1 := by
  obtain ⟨h1, h2, h3, h4, h5⟩ := h
  refine ⟨h1, h2, h3, h4, ?_⟩
  simp only [Form.addField, Form.declaredNames, List.map_append, h5]
  rw [propagateAutoIDIfNotDefault_names, propagateLocales_names,
    propagateErrorCSSClassIfNotEmpty_names, propagateRequiredCSSClassIfNotEmpty_names,
    propagateLabelSuffix_names]
  rfl

theorem setAndPropagateAutoID_fresh (L : Lib) (f : Form) (autoID : Str) (h : freshForm L f) :
    freshForm L (setAndPropagateAutoID f autoID).1 := by
  obtain ⟨h1, h2, h3, h4, h5⟩ := h
  refine ⟨h1, h2, h3, h4, ?_⟩
  simp only [setAndPropagateAutoID, Form.declaredNames, h5]
  rw [propagateAutoIDIfNotDefault_names]

theorem FormOption_run_fresh (L : Lib) (opt : FormOption) (f : Form) (h : freshForm L f) :
    freshForm L (opt.run L f).1 := by
  cases opt with
  | WithBooleanField fld => exact addField_fresh L f _ h
  | WithCharField fld => exact addField_fresh L f _ h
  | WithEmailField fld => exact addField_fresh L f _ h
  | WithChoiceField fld => exact addField_fresh L f _ h
  | WithMultipleChoiceField fld => exact addField_fresh L f _ h
  | WithAutoID autoID =>
    simp only [FormOption.run]
    split
    · exact h
    · exact setAndPropagateAutoID_fresh L f autoID h
  | DisableAutoID => exact setAndPropagateAutoID_fresh L f [] h
  | WithLabelSuffix labelSuffix =>
    obtain ⟨h1, h2, h3, h4, h5⟩ := h
    refine ⟨h1, h2, h3, h4, ?_⟩
    simp only [FormOption.run, Form.declaredNames, h5]
    rw [propagateLabelSuffix_names]
  | WithRequiredCSSClass cls =>
    obtain ⟨h1, h2, h3, h4, h5⟩ := h
    refine ⟨h1, h2, h3, h4, ?_⟩
    simp only [FormOption.run, Form.declaredNames, h5]
    rw [propagateRequiredCSSClass_names]
  | WithErrorCSSClass cls =>
    obtain ⟨h1, h2, h3, h4, h5⟩ := h
    refine ⟨h1, h2, h3, h4, ?_⟩
    simp only [FormOption.run, Form.declaredNames, h5]
    rw [propagateErrorCSSClass_names]
  | WithLocales locales =>
    obtain ⟨h1, h2, h3, h4, h5⟩ := h
    refine ⟨h1, h2, h3, h4, ?_⟩
    simp only [FormOption.run, Form.declaredNames, h5]
    rw [propagateLocales_names]

theorem applyFormOptions_fresh (L : Lib) (opts : List FormOption) (f f1 : Form)
    (h : freshForm L f) (hr : applyFormOptions L opts f = .ok f1) : freshForm L f1 := by
  induction opts generalizing f with
  | nil =>
    simp only [applyFormOptions] at hr
    injection hr with hr
    subst hr
    exact h
  | cons opt rest ih =>
    simp only [applyFormOptions] at hr
    split at hr
    · cases hr
    · exact ih _ (FormOption_run_fresh L opt f h) hr

theorem New_fresh (L : Lib) (opts : List FormOption) (f : Form) (h : New L opts = .ok f) :
    freshForm L f :=
  applyFormOptions_fresh L opts emptyForm f ⟨rfl, rfl, rfl, rfl, rfl⟩ h

/-- C9: a second `BindData` is a no-op, whatever the two data maps and language
lists are: the form after `BindData(d2, l2)` following `BindData(d1, l1)` is the
form after `BindData(d1, l1)`, in every component (bound data, fields with their
locales, cleaned data, errors, validation latch). -/
theorem C9_second_BindData_is_a_noop (L : Lib) (f : Form) (d1 d2 : GoMap (List Str))
    (l1 l2 : List Str) :
    (f.BindData L d1 l1).BindData L d2 l2 = f.BindData L d1 l1 := by
  apply BindData_bound_of_bound
  unfold Form.BindData
  split
  · assumption
  · rfl

/-- C10: after the first `BindData(data)` on a form built by `New`, the form is
bound, whatever `data` is, and its bound data has exactly the entries of `data`
whose key is the normalized name of a declared field, each with the value list
it has in `data`; no other key of `data` is kept. -/
theorem C10_BindData_keeps_declared_names_only (L : Lib) (opts : List FormOption) (f : Form)
    (data : GoMap (List Str)) (langs : List Str) (hnew : New L opts = .ok f) :
    (f.BindData L data langs).IsBound = true
    ∧ ∀ k, mapGet (f.BindData L data langs).boundData k
        = if k ∈ f.declaredNames L then mapGet data k else none := by
  obtain ⟨hb, -, -, -, hnames⟩ := New_fresh L opts f hnew
  constructor
  · simp [Form.BindData, Form.IsBound, hb]
  · intro k
    simp only [Form.BindData, hb, Bool.false_eq_true, if_false, mapGet_filterData, hnames]
    by_cases hk : k ∈ f.declaredNames L
    · cases hd : mapGet data k <;> simp [hk, hd, mapGet]
    · simp [hk, mapGet]

theorem keepsDisjoint_refl (L : Lib) (f : Form) : keepsDisjoint L f f :=
  ⟨rfl, fun _ h => h⟩

theorem keepsDisjoint_trans (L : Lib) (f f1 f2 : Form) (h1 : keepsDisjoint L f f1)
    (h2 : keepsDisjoint L f1 f2) : keepsDisjoint L f f2 :=
  ⟨h2.1.trans h1.1, fun hn hd => h2.2 (by rw [h1.1]; exact hn) (h1.2 hn hd)⟩

theorem doValidationIfNeeded_keepsDisjoint (L : Lib) (n : Nat) (f f1 : Form)
    (h : Form.doValidationIfNeeded L n f = .ok f1) : keepsDisjoint L f f1 := by
  by_cases hv : f.validated = true
  · rw [doValidationIfNeeded_validated L n f hv] at h
    injection h with h
    subst h
    exact keepsDisjoint_refl L f
  · have hv0 : f.validated = false := by simpa using hv
    cases n with
    | zero => simp [Form.doValidationIfNeeded, hv0] at h
    | succ n =>
      cases hres : mapExcept (cleanBound L f.boundData) f.fields with
      | error a =>
        rw [doValidationIfNeeded_unfold L n f hv0, validationLoop_of_error L _ _ _ a hres] at h
        cases h
      | ok results =>
        obtain ⟨f2, hf2, -, hP⟩ := doValidationIfNeeded_first L f n hv0 results hres
          (fun g : Form => g.declaredNames L = f.declaredNames L
            ∧ ((f.declaredNames L).Nodup → disjointKeys g.cleanedData g.errors))
          (fun g field err _ hP => ⟨by rw [AddError_declaredNames]; exact hP.1,
            fun hn => AddError_disjointKeys L g field err (hP.2 hn)⟩)
          (fun g data langs _ hP => ⟨by rw [BindData_declaredNames]; exact hP.1,
            fun hn => by
              rw [(BindData_maps L g data langs).1, (BindData_maps L g data langs).2]
              exact hP.2 hn⟩)
          (fun g c _ hP => hP)
          (fun st hst => by
            obtain ⟨st1, hst1, -, hnm, -, -, hdisj⟩ := validationLoop_of_ok L f.boundData
              f.fields { cleaned := [], cleanedData := [], errors := [], log := [] } results hres
            rw [hst] at hst1
            injection hst1 with hst1
            subst hst1
            refine ⟨?_, fun hn => hdisj disjointKeys_nil (fun k _ => filedIn_nil k) hn⟩
            simpa [Form.declaredNames] using hnm)
        rw [hf2] at h
        injection h with h
        subst h
        exact ⟨hP.1, fun hn _ => hP.2 hn⟩

theorem errorsWith_keepsDisjoint (L : Lib) (n : Nat) (f f1 : Form) (e : GoMap ErrorList)
    (h : errorsWith (Form.doValidationIfNeeded L n) f = .ok (f1, e)) : keepsDisjoint L f f1 := by
  unfold errorsWith at h
  split at h
  · injection h with h
    injection h with h _
    subst h
    exact keepsDisjoint_refl L f
  · cases hd : Form.doValidationIfNeeded L n f with
    | error a => simp [hd] at h
    | ok g =>
      simp only [hd] at h
      injection h with h
      injection h with h _
      subst h
      exact doValidationIfNeeded_keepsDisjoint L n f g hd

theorem cleanedDataWith_keepsDisjoint (L : Lib) (n : Nat) (f f1 : Form) (d : GoMap (List Str))
    (h : cleanedDataWith (Form.doValidationIfNeeded L n) f = .ok (f1, d)) :
    keepsDisjoint L f f1 := by
  unfold cleanedDataWith at h
  split at h
  · injection h with h
    injection h with h _
    subst h
    exact keepsDisjoint_refl L f
  · cases hd : Form.doValidationIfNeeded L n f with
    | error a => simp [hd] at h
    | ok g =>
      simp only [hd] at h
      injection h with h
      injection h with h _
      subst h
      exact doValidationIfNeeded_keepsDisjoint L n f g hd

theorem isValidWith_keepsDisjoint (L : Lib) (n : Nat) (f f1 : Form) (b : Bool)
    (h : isValidWith (Form.doValidationIfNeeded L n) f = .ok (f1, b)) : keepsDisjoint L f f1 := by
  unfold isValidWith at h
  split at h
  · injection h with h
    injection h with h _
    subst h
    exact keepsDisjoint_refl L f
  · cases hd : Form.doValidationIfNeeded L n f with
    | error a => simp [hd] at h
    | ok g =>
      simp only [hd] at h
      cases he : errorsWith (Form.doValidationIfNeeded L n) g with
      | error a => simp [he] at h
      | ok r =>
        obtain ⟨g1, errs⟩ := r
        simp only [he] at h
        injection h with h
        injection h with h _
        subst h
        exact keepsDisjoint_trans L f g g1 (doValidationIfNeeded_keepsDisjoint L n f g hd)
          (errorsWith_keepsDisjoint L n g g1 errs he)

/-- C7 (counterexample): the form built by `New` from a required char field named
`Name` and a char field named `name` that is not required, bound to no data and
validated by `IsValid`, is a reachable state in which the normalized name `name`
is a key of the cleaned data and a key of the errors. -/
theorem C7_same_name_in_both_maps :
    ∃ f0 f1 b, New sampleLib sameNameOptions = .ok f0
      ∧ Form.IsValid sampleLib 1 (f0.BindData sampleLib [] []) = .ok (f1, b)
      ∧ Reachable sampleLib f1
      ∧ mapHas f1.cleanedData "name".toList = true
      ∧ mapHas f1.errors "name".toList = true := by
  refine ⟨_, _, _, rfl, rfl, ?_, rfl, rfl⟩
  exact Reachable.isValid _ _ 1 _
    (Reachable.bindData _ [] [] (Reachable.new sameNameOptions _ rfl)) rfl

/-- C7 (amended): in every form state reachable through `New`, `BindData`,
`SetCleanFunc`, `IsValid`, `CleanedData`, `Errors` and `AddError` whose fields
have pairwise distinct normalized names, no name is at the same time a key of
the cleaned data and a key of the errors. -/
theorem C7_no_name_in_both_maps_when_names_distinct (L : Lib) (f : Form)
    (hreach : Reachable L f) (hnodup : (f.declaredNames L).Nodup) :
    ∀ k, ¬ (mapHas f.cleanedData k = true ∧ mapHas f.errors k = true) := by
  revert hnodup
  show (f.declaredNames L).Nodup → disjointKeys f.cleanedData f.errors
  induction hreach with
  | new opts f h =>
    intro _
    obtain ⟨-, -, h3, h4, -⟩ := New_fresh L opts f h
    rw [h3, h4]
    exact disjointKeys_nil
  | bindData f data langs _ ih =>
    intro hn
    rw [(BindData_maps L f data langs).1, (BindData_maps L f data langs).2]
    exact ih (by rw [BindData_declaredNames] at hn; exact hn)
  | setCleanFunc f clean _ ih => exact ih
  | isValid f f1 n b _ hr ih =>
    intro hn
    have hk := isValidWith_keepsDisjoint L n f f1 b hr
    rw [hk.1] at hn
    exact hk.2 hn (ih hn)
  | cleanedData f f1 n d _ hr ih =>
    intro hn
    have hk := cleanedDataWith_keepsDisjoint L n f f1 d hr
    rw [hk.1] at hn
    exact hk.2 hn (ih hn)
  | errors f f1 n e _ hr ih =>
    intro hn
    have hk := errorsWith_keepsDisjoint L n f f1 e hr
    rw [hk.1] at hn
    exact hk.2 hn (ih hn)
  | addError f field err _ ih =>
    intro hn
    rw [AddError_declaredNames] at hn
    exact AddError_disjointKeys L f field err (ih hn)

/-- C6 (evaluation at the failing input): a form with the one required char field
`name` whose validation function, installed with `SetValidateFunc`, reports no
error with the empty slice. `Clean` of that field returns zero errors and the
field has no error after validation, yet `IsValid()` returns false and `Errors()`
holds the empty list under `name`. -/
theorem C6_isValid_false_with_zero_errors (L : Lib) :
    ∃ f0 f1, New L [.WithCharField (emptySliceField L)] = .ok f0
      ∧ (∃ r, (emptySliceField L).Clean L [] = .ok r ∧ r.errs.len = 0)
      ∧ Form.IsValid L 1 (f0.BindData L [] []) = .ok (f1, false)
      ∧ f1.fields.map (fun fld => fld.field.HasErrors) = [false]
      ∧ Form.Errors L 1 f1 = .ok (f1, [(normalizedName L "name".toList, some [])]) :=
  ⟨_, _, rfl, ⟨_, rfl, rfl⟩, rfl, rfl, rfl⟩

/-- C3 (witness): the field with the options `x` and `y`, cleaned with the values
`x`, `not_an_option`, `y`, returns the three values and exactly one error, of
code `oneof`. -/
theorem C3_witness_one_invalid_among_valid :
    ∃ r, (xyMultipleChoiceField sampleLib).Clean sampleLib sampleChoiceValues = .ok r
      ∧ r.value = sampleChoiceValues
      ∧ r.errs.elems.map Error.Code = [ChoiceErrorCode] :=
  ⟨_, ((C3_multipleChoice_errors_are_concatenated sampleLib (xyMultipleChoiceField sampleLib)
      sampleChoiceValues ⟨"x".toList, by decide, by decide⟩).1).trans rfl, rfl, rfl⟩

/-- C4 (witness): the required field with the options `x` and `y`, cleaned with two
empty strings, returns exactly the required error. -/
theorem C4_witness_two_empty_strings :
    ∃ r, (xyMultipleChoiceField sampleLib).Clean sampleLib [[], []] = .ok r
      ∧ r.errs = some [requiredError] :=
  ⟨_, ((C4_multipleChoice_required_over_whole_list sampleLib (xyMultipleChoiceField sampleLib)
      [[], []] (by decide)).1).trans rfl, rfl⟩

/-- C5 (witness): the form with the required field `Name`, without data, and the
field `Nick` bound to `bob`. The pass logs `Clean` for `name`, then for `nick`,
then the clean function, although the first call returned an error. -/
theorem C5_witness_two_fields :
    twoFieldForm.bound = true ∧ twoFieldForm.validated = false
    ∧ ∃ f1, Form.doValidationIfNeeded sampleLib 1 twoFieldForm = .ok f1
      ∧ f1.trace = [.clean "name".toList [], .clean "nick".toList ["bob".toList], .hook]
      ∧ Form.Errors sampleLib 1 twoFieldForm = .ok (f1, copyErrors f1.errors) := by
  obtain ⟨-, f1, h1, h2, -, h4, -⟩ :=
    (C5_every_field_is_cleaned_once_in_order sampleLib twoFieldForm 0 rfl rfl).2 _ rfl
  exact ⟨rfl, rfl, f1, h1, h2, h4⟩

/-- C10 (witness): the form with the fields `Name` and `Nick`, bound to values for
`nick` and for `other`, keeps the values of `nick` and drops `other`. -/
theorem C10_witness_two_fields :
    ∃ f, New sampleLib twoFieldOptions = .ok f
      ∧ (f.BindData sampleLib
          [("nick".toList, ["bob".toList]), ("other".toList, ["x".toList])] []).IsBound = true
      ∧ mapGet (f.BindData sampleLib
          [("nick".toList, ["bob".toList]), ("other".toList, ["x".toList])] []).boundData
          "nick".toList = some ["bob".toList]
      ∧ mapGet (f.BindData sampleLib
          [("nick".toList, ["bob".toList]), ("other".toList, ["x".toList])] []).boundData
          "other".toList = none :=
  ⟨_, rfl,
    (C10_BindData_keeps_declared_names_only sampleLib twoFieldOptions _
      [("nick".toList, ["bob".toList]), ("other".toList, ["x".toList])] [] rfl).1,
    rfl, rfl⟩

/-- C7 (witness): the validated form with the fields `Name` and `Nick` is reachable,
its normalized names `name` and `nick` are distinct, and `name`, filed under the
errors, is not a key of the cleaned data. -/
theorem C7_witness_two_fields :
    Reachable sampleLib twoFieldValidated
    ∧ (twoFieldValidated.declaredNames sampleLib).Nodup
    ∧ mapHas twoFieldValidated.errors "name".toList = true
    ∧ mapHas twoFieldValidated.cleanedData "name".toList = false := by
  have hreach : Reachable sampleLib twoFieldValidated :=
    Reachable.isValid twoFieldForm twoFieldValidated 1 false
      (Reachable.bindData _ _ [] (Reachable.new twoFieldOptions _ rfl)) rfl
  have hnodup : (twoFieldValidated.declaredNames sampleLib).Nodup := by decide
  refine ⟨hreach, hnodup, rfl, ?_⟩
  have h := C7_no_name_in_both_maps_when_names_distinct sampleLib twoFieldValidated hreach hnodup
    "name".toList
  cases hc : mapHas twoFieldValidated.cleanedData "name".toList with
  | false => rfl
  | true => exact absurd ⟨hc, rfl⟩ h

/-! ## Lemmas on the rule grammar -/

theorem splitOnChar_of_not_mem (c : Char) (s : Str) (h : c ∉ s) : splitOnChar c s = [s] := by
  induction s with
  | nil => rfl
  | cons x xs ih =>
    have hx : x ≠ c := fun e => h (by simp [e])
    have hxs : c ∉ xs := fun e => h (by simp [e])
    simp [splitOnChar, hx, ih hxs]

theorem splitOnChar_append (c : Char) (a rest : Str) (h : c ∉ a) :
    splitOnChar c (a ++ c :: rest) = a :: splitOnChar c rest := by
  induction a with
  | nil => simp [splitOnChar]
  | cons x xs ih =>
    have hx : x ≠ c := fun e => h (by simp [e])
    have hxs : c ∉ xs := fun e => h (by simp [e])
    simp [splitOnChar, hx, ih hxs]

theorem splitOnChar_joinWith (c : Char) (parts : List Str) (hne : parts ≠ [])
    (h : ∀ p ∈ parts, c ∉ p) : splitOnChar c (joinWith [c] parts) = parts := by
  induction parts with
  | nil => exact absurd rfl hne
  | cons a rest ih =>
    cases rest with
    | nil => simpa [joinWith] using splitOnChar_of_not_mem c a (h a (by simp))
    | cons b rest1 =>
      have h1 := ih (by simp) (fun p hp => h p (List.mem_cons_of_mem _ hp))
      simp only [joinWith, List.append_assoc, List.singleton_append]
      rw [splitOnChar_append c a _ (h a (by simp)), h1]

theorem splitKeyParam_append (name p : Str) (h : '=' ∉ name) :
    splitKeyParam (name ++ '=' :: p) = (name, some p) := by
  induction name with
  | nil => simp [splitKeyParam]
  | cons x xs ih =>
    have hx : x ≠ '=' := fun e => h (by simp [e])
    have hxs : '=' ∉ xs := fun e => h (by simp [e])
    simp [splitKeyParam, hx, ih hxs]

theorem isPrefixOf_mem (old s : Str) (h : old.isPrefixOf s = true) : ∀ x ∈ old, x ∈ s := by
  induction old generalizing s with
  | nil => simp
  | cons a as ih =>
    cases s with
    | nil => simp [List.isPrefixOf] at h
    | cons b bs =>
      simp only [List.isPrefixOf, Bool.and_eq_true, beq_iff_eq] at h
      intro x hx
      rcases List.mem_cons.mp hx with hx | hx
      · simp [hx, h.1]
      · exact List.mem_cons_of_mem _ (ih bs h.2 x hx)

theorem replaceGo_of_not_mem (old new : Str) (x : Char) (hx : x ∈ old) (s : Str) (h : x ∉ s) :
    replaceGo old new 0 s = s := by
  induction s with
  | nil => rfl
  | cons c rest ih =>
    have hp : old.isPrefixOf (c :: rest) = false := by
      rw [Bool.eq_false_iff]
      intro hp
      exact h (isPrefixOf_mem old _ hp x hx)
    have hrest : x ∉ rest := fun e => h (List.mem_cons_of_mem _ e)
    simp [replaceGo, hp, ih hrest]

theorem digitChar_isDigit (d : Nat) (h : d < 10) : (Nat.digitChar d).isDigit = true := by
  interval_cases d <;> decide

theorem toDigitsCore_isDigit (f n : Nat) (acc : List Char) (hacc : ∀ c ∈ acc, c.isDigit = true) :
    ∀ c ∈ Nat.toDigitsCore 10 f n acc, c.isDigit = true := by
  induction f generalizing n acc with
  | zero => simpa [Nat.toDigitsCore] using hacc
  | succ f ih =>
    simp only [Nat.toDigitsCore]
    have hd : ∀ c ∈ Nat.digitChar (n % 10) :: acc, c.isDigit = true := by
      intro c hc
      rcases List.mem_cons.mp hc with hc | hc
      · rw [hc]
        exact digitChar_isDigit _ (Nat.mod_lt _ (by decide))
      · exact hacc c hc
    split
    · exact hd
    · exact ih _ _ hd

theorem formatUint_isDigit (n : Nat) : ∀ c ∈ formatUint n, c.isDigit = true :=
  toDigitsCore_isDigit _ _ [] (by simp)

theorem parseTag_of_parsesAlone (rule : Str) (h : parsesAlone rule) :
    ∃ res, parseTag rule = .ok res := by
  obtain ⟨-, hpipe, res, hres⟩ := h
  refine ⟨res, ?_⟩
  unfold parseTag
  rw [splitOnChar_of_not_mem '|' rule hpipe]
  exact hres

theorem mapExcept_parseTag_ok (rules : List Str) (h : ∀ r ∈ rules, parsesAlone r) :
    ∃ rs, mapExcept parseTag rules = .ok rs := by
  induction rules with
  | nil => exact ⟨[], rfl⟩
  | cons r rest ih =>
    obtain ⟨res, hres⟩ := parseTag_of_parsesAlone r (h r (by simp))
    obtain ⟨rs, hrs⟩ := ih (fun x hx => h x (List.mem_cons_of_mem _ hx))
    exact ⟨res :: rs, by simp [mapExcept, hres, hrs]⟩

theorem joinWith_cons (sep a : Str) (rest : List Str) :
    ∃ t, joinWith sep (a :: rest) = a ++ t := by
  cases rest with
  | nil => exact ⟨[], by simp [joinWith]⟩
  | cons b rest1 => exact ⟨sep ++ joinWith sep (b :: rest1), by simp [joinWith]⟩

/-- The rule engine on the empty value and a rule string that starts with
`required`: when the other rules parse, the one violation is `required`. -/
theorem validateValue_required_empty (L : Lib) (rules : List Str)
    (h : ∀ r ∈ rules, parsesAlone r) :
    validateValue L [] (buildValidationRules true rules)
      = .ok (some [ErrorWrap (some (.errorFromFieldError RequiredErrorCode []))]) := by
  obtain ⟨rs, hrs⟩ := mapExcept_parseTag_ok rules h
  have hparse : parseFieldTags (buildValidationRules true rules)
      = .ok ((Rule.required, []) :: rs) := by
    unfold parseFieldTags buildValidationRules
    simp only [if_true, List.singleton_append]
    rw [splitOnChar_joinWith ',' _ (by simp)]
    · have h0 : parseTag RequiredErrorCode = .ok (Rule.required, []) := by rfl
      simp [mapExcept, h0, hrs]
    · intro p hp
      rcases List.mem_cons.mp hp with hp | hp
      · rw [hp]
        decide
      · exact (h p hp).1
  have htag : ¬ (buildValidationRules true rules = [] ∨ buildValidationRules true rules = ['-']) := by
    unfold buildValidationRules
    simp only [if_true, List.singleton_append]
    obtain ⟨t, ht⟩ := joinWith_cons [','] RequiredErrorCode rules
    rw [ht]
    simp [RequiredErrorCode]
  unfold validateValue engineVar
  rw [if_neg htag, hparse]
  rfl

theorem not_mem_of_isDigit (c : Char) (s : Str) (hs : ∀ x ∈ s, x.isDigit = true)
    (hc : c.isDigit = false) : c ∉ s := by
  intro h
  have := hs c h
  rw [hc] at this
  cases this

theorem parsesAlone_lengthRule (name : Str) (n : Nat) (hname : name = MinLengthErrorCode ∨ name = MaxLengthErrorCode) :
    parsesAlone (name ++ ['='] ++ formatUint n) := by
  have hd := formatUint_isDigit n
  have hx : 'x' ∉ formatUint n := not_mem_of_isDigit _ _ hd (by decide)
  refine ⟨?_, ?_, ?_⟩
  · rcases hname with h | h <;> subst h <;>
      simpa [MinLengthErrorCode, MaxLengthErrorCode] using not_mem_of_isDigit ',' _ hd (by decide)
  · rcases hname with h | h <;> subst h <;>
      simpa [MinLengthErrorCode, MaxLengthErrorCode] using not_mem_of_isDigit '|' _ hd (by decide)
  · unfold parseOrVal
    have hsplit : splitKeyParam (name ++ ['='] ++ formatUint n) = (name, some (formatUint n)) := by
      rw [List.append_assoc]
      exact splitKeyParam_append name _ (by rcases hname with h | h <;> subst h <;> decide)
    rw [hsplit]
    rcases hname with h | h <;> subst h
    · exact ⟨_, rfl⟩
    · exact ⟨_, rfl⟩

theorem parsesAlone_lengthRules (d : FieldData) : ∀ r ∈ lengthRules d, parsesAlone r := by
  intro r hr
  unfold lengthRules at hr
  rcases List.mem_append.mp hr with hr | hr
  · split at hr
    · rw [List.mem_singleton.mp hr]
      exact parsesAlone_lengthRule _ _ (Or.inl rfl)
    · simp at hr
  · split at hr
    · rw [List.mem_singleton.mp hr]
      exact parsesAlone_lengthRule _ _ (Or.inr rfl)
    · simp at hr

theorem parsesAlone_boolean : parsesAlone BooleanErrorCode :=
  ⟨by decide, by decide, _, rfl⟩

theorem parsesAlone_email : parsesAlone EmailErrorCode :=
  ⟨by decide, by decide, _, rfl⟩

theorem mem_joinWith (sep : Str) (parts : List Str) (c : Char) (h : c ∈ joinWith sep parts) :
    c ∈ sep ∨ ∃ p ∈ parts, c ∈ p := by
  induction parts with
  | nil => simp [joinWith] at h
  | cons a rest ih =>
    cases rest with
    | nil =>
      simp only [joinWith] at h
      exact Or.inr ⟨a, by simp, h⟩
    | cons b rest1 =>
      simp only [joinWith, List.mem_append] at h
      rcases h with (h | h) | h
      · exact Or.inr ⟨a, by simp, h⟩
      · exact Or.inl h
      · rcases ih h with h1 | ⟨p, hp, hc⟩
        · exact Or.inl h1
        · exact Or.inr ⟨p, List.mem_cons_of_mem _ hp, hc⟩

theorem not_mem_choicesRule (c : Char) (choices : List Str) (hc : c ∉ choices.flatten)
    (h1 : c ∉ ChoiceErrorCode) (h2 : c ≠ '=') (h3 : c ≠ ' ') (h4 : c ≠ quoteChar) :
    c ∉ buildValidationChoicesRule choices := by
  intro h
  unfold buildValidationChoicesRule at h
  simp only [List.mem_append, List.mem_singleton] at h
  rcases h with (h | h) | h
  · exact h1 h
  · exact h2 h
  · rcases mem_joinWith _ _ _ h with h | ⟨p, hp, hcp⟩
    · exact h3 (by simpa using h)
    · obtain ⟨v, hv, rfl⟩ := List.mem_map.mp hp
      simp only [List.mem_append, List.mem_singleton] at hcp
      rcases hcp with (hcp | hcp) | hcp
      · exact h4 hcp
      · exact hc (List.mem_flatten.mpr ⟨v, hv, hcp⟩)
      · exact h4 hcp

theorem parsesAlone_choicesRule (choices : List Str) (hcomma : ',' ∉ choices.flatten)
    (hpipe : '|' ∉ choices.flatten) : parsesAlone (buildValidationChoicesRule choices) := by
  refine ⟨not_mem_choicesRule ',' choices hcomma (by decide) (by decide) (by decide) (by decide),
    not_mem_choicesRule '|' choices hpipe (by decide) (by decide) (by decide) (by decide), ?_⟩
  unfold parseOrVal buildValidationChoicesRule
  rw [List.append_assoc, List.singleton_append, splitKeyParam_append _ _ (by decide)]
  exact ⟨_, rfl⟩

/-! ## Required and optional fields on the empty value -/

theorem sanitize_empty (L : Lib) (hL : keepsEmpty L) (fld : Field) (hs : fld.sanitizeFunc = none) :
    fld.sanitize L [] = [] := by
  unfold Field.sanitize Field.currentSanitizeFunc
  rw [hs]
  have h1 : sanitizeToNoHTML L [] = [] := by
    unfold sanitizeToNoHTML
    rw [hL.1, hL.2, hL.1]
  cases fld.widget <;> exact h1

theorem customizeErrors_single_code (e : Error) (m : GoMap Error)
    (hm : customErrorsFiledByCode m) :
    (customizeErrors (some [e]) m).elems.map Error.Code = [e.Code] := by
  simp only [customizeErrors, List.map_cons, List.map_nil, ErrorList.elems]
  cases hg : mapGet m e.Code with
  | none => rfl
  | some ce => simp [hm _ _ hg]

theorem cleanSingle_required_empty (L : Lib) (hL : keepsEmpty L) (fld : Field) (emptyValue : Str)
    (hs : fld.sanitizeFunc = none) (hreq : fld.notRequired = false)
    (hce : customErrorsFiledByCode fld.customErrors)
    (hv : ∀ d : FieldData, d.optionGroups = fld.optionGroups → fld.validateFunc d [] true
      = .ok (some [ErrorWrap (some (.errorFromFieldError RequiredErrorCode []))])) :
    ∃ r, fld.cleanSingle L emptyValue [] = .ok r
      ∧ r.errs.elems.map Error.Code = [RequiredErrorCode] ∧ r.fld.errors = r.errs := by
  have hsan : Field.sanitize L { fld with boundValues := [[]] } [] = [] :=
    sanitize_empty L hL fld hs
  unfold Field.cleanSingle
  dsimp only
  rw [hsan, hreq]
  simp only [Bool.false_and, Bool.false_eq_true, if_false, Bool.not_false]
  rw [hv { fld.toFieldData with boundValues := [[]], notRequired := false } rfl]
  exact ⟨_, rfl, customizeErrors_single_code _ _ hce, rfl⟩

theorem cleanSingle_optional_empty (L : Lib) (hL : keepsEmpty L) (fld : Field) (emptyValue : Str)
    (hs : fld.sanitizeFunc = none) (hreq : fld.notRequired = true) :
    ∃ r, fld.cleanSingle L emptyValue [] = .ok r ∧ r.errs = none ∧ r.value = emptyValue := by
  have hsan : Field.sanitize L { fld with boundValues := [[]] } [] = [] :=
    sanitize_empty L hL fld hs
  unfold Field.cleanSingle
  dsimp only
  rw [hsan, hreq]
  simp only [List.length_nil, decide_True, Bool.and_self, if_true]
  exact ⟨_, rfl, rfl, rfl⟩

/-- X1: required/optional duality on the empty value, for fields with the default
sanitizer and the default validation function of their type, overrides filed by
code, and library functions that keep the empty string. On a required field
`Clean` of the empty value returns exactly one error, of code `required`; on a
field that is not required it returns no error and the empty value of the
field. For a choice field the first half needs option values without comma and
pipe (the rule string must parse). -/
theorem required_optional_duality (L : Lib) (hL : keepsEmpty L) :
    (∀ fld : BooleanField, fld.sanitizeFunc = none →
        fld.validateFunc = (fun _ => booleanFieldValidation L) →
        customErrorsFiledByCode fld.customErrors →
        (fld.notRequired = false →
          ∃ r, fld.Clean L [] = .ok r ∧ r.errs.elems.map Error.Code = [RequiredErrorCode])
        ∧ (fld.notRequired = true →
          ∃ r, fld.Clean L [] = .ok r ∧ r.errs = none ∧ r.value = fld.EmptyValue))
    ∧ (∀ fld : CharField, fld.sanitizeFunc = none →
        fld.validateFunc = charFieldValidationFunc L →
        customErrorsFiledByCode fld.customErrors →
        (fld.notRequired = false →
          ∃ r, fld.Clean L [] = .ok r ∧ r.errs.elems.map Error.Code = [RequiredErrorCode])
        ∧ (fld.notRequired = true →
          ∃ r, fld.Clean L [] = .ok r ∧ r.errs = none ∧ r.value = fld.EmptyValue))
    ∧ (∀ fld : EmailField, fld.sanitizeFunc = none →
        fld.validateFunc = emailFieldValidationFunc L →
        customErrorsFiledByCode fld.customErrors →
        (fld.notRequired = false →
          ∃ r, fld.Clean L [] = .ok r ∧ r.errs.elems.map Error.Code = [RequiredErrorCode])
        ∧ (fld.notRequired = true →
          ∃ r, fld.Clean L [] = .ok r ∧ r.errs = none ∧ r.value = fld.EmptyValue))
    ∧ (∀ fld : ChoiceField, fld.sanitizeFunc = none →
        fld.validateFunc = choiceFieldValidationFunc L →
        customErrorsFiledByCode fld.customErrors →
        (fld.notRequired = false →
          ',' ∉ (allChoices fld.toFieldData).flatten → '|' ∉ (allChoices fld.toFieldData).flatten →
          ∃ r, fld.Clean L [] = .ok r ∧ r.errs.elems.map Error.Code = [RequiredErrorCode])
        ∧ (fld.notRequired = true →
          ∃ r, fld.Clean L [] = .ok r ∧ r.errs = none ∧ r.value = fld.EmptyValue))
    ∧ (∀ fld : MultipleChoiceField,
        (fld.notRequired = false →
          ∃ r, fld.Clean L [] = .ok r ∧ r.errs.elems.map Error.Code = [RequiredErrorCode])
        ∧ (fld.notRequired = true →
          ∃ r, fld.Clean L [] = .ok r ∧ r.errs = none ∧ r.value = fld.EmptyValue)) := by
  refine ⟨?_, ?_, ?_, ?_, ?_⟩
  · intro fld hs hv hce
    constructor
    · intro hreq
      obtain ⟨r, hr, hcode, -⟩ := cleanSingle_required_empty L hL fld.toField fld.EmptyValue hs hreq
        hce (fun d hd => by
          rw [hv]
          exact validateValue_required_empty L [BooleanErrorCode]
            (fun r hr => by rw [List.mem_singleton.mp hr]; exact parsesAlone_boolean))
      exact ⟨{ fld := { fld with toField := r.fld }, value := r.value, errs := r.errs },
        by simp only [BooleanField.Clean, hr], hcode⟩
    · intro hreq
      obtain ⟨r, hr, hnone, hval⟩ :=
        cleanSingle_optional_empty L hL fld.toField fld.EmptyValue hs hreq
      exact ⟨{ fld := { fld with toField := r.fld }, value := r.value, errs := r.errs },
        by simp only [BooleanField.Clean, hr], hnone, hval⟩
  · intro fld hs hv hce
    constructor
    · intro hreq
      obtain ⟨r, hr, hcode, -⟩ := cleanSingle_required_empty L hL fld.toField fld.EmptyValue hs hreq
        hce (fun d hd => by
          rw [hv]
          exact validateValue_required_empty L (lengthRules d) (parsesAlone_lengthRules d))
      exact ⟨{ fld := { fld with toField := r.fld }, value := r.value, errs := r.errs },
        by simp only [CharField.Clean, hr], hcode⟩
    · intro hreq
      obtain ⟨r, hr, hnone, hval⟩ :=
        cleanSingle_optional_empty L hL fld.toField fld.EmptyValue hs hreq
      exact ⟨{ fld := { fld with toField := r.fld }, value := r.value, errs := r.errs },
        by simp only [CharField.Clean, hr], hnone, hval⟩
  · intro fld hs hv hce
    constructor
    · intro hreq
      obtain ⟨r, hr, hcode, -⟩ := cleanSingle_required_empty L hL fld.toField fld.EmptyValue hs hreq
        hce (fun d hd => by
          rw [hv]
          exact validateValue_required_empty L (lengthRules d ++ [EmailErrorCode])
            (fun r hr => by
              rcases List.mem_append.mp hr with hr | hr
              · exact parsesAlone_lengthRules d r hr
              · rw [List.mem_singleton.mp hr]
                exact parsesAlone_email))
      exact ⟨{ fld := { fld with toField := r.fld }, value := r.value, errs := r.errs },
        by simp only [EmailField.Clean, hr], hcode⟩
    · intro hreq
      obtain ⟨r, hr, hnone, hval⟩ :=
        cleanSingle_optional_empty L hL fld.toField fld.EmptyValue hs hreq
      exact ⟨{ fld := { fld with toField := r.fld }, value := r.value, errs := r.errs },
        by simp only [EmailField.Clean, hr], hnone, hval⟩
  · intro fld hs hv hce
    constructor
    · intro hreq hcomma hpipe
      obtain ⟨r, hr, hcode, -⟩ := cleanSingle_required_empty L hL fld.toField fld.EmptyValue hs hreq
        hce (fun d hd => by
          rw [hv]
          have hch : allChoices d = allChoices fld.toFieldData := by
            unfold allChoices
            rw [hd]
          simp only [choiceFieldValidationFunc, Bool.not_true, Bool.false_and, Bool.false_eq_true,
            if_false]
          exact validateValue_required_empty L _
            (fun r hr => by
              rw [List.mem_singleton.mp hr, hch]
              exact parsesAlone_choicesRule _ hcomma hpipe))
      exact ⟨{ fld := { fld with toField := r.fld }, value := r.value, errs := r.errs },
        by simp only [ChoiceField.Clean, hr], hcode⟩
    · intro hreq
      obtain ⟨r, hr, hnone, hval⟩ :=
        cleanSingle_optional_empty L hL fld.toField fld.EmptyValue hs hreq
      exact ⟨{ fld := { fld with toField := r.fld }, value := r.value, errs := r.errs },
        by simp only [ChoiceField.Clean, hr], hnone, hval⟩
  · intro fld
    have h := multipleChoiceClean_all_empty L fld [] (by simp)
    constructor
    · intro hreq
      rw [h]
      simp only [hreq, Bool.false_eq_true, if_false]
      exact ⟨_, rfl, rfl⟩
    · intro hreq
      rw [h]
      simp only [hreq, if_true]
      exact ⟨_, rfl, rfl, rfl⟩

/-! ## The `oneof` rule on plain option values -/

theorem splitParamsGo_quoted (acc v rest : Str) (hv : quoteChar ∉ v) :
    splitParamsGo (.quoted acc) (v ++ quoteChar :: rest)
      = (acc ++ v ++ [quoteChar]) :: splitParamsGo .idle rest := by
  induction v generalizing acc with
  | nil => simp [splitParamsGo]
  | cons x xs ih =>
    have hx : x ≠ quoteChar := fun e => hv (by simp [e])
    have hxs : quoteChar ∉ xs := fun e => hv (by simp [e])
    have hgo : splitParamsGo (.quoted acc) (x :: xs ++ quoteChar :: rest)
        = splitParamsGo (.quoted (acc ++ [x])) (xs ++ quoteChar :: rest) := by
      show splitParamsGo (.quoted acc) (x :: (xs ++ quoteChar :: rest)) = _
      simp only [splitParamsGo, hx, if_false]
    rw [hgo, ih (acc ++ [x]) hxs]
    simp

theorem splitParamsGo_idle_quoted (v rest : Str) (hv : quoteChar ∉ v) :
    splitParamsGo .idle (quoted v ++ rest) = quoted v :: splitParamsGo .idle rest := by
  have hmem : quoteChar ∈ v ++ quoteChar :: rest := by simp
  have h : quoted v ++ rest = quoteChar :: (v ++ quoteChar :: rest) := by simp [quoted]
  rw [h]
  simp only [splitParamsGo, hmem, and_self, if_true]
  rw [splitParamsGo_quoted [quoteChar] v rest hv]
  simp [quoted]

theorem splitParamsGo_idle_space (rest : Str) :
    splitParamsGo .idle (' ' :: rest) = splitParamsGo .idle rest := by
  have h1 : ¬ (' ' = quoteChar ∧ quoteChar ∈ rest) := by
    intro h
    exact absurd h.1 (by decide)
  have h2 : isRegexSpace ' ' = true := by decide
  simp only [splitParamsGo, h1, if_false, h2, if_true]

theorem splitParams_joined (choices : List Str) (h : ∀ v ∈ choices, quoteChar ∉ v) :
    splitParams (joinWith [' '] (choices.map quoted)) = choices.map quoted := by
  unfold splitParams
  induction choices with
  | nil => simp [joinWith, splitParamsGo]
  | cons a rest ih =>
    cases rest with
    | nil =>
      have := splitParamsGo_idle_quoted a [] (h a (by simp))
      simpa [joinWith, splitParamsGo] using this
    | cons b rest1 =>
      have ih1 := ih (fun v hv => h v (List.mem_cons_of_mem _ hv))
      simp only [List.map_cons, joinWith, List.append_assoc, List.singleton_append] at ih1 ⊢
      rw [splitParamsGo_idle_quoted a _ (h a (by simp)), splitParamsGo_idle_space, ih1]

theorem filter_quoted (v : Str) (hv : quoteChar ∉ v) :
    (quoted v).filter (fun c => decide (c ≠ quoteChar)) = v := by
  have h1 : v.filter (fun c => decide (c ≠ quoteChar)) = v := by
    rw [List.filter_eq_self]
    intro c hc
    have hne : c ≠ quoteChar := fun e => hv (by rw [← e]; exact hc)
    simpa using hne
  simp only [quoted, List.filter_append, h1]
  simp

theorem parseOneOfParam2_joined (choices : List Str) (h : ∀ v ∈ choices, quoteChar ∉ v) :
    parseOneOfParam2 (joinWith [' '] (choices.map quoted)) = choices := by
  unfold parseOneOfParam2
  rw [splitParams_joined choices h, List.map_map]
  conv => rhs; rw [← List.map_id choices]
  apply List.map_congr_left
  intro v hv
  simpa using filter_quoted v (h v hv)

theorem isPrefixOf_append_cons (old t rest : Str) (c : Char) (hc : c ∉ old)
    (h : old.isPrefixOf (t ++ c :: rest) = true) : old.isPrefixOf t = true := by
  induction old generalizing t with
  | nil => simp [List.isPrefixOf]
  | cons a as ih =>
    cases t with
    | nil =>
      simp only [List.nil_append, List.isPrefixOf, Bool.and_eq_true, beq_iff_eq] at h
      exact absurd (by simp [h.1]) hc
    | cons x xs =>
      simp only [List.cons_append, List.isPrefixOf, Bool.and_eq_true, beq_iff_eq] at h ⊢
      exact ⟨h.1, ih xs (fun e => hc (List.mem_cons_of_mem _ e)) h.2⟩

theorem occursIn_cons (old : Str) (x : Char) (xs : Str) (h : occursIn old (x :: xs) = false) :
    old.isPrefixOf (x :: xs) = false ∧ occursIn old xs = false := by
  simpa [occursIn, List.tails] using h

theorem replaceGo_append_cons (old new v rest : Str) (c : Char) (hold : old ≠ [])
    (hc : c ∉ old) (hv : occursIn old v = false) :
    replaceGo old new 0 (v ++ c :: rest) = v ++ c :: replaceGo old new 0 rest := by
  induction v with
  | nil =>
    have hp : old.isPrefixOf (c :: rest) = false := by
      rw [Bool.eq_false_iff]
      intro hp
      have := isPrefixOf_append_cons old [] rest c hc (by simpa using hp)
      cases old with
      | nil => exact hold rfl
      | cons a as => simp [List.isPrefixOf] at this
    simp [replaceGo, hp]
  | cons x xs ih =>
    obtain ⟨h1, h2⟩ := occursIn_cons old x xs hv
    have hp : old.isPrefixOf (x :: xs ++ c :: rest) = false := by
      rw [Bool.eq_false_iff]
      intro hp
      have := isPrefixOf_append_cons old (x :: xs) rest c hc hp
      rw [h1] at this
      cases this
    simp only [List.cons_append] at hp ⊢
    simp [replaceGo, hp, ih h2]

theorem occursIn_nil (old : Str) (hold : old ≠ []) : occursIn old [] = false := by
  cases old with
  | nil => exact absurd rfl hold
  | cons a as => simp [occursIn, List.tails, List.isPrefixOf]

theorem replaceAll_cons (old new rest : Str) (c : Char) (hold : old ≠ []) (hc : c ∉ old) :
    replaceAll old new (c :: rest) = c :: replaceAll old new rest := by
  unfold replaceAll
  exact replaceGo_append_cons old new [] rest c hold hc (occursIn_nil old hold)

theorem replaceAll_quoted_append (old new v rest : Str) (hold : old ≠ [])
    (hq : quoteChar ∉ old) (hv : occursIn old v = false) :
    replaceAll old new (quoted v ++ rest) = quoted v ++ replaceAll old new rest := by
  have h : quoted v ++ rest = quoteChar :: (v ++ quoteChar :: rest) := by simp [quoted]
  rw [h, replaceAll_cons old new _ quoteChar hold hq]
  unfold replaceAll
  rw [replaceGo_append_cons old new v rest quoteChar hold hq hv]
  simp [quoted]

theorem replaceAll_joined (old new : Str) (choices : List Str) (hold : old ≠ [])
    (hq : quoteChar ∉ old) (hsp : ' ' ∉ old) (h : ∀ v ∈ choices, occursIn old v = false) :
    replaceAll old new (joinWith [' '] (choices.map quoted))
      = joinWith [' '] (choices.map quoted) := by
  induction choices with
  | nil => rfl
  | cons a rest ih =>
    cases rest with
    | nil =>
      have := replaceAll_quoted_append old new a [] hold hq (h a (by simp))
      simpa [joinWith, replaceAll, replaceGo] using this
    | cons b rest1 =>
      have ih1 := ih (fun v hv => h v (List.mem_cons_of_mem _ hv))
      simp only [List.map_cons, joinWith, List.append_assoc, List.singleton_append] at ih1 ⊢
      rw [replaceAll_quoted_append old new a _ hold hq (h a (by simp)),
        replaceAll_cons old new _ ' ' hold hsp, ih1]

theorem buildValidationChoicesRule_eq (choices : List Str) :
    buildValidationChoicesRule choices
      = ChoiceErrorCode ++ '=' :: joinWith [' '] (choices.map quoted) := by
  simp [buildValidationChoicesRule, quoted]
  rfl

theorem parseTag_choicesRule (choices : List Str) (h : ∀ v ∈ choices, plainChoice v) :
    parseTag (buildValidationChoicesRule choices)
      = .ok (Rule.oneof, joinWith [' '] (choices.map quoted)) := by
  have hpipe : '|' ∉ choices.flatten := by
    intro hm
    obtain ⟨v, hv, hc⟩ := List.mem_flatten.mp hm
    exact (h v hv).2.2.1 hc
  unfold parseTag
  rw [splitOnChar_of_not_mem '|' _
    (not_mem_choicesRule '|' choices hpipe (by decide) (by decide) (by decide) (by decide))]
  simp only
  unfold parseOrVal
  rw [buildValidationChoicesRule_eq, splitKeyParam_append _ _ (by decide)]
  have hl : lookupValidation ChoiceErrorCode = .ok Rule.oneof := by rfl
  simp only [hl]
  rw [replaceAll_joined "0x2C".toList [','] choices (by decide) (by decide) (by decide)
    (fun v hv => (h v hv).2.2.2.1),
    replaceAll_joined "0x7C".toList ['|'] choices (by decide) (by decide) (by decide)
    (fun v hv => (h v hv).2.2.2.2)]

/-- The rule engine on a non-empty value and the rule string of a choice field
whose option values are plain: no violation when the value is an option value,
the violation `oneof` otherwise, with or without `required`. -/
theorem validateValue_choices (L : Lib) (choices : List Str) (h : ∀ v ∈ choices, plainChoice v)
    (value : Str) (hvalue : value ≠ []) (required : Bool) :
    validateValue L value (buildValidationRules required [buildValidationChoicesRule choices])
      = .ok (if value ∈ choices then none
             else some [ErrorWrap (some (.errorFromFieldError ChoiceErrorCode
                    (joinWith [' '] (choices.map quoted))))]) := by
  have hcomma : ',' ∉ choices.flatten := by
    intro hm
    obtain ⟨v, hv, hc⟩ := List.mem_flatten.mp hm
    exact (h v hv).2.1 hc
  have hrule : ',' ∉ buildValidationChoicesRule choices :=
    not_mem_choicesRule ',' choices hcomma (by decide) (by decide) (by decide) (by decide)
  have hq : ∀ v ∈ choices, quoteChar ∉ v := fun v hv => (h v hv).1
  have hrun : runRules L value [(Rule.oneof, joinWith [' '] (choices.map quoted))]
      = .ok (if value ∈ choices then none
             else some (ChoiceErrorCode, joinWith [' '] (choices.map quoted))) := by
    simp only [runRules, checkRule, parseOneOfParam2_joined choices hq]
    by_cases hm : value ∈ choices
    · simp [hm]
    · simp [hm, Rule.name]
  cases required with
  | false =>
    have htag : ¬ (buildValidationRules false [buildValidationChoicesRule choices] = []
        ∨ buildValidationRules false [buildValidationChoicesRule choices] = ['-']) := by
      simp [buildValidationRules, joinWith, buildValidationChoicesRule_eq, ChoiceErrorCode]
    have hparse : parseFieldTags (buildValidationRules false [buildValidationChoicesRule choices])
        = .ok [(Rule.oneof, joinWith [' '] (choices.map quoted))] := by
      unfold parseFieldTags
      simp only [buildValidationRules, Bool.false_eq_true, if_false, List.nil_append, joinWith]
      rw [splitOnChar_of_not_mem ',' _ hrule]
      simp [mapExcept, parseTag_choicesRule choices h]
    unfold validateValue engineVar
    rw [if_neg htag, hparse]
    simp only [hrun]
    by_cases hm : value ∈ choices <;> simp [hm]
  | true =>
    have htag : ¬ (buildValidationRules true [buildValidationChoicesRule choices] = []
        ∨ buildValidationRules true [buildValidationChoicesRule choices] = ['-']) := by
      simp [buildValidationRules, joinWith, RequiredErrorCode]
    have hparse : parseFieldTags (buildValidationRules true [buildValidationChoicesRule choices])
        = .ok [(Rule.required, []), (Rule.oneof, joinWith [' '] (choices.map quoted))] := by
      unfold parseFieldTags buildValidationRules
      simp only [if_true, List.singleton_append]
      rw [splitOnChar_joinWith ',' _ (by simp)]
      · have h0 : parseTag RequiredErrorCode = .ok (Rule.required, []) := by rfl
        simp [mapExcept, h0, parseTag_choicesRule choices h]
      · intro p hp
        rcases List.mem_cons.mp hp with hp | hp
        · rw [hp]
          decide
        · rw [List.mem_singleton.mp hp]
          exact hrule
    unfold validateValue engineVar
    rw [if_neg htag, hparse]
    have hreq : checkRule L Rule.required [] value = .ok true := by
      simp [checkRule, hvalue]
    simp only [runRules, hreq]
    have hrun1 := hrun
    simp only [runRules] at hrun1
    simp only [hrun1]
    by_cases hm : value ∈ choices <;> simp [hm]

theorem mem_allChoices (d : FieldData) (v : Str) :
    v ∈ allChoices d ↔ ∃ g ∈ d.optionGroups, ∃ o ∈ g.options, o.Value = v := by
  unfold allChoices
  have hgen : ∀ (groups : List choiceFieldOptionGroup) (acc : List Str),
      v ∈ groups.foldl (fun choices group => choices ++ group.values) acc
        ↔ v ∈ acc ∨ ∃ g ∈ groups, ∃ o ∈ g.options, o.Value = v := by
    intro groups
    induction groups with
    | nil => simp
    | cons g rest ih =>
      intro acc
      rw [List.foldl_cons, ih]
      simp only [List.mem_append, choiceFieldOptionGroup.values, List.mem_map, List.mem_cons,
        exists_eq_or_imp]
      constructor
      · rintro ((h1 | h1) | h1)
        · exact Or.inl h1
        · exact Or.inr (Or.inl h1)
        · exact Or.inr (Or.inr h1)
      · rintro (h1 | h1 | h1)
        · exact Or.inl (Or.inl h1)
        · exact Or.inl (Or.inr h1)
        · exact Or.inr h1
  simpa using hgen d.optionGroups []

theorem cleanSingle_nonempty (L : Lib) (fld : Field) (emptyValue raw : Str)
    (hne : fld.sanitize L raw ≠ []) (errs : ErrorList)
    (hval : ∀ d : FieldData, d.optionGroups = fld.optionGroups →
      fld.validateFunc d (fld.sanitize L raw) (!fld.notRequired) = .ok errs) :
    fld.cleanSingle L emptyValue raw =
      .ok { fld := { fld with boundValues := [raw],
                              errors := customizeErrors errs fld.customErrors },
            value := fld.sanitize L raw,
            errs := customizeErrors errs fld.customErrors } := by
  have hsan : Field.sanitize L { fld with boundValues := [raw] } raw = fld.sanitize L raw := rfl
  have hlen : decide ((fld.sanitize L raw).length = 0) = false := by
    simpa using hne
  unfold Field.cleanSingle
  dsimp only
  rw [hsan, hlen, hval { fld.toFieldData with boundValues := [raw] } rfl]
  simp

/-- X2: a choice field with the default validation function, overrides filed by code
and plain option values (no quote, comma, pipe or escape `0x2C`/`0x7C`; spaces
are allowed), required or not: for an input whose sanitized value is not empty,
`Clean` returns the sanitized value, with no error exactly when the value is
the `Value` of an option of some group, and with one error of code `oneof`
otherwise. -/
theorem choice_clean_on_plain_options (L : Lib) (fld : ChoiceField) (raw : Str)
    (hv : fld.validateFunc = choiceFieldValidationFunc L)
    (hce : customErrorsFiledByCode fld.customErrors)
    (hplain : ∀ v ∈ allChoices fld.toFieldData, plainChoice v)
    (hne : fld.toField.sanitize L raw ≠ []) :
    ∃ r, fld.Clean L raw = .ok r ∧ r.value = fld.toField.sanitize L raw
      ∧ (r.errs.len = 0 ↔
          ∃ g ∈ fld.optionGroups, ∃ o ∈ g.options, o.Value = fld.toField.sanitize L raw)
      ∧ (r.errs.len ≠ 0 → r.errs.elems.map Error.Code = [ChoiceErrorCode]) := by
  have hval : ∀ d : FieldData, d.optionGroups = fld.optionGroups →
      fld.validateFunc d (fld.toField.sanitize L raw) (!fld.notRequired)
        = .ok (if fld.toField.sanitize L raw ∈ allChoices fld.toFieldData then none
               else some [ErrorWrap (some (.errorFromFieldError ChoiceErrorCode
                      (joinWith [' '] ((allChoices fld.toFieldData).map quoted))))]) := by
    intro d hd
    have hch : allChoices d = allChoices fld.toFieldData := by
      unfold allChoices
      rw [hd]
    have hlen : decide ((fld.toField.sanitize L raw).length = 0) = false := by
      simpa using hne
    rw [hv]
    simp only [choiceFieldValidationFunc, hlen, Bool.and_false, Bool.false_eq_true, if_false, hch]
    exact validateValue_choices L _ hplain _ hne _
  have hclean := cleanSingle_nonempty L fld.toField fld.EmptyValue raw hne _ hval
  have hC : ∃ r, fld.Clean L raw = .ok r ∧ r.value = fld.toField.sanitize L raw
      ∧ r.errs = customizeErrors
          (if fld.toField.sanitize L raw ∈ allChoices fld.toFieldData then none
           else some [ErrorWrap (some (.errorFromFieldError ChoiceErrorCode
                  (joinWith [' '] ((allChoices fld.toFieldData).map quoted))))])
          fld.customErrors := by
    unfold ChoiceField.Clean
    rw [hclean]
    exact ⟨_, rfl, rfl, rfl⟩
  obtain ⟨r, hr, hvalue, herrs⟩ := hC
  refine ⟨r, hr, hvalue, ?_, ?_⟩
  · rw [← mem_allChoices, herrs]
    by_cases hm : fld.toField.sanitize L raw ∈ allChoices fld.toFieldData
    · simp [hm, customizeErrors, ErrorList.len]
    · simp [hm, customizeErrors, ErrorList.len]
  · intro hlen
    rw [herrs] at hlen ⊢
    by_cases hm : fld.toField.sanitize L raw ∈ allChoices fld.toFieldData
    · simp [hm, customizeErrors, ErrorList.len] at hlen
    · simp only [hm, if_false]
      exact customizeErrors_single_code _ _ hce

theorem BindData_bound (L : Lib) (f : Form) (data : GoMap (List Str)) (langs : List Str) :
    (f.BindData L data langs).bound = true := by
  unfold Form.BindData
  split
  · assumption
  · rfl

theorem doValidationIfNeeded_ok (L : Lib) (n : Nat) (f g : Form)
    (h : Form.doValidationIfNeeded L n f = .ok g) :
    g.validated = true ∧ (f.bound = true → g.bound = true) := by
  by_cases hv : f.validated = true
  · rw [doValidationIfNeeded_validated L n f hv] at h
    injection h with h
    subst h
    exact ⟨hv, fun hb => hb⟩
  · have hv0 : f.validated = false := by simpa using hv
    cases n with
    | zero => simp [Form.doValidationIfNeeded, hv0] at h
    | succ n =>
      cases hres : mapExcept (cleanBound L f.boundData) f.fields with
      | error a =>
        rw [doValidationIfNeeded_unfold L n f hv0, validationLoop_of_error L _ _ _ a hres] at h
        cases h
      | ok results =>
        obtain ⟨g1, hg1, hval1, hP⟩ := doValidationIfNeeded_first L f n hv0 results hres
          (fun x : Form => f.bound = true → x.bound = true)
          (fun x field err _ hP hb => by rw [AddError_bound]; exact hP hb)
          (fun x data langs _ _ _ => BindData_bound L x data langs)
          (fun _ _ _ hP => hP)
          (fun _ _ hb => hb)
        rw [hg1] at h
        injection h with h
        subst h
        exact ⟨hval1, hP⟩

/-- X3: what `IsValid()` returns: on an unbound form false, without validating; on a
bound form, validated or not, true exactly when the errors of the form after
the validation pass have no key. -/
theorem isValid_characterised (L : Lib) (f f1 : Form) (n : Nat) (b : Bool)
    (h : Form.IsValid L n f = .ok (f1, b)) :
    (f.bound = false → f1 = f ∧ b = false)
    ∧ (f.bound = true →
        Form.doValidationIfNeeded L n f = .ok f1 ∧ b = decide (f1.errors = [])) := by
  unfold Form.IsValid isValidWith Form.IsBound at h
  constructor
  · intro hb
    simp only [hb, Bool.not_false, if_true] at h
    injection h with h
    injection h with h1 h2
    exact ⟨h1.symm, h2.symm⟩
  · intro hb
    simp only [hb, Bool.not_true, Bool.false_eq_true, if_false] at h
    cases hd : Form.doValidationIfNeeded L n f with
    | error a => simp [hd] at h
    | ok g =>
      simp only [hd] at h
      obtain ⟨hgv, hgb⟩ := doValidationIfNeeded_ok L n f g hd
      rw [errorsWith_validated _ (fun x hx => doValidationIfNeeded_validated L n x hx) g hgv] at h
      injection h with h
      injection h with h1 h2
      subst h1
      refine ⟨rfl, ?_⟩
      rw [← h2]
      simp only [hgb hb, if_true]
      cases hge : g.errors with
      | nil => simp [copyErrors]
      | cons p rest => simp [copyErrors]

/-- X1 (witness): the required field `DefaultCharField("Name")` cleaned with the
empty string returns exactly one error, of code `required`. -/
theorem X1_witness_required_char_field :
    ∃ r, (sampleCharField "Name".toList false).Clean sampleLib [] = .ok r
      ∧ r.errs.elems.map Error.Code = [RequiredErrorCode] :=
  ((required_optional_duality sampleLib ⟨rfl, rfl⟩).2.1 (sampleCharField "Name".toList false)
    rfl rfl (fun k e h => by simp [sampleCharField, baseField, mapGet] at h)).1 rfl

/-- X2 (witness): the choice field with the options `one monkey` and `two monkeys`
accepts the input `two monkeys`. -/
theorem X2_witness_option_with_space :
    ∃ r, spaceChoiceField.Clean sampleLib "two monkeys".toList = .ok r ∧ r.errs.len = 0 := by
  obtain ⟨r, hr, -, hiff, -⟩ := choice_clean_on_plain_options sampleLib spaceChoiceField
    "two monkeys".toList rfl (fun k e h => by simp [spaceChoiceField, baseField,
      Field.AddChoiceOptions, mapGet] at h)
    (by
      intro v hv
      have hv1 : v = "one monkey".toList ∨ v = "two monkeys".toList := by
        simpa [allChoices, spaceChoiceField, baseField, Field.AddChoiceOptions,
          choiceFieldOptionGroup.values] using hv
      rcases hv1 with h | h <;> subst h <;> unfold plainChoice <;> decide)
    (by decide)
  exact ⟨r, hr, hiff.mpr ⟨⟨[], [⟨"one monkey".toList, "One".toList⟩,
    ⟨"two monkeys".toList, "Two".toList⟩]⟩, by decide, ⟨"two monkeys".toList, "Two".toList⟩,
    by decide, rfl⟩⟩

/-- X3 (witness): `IsValid()` on the bound form with the fields `Name` and `Nick`
runs the validation pass and returns false, the errors having the key `name`. -/
theorem X3_witness_two_fields :
    Form.IsValid sampleLib 1 twoFieldForm = .ok (twoFieldValidated, false)
    ∧ Form.doValidationIfNeeded sampleLib 1 twoFieldForm = .ok twoFieldValidated :=
  ⟨rfl, ((isValid_characterised sampleLib twoFieldForm twoFieldValidated 1 false rfl).2 rfl).1⟩

/-! ## `AddError` -/

theorem updateFirst_split {α : Type} (p : α → Bool) (g : α → α) (l : List α) (a : α)
    (h : l.find? p = some a) :
    ∃ pre post, l = pre ++ a :: post ∧ (∀ x ∈ pre, p x = false)
      ∧ updateFirst p g l = pre ++ g a :: post := by
  induction l with
  | nil => simp at h
  | cons b rest ih =>
    by_cases hp : p b = true
    · rw [List.find?_cons_of_pos _ hp] at h
      injection h with h
      subst h
      exact ⟨[], rest, rfl, by simp, by simp [updateFirst, hp]⟩
    · rw [List.find?_cons_of_neg _ hp] at h
      obtain ⟨pre, post, h1, h2, h3⟩ := ih h
      refine ⟨b :: pre, post, by simp [h1], ?_, by simp [updateFirst, hp, h3]⟩
      intro x hx
      rcases List.mem_cons.mp hx with rfl | hx
      · simpa using hp
      · exact h2 x hx

/-- C12: `AddError` returns an error exactly when the form is not validated yet
or no declared field has an HTML name equal to `field` or to the normalized
`field`; whenever it returns an error the form is left as it was, so its errors,
its cleaned data and the error list of every field are unchanged. -/
theorem C12_AddError_error_iff_unvalidated_or_unknown (L : Lib) (f : Form) (field : Str)
    (err : Option GoError) :
    ((f.AddError L field err).2.isSome = true ↔
        (f.validated = false ∨
          ∀ fld ∈ f.fields, fld.field.HTMLName L ≠ field
            ∧ fld.field.HTMLName L ≠ normalizedName L field))
    ∧ ((f.AddError L field err).2.isSome = true →
        (f.AddError L field err).1 = f
        ∧ (f.AddError L field err).1.errors = f.errors
        ∧ (f.AddError L field err).1.cleanedData = f.cleanedData
        ∧ (f.AddError L field err).1.fields.map (fun fld => fld.field.errors)
            = f.fields.map (fun fld => fld.field.errors)) := by
  have hnone : f.internalFieldByName L field = none ↔
      ∀ fld ∈ f.fields, fld.field.HTMLName L ≠ field
        ∧ fld.field.HTMLName L ≠ normalizedName L field := by
    unfold Form.internalFieldByName
    rw [List.find?_eq_none]
    simp [fieldMatches]
  unfold Form.AddError
  cases hv : f.validated with
  | false => simp
  | true =>
    cases hf : f.internalFieldByName L field with
    | none => simpa using hnone.mp hf
    | some fld =>
      have : ¬ ∀ fld ∈ f.fields, fld.field.HTMLName L ≠ field
          ∧ fld.field.HTMLName L ≠ normalizedName L field := by
        intro h
        rw [hnone.mpr h] at hf
        exact Option.noConfusion hf
      simp [this]

/-- C13: on a validated form, `AddError` on a name that a field matches returns
no error; the first matching field gets the wrapped error appended to its own
error list and every other field is left as it is; the wrapped error is appended
to the error list filed under the normalized name of that field; that name is
no longer a key of the cleaned data; the cleaned data and the errors filed under
every other name are unchanged. -/
theorem C13_AddError_appends_and_evicts (L : Lib) (f : Form) (field : Str) (err : Option GoError)
    (fld : fieldInterface) (hv : f.validated = true)
    (hfld : f.internalFieldByName L field = some fld) :
    (f.AddError L field err).2 = none
    ∧ (∃ pre post, f.fields = pre ++ fld :: post
        ∧ (∀ x ∈ pre, fieldMatches L field x = false)
        ∧ (f.AddError L field err).1.fields
            = pre ++ fld.update (fun y => y.addError (errorWrapIfNotAsError err)) :: post)
    ∧ (fld.update (fun y => y.addError (errorWrapIfNotAsError err))).field.errors.elems
        = fld.field.errors.elems ++ [errorWrapIfNotAsError err]
    ∧ ((mapGet (f.AddError L field err).1.errors (normalizedNameForField L fld.field)).getD
          none).elems
        = ((mapGet f.errors (normalizedNameForField L fld.field)).getD none).elems
            ++ [errorWrapIfNotAsError err]
    ∧ mapHas (f.AddError L field err).1.cleanedData (normalizedNameForField L fld.field) = false
    ∧ (∀ k, k ≠ normalizedNameForField L fld.field →
        mapGet (f.AddError L field err).1.cleanedData k = mapGet f.cleanedData k
        ∧ mapGet (f.AddError L field err).1.errors k = mapGet f.errors k) := by
  have hA : f.AddError L field err =
      ({ f with
          fields := updateFirst (fieldMatches L field)
            (fun x => x.update (fun y => y.addError (errorWrapIfNotAsError err))) f.fields,
          errors := mapSet f.errors (normalizedNameForField L fld.field)
            (((mapGet f.errors (normalizedNameForField L fld.field)).getD none).append
              [errorWrapIfNotAsError err]),
          cleanedData := mapDelete f.cleanedData (normalizedNameForField L fld.field) }, none) := by
    unfold Form.AddError
    simp [hv, hfld]
  rw [hA]
  refine ⟨rfl, ?_, ?_, ?_, ?_, ?_⟩
  · exact updateFirst_split _ _ _ _ hfld
  · rw [fieldInterface.field_update]
    simp [Field.addError, ErrorList.elems_append]
  · simp [mapGet_mapSet, ErrorList.elems_append]
  · simp [mapHas, mapGet_mapDelete]
  · intro k hk
    have hk1 : ¬ normalizedNameForField L fld.field = k := fun h => hk h.symm
    simp [mapGet_mapDelete, mapGet_mapSet, hk1]

/-- C13 (witness): on the validated form of `twoFieldForm`, whose field `Nick` was
cleaned without error, `AddError("Nick", taken)` finds the field, removes the
key `nick` from the cleaned data and files the error under `nick`. -/
theorem C13_witness_nick :
    twoFieldValidated.validated = true
    ∧ twoFieldValidated.internalFieldByName sampleLib "Nick".toList = some nickValidated
    ∧ normalizedNameForField sampleLib nickValidated.field = "nick".toList
    ∧ mapHas twoFieldValidated.cleanedData "nick".toList = true
    ∧ mapHas (twoFieldValidated.AddError sampleLib "Nick".toList (some takenError)).1.cleanedData
        (normalizedNameForField sampleLib nickValidated.field) = false
    ∧ mapGet (twoFieldValidated.AddError sampleLib "Nick".toList (some takenError)).1.errors
        "nick".toList = some (some [ErrorWrap (some takenError)]) :=
  ⟨rfl, rfl, rfl, rfl,
    (C13_AddError_appends_and_evicts sampleLib twoFieldValidated "Nick".toList (some takenError)
      nickValidated rfl rfl).2.2.2.2.1, rfl⟩

/-! ## The two paths of a single-value `Clean` -/

theorem cleanSingle_short (L : Lib) (fld : Field) (emptyValue value : Str)
    (hnr : fld.notRequired = true) (hs : fld.sanitize L value = []) :
    fld.cleanSingle L emptyValue value
      = .ok { fld := { fld with boundValues := [value] }, value := emptyValue, errs := none } := by
  have hsan : Field.sanitize L { fld with boundValues := [value] } value = [] := hs
  unfold Field.cleanSingle
  dsimp only
  rw [hsan, hnr]
  rfl

theorem cleanSingle_long (L : Lib) (fld : Field) (emptyValue value : Str)
    (h : ¬ (fld.notRequired = true ∧ fld.sanitize L value = [])) :
    fld.cleanSingle L emptyValue value =
      match fld.validateFunc { fld.toFieldData with boundValues := [value] }
          (fld.sanitize L value) (!fld.notRequired) with
      | .error a => .error a
      | .ok errs =>
        .ok { fld := { fld with boundValues := [value],
                                errors := customizeErrors errs fld.customErrors },
              value := fld.sanitize L value,
              errs := customizeErrors errs fld.customErrors } := by
  have hsan : Field.sanitize L { fld with boundValues := [value] } value
      = fld.sanitize L value := rfl
  have hc : (fld.notRequired && decide ((fld.sanitize L value).length = 0)) = false := by
    rw [Bool.and_eq_false_iff]
    by_cases hnr : fld.notRequired = true
    · right
      have : fld.sanitize L value ≠ [] := fun hs => h ⟨hnr, hs⟩
      simpa using this
    · left
      simpa using hnr
  unfold Field.cleanSingle
  dsimp only
  rw [hsan, hc]
  rfl

/-! ## `CustomizeError`, `Error` and the `Must*` methods -/

theorem errorWrapIfNotAsError_toGoError (e : Error) :
    errorWrapIfNotAsError (some e.toGoError) = e := by
  obtain ⟨tag, err⟩ := e
  cases err <;> rfl

theorem codeAs_of_ownCode (c : GoError) (k : Str) (hk : c.ownCode = some k)
    (hc : asError c = none) : codeAs c = some k := by
  cases c with
  | errorFromFieldError tag param => exact hk
  | simpleError code fr en => exact hk
  | foreign msg code => exact hk
  | foreignWrap msg code inner =>
    simp only [GoError.ownCode] at hk
    subst hk
    rfl
  | aformNil tag => simp [asError] at hc
  | aformWrap tag inner => simp [asError] at hc

/-- X8: `CustomizeError(err)` panics exactly when the code of the wrapped `err`
is not one of `boolean`, `email`, `oneof`, `min`, `max`, `required`, `url`.
Otherwise it returns, the override filed under that code is the wrapped `err`
whatever was filed there before, the overrides of all other codes are as
before, and nothing else of the field changes. The code read is the code of
`err` itself when `err` is a value of `Error` and when no `Error` is in its
chain. -/
theorem CustomizeError_panics_iff_wrapped_code_not_customizable (fld : Field)
    (err : Option GoError) :
    customizableErrors = ["boolean".toList, "email".toList, "oneof".toList, "min".toList,
        "max".toList, "required".toList, "url".toList]
    ∧ ((∃ a, fld.CustomizeError err = .error a) ↔
        (errorWrapIfNotAsError err).Code ∉ customizableErrors)
    ∧ ((errorWrapIfNotAsError err).Code ∈ customizableErrors →
        ∃ fld1, fld.CustomizeError err = .ok fld1
          ∧ mapGet fld1.customErrors (errorWrapIfNotAsError err).Code
              = some (errorWrapIfNotAsError err)
          ∧ (∀ k, k ≠ (errorWrapIfNotAsError err).Code →
              mapGet fld1.customErrors k = mapGet fld.customErrors k)
          ∧ fld1 = { fld with customErrors := fld1.customErrors })
    ∧ (∀ e : Error, errorWrapIfNotAsError (some e.toGoError) = e
        ∧ e.toGoError.ownCode = some e.Code)
    ∧ (∀ c k, c.ownCode = some k → asError c = none →
        errorWrapIfNotAsError (some c) = ErrorWrap (some c)
        ∧ (errorWrapIfNotAsError (some c)).Code = k) := by
  refine ⟨rfl, ?_, ?_, ?_, ?_⟩
  · unfold Field.CustomizeError
    by_cases h : (errorWrapIfNotAsError err).Code ∈ customizableErrors
    · simp [h]
    · simp [h]
  · intro h
    obtain ⟨e, he⟩ : ∃ e, e = errorWrapIfNotAsError err := ⟨_, rfl⟩
    rw [← he] at h ⊢
    have hok : fld.CustomizeError err
        = .ok { fld with customErrors := mapSet fld.customErrors e.Code e } := by
      unfold Field.CustomizeError
      simp only [← he]
      simp [h]
    refine ⟨_, hok, ?_, ?_, rfl⟩
    · simp [mapGet_mapSet]
    · intro k hk
      have hk1 : ¬ e.Code = k := fun h => hk h.symm
      simp [mapGet_mapSet, hk1]
  · intro e
    refine ⟨errorWrapIfNotAsError_toGoError e, ?_⟩
    obtain ⟨tag, err⟩ := e
    cases err <;> rfl
  · intro c k hk hc
    have h1 : errorWrapIfNotAsError (some c) = ErrorWrap (some c) := by
      simp [errorWrapIfNotAsError, hc]
    refine ⟨h1, ?_⟩
    rw [h1]
    simp [Error.Code, ErrorWrap, codeAs_of_ownCode c k hk hc]

/-- C18: the code of an error wrapped with `ErrorWrapWithCode` is the code given
when that is not empty; otherwise, and for `ErrorWrap`, it is the code that the
cause exposes (through its chain), and the empty string when the cause is nil
or exposes none. The message and the unwrapped error do not depend on the code
given: they are the message of the cause and the cause. -/
theorem C18_code_of_wrapped_error (fieldMessage : Str → Str → Str) (err : Option GoError)
    (code : Str) :
    (code ≠ [] → (ErrorWrapWithCode err code).Code = code)
    ∧ (ErrorWrapWithCode err []).Code = (ErrorWrap err).Code
    ∧ (ErrorWrap none).Code = []
    ∧ (∀ c k, err = some c → codeAs c = some k → (ErrorWrap err).Code = k)
    ∧ (∀ c, err = some c → codeAs c = none → (ErrorWrap err).Code = [])
    ∧ (∀ c k, c.ownCode = some k → codeAs c = some k)
    ∧ (∀ msg, codeAs (.foreign msg none) = none)
    ∧ (ErrorWrapWithCode err code).Unwrap = err
    ∧ (ErrorWrapWithCode err code).Error fieldMessage = (ErrorWrap err).Error fieldMessage
    ∧ (ErrorWrap none).Error fieldMessage = []
    ∧ (∀ c, (ErrorWrap (some c)).Error fieldMessage = c.message fieldMessage) := by
  refine ⟨?_, rfl, rfl, ?_, ?_, ?_, fun _ => rfl, rfl, rfl, rfl, fun _ => rfl⟩
  · intro h
    simp [ErrorWrapWithCode, Error.Code, h]
  · intro c k hc hk
    subst hc
    simp [ErrorWrap, Error.Code, hk]
  · intro c hc hk
    subst hc
    simp [ErrorWrap, Error.Code, hk]
  · intro c k hk
    cases c with
    | errorFromFieldError tag param => exact hk
    | simpleError code fr en => exact hk
    | foreign msg code => exact hk
    | foreignWrap msg code inner =>
      simp only [GoError.ownCode] at hk
      subst hk
      rfl
    | aformNil tag =>
      simp only [GoError.ownCode, Error.Code] at hk
      simp only [codeAs]
      by_cases ht : tag = []
      · simp only [ht, ne_eq, not_true_eq_false, if_false] at hk
        rw [ht]
        exact hk
      · simp only [ht, ne_eq, not_false_eq_true, if_true] at hk
        exact hk
    | aformWrap tag inner =>
      simp only [GoError.ownCode, Error.Code] at hk
      simp only [codeAs]
      by_cases ht : tag = []
      · simp only [ht, ne_eq, not_true_eq_false, if_false] at hk ⊢
        exact hk
      · simp only [ht, ne_eq, not_false_eq_true, if_true] at hk ⊢
        exact hk

theorem valueToBool_iff (v : Str) :
    valueToBool v = true ↔
      v ∈ ["1".toList, "t".toList, "T".toList, "true".toList, "TRUE".toList,
           "True".toList, "on".toList, "ON".toList, "On".toList] := by
  unfold valueToBool parseBool
  by_cases h1 : v ∈ ["1".toList, "t".toList, "T".toList, "true".toList, "TRUE".toList,
      "True".toList, "on".toList, "ON".toList, "On".toList]
  · simp only [h1, if_true, Option.getD_some]
  · simp only [h1, if_false, iff_false]
    split <;> simp

/-- C20: `MustBoolean(v)` panics when `Clean(v)` panics and when it returns at
least one error; otherwise it returns, and its result is true exactly when the
cleaned value is one of `1`, `t`, `T`, `true`, `TRUE`, `True`, `on`, `ON`, `On`.
The empty value of a boolean field is `off`, for which the result is false.
`MustEmail(v)` panics in the same two cases and otherwise returns the cleaned
string. -/
theorem C20_Must_panics_iff_Clean_has_errors (L : Lib) (value : Str) :
    (∀ (fld : BooleanField),
      (∀ a, fld.Clean L value = .error a → fld.MustBoolean L value = .error a)
      ∧ (∀ r, fld.Clean L value = .ok r →
          ((∃ a, fld.MustBoolean L value = .error a) ↔ r.errs.len > 0)
          ∧ (r.errs.len = 0 →
              fld.MustBoolean L value = .ok (r.fld,
                decide (r.value ∈ ["1".toList, "t".toList, "T".toList, "true".toList,
                  "TRUE".toList, "True".toList, "on".toList, "ON".toList, "On".toList]))))
      ∧ fld.EmptyValue = "off".toList
      ∧ (fld.notRequired = true → (fld.toField.sanitize L value).length = 0 →
          ∃ fld1, fld.MustBoolean L value = .ok (fld1, false)))
    ∧ (∀ (fld : EmailField),
      (∀ a, fld.Clean L value = .error a → fld.MustEmail L value = .error a)
      ∧ (∀ r, fld.Clean L value = .ok r →
          ((∃ a, fld.MustEmail L value = .error a) ↔ r.errs.len > 0)
          ∧ (r.errs.len = 0 → fld.MustEmail L value = .ok (r.fld, r.value)))) := by
  constructor
  · intro fld
    refine ⟨?_, ?_, rfl, ?_⟩
    · intro a ha
      simp [BooleanField.MustBoolean, ha]
    · intro r hr
      constructor
      · unfold BooleanField.MustBoolean
        rw [hr]
        by_cases h : r.errs.len > 0
        · simp [h]
        · simp [h]
      · intro h0
        unfold BooleanField.MustBoolean
        rw [hr]
        have h1 : ¬ r.errs.len > 0 := by omega
        simp only [h1, if_false]
        congr 2
        rw [Bool.eq_iff_iff]
        simpa using valueToBool_iff r.value
    · intro hnr hlen
      unfold BooleanField.MustBoolean BooleanField.Clean
      rw [cleanSingle_short L fld.toField fld.EmptyValue value hnr (List.length_eq_zero.mp hlen)]
      exact ⟨_, rfl⟩
  · intro fld
    refine ⟨?_, ?_⟩
    · intro a ha
      simp [EmailField.MustEmail, ha]
    · intro r hr
      constructor
      · unfold EmailField.MustEmail
        rw [hr]
        by_cases h : r.errs.len > 0
        · simp [h]
        · simp [h]
      · intro h0
        unfold EmailField.MustEmail
        rw [hr]
        have h1 : ¬ r.errs.len > 0 := by omega
        simp only [h1, if_false]

/-! ## `Clean` twice -/

theorem cleanSingle_twice (L : Lib) (fld : Field) (emptyValue value : Str)
    (hpure : validateIgnoresErrors fld) (r : CleanResult Field Str)
    (hr : fld.cleanSingle L emptyValue value = .ok r) :
    r.fld.cleanSingle L emptyValue value = .ok r := by
  by_cases h : fld.notRequired = true ∧ fld.sanitize L value = []
  · rw [cleanSingle_short L fld emptyValue value h.1 h.2] at hr
    injection hr with hr
    subst hr
    exact cleanSingle_short L _ emptyValue value h.1 h.2
  · rw [cleanSingle_long L fld emptyValue value h] at hr
    cases hv : fld.validateFunc { fld.toFieldData with boundValues := [value] }
        (fld.sanitize L value) (!fld.notRequired) with
    | error a => simp [hv] at hr
    | ok errs =>
      simp only [hv] at hr
      injection hr with hr
      subst hr
      obtain ⟨c, hc⟩ : ∃ c, c = customizeErrors errs fld.customErrors := ⟨_, rfl⟩
      rw [← hc]
      have h2 : ¬ (({ fld with boundValues := [value], errors := c } : Field).notRequired = true
          ∧ Field.sanitize L { fld with boundValues := [value], errors := c } value = []) := h
      rw [cleanSingle_long L _ emptyValue value h2]
      have h3 := hpure { fld.toFieldData with boundValues := [value] } c
      have h4 : fld.validateFunc { fld.toFieldData with boundValues := [value], errors := c }
          (fld.sanitize L value) (!fld.notRequired) = .ok errs := by
        rw [← hv]
        exact congrFun (congrFun h3 _) _
      show (match fld.validateFunc { fld.toFieldData with boundValues := [value], errors := c }
          (fld.sanitize L value) (!fld.notRequired) with
        | .error a => (.error a : Except Abort (CleanResult Field Str))
        | .ok errs1 => (.ok { fld := { fld with boundValues := [value],
                                                errors := customizeErrors errs1 fld.customErrors },
                              value := fld.sanitize L value,
                              errs := customizeErrors errs1 fld.customErrors } :
            Except Abort (CleanResult Field Str))) = _
      rw [h4]
      subst hc
      rfl

theorem multipleChoiceClean_empty (L : Lib) (fld : MultipleChoiceField) (values : List Str)
    (h : multipleChoiceCleanShouldReturnEmptyValue (values.map (fun v => fld.toField.sanitize L v))
      (!fld.notRequired) = true) :
    fld.Clean L values
      = .ok { fld := { fld with boundValues := values }, value := [], errs := none } := by
  unfold MultipleChoiceField.Clean
  simp only [sanitize_setBoundValues]
  simp only [h, if_true]
  rfl

theorem multipleChoiceClean_required (L : Lib) (fld : MultipleChoiceField) (values : List Str)
    (h1 : multipleChoiceCleanShouldReturnEmptyValue (values.map (fun v => fld.toField.sanitize L v))
      (!fld.notRequired) = false)
    (h2 : multipleChoiceIsRequiredValidation (values.map (fun v => fld.toField.sanitize L v))
      (!fld.notRequired) = false) :
    fld.Clean L values
      = .ok { fld := { fld with boundValues := values, errors := some [requiredError] },
              value := values.map (fun v => fld.toField.sanitize L v),
              errs := some [requiredError] } := by
  unfold MultipleChoiceField.Clean
  simp only [sanitize_setBoundValues]
  simp only [h1, h2, Bool.false_eq_true, if_false, Bool.not_false, if_true]

theorem multipleChoiceClean_validate (L : Lib) (fld : MultipleChoiceField) (values : List Str)
    (h1 : multipleChoiceCleanShouldReturnEmptyValue (values.map (fun v => fld.toField.sanitize L v))
      (!fld.notRequired) = false)
    (h2 : multipleChoiceIsRequiredValidation (values.map (fun v => fld.toField.sanitize L v))
      (!fld.notRequired) = true) :
    fld.Clean L values =
      match multipleChoiceValidateAll { fld.toField with boundValues := values }
          (values.map (fun v => fld.toField.sanitize L v)) none with
      | .error a => .error a
      | .ok allErrors =>
        .ok { fld := { fld with boundValues := values, errors := allErrors },
              value := values.map (fun v => fld.toField.sanitize L v),
              errs := allErrors } := by
  unfold MultipleChoiceField.Clean
  simp only [sanitize_setBoundValues]
  simp only [h1, h2, Bool.false_eq_true, if_false, Bool.not_true]

theorem multipleChoiceValidateAll_congr (fld fld1 : Field)
    (hv : fld1.validateFunc fld1.toFieldData = fld.validateFunc fld.toFieldData)
    (hc : fld1.customErrors = fld.customErrors) (values : List Str) (acc : ErrorList) :
    multipleChoiceValidateAll fld1 values acc = multipleChoiceValidateAll fld values acc := by
  induction values generalizing acc with
  | nil => rfl
  | cons v rest ih =>
    unfold multipleChoiceValidateAll
    rw [hv, hc]
    cases fld.validateFunc fld.toFieldData v false with
    | error a => rfl
    | ok errors =>
      simp only
      split
      · exact ih _
      · exact ih _

theorem multipleChoiceClean_twice (L : Lib) (fld : MultipleChoiceField) (values : List Str)
    (hpure : validateIgnoresErrors fld.toField) (r : CleanResult MultipleChoiceField (List Str))
    (hr : fld.Clean L values = .ok r) : r.fld.Clean L values = .ok r := by
  cases h1 : multipleChoiceCleanShouldReturnEmptyValue
      (values.map (fun v => fld.toField.sanitize L v)) (!fld.notRequired) with
  | true =>
    rw [multipleChoiceClean_empty L fld values h1] at hr
    injection hr with hr
    subst hr
    exact multipleChoiceClean_empty L _ values h1
  | false =>
    cases h2 : multipleChoiceIsRequiredValidation
        (values.map (fun v => fld.toField.sanitize L v)) (!fld.notRequired) with
    | false =>
      rw [multipleChoiceClean_required L fld values h1 h2] at hr
      injection hr with hr
      subst hr
      exact multipleChoiceClean_required L _ values h1 h2
    | true =>
      rw [multipleChoiceClean_validate L fld values h1 h2] at hr
      cases hv : multipleChoiceValidateAll { fld.toField with boundValues := values }
          (values.map (fun v => fld.toField.sanitize L v)) none with
      | error a => simp [hv] at hr
      | ok allErrors =>
        simp only [hv] at hr
        injection hr with hr
        subst hr
        have h3 := multipleChoiceClean_validate L
          { fld with boundValues := values, errors := allErrors } values h1 h2
        have h4 : multipleChoiceValidateAll
            { fld.toField with boundValues := values, errors := allErrors }
            (values.map (fun v => fld.toField.sanitize L v)) none = .ok allErrors := by
          rw [← hv]
          apply multipleChoiceValidateAll_congr
          · exact hpure { fld.toFieldData with boundValues := values } allErrors
          · rfl
        refine h3.trans ?_
        show (match multipleChoiceValidateAll
            { fld.toField with boundValues := values, errors := allErrors }
            (values.map (fun v => fld.toField.sanitize L v)) none with
          | .error a => (.error a : Except Abort (CleanResult MultipleChoiceField (List Str)))
          | .ok allErrors1 =>
            .ok { fld := { fld with boundValues := values, errors := allErrors1 },
                  value := values.map (fun v => fld.toField.sanitize L v),
                  errs := allErrors1 }) = _
        rw [h4]

/-- C14: for a field of each of the five types, in any state, whose validation
function does not read the error list that `Clean` writes: when `Clean` returns
on an input, a second `Clean` on the same input returns too, with the same
cleaned value and the same error list, and leaves the field as the first call
left it. The default validation functions of the five types are such
functions, and `SetValidateFunc` with any update keeps the property. -/
theorem C14_Clean_twice_is_Clean_once (L : Lib) :
    (∀ (fld : BooleanField) (v : Str) (r : CleanResult BooleanField Str),
        validateIgnoresErrors fld.toField → fld.Clean L v = .ok r → r.fld.Clean L v = .ok r)
    ∧ (∀ (fld : CharField) (v : Str) (r : CleanResult CharField Str),
        validateIgnoresErrors fld.toField → fld.Clean L v = .ok r → r.fld.Clean L v = .ok r)
    ∧ (∀ (fld : EmailField) (v : Str) (r : CleanResult EmailField Str),
        validateIgnoresErrors fld.toField → fld.Clean L v = .ok r → r.fld.Clean L v = .ok r)
    ∧ (∀ (fld : ChoiceField) (v : Str) (r : CleanResult ChoiceField Str),
        validateIgnoresErrors fld.toField → fld.Clean L v = .ok r → r.fld.Clean L v = .ok r)
    ∧ (∀ (fld : MultipleChoiceField) (vs : List Str)
        (r : CleanResult MultipleChoiceField (List Str)),
        validateIgnoresErrors fld.toField → fld.Clean L vs = .ok r → r.fld.Clean L vs = .ok r)
    ∧ (∀ fld : Field,
        (fld.validateFunc = (fun _ => booleanFieldValidation L)
          ∨ fld.validateFunc = charFieldValidationFunc L
          ∨ fld.validateFunc = emailFieldValidationFunc L
          ∨ fld.validateFunc = choiceFieldValidationFunc L
          ∨ fld.validateFunc = multipleChoiceFieldValidationFunc L) →
        validateIgnoresErrors fld)
    ∧ (∀ (fld : Field) (update : ValidationFunc → ValidationFunc),
        validateIgnoresErrors fld → validateIgnoresErrors (fld.SetValidateFunc update)) := by
  refine ⟨?_, ?_, ?_, ?_, ?_, ?_, ?_⟩
  · intro fld v r hpure hr
    unfold BooleanField.Clean at hr
    cases hc : fld.toField.cleanSingle L fld.EmptyValue v with
    | error a => simp [hc] at hr
    | ok r0 =>
      simp only [hc] at hr
      injection hr with hr
      subst hr
      have h2 := cleanSingle_twice L fld.toField fld.EmptyValue v hpure r0 hc
      show (match r0.fld.cleanSingle L fld.EmptyValue v with
        | .error a => (.error a : Except Abort (CleanResult BooleanField Str))
        | .ok r1 => .ok { fld := { fld with toField := r1.fld }, value := r1.value,
                          errs := r1.errs }) = _
      rw [h2]
  · intro fld v r hpure hr
    unfold CharField.Clean at hr
    cases hc : fld.toField.cleanSingle L fld.EmptyValue v with
    | error a => simp [hc] at hr
    | ok r0 =>
      simp only [hc] at hr
      injection hr with hr
      subst hr
      have h2 := cleanSingle_twice L fld.toField fld.EmptyValue v hpure r0 hc
      show (match r0.fld.cleanSingle L fld.EmptyValue v with
        | .error a => (.error a : Except Abort (CleanResult CharField Str))
        | .ok r1 => .ok { fld := { fld with toField := r1.fld }, value := r1.value,
                          errs := r1.errs }) = _
      rw [h2]
  · intro fld v r hpure hr
    unfold EmailField.Clean at hr
    cases hc : fld.toField.cleanSingle L fld.EmptyValue v with
    | error a => simp [hc] at hr
    | ok r0 =>
      simp only [hc] at hr
      injection hr with hr
      subst hr
      have h2 := cleanSingle_twice L fld.toField fld.EmptyValue v hpure r0 hc
      show (match r0.fld.cleanSingle L fld.EmptyValue v with
        | .error a => (.error a : Except Abort (CleanResult EmailField Str))
        | .ok r1 => .ok { fld := { fld with toField := r1.fld }, value := r1.value,
                          errs := r1.errs }) = _
      rw [h2]
  · intro fld v r hpure hr
    unfold ChoiceField.Clean at hr
    cases hc : fld.toField.cleanSingle L fld.EmptyValue v with
    | error a => simp [hc] at hr
    | ok r0 =>
      simp only [hc] at hr
      injection hr with hr
      subst hr
      have h2 := cleanSingle_twice L fld.toField fld.EmptyValue v hpure r0 hc
      show (match r0.fld.cleanSingle L fld.EmptyValue v with
        | .error a => (.error a : Except Abort (CleanResult ChoiceField Str))
        | .ok r1 => .ok { fld := { fld with toField := r1.fld }, value := r1.value,
                          errs := r1.errs }) = _
      rw [h2]
  · intro fld vs r hpure hr
    exact multipleChoiceClean_twice L fld vs hpure r hr
  · intro fld h d es
    rcases h with h | h | h | h | h <;> rw [h] <;> rfl
  · intro fld update h d es
    show update (fld.validateFunc { d with errors := es }) = update (fld.validateFunc d)
    rw [h d es]

/-- C14 (witness): the required char field `Name`, cleaned twice with `bob`. -/
theorem C14_witness_char_field :
    (sampleCharField "Name".toList false).Clean sampleLib "bob".toList = .ok cleanedBob
      ∧ cleanedBob.errs = none
      ∧ cleanedBob.fld.Clean sampleLib "bob".toList = .ok cleanedBob :=
  ⟨rfl, rfl, (C14_Clean_twice_is_Clean_once sampleLib).2.1 (sampleCharField "Name".toList false)
    "bob".toList cleanedBob (fun _ _ => rfl) rfl⟩

/-! ## What `Clean` stores, and the overrides -/

/-- C15 (evaluation at the failing input): the field
`DefaultEmailField("email", IsNotRequired())` is cleaned with `bad`, which
returns and stores one error of code `email`, and then with the empty string.
The second call returns the empty value and no error, and sets the bound values
to its input, but the error list stored on the field is still the one of the
first call, and `HasErrors()` is true. -/
theorem C15_optional_empty_Clean_keeps_stale_errors :
    DefaultEmailField sampleLib "email".toList [IsNotRequired] = .ok (some optionalEmailField)
    ∧ ∃ r1 r2, optionalEmailField.Clean sampleLib "bad".toList = .ok r1
      ∧ r1.errs.elems.map Error.Code = [EmailErrorCode]
      ∧ r1.fld.errors = r1.errs
      ∧ r1.fld.Clean sampleLib [] = .ok r2
      ∧ r2.value = [] ∧ r2.errs = none
      ∧ r2.fld.boundValues = [[]]
      ∧ r2.fld.errors.elems.map Error.Code = [EmailErrorCode]
      ∧ r2.fld.toField.HasErrors = true :=
  ⟨rfl, _, _, rfl, rfl, rfl, rfl, rfl, rfl, rfl, rfl, rfl⟩

/-- C16 (evaluation at the failing input): the required field
`DefaultMultipleChoiceField("tags", ...)` with the override `pickOneError`
registered for the code `required`, cleaned with no value, returns and stores
the built-in required error, not the override. The char field `Name` with the
same override, cleaned with the empty string, returns the override. -/
theorem C16_multipleChoice_required_error_not_customized :
    mapGet customizedTagsField.customErrors RequiredErrorCode = some pickOneError
    ∧ (∃ r, customizedTagsField.Clean sampleLib [] = .ok r
        ∧ r.errs = some [requiredError] ∧ r.fld.errors = some [requiredError])
    ∧ requiredError.Code = RequiredErrorCode
    ∧ decide (requiredError = pickOneError) = false
    ∧ mapGet customizedNameField.customErrors RequiredErrorCode = some pickOneError
    ∧ (∃ r, customizedNameField.Clean sampleLib [] = .ok r ∧ r.errs = some [pickOneError]) :=
  ⟨rfl, ⟨_, rfl, rfl, rfl⟩, rfl, by decide, rfl, ⟨_, rfl, rfl⟩⟩

/-! ## Where the field loop files its results -/

/-- With pairwise distinct names, the field loop leaves the entries of the names
it does not visit, and files the result of each `Clean` call under the name of
its field: the cleaned values when the call returned the nil error list, the
errors otherwise. -/
theorem validationLoop_files (L : Lib) (bd : GoMap (List Str)) (fields : List fieldInterface)
    (st st1 : PassState) (h : validationLoop L bd fields st = .ok st1)
    (hnd : (fields.map (fun fld => normalizedNameForField L fld.field)).Nodup) :
    (∀ k, k ∉ fields.map (fun fld => normalizedNameForField L fld.field) →
        mapGet st1.cleanedData k = mapGet st.cleanedData k
        ∧ mapGet st1.errors k = mapGet st.errors k)
    ∧ (∀ fld ∈ fields, ∀ fld1 vals errs, cleanBound L bd fld = .ok (fld1, vals, errs) →
        (errs = none →
          mapGet st1.cleanedData (normalizedNameForField L fld.field) = some vals
          ∧ mapGet st1.errors (normalizedNameForField L fld.field)
              = mapGet st.errors (normalizedNameForField L fld.field))
        ∧ (∀ e, errs = some e →
          mapGet st1.errors (normalizedNameForField L fld.field) = some (some e)
          ∧ mapGet st1.cleanedData (normalizedNameForField L fld.field)
              = mapGet st.cleanedData (normalizedNameForField L fld.field))) := by
  induction fields generalizing st with
  | nil =>
    simp only [validationLoop] at h
    injection h with h
    subst h
    exact ⟨fun _ _ => ⟨rfl, rfl⟩, fun fld hfld => absurd hfld (List.not_mem_nil _)⟩
  | cons fld0 rest ih =>
    simp only [List.map_cons, List.nodup_cons] at hnd
    obtain ⟨hn0, hnrest⟩ := hnd
    unfold validationLoop at h
    have hcb : cleanForValidation L fld0
        (boundValuesFor bd (normalizedNameForField L fld0.field)) = cleanBound L bd fld0 := rfl
    rw [hcb] at h
    cases hc : cleanBound L bd fld0 with
    | error a => simp [hc] at h
    | ok res =>
      obtain ⟨fld1, cv, errs⟩ := res
      rw [hc] at h
      cases errs with
      | none =>
        simp only at h
        obtain ⟨ih1, ih2⟩ := ih _ h hnrest
        have h0 := ih1 _ hn0
        simp only [mapGet_mapSet, if_true] at h0
        constructor
        · intro k hk
          simp only [List.map_cons, List.mem_cons, not_or] at hk
          have hk0 : ¬ normalizedNameForField L fld0.field = k := fun e => hk.1 e.symm
          have := ih1 k hk.2
          simpa [mapGet_mapSet, hk0] using this
        · intro fld hfld fld2 vals errs2 hcl
          rcases List.mem_cons.mp hfld with rfl | hfld
          · rw [hc] at hcl
            injection hcl with hcl
            injection hcl with hcl1 hcl2
            injection hcl2 with hcl2 hcl3
            subst hcl1 hcl2 hcl3
            exact ⟨fun _ => h0, fun e he => Option.noConfusion he⟩
          · have hne : ¬ normalizedNameForField L fld0.field
                = normalizedNameForField L fld.field := by
              intro e
              exact hn0 (e ▸ List.mem_map_of_mem _ hfld)
            have := ih2 fld hfld fld2 vals errs2 hcl
            simpa [mapGet_mapSet, hne] using this
      | some e0 =>
        simp only at h
        obtain ⟨ih1, ih2⟩ := ih _ h hnrest
        have h0 := ih1 _ hn0
        simp only [mapGet_mapSet, if_true] at h0
        constructor
        · intro k hk
          simp only [List.map_cons, List.mem_cons, not_or] at hk
          have hk0 : ¬ normalizedNameForField L fld0.field = k := fun e => hk.1 e.symm
          have := ih1 k hk.2
          simpa [mapGet_mapSet, hk0] using this
        · intro fld hfld fld2 vals errs2 hcl
          rcases List.mem_cons.mp hfld with rfl | hfld
          · rw [hc] at hcl
            injection hcl with hcl
            injection hcl with hcl1 hcl2
            injection hcl2 with hcl2 hcl3
            subst hcl1 hcl2 hcl3
            refine ⟨fun he => Option.noConfusion he, fun e he => ?_⟩
            injection he with he
            subst he
            exact ⟨h0.2, h0.1⟩
          · have hne : ¬ normalizedNameForField L fld0.field
                = normalizedNameForField L fld.field := by
              intro e
              exact hn0 (e ▸ List.mem_map_of_mem _ hfld)
            have := ih2 fld hfld fld2 vals errs2 hcl
            simpa [mapGet_mapSet, hne] using this

/-! ## The single-value adapter -/

theorem cleanForValidation_single (L : Lib) (fld : fieldInterface) (values : List Str)
    (hs : fld.isSingleValue = true) :
    cleanForValidation L fld values =
      match fld.CleanValue L (firstValue values) with
      | .error a => .error a
      | .ok r =>
        match r.errs with
        | none => .ok (r.fld, [r.value], none)
        | some e => .ok (r.fld, [], some e) := by
  cases fld with
  | boolean x =>
    simp only [fieldInterface.isSingleValue, fieldInterface.field, Field.Type,
      Bool.and_true] at hs
    unfold cleanForValidation fieldInterface.CleanValue
    simp only [fieldInterface.field, Field.Type]
    cases ht : x.fieldType <;> simp only [ht, FieldType.isSingleValue] at hs <;>
      first
        | exact absurd hs (by decide)
        | (simp only []
           cases x.Clean L (firstValue values) with
           | error a => rfl
           | ok r =>
             simp only [disguisedResult]
             cases r.errs <;> rfl)
  | char x =>
    simp only [fieldInterface.isSingleValue, fieldInterface.field, Field.Type,
      Bool.and_true] at hs
    unfold cleanForValidation fieldInterface.CleanValue
    simp only [fieldInterface.field, Field.Type]
    cases ht : x.fieldType <;> simp only [ht, FieldType.isSingleValue] at hs <;>
      first
        | exact absurd hs (by decide)
        | (simp only []
           cases x.Clean L (firstValue values) with
           | error a => rfl
           | ok r =>
             simp only [disguisedResult]
             cases r.errs <;> rfl)
  | email x =>
    simp only [fieldInterface.isSingleValue, fieldInterface.field, Field.Type,
      Bool.and_true] at hs
    unfold cleanForValidation fieldInterface.CleanValue
    simp only [fieldInterface.field, Field.Type]
    cases ht : x.fieldType <;> simp only [ht, FieldType.isSingleValue] at hs <;>
      first
        | exact absurd hs (by decide)
        | (simp only []
           cases x.Clean L (firstValue values) with
           | error a => rfl
           | ok r =>
             simp only [disguisedResult]
             cases r.errs <;> rfl)
  | choice x =>
    simp only [fieldInterface.isSingleValue, fieldInterface.field, Field.Type,
      Bool.and_true] at hs
    unfold cleanForValidation fieldInterface.CleanValue
    simp only [fieldInterface.field, Field.Type]
    cases ht : x.fieldType <;> simp only [ht, FieldType.isSingleValue] at hs <;>
      first
        | exact absurd hs (by decide)
        | (simp only []
           cases x.Clean L (firstValue values) with
           | error a => rfl
           | ok r =>
             simp only [disguisedResult]
             cases r.errs <;> rfl)
  | multipleChoice x =>
    simp [fieldInterface.isSingleValue] at hs

theorem validateValue_nil_or_nonempty (L : Lib) (value tag : Str) (errs : ErrorList)
    (h : validateValue L value tag = .ok errs) : errs = none ∨ errs.len > 0 := by
  unfold validateValue at h
  cases he : engineVar L value tag with
  | error a => simp [he] at h
  | ok res =>
    cases res with
    | none =>
      simp only [he] at h
      injection h with h
      exact Or.inl h.symm
    | some p =>
      obtain ⟨t, q⟩ := p
      simp only [he] at h
      injection h with h
      subst h
      exact Or.inr (by simp [ErrorList.len])

/-- With one of the default validation functions, a single-value `Clean` that
returns no error returns the nil error list. -/
theorem cleanSingle_default_nil (L : Lib) (fld : Field) (emptyValue value : Str)
    (r : CleanResult Field Str) (hd : hasDefaultSingleValidation L fld)
    (hr : fld.cleanSingle L emptyValue value = .ok r) (h0 : r.errs.len = 0) : r.errs = none := by
  by_cases h : fld.notRequired = true ∧ fld.sanitize L value = []
  · rw [cleanSingle_short L fld emptyValue value h.1 h.2] at hr
    injection hr with hr
    subst hr
    rfl
  · rw [cleanSingle_long L fld emptyValue value h] at hr
    cases hv : fld.validateFunc { fld.toFieldData with boundValues := [value] }
        (fld.sanitize L value) (!fld.notRequired) with
    | error a => simp [hv] at hr
    | ok errs =>
      simp only [hv] at hr
      injection hr with hr
      subst hr
      simp only [customizeErrors_len] at h0
      have hno : errs = none ∨ errs.len > 0 := by
        rcases hd with hd | hd | hd | hd
        · rw [hd] at hv
          exact validateValue_nil_or_nonempty L _ _ _ hv
        · rw [hd] at hv
          exact validateValue_nil_or_nonempty L _ _ _ hv
        · rw [hd] at hv
          exact validateValue_nil_or_nonempty L _ _ _ hv
        · rw [hd] at hv
          unfold choiceFieldValidationFunc at hv
          have hc : (!(!fld.notRequired) && decide ((fld.sanitize L value).length = 0)) = false := by
            rw [Bool.and_eq_false_iff]
            by_cases hnr : fld.notRequired = true
            · right
              have : fld.sanitize L value ≠ [] := fun hs => h ⟨hnr, hs⟩
              simpa using this
            · left
              simpa using hnr
          simp only [hc, Bool.false_eq_true, if_false] at hv
          exact validateValue_nil_or_nonempty L _ _ _ hv
      rcases hno with hno | hno
      · subst hno
        rfl
      · omega

theorem firstValue_boundValuesFor (bd : GoMap (List Str)) (name : Str) :
    firstValue (boundValuesFor bd name)
      = match mapGet bd name with
        | some (v :: _) => v
        | _ => [] := by
  unfold firstValue boundValuesFor
  cases mapGet bd name with
  | none => rfl
  | some values =>
    cases values with
    | nil => rfl
    | cons v rest => simp

/-- X7: for a single-value field of a bound form that is not validated yet, the
validation pass calls the `Clean` of the field with the first value bound to the
normalized name of the field, and with the empty string when no value or the
empty list is bound to it; the other values are not read. The adapter returns
the one-element list of the cleaned value when `Clean` returned the nil error
list, and the empty list with the errors otherwise. With pairwise distinct
names, when all `Clean` calls return and this one returned the nil error list,
`CleanedData()` holds the one-element list of the cleaned value under the name
of the field, unless the clean function added an error to that name; with the
default clean function it holds it. With the default validation functions a
`Clean` that returns no error returns the nil error list. -/
theorem single_value_field_gets_first_bound_value (L : Lib) (f : Form) (n : Nat)
    (fld : fieldInterface) (hb : f.bound = true) (hv : f.validated = false)
    (hmem : fld ∈ f.fields) (hs : fld.isSingleValue = true) :
    (firstValue (boundValuesFor f.boundData (normalizedNameForField L fld.field))
        = match mapGet f.boundData (normalizedNameForField L fld.field) with
          | some (v :: _) => v
          | _ => [])
    ∧ (cleanBound L f.boundData fld =
        match fld.CleanValue L
            (firstValue (boundValuesFor f.boundData (normalizedNameForField L fld.field))) with
        | .error a => .error a
        | .ok r =>
          match r.errs with
          | none => .ok (r.fld, [r.value], none)
          | some e => .ok (r.fld, [], some e))
    ∧ ((f.declaredNames L).Nodup →
        ∀ results r, mapExcept (cleanBound L f.boundData) f.fields = .ok results →
          fld.CleanValue L
            (firstValue (boundValuesFor f.boundData (normalizedNameForField L fld.field)))
            = .ok r →
          r.errs = none →
          ∃ f1, Form.CleanedData L (n + 1) f = .ok (f1, f1.cleanedData)
            ∧ ((mapGet f1.cleanedData (normalizedNameForField L fld.field) = some [r.value]
                  ∧ mapHas f1.errors (normalizedNameForField L fld.field) = false)
              ∨ (mapHas f1.cleanedData (normalizedNameForField L fld.field) = false
                  ∧ mapHas f1.errors (normalizedNameForField L fld.field) = true))
            ∧ (f.cleanFunc = .done →
                mapGet f1.cleanedData (normalizedNameForField L fld.field) = some [r.value]))
    ∧ (hasDefaultSingleValidation L fld.field →
        ∀ v r, fld.CleanValue L v = .ok r → r.errs.len = 0 → r.errs = none) := by
  have hA := cleanForValidation_single L fld
    (boundValuesFor f.boundData (normalizedNameForField L fld.field)) hs
  refine ⟨firstValue_boundValuesFor _ _, hA, ?_, ?_⟩
  · intro hnd results r hres hclean herrs
    have hcb : cleanBound L f.boundData fld = .ok (r.fld, [r.value], none) := by
      unfold cleanBound
      rw [hA, hclean]
      simp only [herrs]
    have hloop : ∀ st, validationLoop L f.boundData f.fields
        { cleaned := [], cleanedData := [], errors := [], log := [] } = .ok st →
        mapGet st.cleanedData (normalizedNameForField L fld.field) = some [r.value]
          ∧ mapHas st.errors (normalizedNameForField L fld.field) = false := by
      intro st hst
      have h2 := ((validationLoop_files L f.boundData f.fields _ st hst hnd).2 fld hmem
        r.fld [r.value] none hcb).1 rfl
      exact ⟨h2.1, by rw [mapHas, h2.2]; rfl⟩
    obtain ⟨f1, hf1, -, hP⟩ := doValidationIfNeeded_first L f n hv results hres
      (fun g : Form =>
        (mapGet g.cleanedData (normalizedNameForField L fld.field) = some [r.value]
            ∧ mapHas g.errors (normalizedNameForField L fld.field) = false)
          ∨ (mapHas g.cleanedData (normalizedNameForField L fld.field) = false
            ∧ mapHas g.errors (normalizedNameForField L fld.field) = true))
      (fun g field err hgv hP => by
        unfold Form.AddError
        simp only [hgv, Bool.not_true, Bool.false_eq_true, if_false]
        cases g.internalFieldByName L field with
        | none => exact hP
        | some fld2 =>
          simp only
          by_cases hk : normalizedNameForField L fld2.field = normalizedNameForField L fld.field
          · right
            rw [hk]
            simp [mapHas, mapGet_mapDelete, mapGet_mapSet]
          · rcases hP with hP | hP
            · left
              simpa [mapHas, mapGet_mapDelete, mapGet_mapSet, hk] using hP
            · right
              simpa [mapHas, mapGet_mapDelete, mapGet_mapSet, hk] using hP)
      (fun g data langs _ hP => by
        dsimp only at hP ⊢
        rw [(BindData_maps L g data langs).1, (BindData_maps L g data langs).2]
        exact hP)
      (fun g c _ hP => hP)
      (fun st hst => Or.inl (hloop st hst))
    refine ⟨f1, ?_, hP, ?_⟩
    · simp [Form.CleanedData, cleanedDataWith, Form.IsBound, hb, hf1]
    · intro hdone
      obtain ⟨st1, hst1, -⟩ := validationLoop_of_ok L f.boundData f.fields
        { cleaned := [], cleanedData := [], errors := [], log := [] } results hres
      rw [doValidationIfNeeded_unfold L n f hv, hst1] at hf1
      simp only [hdone, runHook] at hf1
      injection hf1 with hf1
      subst hf1
      exact (hloop st1 hst1).1
  · intro hd v r hr h0
    cases fld with
    | boolean x =>
      simp only [fieldInterface.CleanValue, BooleanField.Clean] at hr
      cases hc : x.toField.cleanSingle L x.EmptyValue v with
      | error a => simp [hc] at hr
      | ok r0 =>
        simp only [hc] at hr
        injection hr with hr
        subst hr
        exact cleanSingle_default_nil L x.toField _ v r0 hd hc h0
    | char x =>
      simp only [fieldInterface.CleanValue, CharField.Clean] at hr
      cases hc : x.toField.cleanSingle L x.EmptyValue v with
      | error a => simp [hc] at hr
      | ok r0 =>
        simp only [hc] at hr
        injection hr with hr
        subst hr
        exact cleanSingle_default_nil L x.toField _ v r0 hd hc h0
    | email x =>
      simp only [fieldInterface.CleanValue, EmailField.Clean] at hr
      cases hc : x.toField.cleanSingle L x.EmptyValue v with
      | error a => simp [hc] at hr
      | ok r0 =>
        simp only [hc] at hr
        injection hr with hr
        subst hr
        exact cleanSingle_default_nil L x.toField _ v r0 hd hc h0
    | choice x =>
      simp only [fieldInterface.CleanValue, ChoiceField.Clean] at hr
      cases hc : x.toField.cleanSingle L x.EmptyValue v with
      | error a => simp [hc] at hr
      | ok r0 =>
        simp only [hc] at hr
        injection hr with hr
        subst hr
        exact cleanSingle_default_nil L x.toField _ v r0 hd hc h0
    | multipleChoice x => simp [fieldInterface.CleanValue] at hr

/-! ## Panics of the validation pass -/

/-- C19 (evaluation at the failing input): the form with the one field
`DefaultChoiceField("color", WithChoiceOptions([{Value: "a,b"}]))` is built by
`New` without error; bound to any data, for any accepted languages, `IsValid`,
`CleanedData` and `Errors` all panic in the rule engine with
`Undefined validation function`. -/
theorem C19_validation_panics_on_comma_option (L : Lib) (data : GoMap (List Str))
    (langs : List Str) (n : Nat) :
    DefaultChoiceField L "color".toList [WithChoiceOptions [⟨"a,b".toList, "AB".toList⟩]]
        = .ok (some (commaChoiceField L))
    ∧ ∃ f, New L [.WithChoiceField (commaChoiceField L)] = .ok f
      ∧ (f.BindData L data langs).bound = true
      ∧ Form.IsValid L (n + 1) (f.BindData L data langs)
          = .error (.undefinedValidation ['b', quoteChar])
      ∧ Form.CleanedData L (n + 1) (f.BindData L data langs)
          = .error (.undefinedValidation ['b', quoteChar])
      ∧ Form.Errors L (n + 1) (f.BindData L data langs)
          = .error (.undefinedValidation ['b', quoteChar]) :=
  ⟨rfl, _, rfl, rfl, rfl, rfl, rfl⟩

/-! ## Decimal parameters -/

theorem digitChar_value (d : Nat) (h : d < 10) : (Nat.digitChar d).toNat - '0'.toNat = d := by
  interval_cases d <;> rfl

theorem digitChar_ne_zero (d : Nat) (h0 : 0 < d) (h : d < 10) : Nat.digitChar d ≠ '0' := by
  interval_cases d <;> decide

theorem decimal_foldl (xs : Str) (a : Nat) :
    xs.foldl (fun n c => 10 * n + (c.toNat - '0'.toNat)) a
      = a * 10 ^ xs.length + xs.foldl (fun n c => 10 * n + (c.toNat - '0'.toNat)) 0 := by
  induction xs generalizing a with
  | nil => simp
  | cons x rest ih =>
    simp only [List.foldl_cons, List.length_cons]
    rw [ih (10 * a + (x.toNat - '0'.toNat)), ih (10 * 0 + (x.toNat - '0'.toNat))]
    ring

theorem decimalValue_toDigitsCore (f n : Nat) (acc : Str) (hf : n < f) :
    decimalValue (Nat.toDigitsCore 10 f n acc) = n * 10 ^ acc.length + decimalValue acc := by
  induction f generalizing n acc with
  | zero => omega
  | succ f ih =>
    simp only [Nat.toDigitsCore]
    split
    · rename_i h0
      have hn : n % 10 = n := by omega
      have hv := digitChar_value (n % 10) (Nat.mod_lt _ (by decide))
      rw [hn] at hv
      unfold decimalValue
      rw [List.foldl_cons, decimal_foldl, hn]
      simp only [Nat.mul_zero, Nat.zero_add]
      rw [hv]
    · rename_i h0
      have hlt : n / 10 < f := by omega
      rw [ih (n / 10) _ hlt]
      unfold decimalValue
      rw [List.foldl_cons, decimal_foldl acc]
      simp only [List.length_cons, Nat.mul_zero, Nat.zero_add,
        digitChar_value (n % 10) (Nat.mod_lt _ (by decide))]
      have hP : n * 10 ^ acc.length = (10 * (n / 10) + n % 10) * 10 ^ acc.length := by
        rw [Nat.div_add_mod]
      rw [pow_succ, hP]
      ring

theorem decimalValue_formatUint (n : Nat) : decimalValue (formatUint n) = n := by
  unfold formatUint Nat.toDigits
  rw [decimalValue_toDigitsCore (n + 1) n [] (by omega)]
  simp [decimalValue]

theorem toDigitsCore_head (f n : Nat) (acc : Str) (hn : 0 < n) (hf : n < f) :
    ∃ k t, 0 < k ∧ k < 10 ∧ Nat.toDigitsCore 10 f n acc = Nat.digitChar k :: t := by
  induction f generalizing n acc with
  | zero => omega
  | succ f ih =>
    simp only [Nat.toDigitsCore]
    split
    · exact ⟨n % 10, acc, by omega, Nat.mod_lt _ (by decide), rfl⟩
    · exact ih (n / 10) _ (by omega) (by omega)

theorem asInt_formatUint (rule : Rule) (n : Nat) (hn : n < 2 ^ 63) :
    asInt rule (formatUint n) = .ok n := by
  have hd : (formatUint n).all Char.isDigit = true := by
    rw [List.all_eq_true]
    exact formatUint_isDigit n
  have hhead : (formatUint n).length = 1 ∨ (formatUint n).head? ≠ some '0' := by
    rcases Nat.eq_zero_or_pos n with h0 | h0
    · left
      subst h0
      rfl
    · right
      obtain ⟨k, t, hk0, hk, ht⟩ := toDigitsCore_head (n + 1) n [] h0 (by omega)
      unfold formatUint Nat.toDigits
      rw [ht]
      simp only [List.head?_cons, ne_eq, Option.some.injEq]
      exact digitChar_ne_zero k hk0 hk
  have hne : formatUint n ≠ [] := by
    intro h
    have := decimalValue_formatUint n
    rcases hhead with h1 | h1
    · rw [h] at h1
      simp at h1
    · rcases Nat.eq_zero_or_pos n with h0 | h0
      · subst h0
        revert h
        decide
      · obtain ⟨k, t, -, -, ht⟩ := toDigitsCore_head (n + 1) n [] h0 (by omega)
        unfold formatUint Nat.toDigits at h
        rw [ht] at h
        exact List.cons_ne_nil _ _ h
  unfold asInt
  rw [if_pos ⟨hne, hd, hhead⟩, decimalValue_formatUint, if_pos hn]

/-! ## Rules whose check returns -/

theorem parsesSafely_required : parsesSafely RequiredErrorCode :=
  ⟨by decide, by decide, .required, [], rfl, fun _ _ => ⟨_, rfl⟩⟩

theorem parsesSafely_boolean : parsesSafely BooleanErrorCode :=
  ⟨by decide, by decide, .boolean, [], rfl, fun _ _ => ⟨_, rfl⟩⟩

theorem parsesSafely_email : parsesSafely EmailErrorCode :=
  ⟨by decide, by decide, .email, [], rfl, fun _ _ => ⟨_, rfl⟩⟩

theorem replaceAll_formatUint (old new : Str) (hx : 'x' ∈ old) (n : Nat) :
    replaceAll old new (formatUint n) = formatUint n :=
  replaceGo_of_not_mem old new 'x' hx _
    (not_mem_of_isDigit _ _ (formatUint_isDigit n) (by decide))

theorem parsesSafely_lengthRule (name : Str) (n : Nat)
    (hname : name = MinLengthErrorCode ∨ name = MaxLengthErrorCode) (hn : n < 2 ^ 63) :
    parsesSafely (name ++ ['='] ++ formatUint n) := by
  obtain ⟨h1, h2, -⟩ := parsesAlone_lengthRule name n hname
  refine ⟨h1, h2, ?_⟩
  have hsplit : splitKeyParam (name ++ ['='] ++ formatUint n) = (name, some (formatUint n)) := by
    rw [List.append_assoc]
    exact splitKeyParam_append name _ (by rcases hname with h | h <;> subst h <;> decide)
  have hrep : replaceAll "0x7C".toList ['|'] (replaceAll "0x2C".toList [','] (formatUint n))
      = formatUint n := by
    rw [replaceAll_formatUint _ _ (by decide), replaceAll_formatUint _ _ (by decide)]
  rcases hname with h | h <;> subst h
  · refine ⟨.min, formatUint n, ?_, ?_⟩
    · unfold parseOrVal
      rw [hsplit]
      simp only [hrep]
      rfl
    · intro L value
      simp only [checkRule, asInt_formatUint _ n hn]
      exact ⟨_, rfl⟩
  · refine ⟨.max, formatUint n, ?_, ?_⟩
    · unfold parseOrVal
      rw [hsplit]
      simp only [hrep]
      rfl
    · intro L value
      simp only [checkRule, asInt_formatUint _ n hn]
      exact ⟨_, rfl⟩

theorem parsesSafely_lengthRules (d : FieldData) (hmin : d.minLength < 2 ^ 63)
    (hmax : d.maxLength < 2 ^ 63) : ∀ r ∈ lengthRules d, parsesSafely r := by
  intro r hr
  unfold lengthRules at hr
  rcases List.mem_append.mp hr with hr | hr
  · split at hr
    · rw [List.mem_singleton.mp hr]
      exact parsesSafely_lengthRule _ _ (Or.inl rfl) hmin
    · simp at hr
  · split at hr
    · rw [List.mem_singleton.mp hr]
      exact parsesSafely_lengthRule _ _ (Or.inr rfl) hmax
    · simp at hr

theorem parsesSafely_choicesRule (choices : List Str) (hcomma : ',' ∉ choices.flatten)
    (hpipe : '|' ∉ choices.flatten) : parsesSafely (buildValidationChoicesRule choices) := by
  obtain ⟨h1, h2, -⟩ := parsesAlone_choicesRule choices hcomma hpipe
  refine ⟨h1, h2, .oneof, replaceAll "0x7C".toList ['|'] (replaceAll "0x2C".toList [',']
    (joinWith [' '] (choices.map (fun c => [quoteChar] ++ c ++ [quoteChar])))), ?_,
    fun _ _ => ⟨_, rfl⟩⟩
  unfold parseOrVal buildValidationChoicesRule
  rw [List.append_assoc, List.singleton_append, splitKeyParam_append _ _ (by decide)]
  rfl

theorem runRules_ok (L : Lib) (value : Str) (rules : List (Rule × Str))
    (h : ∀ rp ∈ rules, ∃ b, checkRule L rp.1 rp.2 value = .ok b) :
    ∃ res, runRules L value rules = .ok res := by
  induction rules with
  | nil => exact ⟨none, rfl⟩
  | cons rp rest ih =>
    obtain ⟨r, p⟩ := rp
    obtain ⟨b, hb⟩ := h (r, p) (by simp)
    unfold runRules
    rw [hb]
    cases b with
    | true => exact ih (fun x hx => h x (List.mem_cons_of_mem _ hx))
    | false => exact ⟨_, rfl⟩

theorem mapExcept_parseTag_safe (rules : List Str) (h : ∀ r ∈ rules, parsesSafely r) :
    ∃ rs, mapExcept parseTag rules = .ok rs
      ∧ ∀ rp ∈ rs, ∀ (L : Lib) (value : Str), ∃ b, checkRule L rp.1 rp.2 value = .ok b := by
  induction rules with
  | nil => exact ⟨[], rfl, fun rp hrp => absurd hrp (List.not_mem_nil _)⟩
  | cons r rest ih =>
    obtain ⟨-, hpipe, r1, p1, hparse, hcheck⟩ := h r (by simp)
    obtain ⟨rs, hrs, hsafe⟩ := ih (fun x hx => h x (List.mem_cons_of_mem _ hx))
    have htag : parseTag r = .ok (r1, p1) := by
      unfold parseTag
      rw [splitOnChar_of_not_mem '|' r hpipe]
      exact hparse
    refine ⟨(r1, p1) :: rs, by simp [mapExcept, htag, hrs], ?_⟩
    intro rp hrp
    rcases List.mem_cons.mp hrp with hrp | hrp
    · rw [hrp]
      exact hcheck
    · exact hsafe rp hrp

/-- The rule engine returns on every value when each rule of the rule string
parses and its check returns. -/
theorem validateValue_ok (L : Lib) (value : Str) (required : Bool) (rules : List Str)
    (h : ∀ r ∈ rules, parsesSafely r) :
    ∃ errs, validateValue L value (buildValidationRules required rules) = .ok errs := by
  have hparts : ∀ r ∈ (if required = true then [RequiredErrorCode] else []) ++ rules,
      parsesSafely r := by
    intro r hr
    rcases List.mem_append.mp hr with hr | hr
    · split at hr
      · rw [List.mem_singleton.mp hr]
        exact parsesSafely_required
      · simp at hr
    · exact h r hr
  unfold validateValue engineVar buildValidationRules
  generalize (if required = true then [RequiredErrorCode] else []) ++ rules = parts at hparts
  by_cases htag : joinWith [','] parts = [] ∨ joinWith [','] parts = ['-']
  · rw [if_pos htag]
    exact ⟨_, rfl⟩
  · rw [if_neg htag]
    have hne : parts ≠ [] := by
      intro he
      apply htag
      left
      rw [he]
      rfl
    unfold parseFieldTags
    rw [splitOnChar_joinWith ',' parts hne (fun p hp => (hparts p hp).1)]
    obtain ⟨rs, hrs, hsafe⟩ := mapExcept_parseTag_safe parts hparts
    rw [hrs]
    obtain ⟨res, hres⟩ := runRules_ok L value rs (fun rp hrp => hsafe rp hrp L value)
    simp only [hres]
    cases res with
    | none => exact ⟨_, rfl⟩
    | some p => exact ⟨_, rfl⟩

/-! ## `Clean` returns on plain fields -/

theorem defaultValidate_ok (L : Lib) (fld : fieldInterface) (hp : plainField L fld)
    (bv : List Str) (es : ErrorList) (v : Str) (required : Bool) :
    ∃ errs, fld.field.validateFunc { fld.field.toFieldData with boundValues := bv, errors := es }
      v required = .ok errs := by
  obtain ⟨-, hvf, hmin, hmax, hcomma, hpipe⟩ := hp
  rw [hvf]
  cases fld with
  | boolean x =>
    exact validateValue_ok L v required _ (fun r hr => by
      rw [List.mem_singleton.mp hr]
      exact parsesSafely_boolean)
  | char x =>
    exact validateValue_ok L v required _ (parsesSafely_lengthRules _ hmin hmax)
  | email x =>
    refine validateValue_ok L v required _ (fun r hr => ?_)
    rcases List.mem_append.mp hr with hr | hr
    · exact parsesSafely_lengthRules _ hmin hmax r hr
    · rw [List.mem_singleton.mp hr]
      exact parsesSafely_email
  | choice x =>
    simp only [defaultValidateFunc, choiceFieldValidationFunc]
    split
    · exact ⟨_, rfl⟩
    · exact validateValue_ok L v required _ (fun r hr => by
        rw [List.mem_singleton.mp hr]
        exact parsesSafely_choicesRule _ hcomma hpipe)
  | multipleChoice x =>
    simp only [defaultValidateFunc, multipleChoiceFieldValidationFunc]
    split
    · exact ⟨_, rfl⟩
    · exact validateValue_ok L v false _ (fun r hr => by
        rw [List.mem_singleton.mp hr]
        exact parsesSafely_choicesRule _ hcomma hpipe)

theorem cleanSingle_ok (L : Lib) (fld : Field) (emptyValue value : Str)
    (hval : ∀ v required, ∃ errs,
      fld.validateFunc { fld.toFieldData with boundValues := [value] } v required = .ok errs) :
    ∃ r, fld.cleanSingle L emptyValue value = .ok r := by
  by_cases h : fld.notRequired = true ∧ fld.sanitize L value = []
  · exact ⟨_, cleanSingle_short L fld emptyValue value h.1 h.2⟩
  · obtain ⟨errs, herrs⟩ := hval (fld.sanitize L value) (!fld.notRequired)
    rw [cleanSingle_long L fld emptyValue value h, herrs]
    exact ⟨_, rfl⟩

theorem multipleChoiceValidateAll_ok (fld : Field)
    (hval : ∀ v, ∃ errs, fld.validateFunc fld.toFieldData v false = .ok errs)
    (values : List Str) (acc : ErrorList) :
    ∃ e, multipleChoiceValidateAll fld values acc = .ok e := by
  induction values generalizing acc with
  | nil => exact ⟨acc, rfl⟩
  | cons v rest ih =>
    obtain ⟨errs, herrs⟩ := hval v
    unfold multipleChoiceValidateAll
    rw [herrs]
    simp only
    split
    · exact ih _
    · exact ih _

theorem multipleChoiceClean_ok (L : Lib) (fld : MultipleChoiceField) (values : List Str)
    (hval : ∀ v, ∃ errs,
      fld.validateFunc { fld.toFieldData with boundValues := values } v false = .ok errs) :
    ∃ r, fld.Clean L values = .ok r := by
  cases h1 : multipleChoiceCleanShouldReturnEmptyValue
      (values.map (fun v => fld.toField.sanitize L v)) (!fld.notRequired) with
  | true => exact ⟨_, multipleChoiceClean_empty L fld values h1⟩
  | false =>
    cases h2 : multipleChoiceIsRequiredValidation
        (values.map (fun v => fld.toField.sanitize L v)) (!fld.notRequired) with
    | false => exact ⟨_, multipleChoiceClean_required L fld values h1 h2⟩
    | true =>
      obtain ⟨e, he⟩ := multipleChoiceValidateAll_ok { fld.toField with boundValues := values }
        hval (values.map (fun v => fld.toField.sanitize L v)) none
      rw [multipleChoiceClean_validate L fld values h1 h2, he]
      exact ⟨_, rfl⟩

/-- The `Clean` call of the validation pass returns on a plain field, for every
list of bound values. -/
theorem cleanForValidation_ok (L : Lib) (fld : fieldInterface) (hp : plainField L fld)
    (values : List Str) : ∃ res, cleanForValidation L fld values = .ok res := by
  have hwt := hp.1
  cases fld with
  | boolean x =>
    simp only [fieldInterface.wellTyped, decide_eq_true_eq] at hwt
    obtain ⟨r, hr⟩ := cleanSingle_ok L x.toField x.EmptyValue (firstValue values)
      (fun v required => defaultValidate_ok L (.boolean x) hp _ x.errors v required)
    unfold cleanForValidation
    simp only [fieldInterface.field, Field.Type, hwt, BooleanField.Clean, hr]
    exact ⟨_, rfl⟩
  | char x =>
    simp only [fieldInterface.wellTyped, decide_eq_true_eq] at hwt
    obtain ⟨r, hr⟩ := cleanSingle_ok L x.toField x.EmptyValue (firstValue values)
      (fun v required => defaultValidate_ok L (.char x) hp _ x.errors v required)
    unfold cleanForValidation
    simp only [fieldInterface.field, Field.Type, hwt, CharField.Clean, hr]
    exact ⟨_, rfl⟩
  | email x =>
    simp only [fieldInterface.wellTyped, decide_eq_true_eq] at hwt
    obtain ⟨r, hr⟩ := cleanSingle_ok L x.toField x.EmptyValue (firstValue values)
      (fun v required => defaultValidate_ok L (.email x) hp _ x.errors v required)
    unfold cleanForValidation
    simp only [fieldInterface.field, Field.Type, hwt, EmailField.Clean, hr]
    exact ⟨_, rfl⟩
  | choice x =>
    simp only [fieldInterface.wellTyped, decide_eq_true_eq] at hwt
    obtain ⟨r, hr⟩ := cleanSingle_ok L x.toField x.EmptyValue (firstValue values)
      (fun v required => defaultValidate_ok L (.choice x) hp _ x.errors v required)
    unfold cleanForValidation
    simp only [fieldInterface.field, Field.Type, hwt, ChoiceField.Clean, hr]
    exact ⟨_, rfl⟩
  | multipleChoice x =>
    simp only [fieldInterface.wellTyped, decide_eq_true_eq] at hwt
    obtain ⟨r, hr⟩ := multipleChoiceClean_ok L x values
      (fun v => defaultValidate_ok L (.multipleChoice x) hp _ x.errors v false)
    unfold cleanForValidation
    simp only [fieldInterface.field, Field.Type, hwt, hr]
    exact ⟨_, rfl⟩

theorem mapExcept_ok {α β : Type} (f : α → Except Abort β) (l : List α)
    (h : ∀ a ∈ l, ∃ b, f a = .ok b) : ∃ bs, mapExcept f l = .ok bs := by
  induction l with
  | nil => exact ⟨[], rfl⟩
  | cons a rest ih =>
    obtain ⟨b, hb⟩ := h a (by simp)
    obtain ⟨bs, hbs⟩ := ih (fun x hx => h x (List.mem_cons_of_mem _ hx))
    exact ⟨b :: bs, by simp [mapExcept, hb, hbs]⟩

theorem plainField_update (L : Lib) (g : Field → Field)
    (hg : ∀ x, (g x).fieldType = x.fieldType ∧ (g x).validateFunc = x.validateFunc
      ∧ (g x).minLength = x.minLength ∧ (g x).maxLength = x.maxLength
      ∧ (g x).optionGroups = x.optionGroups)
    (fld : fieldInterface) (hp : plainField L fld) : plainField L (fld.update g) := by
  obtain ⟨h1, h2, h3, h4, h5, h6⟩ := hp
  have hch : allChoices (fld.update g).field.toFieldData = allChoices fld.field.toFieldData := by
    rw [fieldInterface.field_update]
    unfold allChoices
    rw [(hg fld.field).2.2.2.2]
  refine ⟨?_, ?_, ?_, ?_, ?_, ?_⟩
  · cases fld <;> simpa [fieldInterface.update, fieldInterface.wellTyped, (hg _).1] using h1
  · rw [fieldInterface.field_update, (hg _).2.1, h2]
    cases fld <;> rfl
  · rw [fieldInterface.field_update, (hg _).2.2.1]
    exact h3
  · rw [fieldInterface.field_update, (hg _).2.2.2.1]
    exact h4
  · rw [hch]
    exact h5
  · rw [hch]
    exact h6

theorem plainField_BindData (L : Lib) (f : Form) (data : GoMap (List Str)) (langs : List Str)
    (hplain : ∀ fld ∈ f.fields, plainField L fld) :
    ∀ fld ∈ (f.BindData L data langs).fields, plainField L fld := by
  unfold Form.BindData
  split
  · exact hplain
  · intro fld hfld
    simp only [propagateLocalesIfNotEmpty, List.mem_map] at hfld
    obtain ⟨fld0, hfld0, rfl⟩ := hfld
    exact plainField_update L
      (fun x => x.SetLocale ([selectLanguage L f.locales langs].headD defaultLanguage))
      (fun x => ⟨rfl, rfl, rfl, rfl, rfl⟩) fld0 (hplain fld0 hfld0)

/-- X4: a form whose fields are plain, bound to any data: the validation pass
returns, whatever the clean function does, and so do `IsValid`, `CleanedData`
and `Errors`, for every data map and every list of accepted languages. -/
theorem validation_returns_on_plain_fields (L : Lib) (f : Form) (data : GoMap (List Str))
    (langs : List Str) (n : Nat) (hv : f.validated = false)
    (hplain : ∀ fld ∈ f.fields, plainField L fld) :
    ∃ f1, Form.doValidationIfNeeded L (n + 1) (f.BindData L data langs) = .ok f1
      ∧ f1.validated = true
      ∧ Form.IsValid L (n + 1) (f.BindData L data langs)
          = .ok (f1, decide ((copyErrors f1.errors).length = 0))
      ∧ Form.CleanedData L (n + 1) (f.BindData L data langs) = .ok (f1, f1.cleanedData)
      ∧ Form.Errors L (n + 1) (f.BindData L data langs) = .ok (f1, copyErrors f1.errors) := by
  have hb : (f.BindData L data langs).bound = true := BindData_bound L f data langs
  have hv1 : (f.BindData L data langs).validated = false := by
    rw [BindData_validated]
    exact hv
  obtain ⟨results, hres⟩ := mapExcept_ok
    (cleanBound L (f.BindData L data langs).boundData) (f.BindData L data langs).fields
    (fun fld hfld => cleanForValidation_ok L fld (plainField_BindData L f data langs hplain fld hfld) _)
  obtain ⟨f1, hf1, hval1, hB⟩ := doValidationIfNeeded_first L (f.BindData L data langs) n hv1
    results hres (fun g : Form => g.bound = true)
    (fun g field err _ hP => by
      dsimp only at hP ⊢
      rw [AddError_bound]
      exact hP)
    (fun g d l _ hP => by
      dsimp only at hP ⊢
      rw [BindData_bound_of_bound L g d l hP]
      exact hP)
    (fun g c _ hP => hP)
    (fun st _ => hb)
  have h2 := errorsWith_validated (Form.doValidationIfNeeded L (n + 1))
    (fun g hg => doValidationIfNeeded_validated L (n + 1) g hg) f1 hval1
  refine ⟨f1, hf1, hval1, ?_, ?_, ?_⟩
  · simp [Form.IsValid, isValidWith, Form.IsBound, hb, hf1, h2, hB]
  · simp [Form.CleanedData, cleanedDataWith, Form.IsBound, hb, hf1]
  · simp [Form.Errors, errorsWith, Form.IsBound, hb, hf1]

/-- X4 (witness): the two char fields of `twoFieldForm` are plain; `IsValid`
returns on the form, with false (the required field `Name` has no value). -/
theorem X4_witness_two_fields :
    twoFieldNew.validated = false
    ∧ (∀ fld ∈ twoFieldNew.fields, plainField sampleLib fld)
    ∧ ∃ f1, Form.IsValid sampleLib 1 twoFieldForm = .ok (f1, false) := by
  have hplain : ∀ fld ∈ twoFieldNew.fields, plainField sampleLib fld := by
    intro fld hfld
    change fld ∈ [fieldInterface.char (sampleCharField "Name".toList false),
      fieldInterface.char (sampleCharField "Nick".toList true)] at hfld
    simp only [List.mem_cons, List.mem_singleton, List.not_mem_nil, or_false] at hfld
    rcases hfld with h | h <;> subst h <;>
      exact ⟨rfl, rfl, by decide, by decide, by decide, by decide⟩
  obtain ⟨f1, -, -, h3, -⟩ := validation_returns_on_plain_fields sampleLib twoFieldNew
    [("nick".toList, ["bob".toList]), ("other".toList, ["x".toList])] [] 0 rfl hplain
  exact ⟨rfl, hplain, f1, h3.trans (by
    have h4 : Form.IsValid sampleLib 1 twoFieldForm = .ok (twoFieldValidated, false) := rfl
    have h5 : Form.IsValid sampleLib 1 twoFieldForm
        = .ok (f1, decide ((copyErrors f1.errors).length = 0)) := h3
    rw [h4] at h5
    injection h5 with h5
    injection h5 with h5 h6
    rw [← h6])⟩

theorem applyFieldOptions_fieldType (opts : List FieldOption)
    (h : ∀ opt ∈ opts, keepsFieldType opt) (fld fld1 : Field) (e : Option GoError)
    (hr : applyFieldOptions opts fld = .ok (fld1, e)) : fld1.fieldType = fld.fieldType := by
  induction opts generalizing fld with
  | nil =>
    simp only [applyFieldOptions] at hr
    injection hr with hr
    injection hr with hr _
    rw [hr]
  | cons opt rest ih =>
    unfold applyFieldOptions at hr
    cases ho : opt fld with
    | error a => simp [ho] at hr
    | ok res =>
      obtain ⟨fld2, e2⟩ := res
      have h2 := h opt (by simp) fld fld2 e2 ho
      rw [ho] at hr
      cases e2 with
      | some e3 =>
        simp only at hr
        injection hr with hr
        injection hr with hr _
        rw [← hr, h2]
      | none =>
        simp only at hr
        rw [ih (fun o ho1 => h o (List.mem_cons_of_mem _ ho1)) fld2 hr, h2]

/-- X5: the dispatch of the validation pass on fields of the constructors. With
options that leave the field type as it is, as the options of the package do,
each of the five constructors builds a field whose field type names its struct
type. For such a field the dispatch reaches neither the `unknown field type`
panic nor a failing type assertion: the field is a single-value field, cleaned
through the adapter, or a `*MultipleChoiceField`, whose `Clean` is called with
the bound values. The adapter reads the first value only when the list is not
empty. -/
theorem dispatch_on_constructor_fields (L : Lib) :
    (∀ (opts : List FieldOption), (∀ opt ∈ opts, keepsFieldType opt) →
      (∀ name initial fld, NewBooleanField L name initial opts = .ok (some fld) →
          (fieldInterface.boolean fld).wellTyped = true)
      ∧ (∀ name initial empty min max fld,
          NewCharField L name initial empty min max opts = .ok (some fld) →
          (fieldInterface.char fld).wellTyped = true)
      ∧ (∀ name initial empty min max fld,
          NewEmailField L name initial empty min max opts = .ok (some fld) →
          (fieldInterface.email fld).wellTyped = true)
      ∧ (∀ name initial fld, NewChoiceField L name initial opts = .ok (some fld) →
          (fieldInterface.choice fld).wellTyped = true)
      ∧ (∀ name initials fld, NewMultipleChoiceField L name initials opts = .ok (some fld) →
          (fieldInterface.multipleChoice fld).wellTyped = true))
    ∧ keepsFieldType IsNotRequired
    ∧ (∀ options, keepsFieldType (WithChoiceOptions options))
    ∧ (∀ label options, keepsFieldType (WithGroupedChoiceOptions label options))
    ∧ (∀ widget, keepsFieldType (WithWidget widget))
    ∧ (∀ fld : fieldInterface, fld.wellTyped = true →
        fld.isSingleValue = true
        ∨ ∃ x, fld = .multipleChoice x
          ∧ ∀ values, cleanForValidation L fld values =
              match x.Clean L values with
              | .error a => .error a
              | .ok r => .ok (.multipleChoice r.fld, r.value, r.errs))
    ∧ firstValue [] = []
    ∧ (∀ v rest, firstValue (v :: rest) = v) := by
  refine ⟨?_, ?_, ?_, ?_, ?_, ?_, rfl, fun _ _ => by simp [firstValue]⟩
  · intro opts hopts
    refine ⟨?_, ?_, ?_, ?_, ?_⟩
    · intro name initial fld h
      unfold NewBooleanField at h
      cases ha : applyFieldOptions opts (baseField name [boolToValue initial] .BooleanFieldType
          .CheckboxInput (fun _ => booleanFieldValidation L)) with
      | error a => simp [ha] at h
      | ok res =>
        obtain ⟨fld1, e⟩ := res
        have ht := applyFieldOptions_fieldType opts hopts _ _ _ ha
        rw [ha] at h
        cases e with
        | some e1 => simp at h
        | none =>
          simp only at h
          injection h with h
          injection h with h
          subst h
          simpa [fieldInterface.wellTyped] using ht
    · intro name initial empty min max fld h
      unfold NewCharField at h
      cases ha : applyFieldOptions opts
          { baseField name [initial] .CharFieldType .TextInput (charFieldValidationFunc L) with
            minLength := min, maxLength := max } with
      | error a => simp [ha] at h
      | ok res =>
        obtain ⟨fld1, e⟩ := res
        have ht := applyFieldOptions_fieldType opts hopts _ _ _ ha
        rw [ha] at h
        cases e with
        | some e1 => simp at h
        | none =>
          simp only at h
          injection h with h
          injection h with h
          subst h
          simpa [fieldInterface.wellTyped] using ht
    · intro name initial empty min max fld h
      unfold NewEmailField at h
      cases ha : applyFieldOptions opts
          { baseField name [initial] .EmailFieldType .EmailInput (emailFieldValidationFunc L) with
            minLength := min, maxLength := max } with
      | error a => simp [ha] at h
      | ok res =>
        obtain ⟨fld1, e⟩ := res
        have ht := applyFieldOptions_fieldType opts hopts _ _ _ ha
        rw [ha] at h
        cases e with
        | some e1 => simp at h
        | none =>
          simp only at h
          injection h with h
          injection h with h
          subst h
          simpa [fieldInterface.wellTyped] using ht
    · intro name initial fld h
      unfold NewChoiceField at h
      cases ha : applyFieldOptions opts (baseField name [initial] .ChoiceFieldType .Select
          (choiceFieldValidationFunc L)) with
      | error a => simp [ha] at h
      | ok res =>
        obtain ⟨fld1, e⟩ := res
        have ht := applyFieldOptions_fieldType opts hopts _ _ _ ha
        rw [ha] at h
        cases e with
        | some e1 => simp at h
        | none =>
          simp only at h
          injection h with h
          injection h with h
          subst h
          simpa [fieldInterface.wellTyped] using ht
    · intro name initials fld h
      unfold NewMultipleChoiceField at h
      cases ha : applyFieldOptions opts (baseField name initials .MultipleChoiceFieldType
          .SelectMultiple (multipleChoiceFieldValidationFunc L)) with
      | error a => simp [ha] at h
      | ok res =>
        obtain ⟨fld1, e⟩ := res
        have ht := applyFieldOptions_fieldType opts hopts _ _ _ ha
        rw [ha] at h
        cases e with
        | some e1 => simp at h
        | none =>
          simp only at h
          injection h with h
          injection h with h
          subst h
          simpa [fieldInterface.wellTyped] using ht
  · intro x y e h
    simp only [IsNotRequired] at h
    injection h with h
    injection h with h _
    rw [← h]
    rfl
  · intro options x y e h
    simp only [WithChoiceOptions] at h
    injection h with h
    injection h with h _
    rw [← h]
    rfl
  · intro label options x y e h
    simp only [WithGroupedChoiceOptions] at h
    injection h with h
    injection h with h _
    rw [← h]
    rfl
  · intro widget x y e h
    simp only [WithWidget] at h
    injection h with h
    injection h with h _
    rw [← h]
    rfl
  · intro fld hwt
    cases fld with
    | boolean x =>
      left
      simp only [fieldInterface.wellTyped, decide_eq_true_eq] at hwt
      simp [fieldInterface.isSingleValue, fieldInterface.field, Field.Type, hwt,
        FieldType.isSingleValue]
    | char x =>
      left
      simp only [fieldInterface.wellTyped, decide_eq_true_eq] at hwt
      simp [fieldInterface.isSingleValue, fieldInterface.field, Field.Type, hwt,
        FieldType.isSingleValue]
    | email x =>
      left
      simp only [fieldInterface.wellTyped, decide_eq_true_eq] at hwt
      simp [fieldInterface.isSingleValue, fieldInterface.field, Field.Type, hwt,
        FieldType.isSingleValue]
    | choice x =>
      left
      simp only [fieldInterface.wellTyped, decide_eq_true_eq] at hwt
      simp [fieldInterface.isSingleValue, fieldInterface.field, Field.Type, hwt,
        FieldType.isSingleValue]
    | multipleChoice x =>
      right
      simp only [fieldInterface.wellTyped, decide_eq_true_eq] at hwt
      refine ⟨x, rfl, fun values => ?_⟩
      cases hc : x.Clean L values <;>
        simp only [cleanForValidation, fieldInterface.field, Field.Type, hwt, hc]

/-! ## What `Clean` stores on the field -/

theorem cleanSingle_stores (L : Lib) (fld : Field) (emptyValue value : Str)
    (r : CleanResult Field Str) (hr : fld.cleanSingle L emptyValue value = .ok r) :
    r.fld.boundValues = [value]
    ∧ ((fld.notRequired = true ∧ fld.sanitize L value = []) →
        r.errs = none ∧ r.fld.errors = fld.errors)
    ∧ (¬ (fld.notRequired = true ∧ fld.sanitize L value = []) →
        r.fld.errors = r.errs ∧ (r.fld.HasErrors = true ↔ r.errs.len > 0)) := by
  by_cases h : fld.notRequired = true ∧ fld.sanitize L value = []
  · rw [cleanSingle_short L fld emptyValue value h.1 h.2] at hr
    injection hr with hr
    subst hr
    exact ⟨rfl, fun _ => ⟨rfl, rfl⟩, fun hn => absurd h hn⟩
  · rw [cleanSingle_long L fld emptyValue value h] at hr
    cases hv : fld.validateFunc { fld.toFieldData with boundValues := [value] }
        (fld.sanitize L value) (!fld.notRequired) with
    | error a => simp [hv] at hr
    | ok errs =>
      simp only [hv] at hr
      injection hr with hr
      subst hr
      exact ⟨rfl, fun hp => absurd hp h, fun _ => ⟨rfl, by simp [Field.HasErrors]⟩⟩

/-- X6: what a `Clean` call stores on the field. On every path the bound values
of the field are the raw input of the call. When `Clean` validates (the field
is required, or a sanitized value is not empty) the stored error list is the
list returned, so `HasErrors()` is true iff the call returned an error. On the
path of a not-required field with no value, `Clean` returns the nil error list
and the stored error list is the one the field had before the call. -/
theorem clean_stores_bound_values_and_errors (L : Lib) :
    (∀ (fld : fieldInterface) (v : Str) (r : CleanResult fieldInterface Str),
      fld.CleanValue L v = .ok r →
        r.fld.field.boundValues = [v]
        ∧ ((fld.field.notRequired = true ∧ fld.field.sanitize L v = []) →
            r.errs = none ∧ r.fld.field.errors = fld.field.errors)
        ∧ (¬ (fld.field.notRequired = true ∧ fld.field.sanitize L v = []) →
            r.fld.field.errors = r.errs ∧ (r.fld.field.HasErrors = true ↔ r.errs.len > 0)))
    ∧ (∀ (fld : MultipleChoiceField) (vs : List Str)
        (r : CleanResult MultipleChoiceField (List Str)), fld.Clean L vs = .ok r →
        r.fld.boundValues = vs
        ∧ (multipleChoiceCleanShouldReturnEmptyValue (vs.map (fun v => fld.toField.sanitize L v))
              (!fld.notRequired) = true →
            r.errs = none ∧ r.fld.errors = fld.errors)
        ∧ (multipleChoiceCleanShouldReturnEmptyValue (vs.map (fun v => fld.toField.sanitize L v))
              (!fld.notRequired) = false →
            r.fld.errors = r.errs ∧ (r.fld.toField.HasErrors = true ↔ r.errs.len > 0))) := by
  constructor
  · intro fld v r hr
    cases fld with
    | boolean x =>
      simp only [fieldInterface.CleanValue, BooleanField.Clean] at hr
      cases hc : x.toField.cleanSingle L x.EmptyValue v with
      | error a => simp [hc] at hr
      | ok r0 =>
        simp only [hc] at hr
        injection hr with hr
        subst hr
        exact cleanSingle_stores L x.toField _ v r0 hc
    | char x =>
      simp only [fieldInterface.CleanValue, CharField.Clean] at hr
      cases hc : x.toField.cleanSingle L x.EmptyValue v with
      | error a => simp [hc] at hr
      | ok r0 =>
        simp only [hc] at hr
        injection hr with hr
        subst hr
        exact cleanSingle_stores L x.toField _ v r0 hc
    | email x =>
      simp only [fieldInterface.CleanValue, EmailField.Clean] at hr
      cases hc : x.toField.cleanSingle L x.EmptyValue v with
      | error a => simp [hc] at hr
      | ok r0 =>
        simp only [hc] at hr
        injection hr with hr
        subst hr
        exact cleanSingle_stores L x.toField _ v r0 hc
    | choice x =>
      simp only [fieldInterface.CleanValue, ChoiceField.Clean] at hr
      cases hc : x.toField.cleanSingle L x.EmptyValue v with
      | error a => simp [hc] at hr
      | ok r0 =>
        simp only [hc] at hr
        injection hr with hr
        subst hr
        exact cleanSingle_stores L x.toField _ v r0 hc
    | multipleChoice x => simp [fieldInterface.CleanValue] at hr
  · intro fld vs r hr
    cases h1 : multipleChoiceCleanShouldReturnEmptyValue
        (vs.map (fun v => fld.toField.sanitize L v)) (!fld.notRequired) with
    | true =>
      rw [multipleChoiceClean_empty L fld vs h1] at hr
      injection hr with hr
      subst hr
      exact ⟨rfl, fun _ => ⟨rfl, rfl⟩, fun hn => Bool.noConfusion hn⟩
    | false =>
      refine ⟨?_, fun hn => Bool.noConfusion hn, fun _ => ?_⟩
      · cases h2 : multipleChoiceIsRequiredValidation
            (vs.map (fun v => fld.toField.sanitize L v)) (!fld.notRequired) with
        | false =>
          rw [multipleChoiceClean_required L fld vs h1 h2] at hr
          injection hr with hr
          subst hr
          rfl
        | true =>
          rw [multipleChoiceClean_validate L fld vs h1 h2] at hr
          cases hv : multipleChoiceValidateAll { fld.toField with boundValues := vs }
              (vs.map (fun v => fld.toField.sanitize L v)) none with
          | error a => simp [hv] at hr
          | ok allErrors =>
            simp only [hv] at hr
            injection hr with hr
            subst hr
            rfl
      · cases h2 : multipleChoiceIsRequiredValidation
            (vs.map (fun v => fld.toField.sanitize L v)) (!fld.notRequired) with
        | false =>
          rw [multipleChoiceClean_required L fld vs h1 h2] at hr
          injection hr with hr
          subst hr
          exact ⟨rfl, by simp [Field.HasErrors]⟩
        | true =>
          rw [multipleChoiceClean_validate L fld vs h1 h2] at hr
          cases hv : multipleChoiceValidateAll { fld.toField with boundValues := vs }
              (vs.map (fun v => fld.toField.sanitize L v)) none with
          | error a => simp [hv] at hr
          | ok allErrors =>
            simp only [hv] at hr
            injection hr with hr
            subst hr
            exact ⟨rfl, by simp [Field.HasErrors]⟩

/-! ## Auto-id patterns -/

theorem countOccurrences_nil (old : Str) (hold : old ≠ []) : countOccurrences old [] = 0 := by
  cases old with
  | nil => exact absurd rfl hold
  | cons a rest => simp [countOccurrences, List.isPrefixOf]

theorem countOccurrences_cons (old : Str) (c : Char) (s : Str) :
    countOccurrences old (c :: s)
      = (if old.isPrefixOf (c :: s) = true then 1 else 0) + countOccurrences old s := by
  unfold countOccurrences
  rw [List.tails_cons, List.filter_cons]
  split <;> simp [Nat.add_comm]

theorem countGo_verb (s : Str) :
    countGo "%s".toList 0 s = countOccurrences "%s".toList s
      ∧ countGo "%s".toList 1 s = countOccurrences "%s".toList s.tail := by
  induction s with
  | nil =>
    simp only [countGo, List.tail_nil]
    exact ⟨(countOccurrences_nil _ (by decide)).symm, (countOccurrences_nil _ (by decide)).symm⟩
  | cons c rest ih =>
    refine ⟨?_, ?_⟩
    · rw [countOccurrences_cons]
      simp only [countGo]
      by_cases hp : ("%s".toList).isPrefixOf (c :: rest) = true
      · rw [if_pos hp, if_pos hp]
        have hlen : ("%s".toList).length - 1 = 1 := rfl
        rw [hlen, ih.2]
        cases rest with
        | nil => simp [List.isPrefixOf] at hp
        | cons d rest1 =>
          have hd : d = 's' := by
            simp only [String.toList, List.isPrefixOf, Bool.and_eq_true, beq_iff_eq] at hp
            exact hp.2.1.symm
          subst hd
          rw [countOccurrences_cons]
          have : ("%s".toList).isPrefixOf ('s' :: rest1) = false := by
            simp [List.isPrefixOf]
          simp [this]
      · rw [if_neg hp, if_neg hp, ih.1]
        simp
    · simp only [countGo, List.tail_cons]
      exact ih.1

theorem propagateAutoIDLoop_valid (autoID : Str) (h : validAutoID autoID = none)
    (fields : List fieldInterface) : (propagateAutoIDLoop autoID fields).2 = none := by
  induction fields with
  | nil => rfl
  | cons fld rest ih =>
    unfold propagateAutoIDLoop
    split
    · exact ih
    · have hs : (fld.field.SetAutoID autoID).2 = none := by
        simp [Field.SetAutoID, h]
      rw [hs]
      exact ih

/-- C29: `validAutoID` accepts a pattern exactly when it is the empty string or
the text `%s` occurs in it at exactly one position. `SetAutoID` returns an error
exactly when `validAutoID` does, and then leaves the field as it was; otherwise
it sets the pattern and nothing else. `WithAutoID` returns an error on a form
exactly when `validAutoID` does. -/
theorem C29_autoID_pattern_accepted_iff_empty_or_one_verb (p : Str) :
    (validAutoID p = none ↔ (p = [] ∨ countOccurrences "%s".toList p = 1))
    ∧ (∀ fld : Field, (fld.SetAutoID p).2 = none ↔ validAutoID p = none)
    ∧ (∀ fld : Field, validAutoID p ≠ none → (fld.SetAutoID p).1 = fld)
    ∧ (∀ fld : Field, validAutoID p = none → (fld.SetAutoID p).1 = { fld with autoID := p })
    ∧ (∀ (L : Lib) (f : Form),
        ((FormOption.WithAutoID p).run L f).2 = none ↔ validAutoID p = none)
    ∧ (∀ (L : Lib) (f : Form), validAutoID p ≠ none →
        ((FormOption.WithAutoID p).run L f).1 = f) := by
  refine ⟨?_, ?_, ?_, ?_, ?_, ?_⟩
  · unfold validAutoID isDisabledAutoID disabledAutoID
    by_cases h0 : p = []
    · simp [h0]
    · simp only [h0, decide_False, Bool.false_eq_true, if_false, false_or]
      rw [(countGo_verb p).1]
      by_cases h1 : countOccurrences "%s".toList p = 1
      · simp [h1]
      · simp [h1]
  · intro fld
    unfold Field.SetAutoID
    cases validAutoID p <;> simp
  · intro fld h
    unfold Field.SetAutoID
    cases hv : validAutoID p with
    | none => exact absurd hv h
    | some e => rfl
  · intro fld h
    unfold Field.SetAutoID
    rw [h]
  · intro L f
    simp only [FormOption.run]
    cases hv : validAutoID p with
    | some e => simp
    | none =>
      simp only [setAndPropagateAutoID, propagateAutoIDIfNotDefault]
      split
      · simp
      · simp [propagateAutoIDLoop_valid p hv]
  · intro L f h
    simp only [FormOption.run]
    cases hv : validAutoID p with
    | none => exact absurd hv h
    | some e => rfl

/-! ## Propagation of the auto-id pattern and of the label suffix -/

theorem keepsOwnSettings_refl (fld : fieldInterface) : keepsOwnSettings fld fld :=
  ⟨fun _ => rfl, fun _ => rfl⟩

theorem keepsOwnSettings_trans (a b c : fieldInterface) (h1 : keepsOwnSettings a b)
    (h2 : keepsOwnSettings b c) : keepsOwnSettings a c := by
  constructor
  · intro h
    have hb := h1.1 h
    rw [← hb]
    exact h2.1 (by rw [hb]; exact h)
  · intro h
    have hb := h1.2 h
    rw [← hb]
    exact h2.2 (by rw [hb]; exact h)

theorem fieldsKeepOwnSettings_refl (l : List fieldInterface) : fieldsKeepOwnSettings l l := by
  intro i o ho
  exact ⟨o, ho, keepsOwnSettings_refl o⟩

theorem fieldsKeepOwnSettings_trans (a b c : List fieldInterface)
    (h1 : fieldsKeepOwnSettings a b) (h2 : fieldsKeepOwnSettings b c) :
    fieldsKeepOwnSettings a c := by
  intro i o ho
  obtain ⟨n, hn, hk⟩ := h1 i o ho
  obtain ⟨m, hm, hk2⟩ := h2 i n hn
  exact ⟨m, hm, keepsOwnSettings_trans o n m hk hk2⟩

theorem fieldsKeepOwnSettings_map (l : List fieldInterface) (g : fieldInterface → fieldInterface)
    (hg : ∀ x, keepsOwnSettings x (g x)) : fieldsKeepOwnSettings l (l.map g) := by
  intro i o ho
  exact ⟨g o, by rw [List.getElem?_map, ho]; rfl, hg o⟩

theorem fieldsKeepOwnSettings_append (l m extra : List fieldInterface)
    (h : fieldsKeepOwnSettings l m) : fieldsKeepOwnSettings l (m ++ extra) := by
  intro i o ho
  obtain ⟨n, hn, hk⟩ := h i o ho
  refine ⟨n, ?_, hk⟩
  obtain ⟨hlt, -⟩ := List.getElem?_eq_some.mp hn
  rw [List.getElem?_append_left hlt]
  exact hn

theorem fieldInterface.update_same (g : Field → Field) (fld : fieldInterface)
    (h : g fld.field = fld.field) : fld.update g = fld := by
  cases fld <;> simp only [fieldInterface.update, fieldInterface.field] at h ⊢ <;> rw [h]

theorem fieldInterface.update_congr (g1 g2 : Field → Field) (fld : fieldInterface)
    (h : g1 fld.field = g2 fld.field) : fld.update g1 = fld.update g2 := by
  cases fld <;> simp only [fieldInterface.update, fieldInterface.field] at h ⊢ <;> rw [h]

theorem fieldInterface.update_update (g1 g2 : Field → Field) (fld : fieldInterface) :
    (fld.update g1).update g2 = fld.update (fun x => g2 (g1 x)) := by
  cases fld <;> rfl

theorem pushAutoID_field (autoID : Str) (fld : fieldInterface) :
    (pushAutoID autoID fld).field = { fld.field with autoID := pushedAutoID autoID fld.field } := by
  unfold pushAutoID pushedAutoID
  by_cases h : fld.field.autoID ≠ defaultAutoID
  · rw [if_pos h, if_pos h]
  · rw [if_neg h, if_neg h, fieldInterface.field_update]

theorem pushLabelSuffix_field (labelSuffix : Str) (fld : fieldInterface) :
    (pushLabelSuffix labelSuffix fld).field
      = { fld.field with labelSuffix := pushedLabelSuffix labelSuffix fld.field } := by
  unfold pushLabelSuffix pushedLabelSuffix
  by_cases h : fld.field.labelSuffix ≠ defaultLabelSuffix
  · rw [if_pos h, if_pos h]
  · rw [if_neg h, if_neg h, fieldInterface.field_update]

theorem propagateLabelSuffix_eq (fields : List fieldInterface) (labelSuffix : Str) :
    propagateLabelSuffix fields labelSuffix = fields.map (pushLabelSuffix labelSuffix) := rfl

theorem propagateAutoIDLoop_eq (autoID : Str) (fields : List fieldInterface)
    (h : (propagateAutoIDLoop autoID fields).2 = none) :
    (propagateAutoIDLoop autoID fields).1 = fields.map (pushAutoID autoID) := by
  induction fields with
  | nil => rfl
  | cons fld rest ih =>
    unfold propagateAutoIDLoop at h ⊢
    by_cases hd : fld.field.autoID ≠ defaultAutoID
    · rw [if_pos hd] at h ⊢
      simp only [List.map_cons]
      rw [ih h]
      unfold pushAutoID
      rw [if_pos hd]
    · rw [if_neg hd] at h ⊢
      cases hs : (fld.field.SetAutoID autoID).2 with
      | some e => rw [hs] at h; simp at h
      | none =>
        rw [hs] at h
        dsimp only at h ⊢
        simp only [List.map_cons]
        rw [ih h]
        have hv : validAutoID autoID = none := by
          unfold Field.SetAutoID at hs
          cases hv : validAutoID autoID with
          | none => rfl
          | some e => rw [hv] at hs; simp at hs
        congr 1
        unfold pushAutoID
        rw [if_neg hd]
        apply fieldInterface.update_congr
        unfold Field.SetAutoID
        rw [hv]

theorem propagateAutoIDIfNotDefault_eq (autoID : Str) (fields : List fieldInterface)
    (h : (propagateAutoIDIfNotDefault fields autoID).2 = none) :
    (propagateAutoIDIfNotDefault fields autoID).1 = fields.map (pushAutoID autoID) := by
  unfold propagateAutoIDIfNotDefault at h ⊢
  by_cases ha : autoID = defaultAutoID
  · rw [if_pos ha]
    have hg : ∀ x : fieldInterface, pushAutoID autoID x = x := by
      intro x
      unfold pushAutoID
      by_cases hd : x.field.autoID ≠ defaultAutoID
      · rw [if_pos hd]
      · rw [if_neg hd]
        apply fieldInterface.update_same
        have hx : x.field.autoID = autoID := by rw [ha]; exact not_not.mp hd
        rw [← hx]
    show fields = fields.map (pushAutoID autoID)
    rw [List.map_congr_left (fun x _ => hg x)]
    simp
  · rw [if_neg ha] at h ⊢
    exact propagateAutoIDLoop_eq autoID fields h

theorem propagateAutoIDIfNotDefault_valid (autoID : Str) (fields : List fieldInterface)
    (h : validAutoID autoID = none) : (propagateAutoIDIfNotDefault fields autoID).2 = none := by
  unfold propagateAutoIDIfNotDefault
  split
  · rfl
  · exact propagateAutoIDLoop_valid autoID h fields

theorem pushAutoID_keeps (autoID : Str) (fld : fieldInterface) :
    keepsOwnSettings fld (pushAutoID autoID fld) := by
  unfold keepsOwnSettings
  rw [pushAutoID_field]
  refine ⟨fun h => ?_, fun _ => rfl⟩
  show pushedAutoID autoID fld.field = _
  unfold pushedAutoID
  rw [if_pos h]

theorem pushLabelSuffix_keeps (labelSuffix : Str) (fld : fieldInterface) :
    keepsOwnSettings fld (pushLabelSuffix labelSuffix fld) := by
  unfold keepsOwnSettings
  rw [pushLabelSuffix_field]
  refine ⟨fun _ => rfl, fun h => ?_⟩
  show pushedLabelSuffix labelSuffix fld.field = _
  unfold pushedLabelSuffix
  rw [if_pos h]

/-- The class and locale propagation of a form maps every field with one function
that leaves the auto-id pattern and the label suffix as they are. -/
theorem classesAndLocales_fields (required error : Str) (locales : List LangTag) :
    ∃ g : fieldInterface → fieldInterface,
      (∀ l, propagateLocalesIfNotEmpty
          (propagateErrorCSSClassIfNotEmpty (propagateRequiredCSSClassIfNotEmpty l required) error)
          locales = l.map g)
      ∧ ∀ x, (g x).field.autoID = x.field.autoID ∧ (g x).field.labelSuffix = x.field.labelSuffix := by
  unfold propagateLocalesIfNotEmpty propagateErrorCSSClassIfNotEmpty
    propagateRequiredCSSClassIfNotEmpty propagateErrorCSSClass propagateRequiredCSSClass
  by_cases h1 : required.length = 0 <;> by_cases h2 : error.length = 0
  · refine ⟨fun x => x.update (fun y => y.SetLocale (locales.headD defaultLanguage)),
      fun l => ?_, fun x => ?_⟩
    · rw [if_pos h1, if_pos h2]
    · rw [fieldInterface.field_update]; exact ⟨rfl, rfl⟩
  · refine ⟨fun x => (x.update (fun y => y.SetErrorCSSClass error)).update
      (fun y => y.SetLocale (locales.headD defaultLanguage)), fun l => ?_, fun x => ?_⟩
    · rw [if_pos h1, if_neg h2, List.map_map]; rfl
    · rw [fieldInterface.field_update, fieldInterface.field_update]; exact ⟨rfl, rfl⟩
  · refine ⟨fun x => (x.update (fun y => y.SetRequiredCSSClass required)).update
      (fun y => y.SetLocale (locales.headD defaultLanguage)), fun l => ?_, fun x => ?_⟩
    · rw [if_neg h1, if_pos h2, List.map_map]; rfl
    · rw [fieldInterface.field_update, fieldInterface.field_update]; exact ⟨rfl, rfl⟩
  · refine ⟨fun x => ((x.update (fun y => y.SetRequiredCSSClass required)).update
      (fun y => y.SetErrorCSSClass error)).update
      (fun y => y.SetLocale (locales.headD defaultLanguage)), fun l => ?_, fun x => ?_⟩
    · rw [if_neg h1, if_neg h2, List.map_map, List.map_map]; rfl
    · rw [fieldInterface.field_update, fieldInterface.field_update, fieldInterface.field_update]
      exact ⟨rfl, rfl⟩

theorem addField_fields (L : Lib) (f : Form) (fld : fieldInterface)
    (h : (f.addField L fld).2 = none) :
    ∃ new : fieldInterface, (f.addField L fld).1.fields = f.fields ++ [new]
      ∧ (f.addField L fld).1.autoID = f.autoID
      ∧ (f.addField L fld).1.labelSuffix = f.labelSuffix
      ∧ new.field.autoID = pushedAutoID f.autoID fld.field
      ∧ new.field.labelSuffix = pushedLabelSuffix f.labelSuffix fld.field := by
  obtain ⟨g, hg, hgk⟩ := classesAndLocales_fields f.requiredCSSClass f.errorCSSClass f.locales
  have h1 : (f.addField L fld).2
      = (propagateAutoIDIfNotDefault [g (pushLabelSuffix f.labelSuffix fld)] f.autoID).2 := by
    simp only [Form.addField, hg, propagateLabelSuffix_eq, List.map_cons, List.map_nil]
  have h2 : (f.addField L fld).1.fields
      = f.fields ++ (propagateAutoIDIfNotDefault [g (pushLabelSuffix f.labelSuffix fld)] f.autoID).1 := by
    simp only [Form.addField, hg, propagateLabelSuffix_eq, List.map_cons, List.map_nil]
  rw [h1] at h
  rw [h2, propagateAutoIDIfNotDefault_eq _ _ h]
  refine ⟨pushAutoID f.autoID (g (pushLabelSuffix f.labelSuffix fld)), rfl, rfl, rfl, ?_, ?_⟩
  · rw [pushAutoID_field]
    show pushedAutoID f.autoID (g (pushLabelSuffix f.labelSuffix fld)).field = _
    unfold pushedAutoID
    rw [(hgk _).1, pushLabelSuffix_field]
  · rw [pushAutoID_field]
    show (g (pushLabelSuffix f.labelSuffix fld)).field.labelSuffix = _
    rw [(hgk _).2, pushLabelSuffix_field]

theorem addField_valid (L : Lib) (f : Form) (fld : fieldInterface)
    (h : validAutoID f.autoID = none) : (f.addField L fld).2 = none := by
  unfold Form.addField
  exact propagateAutoIDIfNotDefault_valid f.autoID _ h

theorem addField_step (L : Lib) (f : Form) (fld : fieldInterface)
    (h : (f.addField L fld).2 = none) :
    ∃ (g : fieldInterface → fieldInterface) (added : List fieldInterface),
      (f.addField L fld).1.fields = f.fields.map g ++ added
      ∧ (∀ x, keepsOwnSettings x (g x))
      ∧ (∀ x, holdsFormDefaults f x → holdsFormDefaults (f.addField L fld).1 (g x))
      ∧ (∀ y ∈ added, holdsFormDefaults (f.addField L fld).1 y) := by
  obtain ⟨new, hf, ha, hl, hna, hnl⟩ := addField_fields L f fld h
  refine ⟨id, [new], ?_, fun x => keepsOwnSettings_refl x, ?_, ?_⟩
  · rw [hf, List.map_id]
  · intro x hx
    unfold holdsFormDefaults at hx ⊢
    rw [ha, hl]
    exact hx
  · intro y hy
    rw [List.mem_singleton] at hy
    subst hy
    unfold holdsFormDefaults
    rw [ha, hl, hna, hnl]
    unfold pushedAutoID pushedLabelSuffix
    constructor
    · by_cases hd : fld.field.autoID ≠ defaultAutoID
      · rw [if_pos hd]; exact fun h1 => absurd h1 hd
      · rw [if_neg hd]; exact id
    · by_cases hd : fld.field.labelSuffix ≠ defaultLabelSuffix
      · rw [if_pos hd]; exact fun h1 => absurd h1 hd
      · rw [if_neg hd]; exact id

theorem setAndPropagateAutoID_fields (f : Form) (autoID : Str)
    (h : (setAndPropagateAutoID f autoID).2 = none) :
    (setAndPropagateAutoID f autoID).1
      = { f with autoID := autoID, fields := f.fields.map (pushAutoID autoID) } := by
  unfold setAndPropagateAutoID at h ⊢
  dsimp only at h ⊢
  rw [propagateAutoIDIfNotDefault_eq autoID f.fields h]

theorem setAndPropagateAutoID_step (f : Form) (autoID : Str)
    (h : (setAndPropagateAutoID f autoID).2 = none) :
    ∃ (g : fieldInterface → fieldInterface) (added : List fieldInterface),
      (setAndPropagateAutoID f autoID).1.fields = f.fields.map g ++ added
      ∧ (∀ x, keepsOwnSettings x (g x))
      ∧ (∀ x, holdsFormDefaults f x → holdsFormDefaults (setAndPropagateAutoID f autoID).1 (g x))
      ∧ (∀ y ∈ added, holdsFormDefaults (setAndPropagateAutoID f autoID).1 y) := by
  rw [setAndPropagateAutoID_fields f autoID h]
  refine ⟨pushAutoID autoID, [], (List.append_nil _).symm, pushAutoID_keeps autoID, ?_,
    fun y hy => absurd hy (List.not_mem_nil y)⟩
  intro x hx
  unfold holdsFormDefaults at hx ⊢
  rw [pushAutoID_field]
  refine ⟨?_, hx.2⟩
  show pushedAutoID autoID x.field = defaultAutoID → autoID = defaultAutoID
  unfold pushedAutoID
  by_cases hd : x.field.autoID ≠ defaultAutoID
  · rw [if_pos hd]; exact fun h1 => absurd h1 hd
  · rw [if_neg hd]; exact id

theorem update_step (f f1 : Form) (g : Field → Field)
    (hg : ∀ x, (g x).autoID = x.autoID ∧ (g x).labelSuffix = x.labelSuffix)
    (hf : f1.fields = f.fields.map (fun fld => fld.update g))
    (ha : f1.autoID = f.autoID) (hl : f1.labelSuffix = f.labelSuffix) :
    ∃ (g1 : fieldInterface → fieldInterface) (added : List fieldInterface),
      f1.fields = f.fields.map g1 ++ added
      ∧ (∀ x, keepsOwnSettings x (g1 x))
      ∧ (∀ x, holdsFormDefaults f x → holdsFormDefaults f1 (g1 x))
      ∧ (∀ y ∈ added, holdsFormDefaults f1 y) := by
  refine ⟨fun fld => fld.update g, [], by rw [hf, List.append_nil], ?_, ?_,
    fun y hy => absurd hy (List.not_mem_nil y)⟩
  · intro x
    unfold keepsOwnSettings
    rw [fieldInterface.field_update, (hg _).1, (hg _).2]
    exact ⟨fun _ => rfl, fun _ => rfl⟩
  · intro x hx
    unfold holdsFormDefaults at hx ⊢
    rw [fieldInterface.field_update, (hg _).1, (hg _).2, ha, hl]
    exact hx

theorem FormOption_run_step (L : Lib) (opt : FormOption) (f : Form)
    (h : (opt.run L f).2 = none) :
    ∃ (g : fieldInterface → fieldInterface) (added : List fieldInterface),
      (opt.run L f).1.fields = f.fields.map g ++ added
      ∧ (∀ x, keepsOwnSettings x (g x))
      ∧ (∀ x, holdsFormDefaults f x → holdsFormDefaults (opt.run L f).1 (g x))
      ∧ (∀ y ∈ added, holdsFormDefaults (opt.run L f).1 y) := by
  cases opt with
  | WithBooleanField fld => exact addField_step L f _ h
  | WithCharField fld => exact addField_step L f _ h
  | WithEmailField fld => exact addField_step L f _ h
  | WithChoiceField fld => exact addField_step L f _ h
  | WithMultipleChoiceField fld => exact addField_step L f _ h
  | WithAutoID autoID =>
    simp only [FormOption.run] at h ⊢
    cases hv : validAutoID autoID with
    | some e => rw [hv] at h; simp at h
    | none =>
      rw [hv] at h
      exact setAndPropagateAutoID_step f autoID h
  | DisableAutoID => exact setAndPropagateAutoID_step f [] h
  | WithLabelSuffix labelSuffix =>
    refine ⟨pushLabelSuffix labelSuffix, [], (List.append_nil _).symm,
      pushLabelSuffix_keeps labelSuffix, ?_, fun y hy => absurd hy (List.not_mem_nil y)⟩
    intro x hx
    unfold holdsFormDefaults at hx ⊢
    rw [pushLabelSuffix_field]
    refine ⟨hx.1, ?_⟩
    show pushedLabelSuffix labelSuffix x.field = defaultLabelSuffix
      → labelSuffix = defaultLabelSuffix
    unfold pushedLabelSuffix
    by_cases hd : x.field.labelSuffix ≠ defaultLabelSuffix
    · rw [if_pos hd]; exact fun h1 => absurd h1 hd
    · rw [if_neg hd]; exact id
  | WithRequiredCSSClass cls =>
    exact update_step f _ (fun x => x.SetRequiredCSSClass cls) (fun _ => ⟨rfl, rfl⟩) rfl rfl rfl
  | WithErrorCSSClass cls =>
    exact update_step f _ (fun x => x.SetErrorCSSClass cls) (fun _ => ⟨rfl, rfl⟩) rfl rfl rfl
  | WithLocales locales =>
    exact update_step f _ (fun x => x.SetLocale (locales.headD defaultLanguage))
      (fun _ => ⟨rfl, rfl⟩) rfl rfl rfl

theorem applyFormOptions_keeps (L : Lib) (opts : List FormOption) :
    ∀ f f1 : Form, applyFormOptions L opts f = .ok f1 →
      fieldsKeepOwnSettings f.fields f1.fields
        ∧ ((∀ x ∈ f.fields, holdsFormDefaults f x) → ∀ x ∈ f1.fields, holdsFormDefaults f1 x) := by
  induction opts with
  | nil =>
    intro f f1 h
    simp only [applyFormOptions, Except.ok.injEq] at h
    subst h
    exact ⟨fieldsKeepOwnSettings_refl _, id⟩
  | cons opt rest ih =>
    intro f f1 h
    unfold applyFormOptions at h
    cases he : (opt.run L f).2 with
    | some e => rw [he] at h; simp at h
    | none =>
      rw [he] at h
      dsimp only at h
      obtain ⟨g, added, hf, hk, hh, ha⟩ := FormOption_run_step L opt f he
      obtain ⟨ih1, ih2⟩ := ih _ f1 h
      refine ⟨fieldsKeepOwnSettings_trans _ _ _ ?_ ih1, fun hinv => ih2 ?_⟩
      · rw [hf]
        exact fieldsKeepOwnSettings_append _ _ _ (fieldsKeepOwnSettings_map _ g hk)
      · intro x hx
        rw [hf, List.mem_append, List.mem_map] at hx
        rcases hx with ⟨y, hy, rfl⟩ | hx
        · exact hh y (hinv y hy)
        · exact ha x hx

/-- C30: for the auto-id pattern and the label suffix. Attaching a field, when no
error is returned (as is the case when the pattern of the form is valid), leaves
the fields of the form as they are and appends the field with its own pattern
when that is not `id_%s` and with the pattern of the form otherwise, and the same
for the suffix and the empty string. `WithAutoID` with a valid pattern and
`DisableAutoID` set the pattern of the form, leave every field whose pattern is
not `id_%s` as it is and set the pattern of the other fields, changing nothing
else. `WithLabelSuffix` does the same for the suffix. After any list of options
that `New` applies without error, every field that was in the form is at the same
position and has kept a pattern and a suffix that were not the defaults, and every
field of the form built that still holds a default holds the value of the form. -/
theorem C30_own_pattern_and_suffix_are_never_overwritten (L : Lib) :
    (∀ (f : Form) (fld : fieldInterface), (f.addField L fld).2 = none →
        ∃ new : fieldInterface, (f.addField L fld).1.fields = f.fields ++ [new]
          ∧ new.field.autoID = pushedAutoID f.autoID fld.field
          ∧ new.field.labelSuffix = pushedLabelSuffix f.labelSuffix fld.field)
    ∧ (∀ (f : Form) (fld : fieldInterface), validAutoID f.autoID = none →
        (f.addField L fld).2 = none)
    ∧ (∀ (f : Form) (autoID : Str), validAutoID autoID = none →
        ((FormOption.WithAutoID autoID).run L f).1
          = { f with autoID := autoID, fields := f.fields.map (fun fld =>
              if fld.field.autoID ≠ defaultAutoID then fld
              else fld.update (fun x => { x with autoID := autoID })) })
    ∧ (∀ f : Form, (FormOption.DisableAutoID.run L f).1
          = { f with autoID := [], fields := f.fields.map (fun fld =>
              if fld.field.autoID ≠ defaultAutoID then fld
              else fld.update (fun x => { x with autoID := [] })) })
    ∧ (∀ (f : Form) (labelSuffix : Str), ((FormOption.WithLabelSuffix labelSuffix).run L f).1
          = { f with labelSuffix := labelSuffix, fields := f.fields.map (fun fld =>
              if fld.field.labelSuffix ≠ defaultLabelSuffix then fld
              else fld.update (fun x => { x with labelSuffix := labelSuffix })) })
    ∧ (∀ (opts : List FormOption) (f f1 : Form), applyFormOptions L opts f = .ok f1 →
        fieldsKeepOwnSettings f.fields f1.fields)
    ∧ (∀ (opts : List FormOption) (f : Form), New L opts = .ok f →
        ∀ fld ∈ f.fields, holdsFormDefaults f fld)
    ∧ (match New sampleLib ownSettingsOptions with
        | .ok f => (f.autoID, f.labelSuffix,
            f.fields.map (fun fld => (fld.field.name, fld.field.autoID, fld.field.labelSuffix)))
        | .error _ => ([], [], []))
        = ([], ":".toList,
           [("Name".toList, "own_%s".toList, "?".toList),
            ("Nick".toList, "f_%s".toList, ":".toList),
            ("Mail".toList, [], ":".toList)]) := by
  refine ⟨?_, ?_, ?_, ?_, ?_, ?_, ?_, ?_⟩
  · intro f fld h
    obtain ⟨new, hf, -, -, hna, hnl⟩ := addField_fields L f fld h
    exact ⟨new, hf, hna, hnl⟩
  · intro f fld h
    exact addField_valid L f fld h
  · intro f autoID hv
    have h : (setAndPropagateAutoID f autoID).2 = none :=
      propagateAutoIDIfNotDefault_valid autoID f.fields hv
    simp only [FormOption.run, hv]
    exact setAndPropagateAutoID_fields f autoID h
  · intro f
    have h : (setAndPropagateAutoID f []).2 = none :=
      propagateAutoIDIfNotDefault_valid [] f.fields rfl
    exact setAndPropagateAutoID_fields f [] h
  · intro f labelSuffix
    rfl
  · intro opts f f1 h
    exact (applyFormOptions_keeps L opts f f1 h).1
  · intro opts f h
    exact (applyFormOptions_keeps L opts emptyForm f h).2
      (fun x hx => absurd hx (List.not_mem_nil x))
  · rfl

/-! ## Custom attributes -/

theorem mem_mapKeys_iff {V : Type} (m : GoMap V) (k : Str) :
    k ∈ mapKeys m ↔ mapHas m k = true := by
  induction m with
  | nil => simp [mapKeys, mapHas, mapGet]
  | cons p rest ih =>
    obtain ⟨k1, v⟩ := p
    unfold mapKeys mapHas at ih ⊢
    simp only [List.map_cons, List.mem_cons, mapGet]
    by_cases h : k1 = k
    · rw [if_pos h]
      exact ⟨fun _ => rfl, fun _ => Or.inl h.symm⟩
    · rw [if_neg h, ← ih]
      constructor
      · rintro (h1 | h1)
        · exact absurd h1.symm h
        · exact h1
      · exact Or.inr

theorem mapKeys_mapDelete_nodup {V : Type} (m : GoMap V) (k : Str) (h : (mapKeys m).Nodup) :
    (mapKeys (mapDelete m k)).Nodup := by
  unfold mapKeys mapDelete at *
  exact h.sublist ((List.filter_sublist m).map Prod.fst)

theorem mapKeys_mapSet_nodup {V : Type} (m : GoMap V) (k : Str) (v : V) (h : (mapKeys m).Nodup) :
    (mapKeys (mapSet m k v)).Nodup := by
  have hd := mapKeys_mapDelete_nodup m k h
  have hk : k ∉ mapKeys (mapDelete m k) := by
    rw [mem_mapKeys_iff, mapHas_mapDelete]
    simp
  unfold mapSet mapKeys at *
  simp only [List.map_cons, List.nodup_cons]
  exact ⟨hk, hd⟩

theorem mapsCopy_nodup {V : Type} (src dst : GoMap V) (h : (mapKeys dst).Nodup) :
    (mapKeys (mapsCopy dst src)).Nodup := by
  induction src generalizing dst with
  | nil => exact h
  | cons p rest ih =>
    unfold mapsCopy
    rw [List.foldl_cons]
    exact ih _ (mapKeys_mapSet_nodup dst p.1 p.2 h)

theorem mapGet_mapsCopy {V : Type} (src dst : GoMap V) (k : Str) :
    mapGet (mapsCopy dst src) k
      = match (src.reverse.find? (fun p => decide (p.1 = k))) with
        | some p => some p.2
        | none => mapGet dst k := by
  induction src generalizing dst with
  | nil => rfl
  | cons p rest ih =>
    unfold mapsCopy at ih ⊢
    rw [List.foldl_cons, ih, List.reverse_cons, List.find?_append]
    cases hf : rest.reverse.find? (fun p => decide (p.1 = k)) with
    | some q => rfl
    | none =>
      simp only [Option.none_or, List.find?_cons, List.find?_nil]
      rw [mapGet_mapSet]
      by_cases hk : p.1 = k
      · simp [hk]
      · simp [hk]

theorem attribute_mapsCopy (output : GoMap Str) (attr : Attributable) :
    mapsCopy output attr.attribute = mapSet output attr.name attr.stringValue := by
  cases attr <;> rfl

theorem mapGet_attrsFold (attrs : List Attributable) (acc : GoMap Str) (k : Str) :
    mapGet (attrs.foldl (fun output attr => mapsCopy output attr.attribute) acc) k
      = match lastValueOf attrs k with
        | some v => some v
        | none => mapGet acc k := by
  induction attrs generalizing acc with
  | nil => rfl
  | cons a rest ih =>
    rw [List.foldl_cons, ih]
    unfold lastValueOf
    rw [List.reverse_cons, List.find?_append]
    cases hf : rest.reverse.find? (fun a => decide (a.name = k)) with
    | some q => rfl
    | none =>
      simp only [Option.none_or, List.find?_cons, List.find?_nil, Option.map_none']
      rw [attribute_mapsCopy, mapGet_mapSet]
      by_cases hk : a.name = k
      · simp [hk]
      · simp [hk]

theorem attrsFold_nodup (attrs : List Attributable) (acc : GoMap Str) (h : (mapKeys acc).Nodup) :
    (mapKeys (attrs.foldl (fun output attr => mapsCopy output attr.attribute) acc)).Nodup := by
  induction attrs generalizing acc with
  | nil => exact h
  | cons a rest ih =>
    rw [List.foldl_cons]
    exact ih _ (mapsCopy_nodup _ _ h)

theorem lastValueOf_isSome (attrs : List Attributable) (k : Str) :
    (lastValueOf attrs k).isSome = true ↔ k ∈ attrs.map Attributable.name := by
  unfold lastValueOf
  rw [Option.isSome_map', List.find?_isSome]
  simp only [List.mem_reverse, decide_eq_true_eq, List.mem_map]

theorem panicOnForbiddenAttributeName_ok (attrs : List Attributable) :
    panicOnForbiddenAttributeName attrs = .ok () ↔ noForbiddenName attrs := by
  unfold noForbiddenName
  induction attrs with
  | nil => simp [panicOnForbiddenAttributeName]
  | cons a rest ih =>
    unfold panicOnForbiddenAttributeName
    by_cases h : forbiddenAttributeNames.contains a.name = true
    · rw [if_pos h]
      simp only [List.elem_eq_mem, decide_eq_true_eq] at h
      simp only [List.mem_cons, forall_eq_or_imp, reduceCtorEq, false_iff, not_and]
      exact fun h1 => absurd h h1
    · rw [if_neg h, ih]
      simp only [List.elem_eq_mem, decide_eq_true_eq] at h
      simp only [List.mem_cons, forall_eq_or_imp]
      exact ⟨fun h1 => ⟨h, h1⟩, fun h1 => h1.2⟩

theorem panicOnForbiddenAttributeName_cases (attrs : List Attributable) :
    panicOnForbiddenAttributeName attrs = .ok ()
      ∨ ∃ attr ∈ attrs, attr.name ∈ forbiddenAttributeNames
          ∧ panicOnForbiddenAttributeName attrs
            = .error (.userPanic ((mapGet forbiddenAttributeMessages attr.name).getD [])) := by
  induction attrs with
  | nil => exact Or.inl rfl
  | cons a rest ih =>
    unfold panicOnForbiddenAttributeName
    by_cases h : forbiddenAttributeNames.contains a.name = true
    · rw [if_pos h]
      exact Or.inr ⟨a, List.mem_cons_self _ _, by simpa using h, rfl⟩
    · rw [if_neg h]
      rcases ih with h1 | ⟨b, hb, hn, he⟩
      · exact Or.inl h1
      · exact Or.inr ⟨b, List.mem_cons_of_mem _ hb, hn, he⟩

theorem attributableListToAttrs_ok (attrs : List Attributable) (h : noForbiddenName attrs) :
    attributableListToAttrs attrs
      = .ok (attrs.foldl (fun output attr => mapsCopy output attr.attribute) []) := by
  unfold attributableListToAttrs
  rw [(panicOnForbiddenAttributeName_ok attrs).mpr h]

theorem attributableListToAttrs_error_iff (attrs : List Attributable) :
    (∃ a, attributableListToAttrs attrs = .error a)
      ↔ ∃ attr ∈ attrs, attr.name ∈ forbiddenAttributeNames := by
  by_cases h : noForbiddenName attrs
  · rw [attributableListToAttrs_ok attrs h]
    constructor
    · rintro ⟨a, ha⟩
      cases ha
    · rintro ⟨attr, hm, hn⟩
      exact absurd hn (h attr hm)
  · have h1 : ∃ attr ∈ attrs, attr.name ∈ forbiddenAttributeNames := by
      unfold noForbiddenName at h
      push_neg at h
      exact h
    refine ⟨fun _ => h1, fun _ => ?_⟩
    rcases panicOnForbiddenAttributeName_cases attrs with h2 | ⟨b, -, -, he⟩
    · exact absurd ((panicOnForbiddenAttributeName_ok attrs).mp h2) h
    · unfold attributableListToAttrs
      rw [he]
      exact ⟨_, rfl⟩

theorem SetAttributes_panic_iff (fld : Field) (attrs : List Attributable) :
    (fld.SetAttributes attrs).2 ≠ none ↔ ∃ a, attributableListToAttrs attrs = .error a := by
  unfold Field.SetAttributes
  cases attributableListToAttrs attrs with
  | error a => simp
  | ok m =>
    dsimp only
    split <;> simp

/-- C22: when no attribute of the list has a forbidden name, the merge returns a
map in which every key stands once, whose keys are exactly the names that occur
in the list, and that maps each name to the value of the last attribute of the
list with that name: the stringified value of a name/value attribute, the empty
string for a boolean attribute. -/
theorem C22_merged_attributes_last_write_wins (attrs : List Attributable)
    (h : noForbiddenName attrs) :
    ∃ m : GoMap Str, attributableListToAttrs attrs = .ok m
      ∧ (mapKeys m).Nodup
      ∧ (∀ k, k ∈ mapKeys m ↔ k ∈ attrs.map Attributable.name)
      ∧ (∀ k, mapGet m k = lastValueOf attrs k) := by
  refine ⟨_, attributableListToAttrs_ok attrs h, attrsFold_nodup attrs [] List.nodup_nil, ?_, ?_⟩
  · intro k
    rw [mem_mapKeys_iff, ← lastValueOf_isSome]
    unfold mapHas
    rw [mapGet_attrsFold]
    cases lastValueOf attrs k <;> simp [mapGet]
  · intro k
    rw [mapGet_attrsFold]
    cases lastValueOf attrs k <;> simp [mapGet]

/-- The merge of `[BoolAttr("alpha"), Attr("alpha", "X"), Attr("size", 7)]` is the
map with `alpha` at `X` and `size` at `7`; in the other order `alpha` is at the
empty string. -/
theorem C22_witness_alpha :
    noForbiddenName sampleAttributes
    ∧ (∃ m : GoMap Str, attributableListToAttrs sampleAttributes = .ok m
      ∧ (mapKeys m).Nodup
      ∧ (∀ k, k ∈ mapKeys m ↔ k ∈ sampleAttributes.map Attributable.name)
      ∧ (∀ k, mapGet m k = lastValueOf sampleAttributes k))
    ∧ attributableListToAttrs sampleAttributes
        = .ok [("size".toList, "7".toList), ("alpha".toList, "X".toList)]
    ∧ attributableListToAttrs [Attr "alpha".toList (.str "X".toList), BoolAttr "alpha".toList]
        = .ok [("alpha".toList, [])] := by
  have h : noForbiddenName sampleAttributes := by
    unfold noForbiddenName
    decide
  exact ⟨h, C22_merged_attributes_last_write_wins sampleAttributes h, rfl, rfl⟩

/-- C23: the merge of a list of attributes panics exactly when some attribute of
the list, of either form and at any position, is named `type`, `name` or `value`;
the panic carries the message of the first such attribute. `SetAttributes` and
`WithAttributes` panic exactly when the merge does, `SetAttributes` then leaves
the field as it was, custom attributes included, and when the merge does not
panic `WithAttributes` returns the field that `SetAttributes` leaves, and no error. -/
theorem C23_forbidden_attribute_name_panics (attrs : List Attributable) :
    ((∃ a, attributableListToAttrs attrs = .error a)
        ↔ ∃ attr ∈ attrs, attr.name ∈ forbiddenAttributeNames)
    ∧ (∀ a, attributableListToAttrs attrs = .error a →
        ∃ attr ∈ attrs, attr.name ∈ forbiddenAttributeNames
          ∧ a = .userPanic ((mapGet forbiddenAttributeMessages attr.name).getD []))
    ∧ (∀ fld : Field, (fld.SetAttributes attrs).2 ≠ none
        ↔ ∃ attr ∈ attrs, attr.name ∈ forbiddenAttributeNames)
    ∧ (∀ fld : Field, (∃ a, WithAttributes attrs fld = .error a)
        ↔ ∃ attr ∈ attrs, attr.name ∈ forbiddenAttributeNames)
    ∧ (∀ fld : Field, (fld.SetAttributes attrs).2 ≠ none → (fld.SetAttributes attrs).1 = fld)
    ∧ (∀ fld : Field, (fld.SetAttributes attrs).2 = none →
        WithAttributes attrs fld = .ok ((fld.SetAttributes attrs).1, none))
    ∧ (∀ name : Str, name ∈ forbiddenAttributeNames
        ↔ (name = "type".toList ∨ name = "name".toList ∨ name = "value".toList))
    ∧ (∀ (name : Str) (value : AttrValue),
        (Attr name value).name = name ∧ (BoolAttr name).name = name) := by
  refine ⟨attributableListToAttrs_error_iff attrs, ?_, ?_, ?_, ?_, ?_, ?_, fun _ _ => ⟨rfl, rfl⟩⟩
  · intro a ha
    rcases panicOnForbiddenAttributeName_cases attrs with h2 | ⟨b, hb, hn, he⟩
    · unfold attributableListToAttrs at ha
      rw [h2] at ha
      cases ha
    · unfold attributableListToAttrs at ha
      rw [he] at ha
      injection ha with ha
      exact ⟨b, hb, hn, ha.symm⟩
  · intro fld
    rw [SetAttributes_panic_iff, attributableListToAttrs_error_iff]
  · intro fld
    rw [← attributableListToAttrs_error_iff, ← SetAttributes_panic_iff fld]
    unfold WithAttributes
    rcases hs : fld.SetAttributes attrs with ⟨fld1, _ | a⟩
    · simp
    · simp
  · intro fld h
    obtain ⟨a, ha⟩ := (SetAttributes_panic_iff fld attrs).mp h
    unfold Field.SetAttributes
    rw [ha]
  · intro fld h
    unfold WithAttributes
    rcases hs : fld.SetAttributes attrs with ⟨fld1, _ | a⟩
    · rfl
    · rw [hs] at h
      simp at h
  · intro name
    simp [forbiddenAttributeNames]

/-! ## Order of strings and sorting -/

theorem strLess_irrefl (s : Str) : strLess s s = false := by
  induction s with
  | nil => rfl
  | cons c s ih => simp [strLess, ih]

theorem strLess_asymm (s t : Str) (h : strLess s t = true) : strLess t s = false := by
  induction s generalizing t with
  | nil => cases t <;> simp [strLess] at h ⊢
  | cons c s ih =>
    cases t with
    | nil => simp [strLess] at h
    | cons d t =>
      simp only [strLess] at h ⊢
      by_cases h1 : c.toNat < d.toNat
      · have h2 : ¬ d.toNat < c.toNat := by omega
        simp [h1, h2]
      · by_cases h2 : d.toNat < c.toNat
        · simp [h1, h2] at h
        · simp only [h1, h2, if_false] at h ⊢
          exact ih t h

theorem strLess_trans (s t u : Str) (h1 : strLess s t = true) (h2 : strLess t u = true) :
    strLess s u = true := by
  induction s generalizing t u with
  | nil =>
    cases t with
    | nil => simp [strLess] at h1
    | cons d t =>
      cases u with
      | nil => simp [strLess] at h2
      | cons e u => rfl
  | cons c s ih =>
    cases t with
    | nil => simp [strLess] at h1
    | cons d t =>
      cases u with
      | nil => simp [strLess] at h2
      | cons e u =>
        simp only [strLess] at h1 h2 ⊢
        by_cases a1 : c.toNat < d.toNat
        · by_cases b1 : d.toNat < e.toNat
          · have : c.toNat < e.toNat := by omega
            simp [this]
          · by_cases b2 : e.toNat < d.toNat
            · simp [b1, b2] at h2
            · have : c.toNat < e.toNat := by omega
              simp [this]
        · by_cases a2 : d.toNat < c.toNat
          · simp [a1, a2] at h1
          · simp only [a1, a2, if_false] at h1
            by_cases b1 : d.toNat < e.toNat
            · have : c.toNat < e.toNat := by omega
              simp [this]
            · by_cases b2 : e.toNat < d.toNat
              · simp [b1, b2] at h2
              · simp only [b1, b2, if_false] at h2
                have c1 : ¬ c.toNat < e.toNat := by omega
                have c2 : ¬ e.toNat < c.toNat := by omega
                simp only [c1, c2, if_false]
                exact ih t u h1 h2

theorem charToNat_injective (c d : Char) (h : c.toNat = d.toNat) : c = d := by
  apply Char.ext
  apply UInt32.ext
  exact h

theorem strLess_total (s t : Str) (h1 : strLess s t = false) (h2 : strLess t s = false) :
    s = t := by
  induction s generalizing t with
  | nil =>
    cases t with
    | nil => rfl
    | cons d t => simp [strLess] at h1
  | cons c s ih =>
    cases t with
    | nil => simp [strLess] at h2
    | cons d t =>
      simp only [strLess] at h1 h2
      by_cases a1 : c.toNat < d.toNat
      · simp [a1] at h1
      · by_cases a2 : d.toNat < c.toNat
        · simp [a2] at h2
        · simp only [a1, a2, if_false] at h1 h2
          have hc : c = d := charToNat_injective c d (by omega)
          rw [hc, ih t h1 h2]

theorem insertSorted_perm (s : Str) (l : List Str) : (insertSorted s l).Perm (s :: l) := by
  induction l with
  | nil => exact List.Perm.refl _
  | cons t rest ih =>
    unfold insertSorted
    split
    · exact List.Perm.refl _
    · exact (List.Perm.cons t ih).trans (List.Perm.swap s t rest)

theorem sortStrings_perm (l : List Str) : (sortStrings l).Perm l := by
  induction l with
  | nil => exact List.Perm.refl _
  | cons s rest ih =>
    unfold sortStrings
    exact (insertSorted_perm s _).trans (List.Perm.cons s ih)

theorem insertSorted_ascending (s : Str) (l : List Str) (h : ascending l) :
    ascending (insertSorted s l) := by
  unfold ascending at *
  induction l with
  | nil => simp [insertSorted]
  | cons t rest ih =>
    rw [List.pairwise_cons] at h
    unfold insertSorted
    by_cases hst : strLess s t = true
    · rw [if_pos hst]
      refine List.Pairwise.cons ?_ (List.Pairwise.cons h.1 h.2)
      intro b hb
      rcases List.mem_cons.mp hb with rfl | hb
      · exact strLess_asymm s b hst
      · cases hbs : strLess b s with
        | false => rfl
        | true =>
          have := strLess_trans b s t hbs hst
          rw [h.1 b hb] at this
          cases this
    · rw [if_neg hst]
      refine List.Pairwise.cons ?_ (ih h.2)
      intro b hb
      rcases List.mem_cons.mp ((insertSorted_perm s rest).subset hb) with rfl | hb
      · simpa using hst
      · exact h.1 b hb

theorem sortStrings_ascending (l : List Str) : ascending (sortStrings l) := by
  induction l with
  | nil => exact List.Pairwise.nil
  | cons s rest ih =>
    unfold sortStrings
    exact insertSorted_ascending s _ ih

/-- An ascending arrangement of a list is the one that `sortStrings` returns:
the result of sorting does not depend on the order in which the strings come. -/
theorem sortStrings_unique (l l1 : List Str) (hp : l1.Perm l) (ha : ascending l1) :
    l1 = sortStrings l := by
  haveI : IsAntisymm Str (fun a b => strLess b a = false) :=
    ⟨fun a b h1 h2 => strLess_total a b h2 h1⟩
  exact List.eq_of_perm_of_sorted (hp.trans (sortStrings_perm l).symm) ha
    (sortStrings_ascending l)

theorem sortStrings_length (l : List Str) : (sortStrings l).length = l.length :=
  (sortStrings_perm l).length_eq

/-! ## Rendering of attribute maps (`templateattr.go`) -/

theorem renderedWhere_cons (e : Str × Str) (a : GoMap Str) (p : Str → Bool) :
    renderedWhere (e :: a) p
      = if p e.1 then keyValueToHTMLAttr e.1 e.2 :: renderedWhere a p else renderedWhere a p := by
  unfold renderedWhere
  rw [List.filter_cons]
  split <;> rfl

theorem renderedAt_miss (keys : List Str) (e : Str × Str) (a : GoMap Str) (h : e.1 ∉ keys) :
    renderedAt keys (e :: a) = renderedAt keys a := by
  induction keys with
  | nil => rfl
  | cons k rest ih =>
    unfold renderedAt at ih ⊢
    rw [List.flatMap_cons, List.flatMap_cons, ih (fun hm => h (List.mem_cons_of_mem _ hm)),
      renderedWhere_cons]
    have hk : e.1 ≠ k := fun hk => h (hk ▸ List.mem_cons_self _ _)
    simp [hk]

theorem renderedAt_hit (keys : List Str) (e : Str × Str) (a : GoMap Str) (h : e.1 ∈ keys)
    (hn : keys.Nodup) :
    (renderedAt keys (e :: a)).Perm (keyValueToHTMLAttr e.1 e.2 :: renderedAt keys a) := by
  induction keys with
  | nil => cases h
  | cons k rest ih =>
    rw [List.nodup_cons] at hn
    have hu : ∀ b : GoMap Str, renderedAt (k :: rest) b
        = renderedWhere b (fun key => decide (key = k)) ++ renderedAt rest b := fun b => by
      unfold renderedAt
      rw [List.flatMap_cons]
    rw [hu, hu, renderedWhere_cons]
    by_cases hk : e.1 = k
    · have hm : e.1 ∉ rest := by rw [hk]; exact hn.1
      rw [renderedAt_miss rest e a hm]
      simp [hk]
    · have hm : e.1 ∈ rest := by
        rcases List.mem_cons.mp h with h1 | h1
        · exact absurd h1 hk
        · exact h1
      simp only [hk, decide_False, Bool.false_eq_true, if_false]
      exact (List.Perm.append_left _ (ih hm hn.2)).trans List.perm_middle

theorem isPrefixOf_data_aria (key : Str) (h : "data-".toList.isPrefixOf key = true) :
    "aria-".toList.isPrefixOf key = false := by
  cases key with
  | nil => rfl
  | cons c rest =>
    have hc : c = 'd' := by
      simp only [String.toList, List.isPrefixOf, Bool.and_eq_true, beq_iff_eq] at h
      exact h.1.symm
    subst hc
    rfl

theorem isRemainingKey_eq (key : Str) :
    isRemainingKey key = (!(attrNameList.contains key) && (!("data-".toList.isPrefixOf key)
      && !("aria-".toList.isPrefixOf key))) := by
  unfold isRemainingKey attrPrefixList
  simp only [List.any_cons, List.any_nil, Bool.or_false, Bool.not_or]

theorem unsortedBuckets_perm (a : GoMap Str) :
    (unsortedBuckets a).Perm (a.map (fun e => keyValueToHTMLAttr e.1 e.2)) := by
  induction a with
  | nil => exact List.Perm.refl _
  | cons e a ih =>
    rw [List.map_cons]
    refine List.Perm.trans ?_ (List.Perm.cons _ ih)
    unfold unsortedBuckets
    by_cases h1 : e.1 ∈ ["class".toList, "id".toList, "name".toList]
    · have h2 : "data-".toList.isPrefixOf e.1 = false
          ∧ e.1 ∉ ["src".toList, "for".toList, "type".toList, "href".toList, "value".toList,
              "minlength".toList, "maxlength".toList, "title".toList, "alt".toList, "role".toList]
          ∧ "aria-".toList.isPrefixOf e.1 = false ∧ isRemainingKey e.1 = false := by
        revert h1
        generalize e.1 = key
        revert key
        decide
      rw [renderedWhere_cons, renderedWhere_cons, renderedWhere_cons, renderedAt_miss _ e a h2.2.1,
        h2.1, h2.2.2.1, h2.2.2.2]
      exact List.Perm.append_right _ (renderedAt_hit _ e a h1 (by decide))
    · rw [renderedAt_miss _ e a h1]
      refine (List.Perm.append_left _ ?_).trans List.perm_middle
      by_cases h2 : "data-".toList.isPrefixOf e.1 = true
      · have h3 : e.1 ∉ ["src".toList, "for".toList, "type".toList, "href".toList,
            "value".toList, "minlength".toList, "maxlength".toList, "title".toList,
            "alt".toList, "role".toList] := by
          intro hm
          revert h2
          revert hm
          generalize e.1 = key
          revert key
          decide
        have h4 : isRemainingKey e.1 = false := by
          rw [isRemainingKey_eq, h2]
          simp only [Bool.not_true, Bool.false_and, Bool.and_false]
        rw [renderedWhere_cons, renderedWhere_cons, renderedWhere_cons, renderedAt_miss _ e a h3,
          h2, isPrefixOf_data_aria e.1 h2, h4]
        exact List.Perm.refl _
      · rw [renderedWhere_cons, if_neg h2]
        refine (List.Perm.append_left _ ?_).trans List.perm_middle
        by_cases h3 : e.1 ∈ ["src".toList, "for".toList, "type".toList, "href".toList,
            "value".toList, "minlength".toList, "maxlength".toList, "title".toList,
            "alt".toList, "role".toList]
        · have h4 : "aria-".toList.isPrefixOf e.1 = false ∧ isRemainingKey e.1 = false := by
            revert h3
            generalize e.1 = key
            revert key
            decide
          rw [renderedWhere_cons, renderedWhere_cons, h4.1, h4.2]
          exact List.Perm.append_right _ (renderedAt_hit _ e a h3 (by decide))
        · rw [renderedAt_miss _ e a h3]
          refine (List.Perm.append_left _ ?_).trans List.perm_middle
          rw [renderedWhere_cons, renderedWhere_cons]
          by_cases h4 : "aria-".toList.isPrefixOf e.1 = true
          · have h5 : isRemainingKey e.1 = false := by
              rw [isRemainingKey_eq, h4]
              simp only [Bool.not_true, Bool.false_and, Bool.and_false]
            rw [h4, h5]
            exact List.Perm.refl _
          · have h5 : isRemainingKey e.1 = true := by
              have hn : e.1 ∉ attrNameList := by
                intro hm
                have : e.1 ∈ ["class".toList, "id".toList, "name".toList]
                    ∨ e.1 ∈ ["src".toList, "for".toList, "type".toList, "href".toList,
                      "value".toList, "minlength".toList, "maxlength".toList, "title".toList,
                      "alt".toList, "role".toList] := by
                  simp only [attrNameList, List.mem_cons, List.mem_singleton] at hm ⊢
                  tauto
                rcases this with h | h
                · exact h1 h
                · exact h3 h
              have hc : attrNameList.contains e.1 = false := by
                rw [Bool.eq_false_iff]
                intro hc
                exact hn (by simpa using hc)
              rw [isRemainingKey_eq, hc, Bool.eq_false_iff.mpr h2, Bool.eq_false_iff.mpr h4]
              rfl
            rw [if_neg h4, h5, if_pos rfl]
            exact List.perm_middle

theorem renderedWhere_nil (a : GoMap Str) (p : Str → Bool) (h : ∀ k ∈ mapKeys a, p k = false) :
    renderedWhere a p = [] := by
  induction a with
  | nil => rfl
  | cons e a ih =>
    rw [renderedWhere_cons, h e.1 (List.mem_cons_self _ _)]
    exact ih (fun k hk => h k (List.mem_cons_of_mem _ hk))

theorem htmlAttributeFromKey_eq (key : Str) (a : GoMap Str) (h : (mapKeys a).Nodup) :
    htmlAttributeFromKey key a = renderedWhere a (fun k => decide (k = key)) := by
  induction a with
  | nil => rfl
  | cons e a ih =>
    obtain ⟨k1, v⟩ := e
    have hn : k1 ∉ mapKeys a ∧ (mapKeys a).Nodup := List.nodup_cons.mp h
    rw [renderedWhere_cons]
    unfold htmlAttributeFromKey at ih ⊢
    simp only [mapGet]
    by_cases hk : k1 = key
    · subst hk
      rw [if_pos rfl, if_pos (by simp)]
      rw [renderedWhere_nil a _ (fun k hk => by
        have : k ≠ k1 := fun hc => hn.1 (hc ▸ hk)
        simp [this])]
    · rw [if_neg hk, if_neg (by simp [hk])]
      exact ih hn.2

theorem namedAndPrefixed_perm (a : GoMap Str) (h : (mapKeys a).Nodup) :
    (namedAndPrefixedAttributes a ++ remainingAttributes a).Perm (unsortedBuckets a) := by
  unfold namedAndPrefixedAttributes unsortedBuckets renderedAt remainingAttributes
    htmlAttributeFromKeyPrefix
  simp only [htmlAttributeFromKey_eq _ a h, List.flatMap_cons, List.flatMap_nil,
    List.append_assoc, List.append_nil]
  refine List.Perm.append_left _ (List.Perm.append_left _ (List.Perm.append_left _ ?_))
  refine List.Perm.append (sortStrings_perm _) ?_
  refine List.Perm.append_left _ (List.Perm.append_left _ (List.Perm.append_left _
    (List.Perm.append_left _ (List.Perm.append_left _ ?_))))
  refine List.Perm.append_left _ (List.Perm.append_left _ (List.Perm.append_left _
    (List.Perm.append_left _ (List.Perm.append_left _ ?_))))
  exact List.Perm.append (sortStrings_perm _) (sortStrings_perm _)

/-- With every key once in the map, the named buckets, the prefixed buckets and
the remainder hold every entry of the map once. -/
theorem allBuckets_perm (a : GoMap Str) (h : (mapKeys a).Nodup) :
    (namedAndPrefixedAttributes a ++ remainingAttributes a).Perm
      (a.map (fun e => keyValueToHTMLAttr e.1 e.2)) :=
  (namedAndPrefixed_perm a h).trans (unsortedBuckets_perm a)

/-- The remainder is empty when the test `len(output) < len(a)` fails, so
`HTMLAttributes` returns the named and prefixed buckets followed by the remainder. -/
theorem HTMLAttributes_eq (a : GoMap Str) (h : (mapKeys a).Nodup) :
    tmplAttrs.HTMLAttributes a = namedAndPrefixedAttributes a ++ remainingAttributes a := by
  unfold tmplAttrs.HTMLAttributes
  by_cases hg : (namedAndPrefixedAttributes a).length < a.length
  · rw [if_pos hg]
  · rw [if_neg hg]
    have hl := (allBuckets_perm a h).length_eq
    rw [List.length_append, List.length_map] at hl
    have h0 : (remainingAttributes a).length = 0 := by omega
    rw [List.length_eq_zero.mp h0, List.append_nil]

theorem formatUint_ne_nil (n : Nat) : formatUint n ≠ [] := by
  unfold formatUint Nat.toDigits
  rcases Nat.eq_zero_or_pos n with h0 | hpos
  · subst h0
    simp [Nat.toDigitsCore]
  · obtain ⟨k, t, -, -, ht⟩ := toDigitsCore_head (n + 1) n [] hpos (Nat.lt_succ_self n)
    rw [ht]
    exact List.cons_ne_nil _ _

theorem sprint_eq_nil_iff (value : AttrValue) : value.sprint = [] ↔ value = .str [] := by
  cases value with
  | str s => simp [AttrValue.sprint]
  | int i =>
    simp only [AttrValue.sprint, reduceCtorEq, iff_false]
    split
    · exact List.cons_ne_nil _ _
    · exact formatUint_ne_nil _

theorem HTMLAttributes_single (name value : Str) :
    tmplAttrs.HTMLAttributes [(name, value)] = [keyValueToHTMLAttr name value] := by
  have h : (mapKeys [(name, value)]).Nodup := by simp [mapKeys]
  rw [HTMLAttributes_eq _ h]
  exact List.perm_singleton.mp (allBuckets_perm _ h)

/-- X9: in a map in which every key stands once, `HTMLAttributes` returns the
buckets in the order class, id, name, `data-`, src, for, type, href, value,
minlength, maxlength, title, alt, role, `aria-`, then the remainder. A named
bucket holds the rendered entry of that key when the map has it. The bucket of a
key prefix and the remainder hold the rendered entries of their keys, each once,
in ascending order of the rendered text (key, and for a non-empty value the
equals sign and the quoted value), not of the keys. -/
theorem bucket_order_and_ascending_rendered_text (a : GoMap Str)
    (h : (mapKeys a).Nodup) :
    tmplAttrs.HTMLAttributes a
      = htmlAttributeFromKey "class".toList a
        ++ htmlAttributeFromKey "id".toList a
        ++ htmlAttributeFromKey "name".toList a
        ++ htmlAttributeFromKeyPrefix "data-".toList a
        ++ htmlAttributeFromKey "src".toList a
        ++ htmlAttributeFromKey "for".toList a
        ++ htmlAttributeFromKey "type".toList a
        ++ htmlAttributeFromKey "href".toList a
        ++ htmlAttributeFromKey "value".toList a
        ++ htmlAttributeFromKey "minlength".toList a
        ++ htmlAttributeFromKey "maxlength".toList a
        ++ htmlAttributeFromKey "title".toList a
        ++ htmlAttributeFromKey "alt".toList a
        ++ htmlAttributeFromKey "role".toList a
        ++ htmlAttributeFromKeyPrefix "aria-".toList a
        ++ remainingAttributes a
    ∧ (∀ key : Str, htmlAttributeFromKey key a
        = match mapGet a key with
          | some value => [keyValueToHTMLAttr key value]
          | none => [])
    ∧ (∀ pre : Str, ascending (htmlAttributeFromKeyPrefix pre a)
        ∧ (htmlAttributeFromKeyPrefix pre a).Perm
            (renderedWhere a (fun key => pre.isPrefixOf key)))
    ∧ ascending (remainingAttributes a)
    ∧ (remainingAttributes a).Perm (renderedWhere a isRemainingKey)
    ∧ (∀ key : Str, isRemainingKey key = true
        ↔ (key ∉ attrNameList ∧ "data-".toList.isPrefixOf key = false
            ∧ "aria-".toList.isPrefixOf key = false)) := by
  refine ⟨HTMLAttributes_eq a h, fun _ => rfl,
    fun pre => ⟨sortStrings_ascending _, sortStrings_perm _⟩,
    sortStrings_ascending _, sortStrings_perm _, ?_⟩
  intro key
  rw [isRemainingKey_eq]
  simp only [Bool.and_eq_true, Bool.not_eq_true', List.elem_eq_mem, decide_eq_false_iff_not]

/-- X9 (witness): on a map with keys of several buckets, given in no particular
order. -/
theorem X9_witness_mixed :
    (mapKeys mixedAttrs).Nodup
    ∧ tmplAttrs.HTMLAttributes mixedAttrs
      = htmlAttributeFromKey "class".toList mixedAttrs
        ++ htmlAttributeFromKey "id".toList mixedAttrs
        ++ htmlAttributeFromKey "name".toList mixedAttrs
        ++ htmlAttributeFromKeyPrefix "data-".toList mixedAttrs
        ++ htmlAttributeFromKey "src".toList mixedAttrs
        ++ htmlAttributeFromKey "for".toList mixedAttrs
        ++ htmlAttributeFromKey "type".toList mixedAttrs
        ++ htmlAttributeFromKey "href".toList mixedAttrs
        ++ htmlAttributeFromKey "value".toList mixedAttrs
        ++ htmlAttributeFromKey "minlength".toList mixedAttrs
        ++ htmlAttributeFromKey "maxlength".toList mixedAttrs
        ++ htmlAttributeFromKey "title".toList mixedAttrs
        ++ htmlAttributeFromKey "alt".toList mixedAttrs
        ++ htmlAttributeFromKey "role".toList mixedAttrs
        ++ htmlAttributeFromKeyPrefix "aria-".toList mixedAttrs
        ++ remainingAttributes mixedAttrs
    ∧ tmplAttrs.HTMLAttributes mixedAttrs
      = ["class=".toList ++ [dquoteChar] ++ "big".toList ++ [dquoteChar],
         "id=".toList ++ [dquoteChar] ++ "me".toList ++ [dquoteChar],
         "data-a=".toList ++ [dquoteChar] ++ "1".toList ++ [dquoteChar],
         "data-b=".toList ++ [dquoteChar] ++ "2".toList ++ [dquoteChar],
         "alt=".toList ++ [dquoteChar] ++ "a".toList ++ [dquoteChar],
         "aria-label=".toList ++ [dquoteChar] ++ "x".toList ++ [dquoteChar],
         "zeta".toList] := by
  have h : (mapKeys mixedAttrs).Nodup := by decide
  exact ⟨h, (bucket_order_and_ascending_rendered_text mixedAttrs h).1, by decide⟩

/-- C24 (evaluation at the failing input): the map with `data-user` at `1` and
`data-user-id` at `2`, two keys of the `data-` bucket. The key `data-user` is
less than the key `data-user-id`, yet `HTMLAttributes` lists `data-user-id`
first: the bucket is sorted by the rendered text, in which the hyphen after
`data-user` is less than the equals sign. With empty values the same two keys
are listed in the order of the keys. -/
theorem C24_data_bucket_not_in_key_order :
    tmplAttrs.HTMLAttributes dataUserAttrs
      = ["data-user-id=".toList ++ [dquoteChar] ++ "2".toList ++ [dquoteChar],
         "data-user=".toList ++ [dquoteChar] ++ "1".toList ++ [dquoteChar]]
    ∧ strLess "data-user".toList "data-user-id".toList = true
    ∧ (mapKeys dataUserAttrs).Nodup
    ∧ sortStrings (mapKeys dataUserAttrs) = ["data-user".toList, "data-user-id".toList]
    ∧ tmplAttrs.HTMLAttributes [("data-user".toList, []), ("data-user-id".toList, [])]
        = ["data-user".toList, "data-user-id".toList] := by
  decide

/-- C25: `BoolAttr(name)` is rendered as the bare name. `Attr(name, value)` is
rendered as the name, the equals sign and the stringified value between double
quotes when the stringified value is not empty, and as the bare name when it is
empty, which is the case for the empty string and no other value. Both through
`HTMLAttributes` and through the method `Attr` of the map. -/
theorem C25_attribute_with_empty_value_renders_bare (name : Str) (value : AttrValue) :
    tmplAttrs.HTMLAttributes (BoolAttr name).attribute = [name]
    ∧ tmplAttrs.Attr (BoolAttr name).attribute name = name
    ∧ (value.sprint ≠ [] →
        tmplAttrs.HTMLAttributes (Attr name value).attribute
            = [name ++ ['=', dquoteChar] ++ value.sprint ++ [dquoteChar]]
          ∧ tmplAttrs.Attr (Attr name value).attribute name
            = name ++ ['=', dquoteChar] ++ value.sprint ++ [dquoteChar])
    ∧ (value.sprint = [] →
        tmplAttrs.HTMLAttributes (Attr name value).attribute = [name]
          ∧ tmplAttrs.Attr (Attr name value).attribute name = name)
    ∧ (value.sprint = [] ↔ value = .str [])
    ∧ (∀ s : Str, (AttrValue.str s).sprint = s) := by
  have hA : ∀ v : Str, tmplAttrs.Attr [(name, v)] name = keyValueToHTMLAttr name v := by
    intro v
    simp [tmplAttrs.Attr, mapGet]
  refine ⟨?_, ?_, ?_, ?_, sprint_eq_nil_iff value, fun _ => rfl⟩
  · exact HTMLAttributes_single name []
  · exact hA []
  · intro hv
    have hk : keyValueToHTMLAttr name value.sprint
        = name ++ ['=', dquoteChar] ++ value.sprint ++ [dquoteChar] := by
      unfold keyValueToHTMLAttr
      rw [if_pos (List.length_pos.mpr hv)]
    rw [← hk]
    exact ⟨HTMLAttributes_single name value.sprint, hA value.sprint⟩
  · intro hv
    have hk : keyValueToHTMLAttr name value.sprint = name := by
      unfold keyValueToHTMLAttr
      rw [hv]
      rfl
    have h1 := HTMLAttributes_single name value.sprint
    have h2 := hA value.sprint
    rw [hk] at h1 h2
    exact ⟨h1, h2⟩

/-- The attribute `Attr("alt", "")` is rendered as `alt`, not as `alt=""`. -/
theorem C25_empty_value_renders_bare_name :
    tmplAttrs.HTMLAttributes (Attr "alt".toList (.str [])).attribute = ["alt".toList]
    ∧ renderByForm (Attr "alt".toList (.str [])) = "alt=".toList ++ [dquoteChar, dquoteChar]
    ∧ attributableListToAttrs [Attr "alt".toList (.str [])] = .ok [("alt".toList, [])] := by
  refine ⟨by decide, by decide, rfl⟩

/-! ## Ids of the options of a choice widget -/

theorem indexesUsedByGroup_widget (g : choiceFieldOptionGroup) (inputWidget : Widget)
    (baseID htmlName : Str) (groupIndex : Nat) (selected : List Str) :
    indexesUsedByGroup (g.widget inputWidget baseID htmlName groupIndex selected)
      = slotsUsed g := by
  unfold indexesUsedByGroup slotsUsed choiceFieldOptionGroup.widget
  simp only [List.length_map, List.enum_length]
  by_cases h : g.label = []
  · simp [h]
  · have : g.label.length > 0 := List.length_pos.mpr h
    simp [h, this]

theorem firstSlot_zero (groups : List choiceFieldOptionGroup) : firstSlot groups 0 = 0 := rfl

theorem firstSlot_cons_succ (g : choiceFieldOptionGroup) (groups : List choiceFieldOptionGroup)
    (n : Nat) : firstSlot (g :: groups) (n + 1) = slotsUsed g + firstSlot groups n := by
  unfold firstSlot
  simp

/-- The group at position `n` is built with `groupIndex` at its first slot. -/
theorem widgetGroupsFrom_getElem (optionWidget : Widget) (baseID htmlName : Str)
    (selected : List Str) (groups : List choiceFieldOptionGroup) (s n : Nat) :
    (widgetGroupsFrom optionWidget baseID htmlName selected s groups)[n]?
      = groups[n]?.map (fun g =>
          g.widget optionWidget baseID htmlName (s + firstSlot groups n) selected) := by
  induction groups generalizing s n with
  | nil => simp [widgetGroupsFrom]
  | cons g rest ih =>
    unfold widgetGroupsFrom
    cases n with
    | zero => simp [firstSlot_zero]
    | succ m =>
      simp only [List.getElem?_cons_succ]
      rw [ih, indexesUsedByGroup_widget, firstSlot_cons_succ, Nat.add_assoc]

theorem widgetGroupsFrom_length (optionWidget : Widget) (baseID htmlName : Str)
    (selected : List Str) (groups : List choiceFieldOptionGroup) (s : Nat) :
    (widgetGroupsFrom optionWidget baseID htmlName selected s groups).length = groups.length := by
  induction groups generalizing s with
  | nil => rfl
  | cons g rest ih =>
    unfold widgetGroupsFrom
    simp [ih]

theorem widget_options_getElem (g : choiceFieldOptionGroup) (inputWidget : Widget)
    (baseID htmlName : Str) (groupIndex : Nat) (selected : List Str) (j : Nat) :
    (g.widget inputWidget baseID htmlName groupIndex selected).options[j]?
      = g.options[j]?.map (fun o =>
          o.widget inputWidget htmlName (selected.contains o.Value)
            (optionIDAttrs baseID g.label groupIndex j)) := by
  unfold choiceFieldOptionGroup.widget
  simp only [List.getElem?_map, List.getElem?_enum, Option.map_map]
  rfl

theorem selectedAttr_name_ne_id (t : Widget) (selected : Bool) (a : Str × Str)
    (h : t.selectedAttr selected = some a) : a.1 ≠ "id".toList := by
  unfold Widget.selectedAttr at h
  cases selected with
  | false => simp at h
  | true =>
    cases t <;> simp at h <;> (rw [← h]; decide)

theorem option_widget_id (o : ChoiceFieldOption) (inputWidget : Widget) (htmlName : Str)
    (selected : Bool) (attrs : GoMap Str) :
    mapGet (o.widget inputWidget htmlName selected attrs).Attrs "id".toList
      = mapGet attrs "id".toList := by
  unfold ChoiceFieldOption.widget
  dsimp only
  cases h : inputWidget.selectedAttr selected with
  | none => rfl
  | some a =>
    dsimp only
    rw [mapGet_mapSet, if_neg (selectedAttr_name_ne_id _ _ a h)]

theorem optionIDAttrs_id (baseID groupName : Str) (groupIndex i : Nat) (h : baseID ≠ []) :
    mapGet (optionIDAttrs baseID groupName groupIndex i) "id".toList
      = some (if groupName = [] then normalizedGroupID baseID (groupIndex + i)
              else normalizedSubGroupID baseID groupIndex i) := by
  unfold optionIDAttrs
  rw [if_pos (List.length_pos.mpr h)]
  by_cases hn : groupName = []
  · subst hn
    simp [mapGet_mapSet]
  · rw [if_pos (List.length_pos.mpr hn), if_neg hn, mapGet_mapSet, if_pos rfl]

/-- C26: with a non-empty base id, `fieldGroupsToWidgetGroups` returns one group
for each option group, with the same label and one option for each option, with
the same value and label. The option at index `j` of the group at position `n`
has the id `slotID`: slots are counted from 0 in the order of the groups, a group
without label uses one slot for each of its options, a group with a label uses
one slot; the id is the base id, an underscore and the slot of the option for a
group without label, and the base id, an underscore, the slot of the group, an
underscore and `j` for a group with a label. -/
theorem C26_option_ids_follow_slots (groups : List choiceFieldOptionGroup)
    (optionWidget : Widget) (baseID htmlName : Str) (selected : List Str) (h : baseID ≠ []) :
    (fieldGroupsToWidgetGroups groups optionWidget baseID htmlName selected).length
      = groups.length
    ∧ ∀ (n : Nat) (g : choiceFieldOptionGroup), groups[n]? = some g →
        ∃ gw : widgetOptionGroup,
          (fieldGroupsToWidgetGroups groups optionWidget baseID htmlName selected)[n]? = some gw
          ∧ gw.label = g.label
          ∧ gw.options.length = g.options.length
          ∧ ∀ (j : Nat) (o : ChoiceFieldOption), g.options[j]? = some o →
              ∃ w : widgetOption, gw.options[j]? = some w
                ∧ w.Value = o.Value ∧ w.Label = o.Label
                ∧ mapGet w.Attrs "id".toList = some (slotID baseID groups g n j) := by
  refine ⟨widgetGroupsFrom_length _ _ _ _ _ _, ?_⟩
  intro n g hg
  refine ⟨g.widget optionWidget baseID htmlName (firstSlot groups n) selected, ?_, rfl, ?_, ?_⟩
  · unfold fieldGroupsToWidgetGroups
    rw [widgetGroupsFrom_getElem, hg, Nat.zero_add]
    rfl
  · unfold choiceFieldOptionGroup.widget
    simp
  · intro j o ho
    rw [widget_options_getElem, ho]
    refine ⟨_, rfl, rfl, rfl, ?_⟩
    rw [option_widget_id, optionIDAttrs_id _ _ _ _ h]
    unfold slotID normalizedGroupID normalizedSubGroupID
    by_cases hl : g.label = []
    · rw [if_pos hl, if_pos hl]
      simp
    · rw [if_neg hl, if_neg hl]
      simp

/-- On two options without group, a group of three and one option without group,
with the base id `id_x`, the ids end in `_0`, `_1`, `_2_0`, `_2_1`, `_2_2`, `_3`. -/
theorem C26_witness_sample_groups :
    "id_x".toList ≠ []
    ∧ ((fieldGroupsToWidgetGroups sampleGroups .RadioSelect "id_x".toList "x".toList []).length
        = sampleGroups.length
      ∧ ∀ (n : Nat) (g : choiceFieldOptionGroup), sampleGroups[n]? = some g →
        ∃ gw : widgetOptionGroup,
          (fieldGroupsToWidgetGroups sampleGroups .RadioSelect "id_x".toList "x".toList [])[n]?
            = some gw
          ∧ gw.label = g.label
          ∧ gw.options.length = g.options.length
          ∧ ∀ (j : Nat) (o : ChoiceFieldOption), g.options[j]? = some o →
              ∃ w : widgetOption, gw.options[j]? = some w
                ∧ w.Value = o.Value ∧ w.Label = o.Label
                ∧ mapGet w.Attrs "id".toList = some (slotID "id_x".toList sampleGroups g n j))
    ∧ optionIDs (fieldGroupsToWidgetGroups sampleGroups .RadioSelect "id_x".toList "x".toList [])
        = [some "id_x_0".toList, some "id_x_1".toList, some "id_x_2_0".toList,
           some "id_x_2_1".toList, some "id_x_2_2".toList, some "id_x_3".toList] :=
  ⟨by decide,
   C26_option_ids_follow_slots sampleGroups .RadioSelect "id_x".toList "x".toList []
     (by decide),
   by decide⟩

theorem encodeIndexes_cons (n : Nat) (l : List Nat) :
    encodeIndexes (n :: l) = '_' :: (formatUint n ++ encodeIndexes l) := by
  unfold encodeIndexes
  simp

theorem encodeIndexes_head (l : List Nat) :
    ∀ c, (encodeIndexes l).head? = some c → c.isDigit = false := by
  intro c hc
  cases l with
  | nil => simp [encodeIndexes] at hc
  | cons n rest =>
    rw [encodeIndexes_cons] at hc
    simp only [List.head?_cons, Option.some.injEq] at hc
    rw [← hc]
    decide

theorem digits_append_cancel (d1 d2 t1 t2 : Str)
    (h1 : ∀ c ∈ d1, c.isDigit = true) (h2 : ∀ c ∈ d2, c.isDigit = true)
    (g1 : ∀ c, t1.head? = some c → c.isDigit = false)
    (g2 : ∀ c, t2.head? = some c → c.isDigit = false)
    (h : d1 ++ t1 = d2 ++ t2) : d1 = d2 ∧ t1 = t2 := by
  induction d1 generalizing d2 with
  | nil =>
    cases d2 with
    | nil => exact ⟨rfl, h⟩
    | cons d d2 =>
      simp only [List.nil_append, List.cons_append] at h
      have := g1 d (by rw [h]; rfl)
      rw [h2 d (List.mem_cons_self _ _)] at this
      cases this
  | cons c d1 ih =>
    cases d2 with
    | nil =>
      simp only [List.nil_append, List.cons_append] at h
      have := g2 c (by rw [← h]; rfl)
      rw [h1 c (List.mem_cons_self _ _)] at this
      cases this
    | cons d d2 =>
      simp only [List.cons_append, List.cons.injEq] at h
      obtain ⟨e1, e2⟩ := ih d2 (fun x hx => h1 x (List.mem_cons_of_mem _ hx))
        (fun x hx => h2 x (List.mem_cons_of_mem _ hx)) h.2
      exact ⟨by rw [h.1, e1], e2⟩

theorem formatUint_injective (a b : Nat) (h : formatUint a = formatUint b) : a = b := by
  have := congrArg decimalValue h
  rwa [decimalValue_formatUint, decimalValue_formatUint] at this

theorem encodeIndexes_injective (l1 l2 : List Nat) (h : encodeIndexes l1 = encodeIndexes l2) :
    l1 = l2 := by
  induction l1 generalizing l2 with
  | nil =>
    cases l2 with
    | nil => rfl
    | cons b r2 =>
      rw [encodeIndexes_cons] at h
      cases h
  | cons a r1 ih =>
    cases l2 with
    | nil =>
      rw [encodeIndexes_cons] at h
      cases h
    | cons b r2 =>
      rw [encodeIndexes_cons, encodeIndexes_cons] at h
      simp only [List.cons.injEq, true_and] at h
      obtain ⟨e1, e2⟩ := digits_append_cancel _ _ _ _ (formatUint_isDigit a)
        (formatUint_isDigit b) (encodeIndexes_head r1) (encodeIndexes_head r2) h
      rw [formatUint_injective a b e1, ih r2 e2]

theorem groupAddrs_slot (g : choiceFieldOptionGroup) (s : Nat) :
    ∀ a ∈ groupAddrs g s, ∃ slot rest, a = slot :: rest ∧ s ≤ slot ∧ slot < s + slotsUsed g := by
  intro a ha
  unfold groupAddrs at ha
  obtain ⟨j, hj, rfl⟩ := List.mem_map.mp ha
  have hj1 : j < g.options.length := List.mem_range.mp hj
  unfold slotsUsed
  by_cases hl : g.label = []
  · rw [if_pos hl, if_pos hl]
    exact ⟨s + j, [], rfl, by omega, by omega⟩
  · rw [if_neg hl, if_neg hl]
    exact ⟨s, [j], rfl, by omega, by omega⟩

theorem groupAddrs_nodup (g : choiceFieldOptionGroup) (s : Nat) : (groupAddrs g s).Nodup := by
  unfold groupAddrs
  refine List.Nodup.map ?_ (List.nodup_range _)
  intro j1 j2 hj
  dsimp only at hj
  by_cases hl : g.label = []
  · rw [if_pos hl, if_pos hl] at hj
    simp only [List.cons.injEq, and_true] at hj
    omega
  · rw [if_neg hl, if_neg hl] at hj
    simp only [List.cons.injEq, and_true, true_and] at hj
    exact hj

theorem allAddrs_slot (groups : List choiceFieldOptionGroup) (s : Nat) :
    ∀ a ∈ allAddrs s groups, ∃ slot rest, a = slot :: rest ∧ s ≤ slot := by
  induction groups generalizing s with
  | nil => intro a ha; cases ha
  | cons g rest ih =>
    intro a ha
    unfold allAddrs at ha
    rcases List.mem_append.mp ha with h1 | h1
    · obtain ⟨slot, r, e, h2, -⟩ := groupAddrs_slot g s a h1
      exact ⟨slot, r, e, h2⟩
    · obtain ⟨slot, r, e, h2⟩ := ih _ a h1
      exact ⟨slot, r, e, by omega⟩

theorem allAddrs_nodup (groups : List choiceFieldOptionGroup) (s : Nat) :
    (allAddrs s groups).Nodup := by
  induction groups generalizing s with
  | nil => exact List.nodup_nil
  | cons g rest ih =>
    unfold allAddrs
    rw [List.nodup_append]
    refine ⟨groupAddrs_nodup g s, ih _, ?_⟩
    intro a h1 h2
    obtain ⟨slot, r, e, -, h3⟩ := groupAddrs_slot g s a h1
    obtain ⟨slot1, r1, e1, h4⟩ := allAddrs_slot rest _ a h2
    rw [e] at e1
    simp only [List.cons.injEq] at e1
    omega

theorem widget_optionIDs (g : choiceFieldOptionGroup) (inputWidget : Widget)
    (baseID htmlName : Str) (s : Nat) (selected : List Str) (h : baseID ≠ []) :
    (g.widget inputWidget baseID htmlName s selected).options.map
        (fun w => mapGet w.Attrs "id".toList)
      = (groupAddrs g s).map (fun a => some (baseID ++ encodeIndexes a)) := by
  apply List.ext_getElem?
  intro j
  unfold groupAddrs
  rw [List.getElem?_map, widget_options_getElem, List.getElem?_map, List.getElem?_map]
  by_cases hj : j < g.options.length
  · rw [List.getElem?_eq_getElem hj, List.getElem?_eq_getElem (by simpa using hj)]
    simp only [Option.map_some', List.getElem_range, Option.some.injEq]
    rw [option_widget_id, optionIDAttrs_id _ _ _ _ h]
    unfold normalizedGroupID normalizedSubGroupID
    by_cases hl : g.label = []
    · rw [if_pos hl, if_pos hl]
      simp [encodeIndexes]
    · rw [if_neg hl, if_neg hl]
      simp [encodeIndexes]
  · rw [List.getElem?_eq_none (by omega), List.getElem?_eq_none (by simpa using hj)]
    rfl

theorem widgetGroupsFrom_optionIDs (optionWidget : Widget) (baseID htmlName : Str)
    (selected : List Str) (groups : List choiceFieldOptionGroup) (s : Nat) (h : baseID ≠ []) :
    optionIDs (widgetGroupsFrom optionWidget baseID htmlName selected s groups)
      = (allAddrs s groups).map (fun a => some (baseID ++ encodeIndexes a)) := by
  induction groups generalizing s with
  | nil => rfl
  | cons g rest ih =>
    unfold widgetGroupsFrom allAddrs
    unfold optionIDs at ih ⊢
    rw [List.flatMap_cons, ih, indexesUsedByGroup_widget, List.map_append,
      widget_optionIDs _ _ _ _ _ _ h]

theorem itemSlots_eq (g : choiceFieldOptionGroup) (s : Nat) :
    itemSlots g s = List.range' s (slotsUsed g) := by
  unfold itemSlots slotsUsed
  by_cases hl : g.label = []
  · rw [if_pos hl, if_pos hl, List.range'_eq_map_range]
  · rw [if_neg hl, if_neg hl]
    rfl

theorem allItemSlots_eq (groups : List choiceFieldOptionGroup) (s : Nat) :
    allItemSlots s groups = List.range' s (firstSlot groups groups.length) := by
  induction groups generalizing s with
  | nil => rfl
  | cons g rest ih =>
    unfold allItemSlots
    rw [ih, List.length_cons, firstSlot_cons_succ, itemSlots_eq, List.range'_append_1,
      Nat.add_comm]

theorem firstSlot_succ (groups : List choiceFieldOptionGroup) (n : Nat)
    (g : choiceFieldOptionGroup) (h : groups[n]? = some g) :
    firstSlot groups (n + 1) = firstSlot groups n + slotsUsed g := by
  unfold firstSlot
  rw [List.take_succ, h]
  simp

theorem firstSlot_mono (groups : List choiceFieldOptionGroup) (n1 n2 : Nat) (h : n1 ≤ n2) :
    firstSlot groups n1 ≤ firstSlot groups n2 := by
  induction n2 with
  | zero =>
    have : n1 = 0 := by omega
    rw [this]
  | succ m ih =>
    rcases Nat.eq_or_lt_of_le h with h1 | h1
    · rw [h1]
    · have h2 := ih (by omega)
      cases hg : groups[m]? with
      | some g =>
        rw [firstSlot_succ groups m g hg]
        omega
      | none =>
        unfold firstSlot at h2 ⊢
        rw [List.take_succ, hg]
        simpa using h2

/-- C27: with a non-empty base id, every option gets an id, and the ids of all
options, over all groups in any interleaving, are pairwise distinct. The group at
position `n` is built with the slot index `firstSlot groups n`; from a group to
the next the slot index grows by the slots the group uses, and the slots of the
items in render order (one item for each option without group, one for each
group with a label) are the numbers 0, 1, 2 and so on, strictly increasing. -/
theorem C27_option_ids_are_distinct_and_slots_increase (groups : List choiceFieldOptionGroup)
    (optionWidget : Widget) (baseID htmlName : Str) (selected : List Str) (h : baseID ≠ []) :
    (optionIDs (fieldGroupsToWidgetGroups groups optionWidget baseID htmlName selected)).Nodup
    ∧ (∀ id ∈ optionIDs (fieldGroupsToWidgetGroups groups optionWidget baseID htmlName selected),
        id ≠ none)
    ∧ (∀ (n : Nat) (g : choiceFieldOptionGroup), groups[n]? = some g →
        (fieldGroupsToWidgetGroups groups optionWidget baseID htmlName selected)[n]?
            = some (g.widget optionWidget baseID htmlName (firstSlot groups n) selected)
          ∧ firstSlot groups (n + 1) = firstSlot groups n + slotsUsed g)
    ∧ (∀ n1 n2 : Nat, n1 ≤ n2 → firstSlot groups n1 ≤ firstSlot groups n2)
    ∧ allItemSlots 0 groups = List.range (firstSlot groups groups.length)
    ∧ (allItemSlots 0 groups).Pairwise (fun a b => a < b) := by
  have hids := widgetGroupsFrom_optionIDs optionWidget baseID htmlName selected groups 0 h
  have hitems : allItemSlots 0 groups = List.range (firstSlot groups groups.length) := by
    rw [allItemSlots_eq, List.range_eq_range']
  refine ⟨?_, ?_, ?_, firstSlot_mono groups, hitems, ?_⟩
  · unfold fieldGroupsToWidgetGroups
    rw [hids]
    refine List.Nodup.map ?_ (allAddrs_nodup groups 0)
    intro a b hab
    simp only [Option.some.injEq] at hab
    exact encodeIndexes_injective a b (List.append_cancel_left hab)
  · intro id hid
    unfold fieldGroupsToWidgetGroups at hid
    rw [hids] at hid
    obtain ⟨a, -, rfl⟩ := List.mem_map.mp hid
    exact Option.some_ne_none _
  · intro n g hg
    refine ⟨?_, firstSlot_succ groups n g hg⟩
    unfold fieldGroupsToWidgetGroups
    rw [widgetGroupsFrom_getElem, hg, Nat.zero_add]
    rfl
  · rw [hitems]
    exact List.pairwise_lt_range _

/-- On the sample groups the six ids are distinct and the slots are 0, 1, 2, 3. -/
theorem C27_witness_sample_groups :
    "id_x".toList ≠ []
    ∧ (optionIDs (fieldGroupsToWidgetGroups sampleGroups .RadioSelect "id_x".toList
        "x".toList [])).Nodup
    ∧ allItemSlots 0 sampleGroups = [0, 1, 2, 3] := by
  have h := C27_option_ids_are_distinct_and_slots_increase sampleGroups .RadioSelect
    "id_x".toList "x".toList [] (by decide)
  exact ⟨by decide, h.1, by decide⟩

theorem choiceValues_contains (fld : Field) (value : Str) :
    fld.choiceValues.contains value = isSelectedValue fld value := by
  unfold Field.choiceValues isSelectedValue
  by_cases hm : fld.widget.isMultiChoice = true
  · rw [if_pos hm, if_pos hm]
    simp
  · rw [if_neg hm, if_neg hm]
    cases hb : fld.boundValues with
    | nil => simp
    | cons v rest =>
      simp only [List.length_cons, Nat.zero_lt_succ, if_true, List.take_succ_cons, List.take_zero,
        List.head?_cons, Option.some.injEq, gt_iff_lt]
      by_cases hv : v = value
      · simp [hv]
      · have hv1 : ¬ value = v := fun h => hv h.symm
        simp [hv, hv1]

theorem selectedAttr_optionWidget (t : Widget) (h : t.isChoice = true) (selected : Bool) :
    t.optionWidget.selectedAttr selected
      = if selected then some (selectionAttrName t, []) else none := by
  cases t <;> simp [Widget.isChoice] at h <;> cases selected <;> rfl

theorem option_widget_attr (o : ChoiceFieldOption) (t : Widget) (h : t.isChoice = true)
    (htmlName : Str) (selected : Bool) (attrs : GoMap Str) (k : Str) :
    mapGet (o.widget t.optionWidget htmlName selected attrs).Attrs k
      = if selected = true ∧ k = selectionAttrName t then some [] else mapGet attrs k := by
  unfold ChoiceFieldOption.widget
  dsimp only
  rw [selectedAttr_optionWidget t h]
  cases selected with
  | false => simp
  | true =>
    simp only [if_true, true_and]
    rw [mapGet_mapSet]
    by_cases hk : k = selectionAttrName t
    · rw [if_pos hk.symm, if_pos hk]
    · rw [if_neg (fun h1 => hk h1.symm), if_neg hk]

theorem optionIDAttrs_other (baseID groupName : Str) (groupIndex i : Nat) (k : Str)
    (hk : k ≠ "id".toList) : mapGet (optionIDAttrs baseID groupName groupIndex i) k = none := by
  unfold optionIDAttrs
  have hk1 : ¬ "id".toList = k := fun h => hk h.symm
  split
  · split
    · rw [mapGet_mapSet, if_neg hk1]; rfl
    · rw [mapGet_mapSet, if_neg hk1]; rfl
  · rfl

theorem selectionAttrName_ne_id (t : Widget) : selectionAttrName t ≠ "id".toList := by
  have h1 : "selected".toList ≠ "id".toList := by decide
  have h2 : "checked".toList ≠ "id".toList := by decide
  cases t <;> first | exact h1 | exact h2

/-- C28: `widgetChoice` panics unless the widget is a choice widget. For a choice
widget it gives the template one option for each option of the field, and the
option for the value `v` has the selection attribute of the widget (`selected`
for `Select` and `SelectMultiple`, `checked` for `RadioSelect` and
`CheckboxSelectMultiple`), with the empty value, exactly when `v` counts as
selected: when it is one of the bound values for the widgets `SelectMultiple` and
`CheckboxSelectMultiple`, when it is the first bound value for the widgets
`Select` and `RadioSelect`. An option has no attribute other than `id` and the
selection attribute of the widget. The type of the field plays no part: the
result is the same whatever the field type is. -/
theorem C28_option_selected_iff_value_is_bound (sprintf : Str → Str → Str) (L : Lib)
    (fld : Field) (h : fld.widget.isChoice = true) :
    fld.widgetChoiceGroups sprintf L
      = .ok (fld.choiceValues, fld.widgetGroups sprintf L fld.choiceValues)
    ∧ (fld.widgetGroups sprintf L fld.choiceValues).length = fld.optionGroups.length
    ∧ (∀ (n : Nat) (g : choiceFieldOptionGroup), fld.optionGroups[n]? = some g →
        ∃ gw : widgetOptionGroup,
          (fld.widgetGroups sprintf L fld.choiceValues)[n]? = some gw
          ∧ gw.options.length = g.options.length
          ∧ ∀ (j : Nat) (o : ChoiceFieldOption), g.options[j]? = some o →
              ∃ w : widgetOption, gw.options[j]? = some w ∧ w.Value = o.Value
                ∧ mapGet w.Attrs (selectionAttrName fld.widget)
                    = (if isSelectedValue fld o.Value then some [] else none)
                ∧ ∀ k : Str, k ≠ "id".toList → k ≠ selectionAttrName fld.widget →
                    mapGet w.Attrs k = none)
    ∧ (∀ value : Str, isSelectedValue fld value = true
        ↔ (if fld.widget = .SelectMultiple ∨ fld.widget = .CheckboxSelectMultiple
            then value ∈ fld.boundValues else fld.boundValues.head? = some value))
    ∧ (selectionAttrName fld.widget
        = if fld.widget = .Select ∨ fld.widget = .SelectMultiple then "selected".toList
          else "checked".toList)
    ∧ (∀ t : FieldType,
        Field.widgetChoiceGroups sprintf L { fld with fieldType := t }
          = fld.widgetChoiceGroups sprintf L) := by
  refine ⟨?_, widgetGroupsFrom_length _ _ _ _ _ _, ?_, ?_, ?_, fun _ => rfl⟩
  · unfold Field.widgetChoiceGroups
    rw [h]
    rfl
  · intro n g hg
    refine ⟨g.widget fld.widget.optionWidget (normalizedIDForField sprintf L fld)
      (normalizedNameForField L fld) (firstSlot fld.optionGroups n) fld.choiceValues,
      ?_, ?_, ?_⟩
    · unfold Field.widgetGroups fieldGroupsToWidgetGroups
      rw [widgetGroupsFrom_getElem, hg, Nat.zero_add]
      rfl
    · unfold choiceFieldOptionGroup.widget
      simp
    · intro j o ho
      rw [widget_options_getElem, ho]
      refine ⟨_, rfl, rfl, ?_, ?_⟩
      · rw [option_widget_attr o fld.widget h, choiceValues_contains]
        cases hs : isSelectedValue fld o.Value with
        | true => simp
        | false =>
          simp only [Bool.false_eq_true, false_and, if_false]
          exact optionIDAttrs_other _ _ _ _ _ (selectionAttrName_ne_id fld.widget)
      · intro k hk1 hk2
        rw [option_widget_attr o fld.widget h, if_neg (fun hc => hk2 hc.2)]
        exact optionIDAttrs_other _ _ _ _ k hk1
  · intro value
    unfold isSelectedValue Widget.isMultiChoice
    cases hw : fld.widget <;> simp
  · cases hw : fld.widget <;> rw [hw] at h <;> simp [Widget.isChoice] at h <;> simp [selectionAttrName]

/-- C28 (witness): on a field with checkboxes and the bound values `a` and `e`,
the options `a` and `e` are checked and no other option is. -/
theorem C28_witness_checkboxes :
    checkboxesField.widget.isChoice = true
    ∧ checkboxesField.widgetChoiceGroups sprintfOneVerb sampleLib
      = .ok (checkboxesField.choiceValues,
          checkboxesField.widgetGroups sprintfOneVerb sampleLib checkboxesField.choiceValues)
    ∧ optionAttrKeys
        (checkboxesField.widgetGroups sprintfOneVerb sampleLib checkboxesField.choiceValues)
      = [("a".toList, ["checked".toList, "id".toList]), ("b".toList, ["id".toList]),
         ("c".toList, ["id".toList]), ("d".toList, ["id".toList]),
         ("e".toList, ["checked".toList, "id".toList]), ("f".toList, ["id".toList])] :=
  ⟨by decide,
   (C28_option_selected_iff_value_is_bound sprintfOneVerb sampleLib checkboxesField
     (by decide)).1,
   by rfl⟩

/-- The multiple-choice field of `checkboxesField` with the widget `RadioSelect`,
bound to the values `a` and `e`: only the option `a`, the first bound value, is
checked, although `e` is a bound value of this multi-choice field. -/
theorem C28_radio_on_multiple_choice_field_checks_first_value_only :
    radioField.fieldType = .MultipleChoiceFieldType
    ∧ radioField.widget = .RadioSelect
    ∧ radioField.boundValues = ["a".toList, "e".toList]
    ∧ radioField.widgetChoiceGroups sprintfOneVerb sampleLib
        = .ok (["a".toList], radioField.widgetGroups sprintfOneVerb sampleLib ["a".toList])
    ∧ optionAttrKeys (radioField.widgetGroups sprintfOneVerb sampleLib ["a".toList])
      = [("a".toList, ["checked".toList, "id".toList]), ("b".toList, ["id".toList]),
         ("c".toList, ["id".toList]), ("d".toList, ["id".toList]),
         ("e".toList, ["id".toList]), ("f".toList, ["id".toList])] :=
  ⟨rfl, rfl, rfl, rfl, by rfl⟩

/-! ## The sanitizer of single-line widgets -/

theorem replaceNewlines_cons_cons (c d : Char) (rest : Str) :
    replaceNewlines (c :: d :: rest)
      = if c = Char.ofNat 13 ∧ d = Char.ofNat 10 then ' ' :: replaceNewlines rest
        else if c = Char.ofNat 10 then ' ' :: replaceNewlines (d :: rest)
        else c :: replaceNewlines (d :: rest) := by
  rw [replaceNewlines]

theorem not_mem_replaceNewlines_aux (n : Nat) :
    ∀ value : Str, value.length ≤ n → Char.ofNat 10 ∉ replaceNewlines value := by
  induction n with
  | zero =>
    intro value hl
    have : value = [] := List.length_eq_zero.mp (by omega)
    subst this
    simp [replaceNewlines]
  | succ n ih =>
    intro value hl
    match value, hl with
    | [], _ => simp [replaceNewlines]
    | [c], _ =>
      unfold replaceNewlines
      by_cases h : c = Char.ofNat 10
      · rw [if_pos h]
        decide
      · rw [if_neg h]
        simpa using fun hc => h hc.symm
    | c :: d :: rest, hl =>
      simp only [List.length_cons] at hl
      rw [replaceNewlines_cons_cons]
      have hsp : Char.ofNat 10 ≠ ' ' := by decide
      by_cases h : c = Char.ofNat 13 ∧ d = Char.ofNat 10
      · rw [if_pos h]
        intro hm
        rcases List.mem_cons.mp hm with h1 | h1
        · exact hsp h1
        · exact ih rest (by omega) h1
      · rw [if_neg h]
        by_cases hc : c = Char.ofNat 10
        · rw [if_pos hc]
          intro hm
          rcases List.mem_cons.mp hm with h1 | h1
          · exact hsp h1
          · exact ih (d :: rest) (by simp only [List.length_cons]; omega) h1
        · rw [if_neg hc]
          intro hm
          rcases List.mem_cons.mp hm with h1 | h1
          · exact hc h1.symm
          · exact ih (d :: rest) (by simp only [List.length_cons]; omega) h1

theorem not_mem_replaceNewlines (value : Str) : Char.ofNat 10 ∉ replaceNewlines value :=
  not_mem_replaceNewlines_aux value.length value (Nat.le_refl _)

theorem replaceNewlines_eq_map (value : Str) (h : Char.ofNat 13 ∉ value) :
    replaceNewlines value = value.map (fun c => if c = Char.ofNat 10 then ' ' else c) := by
  induction value with
  | nil => rfl
  | cons c rest ih =>
    have hc13 : c ≠ Char.ofNat 13 := fun hc => h (hc ▸ List.mem_cons_self _ _)
    have ih1 := ih (fun hm => h (List.mem_cons_of_mem _ hm))
    cases rest with
    | nil =>
      unfold replaceNewlines
      by_cases hc : c = Char.ofNat 10
      · simp [hc]
      · simp [hc]
    | cons d rest1 =>
      rw [replaceNewlines_cons_cons, if_neg (fun hcd => hc13 hcd.1), ih1]
      by_cases hc : c = Char.ofNat 10
      · simp [hc]
      · simp [hc]

theorem trimSpace_subset (value : Str) : ∀ c ∈ trimSpace value, c ∈ value := by
  intro c hc
  unfold trimSpace at hc
  rw [List.mem_reverse] at hc
  have h1 := (List.dropWhile_sublist isUnicodeSpace).subset hc
  rw [List.mem_reverse] at h1
  exact (List.dropWhile_sublist isUnicodeSpace).subset h1

theorem head_dropWhile (p : Char → Bool) (l : Str) :
    ∀ c, (l.dropWhile p).head? = some c → p c = false := by
  intro c hc
  induction l with
  | nil => simp at hc
  | cons a rest ih =>
    rw [List.dropWhile_cons] at hc
    by_cases ha : p a = true
    · rw [if_pos ha] at hc
      exact ih hc
    · rw [if_neg ha] at hc
      simp only [List.head?_cons, Option.some.injEq] at hc
      rw [← hc]
      simpa using ha

theorem getLast_dropWhile (p : Char → Bool) (l : Str) :
    ∀ c, (l.dropWhile p).getLast? = some c → l.getLast? = some c := by
  intro c hc
  have hne : l.dropWhile p ≠ [] := by
    intro h0
    rw [h0] at hc
    cases hc
  have := List.getLast?_append_of_ne_nil (l.takeWhile p) hne
  rw [List.takeWhile_append_dropWhile] at this
  rw [this]
  exact hc

theorem trimSpace_trimmed (value : Str) :
    (∀ c, (trimSpace value).head? = some c → isUnicodeSpace c = false)
    ∧ (∀ c, (trimSpace value).getLast? = some c → isUnicodeSpace c = false) := by
  unfold trimSpace
  constructor
  · intro c hc
    rw [List.head?_reverse] at hc
    have h1 := getLast_dropWhile _ _ c hc
    rw [List.getLast?_reverse] at h1
    exact head_dropWhile _ _ c h1
  · intro c hc
    rw [List.getLast?_reverse] at hc
    exact head_dropWhile _ _ c hc

/-- C21: the default sanitizer of every widget other than `TextArea` replaces
each newline, with a carriage return right before it, by one space, then trims
leading and trailing whitespace, and then gives the text to the HTML stripper
(unescape, strict policy, unescape). The text given to the stripper has no
newline and no leading or trailing whitespace, and it is the result when the
stripper leaves it as it is. Whitespace next to a newline is kept: without
carriage return the replacement changes each newline to a space and nothing else. -/
theorem C21_one_line_sanitizer_replaces_newlines_then_trims_then_strips (L : Lib)
    (t : Widget) (value : Str) :
    (t ≠ .TextArea → t.defaultSanitizeFunc L value
        = sanitizeToNoHTML L (trimSpace (replaceNewlines value)))
    ∧ sanitizeToOneLinePlainText L value
        = L.unescapeString (L.strictSanitize (L.unescapeString
            (trimSpace (replaceNewlines value))))
    ∧ Char.ofNat 10 ∉ trimSpace (replaceNewlines value)
    ∧ (∀ c, (trimSpace (replaceNewlines value)).head? = some c → isUnicodeSpace c = false)
    ∧ (∀ c, (trimSpace (replaceNewlines value)).getLast? = some c → isUnicodeSpace c = false)
    ∧ (sanitizeToNoHTML L (trimSpace (replaceNewlines value))
          = trimSpace (replaceNewlines value) →
        sanitizeToOneLinePlainText L value = trimSpace (replaceNewlines value))
    ∧ (Char.ofNat 13 ∉ value →
        replaceNewlines value = value.map (fun c => if c = Char.ofNat 10 then ' ' else c))
    ∧ (∀ rest : Str, replaceNewlines (Char.ofNat 13 :: Char.ofNat 10 :: rest)
        = ' ' :: replaceNewlines rest) := by
  refine ⟨?_, rfl, ?_, (trimSpace_trimmed _).1, (trimSpace_trimmed _).2, fun h => h,
    replaceNewlines_eq_map value, ?_⟩
  · intro ht
    cases t <;> first | rfl | exact absurd rfl ht
  · exact fun hm => not_mem_replaceNewlines value (trimSpace_subset _ _ hm)
  · intro rest
    simp [replaceNewlines]

/-- On `a`, space, newline, space, `b`, with an HTML stripper that leaves text
without markup and without entities as it is, the sanitizer returns `a`, three
spaces, `b`; stripping, trimming and collapsing the newline with the whitespace
around it would give `a`, one space, `b`. -/
theorem C21_whitespace_around_newline_is_kept :
    sanitizeToOneLinePlainText sampleLib spacedNewline = "a   b".toList
    ∧ Widget.defaultSanitizeFunc sampleLib .TextInput spacedNewline = "a   b".toList
    ∧ oneLineStripTrimCollapse sampleLib spacedNewline = "a b".toList := by
  decide

/-! ## Every attribute is rendered once -/

/-- C40: on a map in which every key stands once, the list that `HTMLAttributes`
returns is a rearrangement of the rendered entries of the map, one for each key,
so its length is the number of keys. The remainder is appended exactly when the
named and prefixed buckets hold fewer entries than the map has keys, and when it
is not appended it is empty. -/
theorem C40_every_key_is_rendered_exactly_once (a : GoMap Str) (h : (mapKeys a).Nodup) :
    (tmplAttrs.HTMLAttributes a).Perm (a.map (fun e => keyValueToHTMLAttr e.1 e.2))
    ∧ (tmplAttrs.HTMLAttributes a).length = a.length
    ∧ a.length = (mapKeys a).length
    ∧ (tmplAttrs.HTMLAttributes a
        = if (namedAndPrefixedAttributes a).length < a.length then
            namedAndPrefixedAttributes a ++ remainingAttributes a
          else namedAndPrefixedAttributes a)
    ∧ (¬ (namedAndPrefixedAttributes a).length < a.length → remainingAttributes a = [])
    ∧ ((namedAndPrefixedAttributes a).length + (remainingAttributes a).length = a.length) := by
  have hp := allBuckets_perm a h
  have hl := hp.length_eq
  rw [List.length_append, List.length_map] at hl
  refine ⟨?_, ?_, ?_, rfl, ?_, hl⟩
  · rw [HTMLAttributes_eq a h]
    exact hp
  · rw [HTMLAttributes_eq a h, List.length_append]
    exact hl
  · unfold mapKeys
    rw [List.length_map]
  · intro hg
    exact List.length_eq_zero.mp (by omega)

/-- On a map of twenty keys, with keys of every bucket. -/
theorem C40_witness_full :
    (mapKeys fullAttrs).Nodup
    ∧ (tmplAttrs.HTMLAttributes fullAttrs).Perm
        (fullAttrs.map (fun e => keyValueToHTMLAttr e.1 e.2))
    ∧ (tmplAttrs.HTMLAttributes fullAttrs).length = 20 := by
  have h : (mapKeys fullAttrs).Nodup := by decide
  have hc := C40_every_key_is_rendered_exactly_once fullAttrs h
  exact ⟨h, hc.1, hc.2.1⟩

/-! ## Label and suffix -/

theorem byteLen_cons (c : Char) (s : Str) : byteLen (c :: s) = c.utf8Size + byteLen s := by
  simp [byteLen]

/-- With characters of one byte in `chars`, the scan ends at the last byte of a
non-empty string exactly when the last character of the string is in `chars`. -/
theorem lastIndexAnyFrom_eq_last (chars : Str) (hchars : ∀ c ∈ chars, c.utf8Size = 1)
    (s : Str) (c0 : Char) :
    ∀ (pos : Nat) (found : Int), found < pos →
      (lastIndexAnyFrom chars pos found (c0 :: s) = (pos : Int) + byteLen (c0 :: s) - 1
        ↔ (c0 :: s).getLast? ∈ chars.map some) := by
  induction s generalizing c0 with
  | nil =>
    intro pos found hf
    have hb : byteLen [c0] = c0.utf8Size := by simp [byteLen]
    have hr : lastIndexAnyFrom chars pos found [c0]
        = if c0 ∈ chars then (pos : Int) else found := rfl
    have hg : ([c0].getLast? ∈ chars.map some) ↔ c0 ∈ chars := by simp
    rw [hb, hr, hg]
    have hc : 0 < c0.utf8Size := Char.utf8Size_pos c0
    by_cases hm : c0 ∈ chars
    · rw [if_pos hm]
      have := hchars c0 hm
      constructor
      · exact fun _ => hm
      · intro _
        omega
    · rw [if_neg hm]
      constructor
      · intro he
        omega
      · exact fun h => absurd h hm
  | cons d rest ih =>
    intro pos found hf
    have hc : 0 < c0.utf8Size := Char.utf8Size_pos c0
    have hf1 : (if c0 ∈ chars then (pos : Int) else found) < ((pos + c0.utf8Size : Nat) : Int) := by
      split <;> push_cast <;> omega
    have := ih d (pos + c0.utf8Size) _ hf1
    rw [show lastIndexAnyFrom chars pos found (c0 :: d :: rest)
        = lastIndexAnyFrom chars (pos + c0.utf8Size)
            (if c0 ∈ chars then (pos : Int) else found) (d :: rest) from rfl,
      byteLen_cons c0, List.getLast?_cons_cons]
    rw [← this]
    push_cast
    constructor <;> intro he <;> omega

theorem labelWithSuffix_eq (lbl suffix : Str) :
    labelWithSuffix lbl suffix
      = if suffix = [] ∨ lbl = [] ∨ lbl.getLast? ∈ ".!?:".toList.map some then lbl
        else lbl ++ suffix := by
  unfold labelWithSuffix
  by_cases hs : suffix = []
  · subst hs
    simp
  · have hs1 : ¬ suffix.length = 0 := fun h => hs (List.length_eq_zero.mp h)
    rw [if_neg hs1]
    cases lbl with
    | nil => simp [lastIndexAny, lastIndexAnyFrom, byteLen]
    | cons c rest =>
      have hchars : ∀ x ∈ ".!?:".toList, x.utf8Size = 1 := by decide
      have h := lastIndexAnyFrom_eq_last ".!?:".toList hchars rest c 0 (-1) (by decide)
      unfold lastIndexAny
      simp only [Nat.cast_zero, Int.zero_add] at h
      by_cases hl : (c :: rest).getLast? ∈ ".!?:".toList.map some
      · rw [if_pos (h.mpr hl), if_pos (Or.inr (Or.inr hl))]
      · rw [if_neg (fun he => hl (h.mp he)), if_neg]
        rintro (h1 | h1 | h1)
        · exact hs h1
        · cases h1
        · exact hl h1

/-- C36: the displayed label is the label unchanged when the suffix is empty,
when the label is empty, or when the last character of the label is one of `.`,
`!`, `?`, `:`; in every other case it is the label followed by the suffix. -/
theorem C36_label_with_suffix (lbl suffix : Str) :
    labelWithSuffix lbl suffix
      = (if suffix = [] ∨ lbl = [] ∨ lbl.getLast? ∈ ".!?:".toList.map some then lbl
         else lbl ++ suffix)
    ∧ (lbl ≠ [] → labelWithSuffix lbl suffix = labelThenSuffix lbl suffix)
    ∧ (suffix ≠ [] → labelWithSuffix [] suffix = [] ∧ labelThenSuffix [] suffix = suffix) := by
  refine ⟨labelWithSuffix_eq lbl suffix, ?_, ?_⟩
  · intro hl
    rw [labelWithSuffix_eq]
    unfold labelThenSuffix
    by_cases hs : suffix = []
    · rw [if_pos (Or.inl hs), if_pos hs]
    · rw [if_neg hs]
      cases hg : lbl.getLast? with
      | none => exact absurd (List.getLast?_eq_none_iff.mp hg) hl
      | some c =>
        simp only [hs, hl, false_or, List.mem_map, Option.some.injEq, exists_eq_right]
  · intro hs
    refine ⟨?_, ?_⟩
    · rw [labelWithSuffix_eq, if_pos (Or.inr (Or.inl rfl))]
    · unfold labelThenSuffix
      rw [if_neg hs]
      rfl

/-- The empty label with the suffix `:` is displayed as the empty text, not as `:`. -/
theorem C36_empty_label_gets_no_suffix :
    labelWithSuffix [] ":".toList = []
    ∧ labelThenSuffix [] ":".toList = ":".toList
    ∧ labelWithSuffix "Name".toList ":".toList = "Name:".toList := by
  decide

/-! ## Override maps -/

theorem CustomizeError_filedByCode (fld fld1 : Field) (err : Option GoError)
    (h : customErrorsFiledByCode fld.customErrors) (hc : fld.CustomizeError err = .ok fld1) :
    customErrorsFiledByCode fld1.customErrors := by
  unfold Field.CustomizeError at hc
  dsimp only at hc
  split at hc
  · injection hc with hc
    subst hc
    intro k e hk
    dsimp only at hk
    rw [mapGet_mapSet] at hk
    by_cases hkk : (errorWrapIfNotAsError err).Code = k
    · rw [if_pos hkk] at hk
      injection hk with hk
      rw [← hk]
      exact hkk
    · rw [if_neg hkk] at hk
      exact h k e hk
  · cases hc

theorem customizeAll_filedByCode (errs : List (Option GoError)) :
    ∀ fld fld1 : Field, customErrorsFiledByCode fld.customErrors →
      customizeAll fld errs = .ok fld1 → customErrorsFiledByCode fld1.customErrors := by
  induction errs with
  | nil =>
    intro fld fld1 h hc
    simp only [customizeAll, Except.ok.injEq] at hc
    subst hc
    exact h
  | cons err rest ih =>
    intro fld fld1 h hc
    unfold customizeAll at hc
    cases hf : fld.CustomizeError err with
    | error a => rw [hf] at hc; cases hc
    | ok fld2 =>
      rw [hf] at hc
      exact ih fld2 fld1 (CustomizeError_filedByCode fld fld2 err h hf) hc

theorem customizeErrors_some (l : List Error) (m : GoMap Error) :
    customizeErrors (some l) m = some (l.map (fun e =>
      match mapGet m e.Code with
      | some ce => ce
      | none => e)) := by
  cases l <;> rfl

theorem customizeErrors_codes (errors : ErrorList) (m : GoMap Error)
    (hm : customErrorsFiledByCode m) :
    (customizeErrors errors m).elems.map Error.Code = errors.elems.map Error.Code := by
  cases errors with
  | none => rfl
  | some l =>
    rw [customizeErrors_some]
    simp only [ErrorList.elems, List.map_map]
    apply List.map_congr_left
    intro e _
    simp only [Function.comp]
    cases hg : mapGet m e.Code with
    | none => rfl
    | some ce => exact hm _ _ hg

theorem customizeErrors_idem (errors : ErrorList) (m : GoMap Error)
    (hm : customErrorsFiledByCode m) :
    customizeErrors (customizeErrors errors m) m = customizeErrors errors m := by
  cases errors with
  | none => rfl
  | some l =>
    rw [customizeErrors_some, customizeErrors_some, List.map_map]
    congr 1
    apply List.map_congr_left
    intro e _
    simp only [Function.comp]
    cases hg : mapGet m e.Code with
    | none =>
      dsimp only
      rw [hg]
    | some ce =>
      dsimp only
      rw [hm _ _ hg, hg]

/-- C39: `CustomizeError` files the override under its own code, so after any
sequence of `CustomizeError` calls on a field without overrides every key of the
map is the code of the error it maps to. With such a map `customizeErrors` keeps
the length of the list and the code at every position, and applying it twice
gives the list that applying it once gives. -/
theorem C39_override_map_is_filed_by_code (fld fld1 : Field) (errs : List (Option GoError))
    (h0 : fld.customErrors = []) (hc : customizeAll fld errs = .ok fld1) :
    (∀ (k : Str) (e : Error), mapGet fld1.customErrors k = some e → e.Code = k)
    ∧ (∀ errors : ErrorList,
        (customizeErrors errors fld1.customErrors).len = errors.len
        ∧ (customizeErrors errors fld1.customErrors).elems.map Error.Code
            = errors.elems.map Error.Code
        ∧ customizeErrors (customizeErrors errors fld1.customErrors) fld1.customErrors
            = customizeErrors errors fld1.customErrors) := by
  have hm : customErrorsFiledByCode fld1.customErrors := by
    refine customizeAll_filedByCode errs fld fld1 ?_ hc
    rw [h0]
    intro k e hk
    cases hk
  exact ⟨hm, fun errors => ⟨customizeErrors_len errors _, customizeErrors_codes errors _ hm,
    customizeErrors_idem errors _ hm⟩⟩

/-- On the field `DefaultCharField("Name")` after three overrides, two of them for
the code `required`: the map has the keys `required` and `max`. -/
theorem C39_witness_three_overrides :
    (sampleCharField "Name".toList false).toField.customErrors = []
    ∧ (∃ fld1 : Field,
        customizeAll (sampleCharField "Name".toList false).toField sampleOverrides = .ok fld1
        ∧ mapKeys fld1.customErrors = [RequiredErrorCode, MaxLengthErrorCode]
        ∧ (∀ (k : Str) (e : Error), mapGet fld1.customErrors k = some e → e.Code = k)
        ∧ (customizeErrors (some [requiredError]) fld1.customErrors).elems.map Error.Code
            = [RequiredErrorCode]) := by
  refine ⟨rfl, ?_⟩
  cases hc : customizeAll (sampleCharField "Name".toList false).toField sampleOverrides with
  | error a =>
    have : ∃ f, customizeAll (sampleCharField "Name".toList false).toField sampleOverrides
        = .ok f := ⟨_, rfl⟩
    obtain ⟨f, hf⟩ := this
    rw [hc] at hf
    cases hf
  | ok fld1 =>
    have h := C39_override_map_is_filed_by_code
      (sampleCharField "Name".toList false).toField fld1 sampleOverrides rfl hc
    refine ⟨fld1, rfl, ?_, h.1, ?_⟩
    · have : customizeAll (sampleCharField "Name".toList false).toField sampleOverrides
          = .ok fld1 := hc
      have hk : ∀ f, customizeAll (sampleCharField "Name".toList false).toField sampleOverrides
          = .ok f → mapKeys f.customErrors = [RequiredErrorCode, MaxLengthErrorCode] := by
        intro f hf
        have hf1 : customizeAll (sampleCharField "Name".toList false).toField sampleOverrides
            = .ok _ := rfl
        rw [hf1] at hf
        injection hf with hf
        rw [← hf]
        rfl
      exact hk fld1 hc
    · rw [(h.2 (some [requiredError])).2.1]
      rfl

/-! ## Propagation of the CSS classes -/

theorem classes_fields (required error : Str) (locales : List LangTag) :
    ∃ g : fieldInterface → fieldInterface,
      (∀ l, propagateLocalesIfNotEmpty
          (propagateErrorCSSClassIfNotEmpty (propagateRequiredCSSClassIfNotEmpty l required) error)
          locales = l.map g)
      ∧ ∀ x, (g x).field.requiredCSSClass = attachedClass required x.field.requiredCSSClass
          ∧ (g x).field.errorCSSClass = attachedClass error x.field.errorCSSClass
          ∧ (g x).field.autoID = x.field.autoID := by
  unfold propagateLocalesIfNotEmpty propagateErrorCSSClassIfNotEmpty
    propagateRequiredCSSClassIfNotEmpty propagateErrorCSSClass propagateRequiredCSSClass
    attachedClass
  by_cases h1 : required.length = 0 <;> by_cases h2 : error.length = 0
  · refine ⟨fun x => x.update (fun y => y.SetLocale (locales.headD defaultLanguage)),
      fun l => ?_, fun x => ?_⟩
    · rw [if_pos h1, if_pos h2]
    · rw [fieldInterface.field_update, if_pos h1, if_pos h2]; exact ⟨rfl, rfl, rfl⟩
  · refine ⟨fun x => (x.update (fun y => y.SetErrorCSSClass error)).update
      (fun y => y.SetLocale (locales.headD defaultLanguage)), fun l => ?_, fun x => ?_⟩
    · rw [if_pos h1, if_neg h2, List.map_map]; rfl
    · rw [fieldInterface.field_update, fieldInterface.field_update, if_pos h1, if_neg h2]
      exact ⟨rfl, rfl, rfl⟩
  · refine ⟨fun x => (x.update (fun y => y.SetRequiredCSSClass required)).update
      (fun y => y.SetLocale (locales.headD defaultLanguage)), fun l => ?_, fun x => ?_⟩
    · rw [if_neg h1, if_pos h2, List.map_map]; rfl
    · rw [fieldInterface.field_update, fieldInterface.field_update, if_neg h1, if_pos h2]
      exact ⟨rfl, rfl, rfl⟩
  · refine ⟨fun x => ((x.update (fun y => y.SetRequiredCSSClass required)).update
      (fun y => y.SetErrorCSSClass error)).update
      (fun y => y.SetLocale (locales.headD defaultLanguage)), fun l => ?_, fun x => ?_⟩
    · rw [if_neg h1, if_neg h2, List.map_map, List.map_map]; rfl
    · rw [fieldInterface.field_update, fieldInterface.field_update, fieldInterface.field_update,
        if_neg h1, if_neg h2]
      exact ⟨rfl, rfl, rfl⟩

theorem addField_classes (L : Lib) (f : Form) (fld : fieldInterface)
    (h : (f.addField L fld).2 = none) :
    ∃ new : fieldInterface, (f.addField L fld).1.fields = f.fields ++ [new]
      ∧ (f.addField L fld).1.requiredCSSClass = f.requiredCSSClass
      ∧ (f.addField L fld).1.errorCSSClass = f.errorCSSClass
      ∧ new.field.requiredCSSClass
          = attachedClass f.requiredCSSClass fld.field.requiredCSSClass
      ∧ new.field.errorCSSClass = attachedClass f.errorCSSClass fld.field.errorCSSClass := by
  obtain ⟨g, hg, hgk⟩ := classes_fields f.requiredCSSClass f.errorCSSClass f.locales
  have h1 : (f.addField L fld).2
      = (propagateAutoIDIfNotDefault [g (pushLabelSuffix f.labelSuffix fld)] f.autoID).2 := by
    simp only [Form.addField, hg, propagateLabelSuffix_eq, List.map_cons, List.map_nil]
  have h2 : (f.addField L fld).1.fields
      = f.fields ++ (propagateAutoIDIfNotDefault [g (pushLabelSuffix f.labelSuffix fld)] f.autoID).1 := by
    simp only [Form.addField, hg, propagateLabelSuffix_eq, List.map_cons, List.map_nil]
  rw [h1] at h
  rw [h2, propagateAutoIDIfNotDefault_eq _ _ h]
  refine ⟨pushAutoID f.autoID (g (pushLabelSuffix f.labelSuffix fld)), rfl, rfl, rfl, ?_, ?_⟩
  · rw [pushAutoID_field]
    show (g (pushLabelSuffix f.labelSuffix fld)).field.requiredCSSClass = _
    rw [(hgk _).1, pushLabelSuffix_field]
  · rw [pushAutoID_field]
    show (g (pushLabelSuffix f.labelSuffix fld)).field.errorCSSClass = _
    rw [(hgk _).2.1, pushLabelSuffix_field]

theorem fieldsKeepClass_refl (b : Bool) (l : List fieldInterface) : fieldsKeepClass b l l := by
  intro i o ho
  exact ⟨o, ho, rfl⟩

theorem fieldsKeepClass_trans (b : Bool) (l1 l2 l3 : List fieldInterface)
    (h1 : fieldsKeepClass b l1 l2) (h2 : fieldsKeepClass b l2 l3) : fieldsKeepClass b l1 l3 := by
  intro i o ho
  obtain ⟨n, hn, hk⟩ := h1 i o ho
  obtain ⟨m, hm, hk2⟩ := h2 i n hn
  exact ⟨m, hm, hk2.trans hk⟩

theorem fieldsKeepClass_map_append (b : Bool) (l extra : List fieldInterface)
    (g : fieldInterface → fieldInterface)
    (hg : ∀ x, classOf b (g x).field = classOf b x.field) :
    fieldsKeepClass b l (l.map g ++ extra) := by
  intro i o ho
  have hlt : i < (l.map g).length := by
    rw [List.length_map]
    exact (List.getElem?_eq_some.mp ho).1
  refine ⟨g o, ?_, hg o⟩
  rw [List.getElem?_append_left hlt, List.getElem?_map, ho]
  rfl

/-- What an option other than the two class options does to the fields: it maps
them with a function that keeps both classes, and a field option appends the
field with the class of the form, or with its own class when the form has none. -/
theorem FormOption_run_classes (L : Lib) (opt : FormOption) (f : Form) (b : Bool)
    (h : (opt.run L f).2 = none) (hopt : setsClass b opt = false) :
    formClassOf b (opt.run L f).1 = formClassOf b f
    ∧ ∃ (g : fieldInterface → fieldInterface) (added : List fieldInterface),
        (opt.run L f).1.fields = f.fields.map g ++ added
        ∧ (∀ x, classOf b (g x).field = classOf b x.field)
        ∧ (∀ y ∈ added, formClassOf b f ≠ [] → classOf b y.field = formClassOf b f) := by
  have hadd : ∀ fld : fieldInterface, (f.addField L fld).2 = none →
      formClassOf b (f.addField L fld).1 = formClassOf b f
      ∧ ∃ (g : fieldInterface → fieldInterface) (added : List fieldInterface),
          (f.addField L fld).1.fields = f.fields.map g ++ added
          ∧ (∀ x, classOf b (g x).field = classOf b x.field)
          ∧ (∀ y ∈ added, formClassOf b f ≠ [] → classOf b y.field = formClassOf b f) := by
    intro fld hf
    obtain ⟨new, hfs, hr, he, hnr, hne⟩ := addField_classes L f fld hf
    refine ⟨?_, id, [new], by rw [hfs, List.map_id], fun _ => rfl, ?_⟩
    · cases b
      · exact he
      · exact hr
    · intro y hy hne0
      rw [List.mem_singleton] at hy
      subst hy
      cases b
      · simp only [classOf, formClassOf, Bool.false_eq_true, if_false] at hne0 ⊢
        rw [hne, attachedClass, if_neg (fun h0 => hne0 (List.length_eq_zero.mp h0))]
      · simp only [classOf, formClassOf, if_true] at hne0 ⊢
        rw [hnr, attachedClass, if_neg (fun h0 => hne0 (List.length_eq_zero.mp h0))]
  have hmap : ∀ (f1 : Form) (g : fieldInterface → fieldInterface),
      f1.fields = f.fields.map g → formClassOf b f1 = formClassOf b f →
      (∀ x, classOf b (g x).field = classOf b x.field) →
      formClassOf b f1 = formClassOf b f
      ∧ ∃ (g : fieldInterface → fieldInterface) (added : List fieldInterface),
          f1.fields = f.fields.map g ++ added
          ∧ (∀ x, classOf b (g x).field = classOf b x.field)
          ∧ (∀ y ∈ added, formClassOf b f ≠ [] → classOf b y.field = formClassOf b f) :=
    fun f1 g h1 h2 h3 => ⟨h2, g, [], by rw [h1, List.append_nil], h3,
      fun y hy => absurd hy (List.not_mem_nil y)⟩
  have hpush : ∀ (autoID : Str) (x : fieldInterface),
      classOf b (pushAutoID autoID x).field = classOf b x.field := by
    intro autoID x
    rw [pushAutoID_field]
    cases b <;> rfl
  cases opt with
  | WithBooleanField fld => exact hadd _ h
  | WithCharField fld => exact hadd _ h
  | WithEmailField fld => exact hadd _ h
  | WithChoiceField fld => exact hadd _ h
  | WithMultipleChoiceField fld => exact hadd _ h
  | WithAutoID autoID =>
    simp only [FormOption.run] at h ⊢
    cases hv : validAutoID autoID with
    | some e => rw [hv] at h; simp at h
    | none =>
      rw [hv] at h
      dsimp only at h ⊢
      rw [setAndPropagateAutoID_fields f autoID h]
      exact hmap _ (pushAutoID autoID) rfl (by cases b <;> rfl) (hpush autoID)
  | DisableAutoID =>
    simp only [FormOption.run] at h ⊢
    rw [setAndPropagateAutoID_fields f [] h]
    exact hmap _ (pushAutoID []) rfl (by cases b <;> rfl) (hpush [])
  | WithLabelSuffix labelSuffix =>
    refine hmap _ (pushLabelSuffix labelSuffix) rfl (by cases b <;> rfl) ?_
    intro x
    rw [pushLabelSuffix_field]
    cases b <;> rfl
  | WithRequiredCSSClass cls =>
    cases b
    · refine hmap _ (fun fld => fld.update (fun x => x.SetRequiredCSSClass cls)) rfl rfl ?_
      intro x
      rw [fieldInterface.field_update]
      rfl
    · simp [setsClass] at hopt
  | WithErrorCSSClass cls =>
    cases b
    · simp [setsClass] at hopt
    · refine hmap _ (fun fld => fld.update (fun x => x.SetErrorCSSClass cls)) rfl rfl ?_
      intro x
      rw [fieldInterface.field_update]
      rfl
  | WithLocales locales =>
    refine hmap _ (fun fld => fld.update (fun x => x.SetLocale (locales.headD defaultLanguage)))
      rfl (by cases b <;> rfl) ?_
    intro x
    rw [fieldInterface.field_update]
    cases b <;> rfl

theorem setsClass_run (L : Lib) (opt : FormOption) (f : Form) (b : Bool)
    (hopt : setsClass b opt = true) :
    (opt.run L f).2 = none
    ∧ ∃ cls : Str, formClassOf b (opt.run L f).1 = cls
        ∧ (opt.run L f).1.fields.length = f.fields.length
        ∧ ∀ y ∈ (opt.run L f).1.fields, classOf b y.field = cls := by
  cases opt <;> simp only [setsClass, Bool.false_eq_true] at hopt
  · subst hopt
    refine ⟨rfl, _, rfl, ?_, ?_⟩
    · simp [FormOption.run, propagateRequiredCSSClass]
    · intro y hy
      simp only [FormOption.run, propagateRequiredCSSClass, List.mem_map] at hy
      obtain ⟨x, -, rfl⟩ := hy
      rw [fieldInterface.field_update]
      rfl
  · have hb : b = false := by simpa using hopt
    subst hb
    refine ⟨rfl, _, rfl, ?_, ?_⟩
    · simp [FormOption.run, propagateErrorCSSClass]
    · intro y hy
      simp only [FormOption.run, propagateErrorCSSClass, List.mem_map] at hy
      obtain ⟨x, -, rfl⟩ := hy
      rw [fieldInterface.field_update]
      rfl

/-- After the options of `New`, a form with a class that is not empty has set it
on every field; and the options other than the class option keep the class of
every field that is in the form. -/
theorem applyFormOptions_classes (L : Lib) (b : Bool) (opts : List FormOption) :
    ∀ f f1 : Form, applyFormOptions L opts f = .ok f1 →
      ((formClassOf b f ≠ [] → ∀ y ∈ f.fields, classOf b y.field = formClassOf b f) →
        (formClassOf b f1 ≠ [] → ∀ y ∈ f1.fields, classOf b y.field = formClassOf b f1))
      ∧ ((∀ opt ∈ opts, setsClass b opt = false) →
          formClassOf b f1 = formClassOf b f ∧ fieldsKeepClass b f.fields f1.fields) := by
  induction opts with
  | nil =>
    intro f f1 h
    simp only [applyFormOptions, Except.ok.injEq] at h
    subst h
    exact ⟨id, fun _ => ⟨rfl, fieldsKeepClass_refl b _⟩⟩
  | cons opt rest ih =>
    intro f f1 h
    unfold applyFormOptions at h
    cases he : (opt.run L f).2 with
    | some e => rw [he] at h; simp at h
    | none =>
      rw [he] at h
      dsimp only at h
      obtain ⟨ih1, ih2⟩ := ih _ f1 h
      constructor
      · intro hinv
        apply ih1
        intro hne y hy
        cases hs : setsClass b opt with
        | true =>
          obtain ⟨-, cls, hc, -, hall⟩ := setsClass_run L opt f b hs
          rw [hc]
          exact hall y hy
        | false =>
          obtain ⟨hfc, g, added, hf, hg, hadd⟩ := FormOption_run_classes L opt f b he hs
          rw [hfc] at hne ⊢
          rw [hf, List.mem_append, List.mem_map] at hy
          rcases hy with ⟨x, hx, rfl⟩ | hy
          · rw [hg]
            exact hinv hne x hx
          · exact hadd y hy hne
      · intro hno
        have hs : setsClass b opt = false := hno opt (List.mem_cons_self _ _)
        obtain ⟨hfc, g, added, hf, hg, -⟩ := FormOption_run_classes L opt f b he hs
        obtain ⟨h3, h4⟩ := ih2 (fun o ho => hno o (List.mem_cons_of_mem _ ho))
        refine ⟨h3.trans hfc, fieldsKeepClass_trans b _ _ _ ?_ h4⟩
        rw [hf]
        exact fieldsKeepClass_map_append b _ _ g hg

/-- C31: for the required and the error CSS class. Attaching a field, when no
error is returned, appends it with its own class if the class of the form is
empty and with the class of the form otherwise. `WithRequiredCSSClass` and
`WithErrorCSSClass` set their class on the form and on every field that is in
the form, whatever class the field had. So in a form that `New` built, a class
of the form that is not empty is the class of every field; and a field keeps its
class through any options among which the option of that class is not. -/
theorem C31_form_class_overwrites_field_class (L : Lib) :
    (∀ (f : Form) (fld : fieldInterface), (f.addField L fld).2 = none →
        ∃ new : fieldInterface, (f.addField L fld).1.fields = f.fields ++ [new]
          ∧ new.field.requiredCSSClass
              = (if f.requiredCSSClass = [] then fld.field.requiredCSSClass
                 else f.requiredCSSClass)
          ∧ new.field.errorCSSClass
              = (if f.errorCSSClass = [] then fld.field.errorCSSClass else f.errorCSSClass))
    ∧ (∀ (f : Form) (cls : Str),
        ((FormOption.WithRequiredCSSClass cls).run L f).1.requiredCSSClass = cls
        ∧ ((FormOption.WithRequiredCSSClass cls).run L f).1.fields.length = f.fields.length
        ∧ ∀ y ∈ ((FormOption.WithRequiredCSSClass cls).run L f).1.fields,
            y.field.requiredCSSClass = cls)
    ∧ (∀ (f : Form) (cls : Str),
        ((FormOption.WithErrorCSSClass cls).run L f).1.errorCSSClass = cls
        ∧ ((FormOption.WithErrorCSSClass cls).run L f).1.fields.length = f.fields.length
        ∧ ∀ y ∈ ((FormOption.WithErrorCSSClass cls).run L f).1.fields,
            y.field.errorCSSClass = cls)
    ∧ (∀ (opts : List FormOption) (f : Form), New L opts = .ok f →
        (f.requiredCSSClass ≠ [] →
          ∀ y ∈ f.fields, y.field.requiredCSSClass = f.requiredCSSClass)
        ∧ (f.errorCSSClass ≠ [] → ∀ y ∈ f.fields, y.field.errorCSSClass = f.errorCSSClass))
    ∧ (∀ (required : Bool) (opts : List FormOption) (f f1 : Form),
        applyFormOptions L opts f = .ok f1 →
        (∀ opt ∈ opts, setsClass required opt = false) →
        formClassOf required f1 = formClassOf required f
          ∧ fieldsKeepClass required f.fields f1.fields) := by
  refine ⟨?_, ?_, ?_, ?_, ?_⟩
  · intro f fld h
    obtain ⟨new, hf, -, -, hr, he⟩ := addField_classes L f fld h
    refine ⟨new, hf, ?_, ?_⟩
    · rw [hr]
      unfold attachedClass
      by_cases h0 : f.requiredCSSClass = []
      · rw [if_pos h0, if_pos (by rw [h0]; rfl)]
      · rw [if_neg h0, if_neg (fun hl => h0 (List.length_eq_zero.mp hl))]
    · rw [he]
      unfold attachedClass
      by_cases h0 : f.errorCSSClass = []
      · rw [if_pos h0, if_pos (by rw [h0]; rfl)]
      · rw [if_neg h0, if_neg (fun hl => h0 (List.length_eq_zero.mp hl))]
  · intro f cls
    obtain ⟨-, c, hc, hl, hall⟩ := setsClass_run L (.WithRequiredCSSClass cls) f true rfl
    have hcls : c = cls := hc.symm
    subst hcls
    exact ⟨rfl, hl, hall⟩
  · intro f cls
    obtain ⟨-, c, hc, hl, hall⟩ := setsClass_run L (.WithErrorCSSClass cls) f false rfl
    have hcls : c = cls := hc.symm
    subst hcls
    exact ⟨rfl, hl, hall⟩
  · intro opts f h
    exact ⟨(applyFormOptions_classes L true opts emptyForm f h).1
        (fun _ y hy => absurd hy (List.not_mem_nil y)),
      (applyFormOptions_classes L false opts emptyForm f h).1
        (fun _ y hy => absurd hy (List.not_mem_nil y))⟩
  · intro required opts f f1 h hno
    exact (applyFormOptions_classes L required opts f f1 h).2 hno

/-- The field with the required class `mine` and the error class `bad` keeps both
in a form without classes; attached after `WithRequiredCSSClass("req")` it has
the required class `req`, and after a later `WithErrorCSSClass("err")` it has the
error class `err`. -/
theorem C31_field_class_is_overwritten :
    (match New sampleLib [.WithCharField ownClassesField] with
      | .ok f => f.fields.map (fun y => (y.field.requiredCSSClass, y.field.errorCSSClass))
      | .error _ => []) = [("mine".toList, "bad".toList)]
    ∧ (match New sampleLib [.WithRequiredCSSClass "req".toList,
          .WithCharField ownClassesField] with
      | .ok f => f.fields.map (fun y => (y.field.requiredCSSClass, y.field.errorCSSClass))
      | .error _ => []) = [("req".toList, "bad".toList)]
    ∧ (match New sampleLib [.WithCharField ownClassesField,
          .WithErrorCSSClass "err".toList] with
      | .ok f => f.fields.map (fun y => (y.field.requiredCSSClass, y.field.errorCSSClass))
      | .error _ => []) = [("mine".toList, "err".toList)] :=
  ⟨rfl, rfl, rfl⟩

/-! ## Normalized names -/

theorem replaceSpaceRuns_no_space (s : Str) :
    ∀ b : Bool, ∀ c ∈ replaceSpaceRuns b s, isRegexSpace c = false := by
  induction s with
  | nil => intro b c hc; simp [replaceSpaceRuns] at hc
  | cons x rest ih =>
    intro b c hc
    unfold replaceSpaceRuns at hc
    by_cases hx : isRegexSpace x = true
    · rw [if_pos hx] at hc
      cases b with
      | true => exact ih true c hc
      | false =>
        simp only [Bool.false_eq_true, if_false] at hc
        rcases List.mem_cons.mp hc with h1 | h1
        · rw [h1]; decide
        · exact ih true c h1
    · rw [if_neg hx] at hc
      rcases List.mem_cons.mp hc with h1 | h1
      · rw [h1]; simpa using hx
      · exact ih false c h1

theorem replaceSpaceRuns_id (s : Str) (h : ∀ c ∈ s, isRegexSpace c = false) :
    ∀ b : Bool, replaceSpaceRuns b s = s := by
  induction s with
  | nil => intro b; rfl
  | cons x rest ih =>
    intro b
    unfold replaceSpaceRuns
    have hx := h x (List.mem_cons_self _ _)
    rw [if_neg (by rw [hx]; decide), ih (fun c hc => h c (List.mem_cons_of_mem _ hc))]

theorem replaceSpaceRuns_cons (b : Bool) (x : Char) (rest : Str) :
    replaceSpaceRuns b (x :: rest)
      = if isRegexSpace x then
          (if b then replaceSpaceRuns true rest else '_' :: replaceSpaceRuns true rest)
        else x :: replaceSpaceRuns false rest := by
  rw [replaceSpaceRuns]

theorem replaceSpaceRuns_true_of_start (t : Str) (h : startsOutsideSpace t) :
    replaceSpaceRuns true t = replaceSpaceRuns false t := by
  cases t with
  | nil => rfl
  | cons x rest =>
    have hx := h x rfl
    rw [replaceSpaceRuns_cons, replaceSpaceRuns_cons, hx]
    rfl

theorem replaceSpaceRuns_spaces (ws t : Str) (h : ∀ c ∈ ws, isRegexSpace c = true) :
    replaceSpaceRuns true (ws ++ t) = replaceSpaceRuns true t := by
  induction ws with
  | nil => rfl
  | cons w rest ih =>
    rw [List.cons_append, replaceSpaceRuns_cons, h w (List.mem_cons_self _ _)]
    simp only [if_true]
    exact ih (fun c hc => h c (List.mem_cons_of_mem _ hc))

theorem replaceSpaceRuns_append (a t : Str) (ha : a ≠ []) (he : endsOutsideSpace a) :
    ∀ b : Bool, replaceSpaceRuns b (a ++ t) = replaceSpaceRuns b a ++ replaceSpaceRuns false t := by
  induction a with
  | nil => exact absurd rfl ha
  | cons x rest ih =>
    intro b
    cases rest with
    | nil =>
      have hx : isRegexSpace x = false := he x rfl
      rw [List.cons_append, List.nil_append, replaceSpaceRuns_cons, replaceSpaceRuns_cons, hx]
      rfl
    | cons y rest1 =>
      have he1 : endsOutsideSpace (y :: rest1) := by
        intro c hc
        exact he c (by rw [List.getLast?_cons_cons]; exact hc)
      have ih1 := ih (List.cons_ne_nil _ _) he1
      rw [List.cons_append, replaceSpaceRuns_cons, replaceSpaceRuns_cons (x := x), ih1 true,
        ih1 false]
      by_cases hx : isRegexSpace x = true
      · rw [hx]
        cases b <;> rfl
      · rw [Bool.eq_false_iff.mpr hx]
        rfl

/-- Every maximal run of whitespace becomes one underscore: a text that is `a`,
then a run of whitespace, then `t`, where `a` does not end and `t` does not
start with whitespace, gives what `a` gives, an underscore, and what `t` gives. -/
theorem replaceSpaceRuns_run (a ws t : Str) (hws : ws ≠ [])
    (hall : ∀ c ∈ ws, isRegexSpace c = true) (ha : endsOutsideSpace a)
    (ht : startsOutsideSpace t) :
    replaceSpaceRuns false (a ++ ws ++ t)
      = replaceSpaceRuns false a ++ '_' :: replaceSpaceRuns false t := by
  have h1 : replaceSpaceRuns false (ws ++ t) = '_' :: replaceSpaceRuns false t := by
    cases ws with
    | nil => exact absurd rfl hws
    | cons w rest =>
      rw [List.cons_append, replaceSpaceRuns_cons, hall w (List.mem_cons_self _ _)]
      simp only [if_true, Bool.false_eq_true, if_false]
      rw [replaceSpaceRuns_spaces rest t (fun c hc => hall c (List.mem_cons_of_mem _ hc)),
        replaceSpaceRuns_true_of_start t ht]
  by_cases hnil : a = []
  · subst hnil
    rw [List.nil_append, h1]
    rfl
  · rw [List.append_assoc, replaceSpaceRuns_append a (ws ++ t) hnil ha false, h1]

theorem charToLower_cases (c : Char) :
    Char.toLower c = c ∨ (65 ≤ c.toNat ∧ c.toNat ≤ 90 ∧ Char.toLower c = Char.ofNat (c.toNat + 32)) := by
  unfold Char.toLower
  by_cases h : c.toNat ≥ 65 ∧ c.toNat ≤ 90
  · right
    exact ⟨h.1, h.2, by simp only [h, and_self, if_true]⟩
  · left
    simp only [h, if_false]

theorem upper_facts (n : Nat) (h1 : 65 ≤ n) (h2 : n ≤ 90) :
    isRegexSpace (Char.ofNat (n + 32)) = false
    ∧ Char.toLower (Char.ofNat (n + 32)) = Char.ofNat (n + 32) := by
  interval_cases n <;> decide

theorem sampleLib_lowerIsPlain : lowerIsPlain sampleLib := by
  constructor
  · intro s hs c hc
    obtain ⟨x, hx, rfl⟩ := List.mem_map.mp hc
    rcases charToLower_cases x with h | ⟨h1, h2, h3⟩
    · rw [h]; exact hs x hx
    · rw [h3]; exact (upper_facts _ h1 h2).1
  · intro s
    show (s.map Char.toLower).map Char.toLower = s.map Char.toLower
    rw [List.map_map]
    apply List.map_congr_left
    intro x _
    simp only [Function.comp]
    rcases charToLower_cases x with h | ⟨h1, h2, h3⟩
    · rw [h, h]
    · rw [h3]; exact (upper_facts _ h1 h2).2

/-- C33: the normalized name is the lower-cased text in which every maximal run
of the whitespace of the pattern `\s` (space, tab, newline, form feed, carriage
return), leading and trailing runs included, has become one underscore. The text
before lower-casing has no such whitespace, and is the name itself when the name
has none. With a `strings.ToLower` that brings no whitespace into a text without
whitespace and is idempotent, the normalized name has no such whitespace and
normalizing it again returns it unchanged; `HTMLName` is the normalized name. -/
theorem C33_normalized_name (L : Lib) (name : Str) :
    normalizedName L name = L.toLower (replaceSpaceRuns false name)
    ∧ (∀ fld : Field, fld.HTMLName L = normalizedName L fld.name)
    ∧ (∀ c ∈ replaceSpaceRuns false name, isRegexSpace c = false)
    ∧ ((∀ c ∈ name, isRegexSpace c = false) → replaceSpaceRuns false name = name)
    ∧ (∀ a ws t : Str, name = a ++ ws ++ t → ws ≠ [] → (∀ c ∈ ws, isRegexSpace c = true) →
        endsOutsideSpace a → startsOutsideSpace t →
        replaceSpaceRuns false name
          = replaceSpaceRuns false a ++ '_' :: replaceSpaceRuns false t)
    ∧ (lowerIsPlain L →
        (∀ c ∈ normalizedName L name, isRegexSpace c = false)
        ∧ normalizedName L (normalizedName L name) = normalizedName L name)
    ∧ (∀ c : Char, isRegexSpace c = true
        ↔ (c.toNat = 9 ∨ c.toNat = 10 ∨ c.toNat = 12 ∨ c.toNat = 13 ∨ c.toNat = 32)) := by
  refine ⟨rfl, fun _ => rfl, replaceSpaceRuns_no_space name false,
    fun h => replaceSpaceRuns_id name h false, ?_, ?_, ?_⟩
  · intro a ws t hn hws hall ha ht
    rw [hn]
    exact replaceSpaceRuns_run a ws t hws hall ha ht
  · intro hL
    have h1 : ∀ c ∈ normalizedName L name, isRegexSpace c = false :=
      hL.1 _ (replaceSpaceRuns_no_space name false)
    refine ⟨h1, ?_⟩
    show L.toLower (replaceSpaceRuns false (normalizedName L name)) = normalizedName L name
    rw [replaceSpaceRuns_id _ h1 false]
    exact hL.2 _
  · intro c
    unfold isRegexSpace
    simp only [Bool.or_eq_true, decide_eq_true_eq]
    have hiff : ∀ n : Nat, n < 256 → (c = Char.ofNat n ↔ c.toNat = n) := by
      intro n hn
      constructor
      · intro h
        rw [h]
        interval_cases n <;> rfl
      · intro h
        rw [← h, Char.ofNat_toNat]
    rw [hiff 9 (by decide), hiff 10 (by decide), hiff 12 (by decide), hiff 13 (by decide)]
    have h32 : c = ' ' ↔ c.toNat = 32 := hiff 32 (by decide)
    rw [h32]
    tauto

/-- On the name of the test "with blank everywhere", with the lower-casing of
ASCII letters: the normalized name is `_test_test_`. -/
theorem C33_witness_blank_everywhere :
    normalizedName sampleLib blankEverywhere = "_test_test_".toList
    ∧ lowerIsPlain sampleLib
    ∧ (∀ c ∈ normalizedName sampleLib blankEverywhere, isRegexSpace c = false)
    ∧ normalizedName sampleLib (normalizedName sampleLib blankEverywhere)
        = normalizedName sampleLib blankEverywhere := by
  have h := (C33_normalized_name sampleLib blankEverywhere).2.2.2.2.2.1 sampleLib_lowerIsPlain
  exact ⟨by decide, sampleLib_lowerIsPlain, h.1, h.2⟩

/-! ## The locale of the fields after `BindData` -/

theorem selectLanguage_cases (L : Lib) (available : List LangTag) (langs : List Str) :
    (selectLanguage L available langs = languageEnglish
      ∨ selectLanguage L available langs = languageFrench)
    ∧ (L.matchStrings available langs = languageUnd
        ∨ L.matchStrings available langs ∉ languages →
        selectLanguage L available langs = languageEnglish)
    ∧ (L.matchStrings available langs ∈ languages →
        selectLanguage L available langs = L.matchStrings available langs) := by
  unfold selectLanguage
  refine ⟨?_, ?_, ?_⟩
  · by_cases h1 : L.matchStrings available langs = languageUnd
    · rw [if_pos h1]; exact Or.inl rfl
    · rw [if_neg h1]
      by_cases h2 : L.matchStrings available langs ∉ languages
      · rw [if_pos h2]; exact Or.inl rfl
      · rw [if_neg h2]
        have h3 := not_not.mp h2
        simp only [languages, List.mem_cons, List.mem_singleton, List.not_mem_nil, or_false] at h3
        exact h3
  · rintro (h1 | h1)
    · rw [if_pos h1]; rfl
    · by_cases h0 : L.matchStrings available langs = languageUnd
      · rw [if_pos h0]; rfl
      · rw [if_neg h0, if_pos h1]; rfl
  · intro h1
    have h0 : L.matchStrings available langs ≠ languageUnd := by
      intro h0
      rw [h0] at h1
      revert h1
      decide
    rw [if_neg h0, if_neg (not_not.mpr h1)]

/-- C32: the first `BindData` sets on every field of the form the one locale
`selectLanguage(f.locales, langs...)`. That locale is English or French; it is
English when the matcher returns `und` or a language other than English and
French, and it is the language that the matcher returns otherwise. -/
theorem C32_fields_carry_the_selected_locale (L : Lib) (f : Form) (data : GoMap (List Str))
    (langs : List Str) (h : f.bound = false) :
    (f.BindData L data langs).fields.length = f.fields.length
    ∧ (∀ fld ∈ (f.BindData L data langs).fields,
        fld.field.locale = selectLanguage L f.locales langs)
    ∧ (selectLanguage L f.locales langs = languageEnglish
        ∨ selectLanguage L f.locales langs = languageFrench)
    ∧ (L.matchStrings f.locales langs = languageUnd
        ∨ L.matchStrings f.locales langs ∉ [languageEnglish, languageFrench] →
        selectLanguage L f.locales langs = languageEnglish)
    ∧ (L.matchStrings f.locales langs ∈ [languageEnglish, languageFrench] →
        selectLanguage L f.locales langs = L.matchStrings f.locales langs) := by
  have hs := selectLanguage_cases L f.locales langs
  have hb : (f.BindData L data langs).fields
      = f.fields.map (fun fld =>
          fld.update (fun x => x.SetLocale (selectLanguage L f.locales langs))) := by
    unfold Form.BindData
    rw [h]
    rfl
  refine ⟨?_, ?_, hs.1, hs.2.1, hs.2.2⟩
  · rw [hb, List.length_map]
  · intro fld hfld
    rw [hb] at hfld
    obtain ⟨x, -, rfl⟩ := List.mem_map.mp hfld
    rw [fieldInterface.field_update]
    rfl

/-- On the form of `twoFieldOptions`, bound with the preference `fr`. -/
theorem C32_witness_two_fields :
    twoFieldNew.bound = false
    ∧ (∀ fld ∈ (twoFieldNew.BindData sampleLib [] ["fr".toList]).fields,
        fld.field.locale = selectLanguage sampleLib twoFieldNew.locales ["fr".toList])
    ∧ (twoFieldNew.BindData sampleLib [] ["fr".toList]).fields.map (fun fld => fld.field.locale)
        = [languageEnglish, languageEnglish] := by
  have h : twoFieldNew.bound = false := rfl
  exact ⟨h, (C32_fields_carry_the_selected_locale sampleLib twoFieldNew [] ["fr".toList] h).2.1,
    rfl⟩

/-- With French as the only locale of the form and the preference `de`, which
matches no locale, the matcher returns the first locale of the form and every
field carries French, not English. With English first, it is English. -/
theorem C32_no_match_gives_first_locale :
    frenchFirstForm.fields.map (fun fld => fld.field.locale) = [languageFrench, languageFrench]
    ∧ "de".toList ∉ [languageFrench]
    ∧ selectLanguage firstSupportedLib [languageFrench] ["de".toList] = languageFrench
    ∧ selectLanguage firstSupportedLib [languageEnglish, languageFrench] ["de".toList]
        = languageEnglish
    ∧ selectLanguage firstSupportedLib [] ["fr".toList] = languageEnglish := by
  refine ⟨rfl, by decide, by decide, by decide, by decide⟩

/-! ## The attributes of the widget -/

theorem find_none_of_mapGet {V : Type} (m : GoMap V) (k : Str) (h : mapGet m k = none) :
    ∀ p ∈ m, p.1 ≠ k := by
  induction m with
  | nil => intro p hp; cases hp
  | cons q rest ih =>
    obtain ⟨k1, v⟩ := q
    simp only [mapGet] at h
    by_cases hk : k1 = k
    · rw [if_pos hk] at h; cases h
    · rw [if_neg hk] at h
      intro p hp
      rcases List.mem_cons.mp hp with rfl | hp
      · exact hk
      · exact ih h p hp

theorem mapGet_none_of_keys {V : Type} (m : GoMap V) (k : Str) (h : ∀ p ∈ m, p.1 ≠ k) :
    mapGet m k = none := by
  induction m with
  | nil => rfl
  | cons q rest ih =>
    obtain ⟨k1, v⟩ := q
    simp only [mapGet]
    rw [if_neg (h (k1, v) (List.mem_cons_self _ _))]
    exact ih (fun p hp => h p (List.mem_cons_of_mem _ hp))

theorem mapGet_mapsCopy_absent {V : Type} (dst src : GoMap V) (k : Str)
    (h : mapGet src k = none) : mapGet (mapsCopy dst src) k = mapGet dst k := by
  rw [mapGet_mapsCopy]
  have hf : src.reverse.find? (fun p => decide (p.1 = k)) = none := by
    rw [List.find?_eq_none]
    intro p hp
    have := find_none_of_mapGet src k h p (List.mem_reverse.mp hp)
    simpa using this
  rw [hf]

theorem mapGet_mapsCopy_present {V : Type} (dst src : GoMap V) (k : Str) (v : V)
    (hn : (mapKeys src).Nodup) (h : mapGet src k = some v) :
    mapGet (mapsCopy dst src) k = some v := by
  induction src generalizing dst with
  | nil => cases h
  | cons q rest ih =>
    obtain ⟨k1, v1⟩ := q
    have hnd : k1 ∉ mapKeys rest ∧ (mapKeys rest).Nodup := List.nodup_cons.mp hn
    unfold mapsCopy
    rw [List.foldl_cons]
    show mapGet (mapsCopy (mapSet dst k1 v1) rest) k = some v
    simp only [mapGet] at h
    by_cases hk : k1 = k
    · rw [if_pos hk] at h
      injection h with h
      subst h
      subst hk
      have hr : mapGet rest k1 = none := by
        apply mapGet_none_of_keys
        intro p hp hpk
        exact hnd.1 (hpk ▸ List.mem_map_of_mem Prod.fst hp)
      rw [mapGet_mapsCopy_absent _ _ _ hr, mapGet_mapSet, if_pos rfl]
    · rw [if_neg hk] at h
      exact ih _ hnd.2 h

theorem computedAttributes_get (sprintf : Str → Str → Str) (L : Lib) (fld : Field) (k : Str) :
    mapGet (computedAttributes sprintf L fld) k
      = if k = "maxlength".toList ∧ fld.maxLength > 0 then some (formatUint fld.maxLength)
        else if k = "minlength".toList ∧ fld.minLength > 0 then some (formatUint fld.minLength)
        else if k = "aria-describedby".toList ∧ hasID fld = true
            ∧ (ariaDescribedByIDs sprintf L fld).length > 0 then
          some (joinWith " ".toList (ariaDescribedByIDs sprintf L fld))
        else if k = "aria-invalid".toList ∧ fld.HasErrors = true then some "true".toList
        else if k = "disabled".toList ∧ fld.disabled = true then some []
        else if k = "required".toList ∧ fld.notRequired = false then some []
        else if k = "id".toList ∧ hasID fld = true then
          some (normalizedIDForField sprintf L fld)
        else if k = "multiple".toList ∧ fld.widget.isMultiChoice = true then some []
        else none := by
  unfold computedAttributes
  simp only []
  have hset : ∀ (c : Prop) [Decidable c] (m : GoMap Str) (key v : Str),
      mapGet (if c then mapSet m key v else m) k
        = if k = key ∧ c then some v else mapGet m k := by
    intro c _ m key v
    by_cases hc : c
    · rw [if_pos hc, mapGet_mapSet]
      by_cases hk : key = k
      · rw [if_pos hk, if_pos ⟨hk.symm, hc⟩]
      · rw [if_neg hk, if_neg (fun h => hk h.1.symm)]
    · rw [if_neg hc, if_neg (fun h => hc h.2)]
  rw [hset, hset]
  have h6 : ∀ m : GoMap Str,
      mapGet (if hasID fld = true then
          if (ariaDescribedByIDs sprintf L fld).length > 0 then
            mapSet m "aria-describedby".toList
              (joinWith " ".toList (ariaDescribedByIDs sprintf L fld))
          else m
        else m) k
        = if k = "aria-describedby".toList ∧ hasID fld = true
            ∧ (ariaDescribedByIDs sprintf L fld).length > 0 then
            some (joinWith " ".toList (ariaDescribedByIDs sprintf L fld))
          else mapGet m k := by
    intro m
    by_cases hid : hasID fld = true
    · rw [if_pos hid, hset]
      simp only [hid, true_and]
    · rw [if_neg hid, if_neg (fun h => hid h.2.1)]
  rw [h6, hset, hset, hset, hset, hset]
  simp only [Bool.not_eq_true', mapGet]

theorem widgetCSSClassList_eq (fld : Field) :
    fld.widgetCSSClassList
      = if fld.HasErrors = true ∧ fld.errorCSSClass ≠ [] then [fld.errorCSSClass] else [] := by
  unfold Field.widgetCSSClassList
  by_cases h1 : fld.HasErrors = true
  · by_cases h2 : fld.errorCSSClass = []
    · rw [h1, h2]
      rfl
    · have h3 : fld.errorCSSClass.length > 0 := List.length_pos.mpr h2
      rw [if_pos (by rw [h1]; simpa using h3), if_pos ⟨h1, h2⟩]
  · rw [if_neg (by simp [Bool.eq_false_iff.mpr h1]), if_neg (fun h => h1 h.1)]

theorem attributesForField_get (sprintf : Str → Str → Str) (L : Lib) (fld : Field)
    (classes : List Str) (k : Str) (hk : k ≠ "class".toList) :
    mapGet (attributesForField sprintf L fld classes) k
      = mapGet (mapsCopy (computedAttributes sprintf L fld) fld.attrs) k := by
  unfold attributesForField
  have hk1 : ¬ "class".toList = k := fun h => hk h.symm
  dsimp only
  split
  · split
    · rw [mapGet_mapSet, if_neg hk1]
    · rw [mapGet_mapSet, if_neg hk1]
  · rfl

theorem computedAttributes_class (sprintf : Str → Str → Str) (L : Lib) (fld : Field) :
    mapGet (computedAttributes sprintf L fld) "class".toList = none := by
  rw [computedAttributes_get]
  simp only [show ¬ "class".toList = "maxlength".toList by decide,
    show ¬ "class".toList = "minlength".toList by decide,
    show ¬ "class".toList = "aria-describedby".toList by decide,
    show ¬ "class".toList = "aria-invalid".toList by decide,
    show ¬ "class".toList = "disabled".toList by decide,
    show ¬ "class".toList = "required".toList by decide,
    show ¬ "class".toList = "id".toList by decide,
    show ¬ "class".toList = "multiple".toList by decide, false_and, if_false]

theorem mapsCopy_get (dst src : GoMap Str) (k : Str) (hn : (mapKeys src).Nodup) :
    mapGet (mapsCopy dst src) k
      = match mapGet src k with
        | some v => some v
        | none => mapGet dst k := by
  cases h : mapGet src k with
  | none => exact mapGet_mapsCopy_absent dst src k h
  | some v => exact mapGet_mapsCopy_present dst src k v hn h

/-- C35: in the map of `attributesForField`, with every custom attribute once in
the map of the field. A custom attribute with a name other than `class` is in
the result with its custom value, whatever was computed under that name, and a
name without custom attribute has the computed value. Called with the class list
of the widget, the class attribute is the error class, a space and the custom
class when the field has errors and an error class that is not empty (the error
class alone when there is no custom class), and the custom class, if any,
otherwise. -/
theorem C35_custom_attributes_overlay (sprintf : Str → Str → Str) (L : Lib) (fld : Field)
    (hn : (mapKeys fld.attrs).Nodup) :
    (∀ (classes : List Str) (k v : Str), k ≠ "class".toList → mapGet fld.attrs k = some v →
        mapGet (attributesForField sprintf L fld classes) k = some v)
    ∧ (∀ (classes : List Str) (k : Str), k ≠ "class".toList → mapGet fld.attrs k = none →
        mapGet (attributesForField sprintf L fld classes) k
          = mapGet (computedAttributes sprintf L fld) k)
    ∧ (fld.HasErrors = true → fld.errorCSSClass ≠ [] →
        mapGet (attributesForField sprintf L fld fld.widgetCSSClassList) "class".toList
          = some (match mapGet fld.attrs "class".toList with
              | some custom => fld.errorCSSClass ++ " ".toList ++ custom
              | none => fld.errorCSSClass))
    ∧ (¬ (fld.HasErrors = true ∧ fld.errorCSSClass ≠ []) →
        mapGet (attributesForField sprintf L fld fld.widgetCSSClassList) "class".toList
          = mapGet fld.attrs "class".toList)
    ∧ fld.widgetCSSClassList
        = (if fld.HasErrors = true ∧ fld.errorCSSClass ≠ [] then [fld.errorCSSClass] else []) := by
  have hclass : mapGet (mapsCopy (computedAttributes sprintf L fld) fld.attrs) "class".toList
      = mapGet fld.attrs "class".toList := by
    rw [mapsCopy_get _ _ _ hn, computedAttributes_class]
    cases mapGet fld.attrs "class".toList <;> rfl
  refine ⟨?_, ?_, ?_, ?_, widgetCSSClassList_eq fld⟩
  · intro classes k v hk hv
    rw [attributesForField_get _ _ _ _ _ hk]
    exact mapGet_mapsCopy_present _ _ _ _ hn hv
  · intro classes k hk hv
    rw [attributesForField_get _ _ _ _ _ hk]
    exact mapGet_mapsCopy_absent _ _ _ hv
  · intro h1 h2
    rw [widgetCSSClassList_eq, if_pos ⟨h1, h2⟩]
    unfold attributesForField
    dsimp only
    rw [if_pos (by simp), hclass]
    cases hc : mapGet fld.attrs "class".toList with
    | none =>
      dsimp only
      rw [mapGet_mapSet, if_pos rfl]
      rfl
    | some custom =>
      dsimp only
      rw [mapGet_mapSet, if_pos rfl]
      simp [joinWith]
  · intro h
    rw [widgetCSSClassList_eq, if_neg h]
    unfold attributesForField
    dsimp only
    rw [if_neg (by simp)]
    exact hclass

/-- On a text field with errors, the error class `bad` and the custom attributes
`class="wide"`, `required="no"` and `placeholder="x"`. -/
theorem C35_witness_styled_field :
    (mapKeys styledField.attrs).Nodup
    ∧ (∀ (classes : List Str) (k v : Str), k ≠ "class".toList →
        mapGet styledField.attrs k = some v →
        mapGet (attributesForField sprintfOneVerb sampleLib styledField classes) k = some v)
    ∧ attributesForField sprintfOneVerb sampleLib styledField styledField.widgetCSSClassList
        = [("class".toList, "bad wide".toList), ("placeholder".toList, "x".toList),
           ("required".toList, "no".toList), ("maxlength".toList, "256".toList),
           ("aria-describedby".toList, "err_0_id_name".toList),
           ("aria-invalid".toList, "true".toList), ("id".toList, "id_name".toList)] := by
  have h : (mapKeys styledField.attrs).Nodup := by decide
  exact ⟨h, (C35_custom_attributes_overlay sprintfOneVerb sampleLib styledField h).1, by rfl⟩

theorem hasID_false (fld : Field) (h : fld.autoID = []) : hasID fld = false := by
  unfold hasID Field.AutoID isDisabledAutoID disabledAutoID
  rw [h]
  rfl

theorem normalizedIDForField_disabled (sprintf : Str → Str → Str) (L : Lib) (fld : Field)
    (h : fld.autoID = []) : normalizedIDForField sprintf L fld = [] := by
  unfold normalizedIDForField
  rw [hasID_false fld h]
  rfl

theorem computedAttributes_noID (sprintf : Str → Str → Str) (L : Lib) (fld : Field)
    (h : fld.autoID = []) :
    mapGet (computedAttributes sprintf L fld) "id".toList = none
    ∧ mapGet (computedAttributes sprintf L fld) "aria-describedby".toList = none := by
  have hid := hasID_false fld h
  constructor
  · rw [computedAttributes_get]
    simp only [show ¬ "id".toList = "maxlength".toList by decide,
      show ¬ "id".toList = "minlength".toList by decide,
      show ¬ "id".toList = "aria-describedby".toList by decide,
      show ¬ "id".toList = "aria-invalid".toList by decide,
      show ¬ "id".toList = "disabled".toList by decide,
      show ¬ "id".toList = "required".toList by decide,
      show ¬ "id".toList = "multiple".toList by decide, hid, false_and, and_false, if_false,
      Bool.false_eq_true]
  · rw [computedAttributes_get]
    simp only [show ¬ "aria-describedby".toList = "maxlength".toList by decide,
      show ¬ "aria-describedby".toList = "minlength".toList by decide,
      show ¬ "aria-describedby".toList = "aria-invalid".toList by decide,
      show ¬ "aria-describedby".toList = "disabled".toList by decide,
      show ¬ "aria-describedby".toList = "required".toList by decide,
      show ¬ "aria-describedby".toList = "id".toList by decide,
      show ¬ "aria-describedby".toList = "multiple".toList by decide, hid, false_and,
      and_false, if_false, Bool.false_eq_true]

theorem selectedAttr_name (t : Widget) (selected : Bool) (a : Str × Str)
    (h : t.selectedAttr selected = some a) :
    a.1 = "checked".toList ∨ a.1 = "selected".toList := by
  unfold Widget.selectedAttr at h
  cases selected with
  | false => simp at h
  | true =>
    cases t <;> simp at h <;> (rw [← h]; decide)

theorem widgetGroupsFrom_mem (optionWidget : Widget) (baseID htmlName : Str)
    (selected : List Str) (groups : List choiceFieldOptionGroup) :
    ∀ (s : Nat), ∀ gw ∈ widgetGroupsFrom optionWidget baseID htmlName selected s groups,
      ∃ (g : choiceFieldOptionGroup) (n : Nat),
        gw = g.widget optionWidget baseID htmlName n selected := by
  induction groups with
  | nil => intro s gw hgw; cases hgw
  | cons g rest ih =>
    intro s gw hgw
    unfold widgetGroupsFrom at hgw
    rcases List.mem_cons.mp hgw with h1 | h1
    · exact ⟨g, s, h1⟩
    · exact ih _ gw h1

/-- C34: for a field with the empty auto-id pattern. The attribute map of the
widget has no `id` unless a custom attribute `id` is set, and no
`aria-describedby` unless a custom attribute `aria-describedby` is set; the same
holds for the map that `widgetInput` gives to the template. The label is given
to the template without tag and without `for` attribute, no option has an `id`,
the items of the error list have no attribute, and the help text has no `id`. -/
theorem C34_no_id_without_auto_id (sprintf : Str → Str → Str) (L : Lib) (fld : Field)
    (h : fld.autoID = []) :
    hasID fld = false
    ∧ (∀ classes : List Str, mapGet fld.attrs "id".toList = none →
        mapGet (attributesForField sprintf L fld classes) "id".toList = none)
    ∧ (∀ classes : List Str, mapGet fld.attrs "aria-describedby".toList = none →
        mapGet (attributesForField sprintf L fld classes) "aria-describedby".toList = none)
    ∧ (∀ w : widgetInput, fld.widgetInput sprintf L = .ok w →
        (mapGet fld.attrs "id".toList = none → mapGet w.Attrs "id".toList = none)
        ∧ (mapGet fld.attrs "aria-describedby".toList = none →
            mapGet w.Attrs "aria-describedby".toList = none))
    ∧ ((fld.labelOrLegend sprintf L).UseTag = false
        ∧ mapGet (fld.labelOrLegend sprintf L).Attrs "for".toList = none
        ∧ mapGet (fld.labelOrLegend sprintf L).Attrs "id".toList = none)
    ∧ (∀ (selected : List Str), ∀ gw ∈ fld.widgetGroups sprintf L selected,
        ∀ w ∈ gw.options, mapGet w.Attrs "id".toList = none)
    ∧ (∀ a ∈ fld.errorItemAttrs sprintf L, a = [])
    ∧ (∀ a : GoMap Str, fld.helpTextAttrs sprintf L = some a →
        mapGet a "id".toList = none) := by
  have hid := hasID_false fld h
  have hc := computedAttributes_noID sprintf L fld h
  have hA1 : ∀ classes : List Str, mapGet fld.attrs "id".toList = none →
      mapGet (attributesForField sprintf L fld classes) "id".toList = none := by
    intro classes hcu
    rw [attributesForField_get _ _ _ _ _ (by decide), mapGet_mapsCopy_absent _ _ _ hcu]
    exact hc.1
  have hA2 : ∀ classes : List Str, mapGet fld.attrs "aria-describedby".toList = none →
      mapGet (attributesForField sprintf L fld classes) "aria-describedby".toList = none := by
    intro classes hcu
    rw [attributesForField_get _ _ _ _ _ (by decide), mapGet_mapsCopy_absent _ _ _ hcu]
    exact hc.2
  refine ⟨hid, hA1, hA2, ?_, ?_, ?_, ?_, ?_⟩
  · intro w hw
    unfold Field.widgetInput at hw
    split at hw
    · cases hw
    · injection hw with hw
      subst hw
      dsimp only
      have hsel : ∀ (m : GoMap Str) (k : Str), k ≠ "checked".toList → k ≠ "selected".toList →
          mapGet (match fld.widget.selectedAttr (valueToBool
              (if fld.boundValues.length > 0 then fld.boundValues.headD [] else [])) with
            | some selectedAttr => mapSet m selectedAttr.1 selectedAttr.2
            | none => m) k = mapGet m k := by
        intro m k hk1 hk2
        cases hs : fld.widget.selectedAttr (valueToBool
            (if fld.boundValues.length > 0 then fld.boundValues.headD [] else [])) with
        | none => rfl
        | some a =>
          dsimp only
          rw [mapGet_mapSet]
          have ha := selectedAttr_name _ _ a hs
          rw [if_neg]
          rcases ha with ha | ha
          · rw [ha]; exact fun hh => hk1 hh.symm
          · rw [ha]; exact fun hh => hk2 hh.symm
      constructor
      · intro hcu
        rw [hsel _ _ (by decide) (by decide)]
        exact hA1 _ hcu
      · intro hcu
        rw [hsel _ _ (by decide) (by decide)]
        exact hA2 _ hcu
  · unfold Field.labelOrLegend newLabel
    dsimp only
    rw [hid]
    refine ⟨rfl, ?_, ?_⟩
    · split
      · rw [mapGet_mapSet, if_neg (by decide)]; rfl
      · rfl
    · split
      · rw [mapGet_mapSet, if_neg (by decide)]; rfl
      · rfl
  · intro selected gw hgw w hw
    unfold Field.widgetGroups fieldGroupsToWidgetGroups at hgw
    rw [normalizedIDForField_disabled sprintf L fld h] at hgw
    obtain ⟨g, n, rfl⟩ := widgetGroupsFrom_mem _ _ _ _ _ _ gw hgw
    unfold choiceFieldOptionGroup.widget at hw
    dsimp only at hw
    obtain ⟨p, -, rfl⟩ := List.mem_map.mp hw
    rw [option_widget_id]
    rfl
  · intro a ha
    unfold Field.errorItemAttrs at ha
    obtain ⟨i, -, rfl⟩ := List.mem_map.mp ha
    rw [hid]
    rfl
  · intro a ha
    unfold Field.helpTextAttrs at ha
    split at ha
    · cases ha
    · injection ha with ha
      rw [hid] at ha
      rw [← ha]
      rfl

/-- On the checkbox field with the auto id disabled, a help text and an error. -/
theorem C34_witness_no_id_field :
    noIDField.autoID = []
    ∧ hasID noIDField = false
    ∧ attributesForField sprintfOneVerb sampleLib noIDField noIDField.widgetCSSClassList
        = [("aria-invalid".toList, "true".toList), ("required".toList, []),
           ("multiple".toList, [])]
    ∧ (noIDField.labelOrLegend sprintfOneVerb sampleLib).UseTag = false
    ∧ (noIDField.labelOrLegend sprintfOneVerb sampleLib).Attrs = []
    ∧ optionIDs (noIDField.widgetGroups sprintfOneVerb sampleLib noIDField.choiceValues)
        = [none, none, none, none, none, none]
    ∧ noIDField.errorItemAttrs sprintfOneVerb sampleLib = [[]]
    ∧ noIDField.helpTextAttrs sprintfOneVerb sampleLib
        = some [("class".toList, "helptext".toList)] := by
  have h := C34_no_id_without_auto_id sprintfOneVerb sampleLib noIDField rfl
  exact ⟨rfl, h.1, by rfl, by rfl, by rfl, by rfl, by rfl, by rfl⟩

/-- The field without auto id and without custom `id`, but with the custom
attribute `aria-describedby="hint"`, has `aria-describedby` among the attributes
of its widget. -/
theorem C34_custom_aria_describedby_is_kept :
    describedField.autoID = []
    ∧ mapGet describedField.attrs "id".toList = none
    ∧ mapGet (attributesForField sprintfOneVerb sampleLib describedField
        describedField.widgetCSSClassList) "aria-describedby".toList = some "hint".toList
    ∧ mapGet (attributesForField sprintfOneVerb sampleLib describedField
        describedField.widgetCSSClassList) "id".toList = none := by
  refine ⟨rfl, rfl, by rfl, by rfl⟩

/-! ## What `Clean` returns and stores -/

theorem cleanSingle_facts (L : Lib) (fld : Field) (emptyValue value : Str)
    (r : CleanResult Field Str) (hr : fld.cleanSingle L emptyValue value = .ok r) :
    ((r.errs = none ∧ r.value = emptyValue ∧ r.fld.errors = fld.errors)
      ∨ (r.value = fld.sanitize L value ∧ r.fld.errors = r.errs)) := by
  by_cases h : fld.notRequired = true ∧ fld.sanitize L value = []
  · rw [cleanSingle_short L fld emptyValue value h.1 h.2] at hr
    injection hr with hr
    subst hr
    exact Or.inl ⟨rfl, rfl, rfl⟩
  · rw [cleanSingle_long L fld emptyValue value h] at hr
    cases hv : fld.validateFunc { fld.toFieldData with boundValues := [value] }
        (fld.sanitize L value) (!fld.notRequired) with
    | error a => simp [hv] at hr
    | ok errs =>
      simp only [hv] at hr
      injection hr with hr
      subst hr
      exact Or.inr ⟨rfl, rfl⟩

theorem multipleChoiceClean_facts (L : Lib) (fld : MultipleChoiceField) (values : List Str)
    (r : CleanResult MultipleChoiceField (List Str)) (hr : fld.Clean L values = .ok r) :
    ((r.errs = none ∧ r.value = fld.EmptyValue ∧ r.fld.errors = fld.errors)
      ∨ (r.value = values.map (fun v => fld.toField.sanitize L v) ∧ r.fld.errors = r.errs)) := by
  cases h1 : multipleChoiceCleanShouldReturnEmptyValue
      (values.map (fun v => fld.toField.sanitize L v)) (!fld.notRequired) with
  | true =>
    rw [multipleChoiceClean_empty L fld values h1] at hr
    injection hr with hr
    subst hr
    exact Or.inl ⟨rfl, rfl, rfl⟩
  | false =>
    cases h2 : multipleChoiceIsRequiredValidation
        (values.map (fun v => fld.toField.sanitize L v)) (!fld.notRequired) with
    | false =>
      rw [multipleChoiceClean_required L fld values h1 h2] at hr
      injection hr with hr
      subst hr
      exact Or.inr ⟨rfl, rfl⟩
    | true =>
      rw [multipleChoiceClean_validate L fld values h1 h2] at hr
      cases hv : multipleChoiceValidateAll { fld.toField with boundValues := values }
          (values.map (fun v => fld.toField.sanitize L v)) none with
      | error a => simp [hv] at hr
      | ok allErrors =>
        simp only [hv] at hr
        injection hr with hr
        subst hr
        exact Or.inr ⟨rfl, rfl⟩

theorem disguisedResult_facts {F : Type} (wrap : F → fieldInterface) (r : CleanResult F Str)
    (fld1 : fieldInterface) (vs : List Str) (errs : ErrorList)
    (h : disguisedResult wrap r = (fld1, vs, errs)) :
    fld1 = wrap r.fld ∧ errs = r.errs ∧ (errs = none → vs = [r.value]) := by
  unfold disguisedResult at h
  cases he : r.errs with
  | none =>
    simp only [he] at h
    injection h with h1 h2
    injection h2 with h2 h3
    exact ⟨h1.symm, h3.symm, fun _ => h2.symm⟩
  | some e =>
    simp only [he] at h
    injection h with h1 h2
    injection h2 with h2 h3
    refine ⟨h1.symm, h3.symm, fun hn => ?_⟩
    rw [← h3] at hn
    cases hn

/-- What the `Clean` call of the validation pass returns and stores: either it
returns the nil error list with the empty value and leaves the error list of the
field as it was, or it returns the error list that it stores on the field, and
when that list is nil the values returned are the sanitized values. -/
theorem cleanForValidation_facts (L : Lib) (fld fld1 : fieldInterface) (values vs : List Str)
    (errs : ErrorList) (h : cleanForValidation L fld values = .ok (fld1, vs, errs)) :
    ((errs = none ∧ vs = fld.emptyValues ∧ fld1.field.errors = fld.field.errors)
      ∨ ((errs = none → vs = fld.sanitizedValues L values) ∧ fld1.field.errors = errs)) := by
  cases fld with
  | multipleChoice x =>
    unfold cleanForValidation at h
    split at h
    · simp only at h
      cases hc : x.Clean L values with
      | error a => simp [hc] at h
      | ok r =>
        simp only [hc] at h
        injection h with h
        injection h with h1 h2
        injection h2 with h2 h3
        subst h1 h2 h3
        rcases multipleChoiceClean_facts L x values r hc with ⟨a, b, c⟩ | ⟨a, b⟩
        · exact Or.inl ⟨a, b, c⟩
        · exact Or.inr ⟨fun _ => a, b⟩
    · cases h
    · cases h
  | boolean x =>
    unfold cleanForValidation at h
    split at h
    · cases h
    · cases h
    · simp only [BooleanField.Clean] at h
      cases hc : x.toField.cleanSingle L x.EmptyValue (firstValue values) with
      | error a => simp [hc] at h
      | ok r =>
        simp only [hc] at h
        injection h with h
        obtain ⟨h1, h2, h3⟩ := disguisedResult_facts _ _ _ _ _ h
        subst h1 h2
        rcases cleanSingle_facts L _ _ _ r hc with ⟨a, b, c⟩ | ⟨a, b⟩
        · exact Or.inl ⟨a, by rw [h3 a, b]; rfl, c⟩
        · exact Or.inr ⟨fun hn => by rw [h3 hn, a]; rfl, b⟩
  | char x =>
    unfold cleanForValidation at h
    split at h
    · cases h
    · cases h
    · simp only [CharField.Clean] at h
      cases hc : x.toField.cleanSingle L x.EmptyValue (firstValue values) with
      | error a => simp [hc] at h
      | ok r =>
        simp only [hc] at h
        injection h with h
        obtain ⟨h1, h2, h3⟩ := disguisedResult_facts _ _ _ _ _ h
        subst h1 h2
        rcases cleanSingle_facts L _ _ _ r hc with ⟨a, b, c⟩ | ⟨a, b⟩
        · exact Or.inl ⟨a, by rw [h3 a, b]; rfl, c⟩
        · exact Or.inr ⟨fun hn => by rw [h3 hn, a]; rfl, b⟩
  | email x =>
    unfold cleanForValidation at h
    split at h
    · cases h
    · cases h
    · simp only [EmailField.Clean] at h
      cases hc : x.toField.cleanSingle L x.EmptyValue (firstValue values) with
      | error a => simp [hc] at h
      | ok r =>
        simp only [hc] at h
        injection h with h
        obtain ⟨h1, h2, h3⟩ := disguisedResult_facts _ _ _ _ _ h
        subst h1 h2
        rcases cleanSingle_facts L _ _ _ r hc with ⟨a, b, c⟩ | ⟨a, b⟩
        · exact Or.inl ⟨a, by rw [h3 a, b]; rfl, c⟩
        · exact Or.inr ⟨fun hn => by rw [h3 hn, a]; rfl, b⟩
  | choice x =>
    unfold cleanForValidation at h
    split at h
    · cases h
    · cases h
    · simp only [ChoiceField.Clean] at h
      cases hc : x.toField.cleanSingle L x.EmptyValue (firstValue values) with
      | error a => simp [hc] at h
      | ok r =>
        simp only [hc] at h
        injection h with h
        obtain ⟨h1, h2, h3⟩ := disguisedResult_facts _ _ _ _ _ h
        subst h1 h2
        rcases cleanSingle_facts L _ _ _ r hc with ⟨a, b, c⟩ | ⟨a, b⟩
        · exact Or.inl ⟨a, by rw [h3 a, b]; rfl, c⟩
        · exact Or.inr ⟨fun hn => by rw [h3 hn, a]; rfl, b⟩

/-- Every entry of the cleaned data after the field loop was there before the
loop or is the list of values that the `Clean` call on a field of that name
returned together with the nil error list. -/
theorem validationLoop_cleanedData (L : Lib) (bd : GoMap (List Str))
    (fields : List fieldInterface) (st st1 : PassState)
    (h : validationLoop L bd fields st = .ok st1) (k : Str) (vs : List Str)
    (hk : mapGet st1.cleanedData k = some vs) :
    mapGet st.cleanedData k = some vs
      ∨ ∃ fld ∈ fields, normalizedNameForField L fld.field = k
          ∧ ∃ fld1, cleanBound L bd fld = .ok (fld1, vs, none) := by
  induction fields generalizing st with
  | nil =>
    simp only [validationLoop] at h
    injection h with h
    subst h
    exact Or.inl hk
  | cons fld0 rest ih =>
    unfold validationLoop at h
    have hcb : cleanForValidation L fld0
        (boundValuesFor bd (normalizedNameForField L fld0.field)) = cleanBound L bd fld0 := rfl
    rw [hcb] at h
    cases hc : cleanBound L bd fld0 with
    | error a =>
      rw [hc] at h
      cases h
    | ok res =>
      obtain ⟨fld1, cleanValues, errs⟩ := res
      rw [hc] at h
      cases errs with
      | some e =>
        dsimp only at h
        rcases ih _ h with h1 | ⟨fld, hf, hn, hx⟩
        · exact Or.inl h1
        · exact Or.inr ⟨fld, List.mem_cons_of_mem _ hf, hn, hx⟩
      | none =>
        dsimp only at h
        rcases ih _ h with h1 | ⟨fld, hf, hn, hx⟩
        · dsimp only at h1
          rw [mapGet_mapSet] at h1
          by_cases hkk : normalizedNameForField L fld0.field = k
          · rw [if_pos hkk] at h1
            injection h1 with h1
            subst h1
            exact Or.inr ⟨fld0, List.mem_cons_self _ _, hkk, fld1, hc⟩
          · rw [if_neg hkk] at h1
            exact Or.inl h1
        · exact Or.inr ⟨fld, List.mem_cons_of_mem _ hf, hn, hx⟩

/-- C37: every `Clean` method returns the empty value of the field or the output
of the current sanitize function of the field on the raw input (for a
`MultipleChoiceField`: the empty slice, or the slice of the outputs on the raw
values, in order), so the raw text is returned only where it is the empty value
or a text that the sanitize function leaves as it is; and every entry that a
validation pass leaves in the cleaned data of the form is, for a field of the
form of that name, the empty values of that field or its sanitized values for
the raw values bound to the name. -/
theorem C37_clean_returns_empty_value_or_sanitizer_output (L : Lib) :
    (∀ (x : BooleanField) (raw : Str) (r : CleanResult BooleanField Str),
        x.Clean L raw = .ok r →
        (r.value = x.EmptyValue ∨ r.value = x.toField.currentSanitizeFunc L raw)
        ∧ (r.value = raw → raw = x.EmptyValue ∨ x.toField.currentSanitizeFunc L raw = raw))
    ∧ (∀ (x : CharField) (raw : Str) (r : CleanResult CharField Str),
        x.Clean L raw = .ok r →
        (r.value = x.EmptyValue ∨ r.value = x.toField.currentSanitizeFunc L raw)
        ∧ (r.value = raw → raw = x.EmptyValue ∨ x.toField.currentSanitizeFunc L raw = raw))
    ∧ (∀ (x : EmailField) (raw : Str) (r : CleanResult EmailField Str),
        x.Clean L raw = .ok r →
        (r.value = x.EmptyValue ∨ r.value = x.toField.currentSanitizeFunc L raw)
        ∧ (r.value = raw → raw = x.EmptyValue ∨ x.toField.currentSanitizeFunc L raw = raw))
    ∧ (∀ (x : ChoiceField) (raw : Str) (r : CleanResult ChoiceField Str),
        x.Clean L raw = .ok r →
        (r.value = x.EmptyValue ∨ r.value = x.toField.currentSanitizeFunc L raw)
        ∧ (r.value = raw → raw = x.EmptyValue ∨ x.toField.currentSanitizeFunc L raw = raw))
    ∧ (∀ (x : MultipleChoiceField) (raws : List Str)
        (r : CleanResult MultipleChoiceField (List Str)),
        x.Clean L raws = .ok r →
        (r.value = x.EmptyValue
          ∨ r.value = raws.map (fun raw => x.toField.currentSanitizeFunc L raw))
        ∧ (∀ (i : Nat) (v : Str), r.value[i]? = some v →
            ∃ raw, raws[i]? = some raw ∧ v = x.toField.currentSanitizeFunc L raw))
    ∧ (∀ (f g : Form) (n : Nat), f.validated = false →
        Form.doValidationIfNeeded L n f = .ok g →
        ∀ (k : Str) (vs : List Str), mapGet g.cleanedData k = some vs →
          ∃ fld ∈ f.fields, normalizedNameForField L fld.field = k
            ∧ (vs = fld.emptyValues
                ∨ vs = fld.sanitizedValues L (boundValuesFor f.boundData k))) := by
  have single : ∀ (fld : Field) (emptyValue raw : Str) (r : CleanResult Field Str),
      fld.cleanSingle L emptyValue raw = .ok r →
      (r.value = emptyValue ∨ r.value = fld.currentSanitizeFunc L raw)
      ∧ (r.value = raw → raw = emptyValue ∨ fld.currentSanitizeFunc L raw = raw) := by
    intro fld emptyValue raw r hr
    have hd : r.value = emptyValue ∨ r.value = fld.currentSanitizeFunc L raw := by
      rcases cleanSingle_facts L fld emptyValue raw r hr with ⟨_, b, _⟩ | ⟨a, _⟩
      · exact Or.inl b
      · exact Or.inr a
    refine ⟨hd, fun he => ?_⟩
    rcases hd with h1 | h1
    · exact Or.inl (he.symm.trans h1)
    · exact Or.inr (h1.symm.trans he)
  refine ⟨?_, ?_, ?_, ?_, ?_, ?_⟩
  · intro x raw r hr
    simp only [BooleanField.Clean] at hr
    cases hc : x.toField.cleanSingle L x.EmptyValue raw with
    | error a => simp [hc] at hr
    | ok r0 =>
      simp only [hc] at hr
      injection hr with hr
      subst hr
      exact single _ _ _ r0 hc
  · intro x raw r hr
    simp only [CharField.Clean] at hr
    cases hc : x.toField.cleanSingle L x.EmptyValue raw with
    | error a => simp [hc] at hr
    | ok r0 =>
      simp only [hc] at hr
      injection hr with hr
      subst hr
      exact single _ _ _ r0 hc
  · intro x raw r hr
    simp only [EmailField.Clean] at hr
    cases hc : x.toField.cleanSingle L x.EmptyValue raw with
    | error a => simp [hc] at hr
    | ok r0 =>
      simp only [hc] at hr
      injection hr with hr
      subst hr
      exact single _ _ _ r0 hc
  · intro x raw r hr
    simp only [ChoiceField.Clean] at hr
    cases hc : x.toField.cleanSingle L x.EmptyValue raw with
    | error a => simp [hc] at hr
    | ok r0 =>
      simp only [hc] at hr
      injection hr with hr
      subst hr
      exact single _ _ _ r0 hc
  · intro x raws r hr
    have hd : r.value = x.EmptyValue
        ∨ r.value = raws.map (fun raw => x.toField.currentSanitizeFunc L raw) := by
      rcases multipleChoiceClean_facts L x raws r hr with ⟨_, b, _⟩ | ⟨a, _⟩
      · exact Or.inl b
      · exact Or.inr a
    refine ⟨hd, fun i v hv => ?_⟩
    rcases hd with h1 | h1
    · rw [h1] at hv
      simp [MultipleChoiceField.EmptyValue] at hv
    · rw [h1, List.getElem?_map] at hv
      cases hraw : raws[i]? with
      | none => simp [hraw] at hv
      | some raw =>
        rw [hraw] at hv
        simp only [Option.map_some'] at hv
        injection hv with hv
        exact ⟨raw, rfl, hv.symm⟩
  · intro f g n hv hg k vs hk
    cases n with
    | zero => simp [Form.doValidationIfNeeded, hv] at hg
    | succ n =>
      cases hres : mapExcept (cleanBound L f.boundData) f.fields with
      | error a =>
        rw [doValidationIfNeeded_unfold L n f hv, validationLoop_of_error L _ _ _ a hres] at hg
        cases hg
      | ok results =>
        obtain ⟨g1, hg1, _, hP⟩ := doValidationIfNeeded_first L f n hv results hres
          (fun x : Form => ∀ (k : Str) (vs : List Str), mapGet x.cleanedData k = some vs →
            ∃ fld ∈ f.fields, normalizedNameForField L fld.field = k
              ∧ (vs = fld.emptyValues
                  ∨ vs = fld.sanitizedValues L (boundValuesFor f.boundData k)))
          (fun x field err _ hP k vs hk => by
            apply hP k vs
            unfold Form.AddError at hk
            split at hk
            · exact hk
            · split at hk
              · exact hk
              · dsimp only at hk
                rw [mapGet_mapDelete] at hk
                split at hk
                · cases hk
                · exact hk)
          (fun x data langs _ hP k vs hk => by
            rw [(BindData_maps L x data langs).1] at hk
            exact hP k vs hk)
          (fun x c _ hP => hP)
          (fun st hst k vs hk => by
            dsimp only at hk
            rcases validationLoop_cleanedData L _ _ _ _ hst k vs hk with
              h1 | ⟨fld, hf, hn, fld1, hc⟩
            · simp [mapGet] at h1
            · refine ⟨fld, hf, hn, ?_⟩
              unfold cleanBound at hc
              rw [hn] at hc
              rcases cleanForValidation_facts L fld fld1 _ vs none hc with ⟨_, b, _⟩ | ⟨a, _⟩
              · exact Or.inl b
              · exact Or.inr (a rfl))
        rw [hg1] at hg
        injection hg with hg
        subst hg
        exact hP k vs hk

/-- C37 (witness): in the form `paddedForm`, the validation pass returns; the
choice field bound to a padded option is filed with the trimmed text, the output
of its sanitize function, and the char field bound to blanks is filed with its
empty value. -/
theorem C37_witness_padded_form :
    Form.doValidationIfNeeded sampleLib 1 paddedForm = .ok paddedValidated
    ∧ mapGet paddedValidated.cleanedData "pet".toList = some ["one monkey".toList]
    ∧ mapGet paddedValidated.cleanedData "name".toList = some [[]]
    ∧ ∃ fld ∈ paddedForm.fields, normalizedNameForField sampleLib fld.field = "pet".toList
        ∧ (["one monkey".toList] = fld.emptyValues
            ∨ ["one monkey".toList]
                = fld.sanitizedValues sampleLib
                    (boundValuesFor paddedForm.boundData "pet".toList)) :=
  ⟨rfl, rfl, rfl,
    (C37_clean_returns_empty_value_or_sanitizer_output sampleLib).2.2.2.2.2
      paddedForm paddedValidated 1 rfl rfl "pet".toList ["one monkey".toList] rfl⟩

/-! ## The error list of a field and the errors of the form -/

theorem AddError_errorsAgree (L : Lib) (f : Form) (field : Str) (err : Option GoError)
    (hnd : (f.declaredNames L).Nodup) (h : errorsAgree L f) :
    errorsAgree L (f.AddError L field err).1 := by
  cases hv : f.validated with
  | false =>
    have hA : f.AddError L field err
        = (f, some (.foreign "you can't add an error to a form not already validated".toList
            none)) := by
      unfold Form.AddError
      simp [hv]
    rw [hA]
    exact h
  | true =>
    cases hf : f.internalFieldByName L field with
    | none =>
      have hA : (f.AddError L field err).1 = f := by
        unfold Form.AddError
        simp [hv, hf]
      rw [hA]
      exact h
    | some fld =>
      have hA : f.AddError L field err =
          ({ f with
              fields := updateFirst (fieldMatches L field)
                (fun x => x.update (fun y => y.addError (errorWrapIfNotAsError err))) f.fields,
              errors := mapSet f.errors (normalizedNameForField L fld.field)
                (((mapGet f.errors (normalizedNameForField L fld.field)).getD none).append
                  [errorWrapIfNotAsError err]),
              cleanedData := mapDelete f.cleanedData (normalizedNameForField L fld.field) },
            none) := by
        unfold Form.AddError
        simp [hv, hf]
      rw [hA]
      obtain ⟨pre, post, hsplit, -, hupd⟩ := updateFirst_split (fieldMatches L field)
        (fun x => x.update (fun y => y.addError (errorWrapIfNotAsError err))) f.fields fld hf
      have hnames : (pre.map (fun x => normalizedNameForField L x.field)
          ++ normalizedNameForField L fld.field
            :: post.map (fun x => normalizedNameForField L x.field)).Nodup := by
        have := hnd
        simp only [Form.declaredNames, hsplit, List.map_append, List.map_cons] at this
        exact this
      rw [List.nodup_append] at hnames
      obtain ⟨-, hn2, hn3⟩ := hnames
      rw [List.nodup_cons] at hn2
      have hother : ∀ x ∈ f.fields, normalizedNameForField L x.field
          ≠ normalizedNameForField L fld.field →
          x.field.errors.elems
            = ((mapGet (mapSet f.errors (normalizedNameForField L fld.field)
                (((mapGet f.errors (normalizedNameForField L fld.field)).getD none).append
                  [errorWrapIfNotAsError err]))
                (normalizedNameForField L x.field)).getD none).elems := by
        intro x hx hne
        rw [mapGet_mapSet, if_neg (fun e => hne e.symm)]
        exact h x hx
      intro x hx
      dsimp only at hx ⊢
      rw [hupd] at hx
      rcases List.mem_append.mp hx with hx | hx
      · apply hother x (by rw [hsplit]; exact List.mem_append_left _ hx)
        intro e
        exact hn3 (List.mem_map_of_mem _ hx) (by rw [e]; exact List.mem_cons_self _ _)
      · rcases List.mem_cons.mp hx with hx | hx
        · subst hx
          rw [fieldInterface.field_update]
          have hname : normalizedNameForField L (fld.field.addError (errorWrapIfNotAsError err))
              = normalizedNameForField L fld.field := rfl
          rw [hname, mapGet_mapSet, if_pos rfl]
          simp only [Field.addError, Option.getD_some, ErrorList.elems_append]
          rw [h fld (by rw [hsplit]; simp)]
        · apply hother x (by rw [hsplit]; simp [hx])
          intro e
          exact hn2.1 (by rw [← e]; exact List.mem_map_of_mem _ hx)

theorem BindData_errorsAgree (L : Lib) (f : Form) (data : GoMap (List Str)) (langs : List Str)
    (h : errorsAgree L f) : errorsAgree L (f.BindData L data langs) := by
  unfold Form.BindData
  split
  · exact h
  · intro x hx
    dsimp only at hx ⊢
    unfold propagateLocalesIfNotEmpty at hx
    obtain ⟨y, hy, hxy⟩ := List.mem_map.mp hx
    subst hxy
    rw [fieldInterface.field_update]
    exact h y hy

/-- After the field loop of a form whose fields have pairwise distinct normalized
names and carry no error, the error list of every field is the list filed under
its name. -/
theorem validationLoop_errorsAgree (L : Lib) (bd : GoMap (List Str))
    (fields : List fieldInterface) (st1 : PassState)
    (results : List (fieldInterface × List Str × ErrorList))
    (hres : mapExcept (cleanBound L bd) fields = .ok results)
    (h : validationLoop L bd fields
      { cleaned := [], cleanedData := [], errors := [], log := [] } = .ok st1)
    (hnd : (fields.map (fun fld => normalizedNameForField L fld.field)).Nodup)
    (h0 : ∀ fld ∈ fields, fld.field.errors.elems = []) :
    ∀ x ∈ st1.cleaned, x.field.errors.elems
      = ((mapGet st1.errors (normalizedNameForField L x.field)).getD none).elems := by
  obtain ⟨st2, hst2, hcl, -⟩ := validationLoop_of_ok L bd fields
    { cleaned := [], cleanedData := [], errors := [], log := [] } results hres
  rw [h] at hst2
  injection hst2 with hst2
  subst hst2
  obtain ⟨-, hfiles⟩ := validationLoop_files L bd fields _ st1 h hnd
  intro x hx
  rw [hcl] at hx
  simp only [List.nil_append] at hx
  obtain ⟨r, hr, hrx⟩ := List.mem_map.mp hx
  obtain ⟨fld, hfld, hc⟩ := mapExcept_mem _ _ _ hres r hr
  obtain ⟨fld1, vals, errs⟩ := r
  dsimp only at hrx
  subst hrx
  have hname : normalizedNameForField L fld1.field = normalizedNameForField L fld.field := by
    unfold normalizedNameForField Field.Name
    rw [cleanForValidation_name L fld _ _ hc]
  obtain ⟨hnone, hsome⟩ := hfiles fld hfld fld1 vals errs hc
  have hempty : mapGet ([] : GoMap ErrorList) (normalizedNameForField L fld.field) = none := rfl
  rw [hname]
  rcases cleanForValidation_facts L fld fld1 _ vals errs hc with ⟨a, -, c⟩ | ⟨-, b⟩
  · rw [c, h0 fld hfld, (hnone a).2, hempty]
    rfl
  · rw [b]
    cases errs with
    | none =>
      rw [(hnone rfl).2, hempty]
      rfl
    | some e =>
      rw [(hsome e rfl).1]
      rfl

theorem addErrors_errorsAgree (L : Lib) (adds : List (Str × Option GoError)) (g : Form)
    (hnd : (g.declaredNames L).Nodup) (h : errorsAgree L g) :
    errorsAgree L (addErrors L g adds) := by
  induction adds generalizing g with
  | nil => exact h
  | cons call rest ih =>
    unfold addErrors
    exact ih _ (by rw [AddError_declaredNames]; exact hnd)
      (AddError_errorsAgree L g call.1 call.2 hnd h)

/-- C38: take a form that is not validated yet, whose fields have pairwise distinct
normalized names and carry no error of their own, and whose `Clean` calls
return. The validation pass returns, whatever the clean function of the form
does, and after the pass and after any sequence of `AddError` calls the error
list of every field has the elements of the error list that the form stores
under the normalized name of the field; it is empty when the name is not a key
of the errors of the form. -/
theorem C38_field_errors_are_the_errors_filed_under_its_name (L : Lib) (f : Form) (n : Nat)
    (results : List (fieldInterface × List Str × ErrorList))
    (hv : f.validated = false)
    (hres : mapExcept (cleanBound L f.boundData) f.fields = .ok results)
    (hnd : (f.declaredNames L).Nodup)
    (h0 : ∀ fld ∈ f.fields, fld.field.errors.elems = []) :
    ∃ g, Form.doValidationIfNeeded L (n + 1) f = .ok g
      ∧ ∀ (adds : List (Str × Option GoError)), ∀ fld ∈ (addErrors L g adds).fields,
          fld.field.errors.elems
            = ((mapGet (addErrors L g adds).errors
                (normalizedNameForField L fld.field)).getD none).elems
          ∧ (mapHas (addErrors L g adds).errors (normalizedNameForField L fld.field) = false →
              fld.field.errors.elems = []) := by
  obtain ⟨g, hg, -, hP⟩ := doValidationIfNeeded_first L f n hv results hres
    (fun x : Form => errorsAgree L x ∧ (x.declaredNames L).Nodup)
    (fun x field err _ hP =>
      ⟨AddError_errorsAgree L x field err hP.2 hP.1, by rw [AddError_declaredNames]; exact hP.2⟩)
    (fun x data langs _ hP =>
      ⟨BindData_errorsAgree L x data langs hP.1, by rw [BindData_declaredNames]; exact hP.2⟩)
    (fun x c _ hP => hP)
    (fun st hst => by
      obtain ⟨st2, hst2, -, hnames, -⟩ := validationLoop_of_ok L f.boundData f.fields
        { cleaned := [], cleanedData := [], errors := [], log := [] } results hres
      rw [hst] at hst2
      injection hst2 with hst2
      subst hst2
      refine ⟨validationLoop_errorsAgree L _ _ st results hres hst hnd h0, ?_⟩
      simp only [Form.declaredNames]
      rw [hnames]
      exact hnd)
  refine ⟨g, hg, fun adds fld hfld => ?_⟩
  have hagree := addErrors_errorsAgree L adds g hP.2 hP.1 fld hfld
  refine ⟨hagree, fun hk => ?_⟩
  rw [hagree]
  have hnone : mapGet (addErrors L g adds).errors (normalizedNameForField L fld.field)
      = none := by
    unfold mapHas at hk
    cases hm : mapGet (addErrors L g adds).errors (normalizedNameForField L fld.field) with
    | none => rfl
    | some v => simp [hm] at hk
  rw [hnone]
  rfl

/-- C38 (witness): the form `twoFieldForm`, whose required field `Name` has no
value and whose field `Nick` is bound to `bob`. After the validation pass and
the calls of `sampleAddErrorCalls`, the field `Name` holds the required error
and the added error, the field `Nick` the two added errors, and the form files
the same lists under `name` and `nick`. -/
theorem C38_witness_two_fields :
    twoFieldForm.validated = false
    ∧ (twoFieldForm.declaredNames sampleLib).Nodup
    ∧ (∀ fld ∈ twoFieldForm.fields, fld.field.errors.elems = [])
    ∧ (addErrors sampleLib twoFieldValidated sampleAddErrorCalls).fields.map
          (fun fld => fld.field.errors.elems.length) = [2, 2]
    ∧ ∃ g, Form.doValidationIfNeeded sampleLib 1 twoFieldForm = .ok g
      ∧ ∀ (adds : List (Str × Option GoError)), ∀ fld ∈ (addErrors sampleLib g adds).fields,
          fld.field.errors.elems
            = ((mapGet (addErrors sampleLib g adds).errors
                (normalizedNameForField sampleLib fld.field)).getD none).elems
          ∧ (mapHas (addErrors sampleLib g adds).errors
                (normalizedNameForField sampleLib fld.field) = false →
              fld.field.errors.elems = []) :=
  ⟨rfl, by decide, by decide, rfl,
    C38_field_errors_are_the_errors_filed_under_its_name sampleLib twoFieldForm 0
      twoFieldResults rfl rfl (by decide) (by decide)⟩

/-! ## One run of the clean function -/

theorem runHook_validated (L : Lib) (validate : Form → Except Abort Form)
    (hval : ∀ g, g.validated = true → validate g = .ok g)
    (prog : HookProg) (f : Form) (hv : f.validated = true) :
    runHook L validate prog f = .ok (cleanFuncRunOnce L prog f) := by
  induction prog generalizing f with
  | done => rfl
  | AddError field err k ih =>
    simp only [runHook, cleanFuncRunOnce]
    exact ih _ _ (by rw [AddError_validated]; exact hv)
  | IsValid k ih =>
    simp only [runHook, cleanFuncRunOnce, isValidWith_validated validate hval f hv]
    exact ih _ f hv
  | CleanedData k ih =>
    simp only [runHook, cleanFuncRunOnce, cleanedDataWith_validated validate hval f hv]
    exact ih _ f hv
  | Errors k ih =>
    simp only [runHook, cleanFuncRunOnce, errorsWith_validated validate hval f hv]
    exact ih _ f hv
  | IsBound k ih =>
    simp only [runHook, cleanFuncRunOnce]
    exact ih _ f hv
  | BindData data langs k ih =>
    simp only [runHook, cleanFuncRunOnce]
    exact ih _ (by rw [BindData_validated]; exact hv)
  | SetCleanFunc clean k _ ih =>
    simp only [runHook, cleanFuncRunOnce]
    exact ih _ hv

/-- C8: on a bound form that is not validated yet and whose `Clean` calls all
return, the first accessor call, whichever of the three it is, cleans all fields
and then runs the clean function `f.cleanFunc` that the form holds at that
moment exactly once: the form it leaves is the form after the field loop on
which that function has run once, every accessor call made from inside the
function returning the stored results without validating and without running a
clean function; the log gets one clean-function event, after the `Clean`
events. On a validated form the three accessors return the stored results and
leave the form, its log included, unchanged; a clean function installed on a
validated form is not run. -/
theorem C8_clean_function_runs_exactly_once (L : Lib) (f : Form) (n : Nat)
    (hb : f.bound = true) (hv : f.validated = false) :
    (∀ results, mapExcept (cleanBound L f.boundData) f.fields = .ok results →
        ∃ (st : PassState) (f1 : Form),
          validationLoop L f.boundData f.fields
              { cleaned := [], cleanedData := [], errors := [], log := [] } = .ok st
          ∧ st.cleaned = results.map (fun r => r.1)
          ∧ f1 = cleanFuncRunOnce L f.cleanFunc
              { f with validated := true, fields := st.cleaned, cleanedData := st.cleanedData,
                       errors := st.errors, trace := f.trace ++ st.log ++ [.hook] }
          ∧ Form.doValidationIfNeeded L (n + 1) f = .ok f1
          ∧ Form.IsValid L (n + 1) f = .ok (f1, decide ((copyErrors f1.errors).length = 0))
          ∧ Form.CleanedData L (n + 1) f = .ok (f1, f1.cleanedData)
          ∧ Form.Errors L (n + 1) f = .ok (f1, copyErrors f1.errors)
          ∧ f1.validated = true
          ∧ f1.trace = f.trace ++ f.fields.map (cleanEvent L f.boundData) ++ [Event.hook]
          ∧ f1.trace.count Event.hook = f.trace.count Event.hook + 1)
    ∧ (∀ (g : Form) (prog : HookProg) (m : Nat), g.validated = true →
        runHook L (Form.doValidationIfNeeded L m) prog g = .ok (cleanFuncRunOnce L prog g))
    ∧ (∀ (g : Form) (m : Nat), g.bound = true → g.validated = true →
        Form.IsValid L m g = .ok (g, decide ((copyErrors g.errors).length = 0))
        ∧ Form.CleanedData L m g = .ok (g, g.cleanedData)
        ∧ Form.Errors L m g = .ok (g, copyErrors g.errors))
    ∧ (∀ (g : Form) (clean : HookProg) (m : Nat), g.validated = true →
        Form.doValidationIfNeeded L m (g.SetCleanFunc clean) = .ok (g.SetCleanFunc clean)
        ∧ (g.bound = true →
            Form.IsValid L m (g.SetCleanFunc clean)
                = .ok (g.SetCleanFunc clean, decide ((copyErrors g.errors).length = 0))
            ∧ Form.CleanedData L m (g.SetCleanFunc clean)
                = .ok (g.SetCleanFunc clean, g.cleanedData)
            ∧ Form.Errors L m (g.SetCleanFunc clean)
                = .ok (g.SetCleanFunc clean, copyErrors g.errors))) := by
  have hacc : ∀ (g : Form) (m : Nat), g.bound = true → g.validated = true →
      Form.IsValid L m g = .ok (g, decide ((copyErrors g.errors).length = 0))
      ∧ Form.CleanedData L m g = .ok (g, g.cleanedData)
      ∧ Form.Errors L m g = .ok (g, copyErrors g.errors) := by
    intro g m hgb hgv
    have hval := fun g hg => doValidationIfNeeded_validated L m g hg
    refine ⟨?_, ?_, ?_⟩
    · rw [Form.IsValid, isValidWith_validated _ hval g hgv]
      simp [hgb]
    · rw [Form.CleanedData, cleanedDataWith_validated _ hval g hgv]
      simp [hgb]
    · rw [Form.Errors, errorsWith_validated _ hval g hgv]
      simp [hgb]
  refine ⟨?_, ?_, hacc, ?_⟩
  · intro results hres
    obtain ⟨st, hst, hcl, -, hlog, -⟩ := validationLoop_of_ok L f.boundData f.fields
      { cleaned := [], cleanedData := [], errors := [], log := [] } results hres
    obtain ⟨f1, hf1, hval1, hT, hB⟩ := doValidationIfNeeded_first L f n hv results hres
      (fun g : Form => g.trace = f.trace ++ f.fields.map (cleanEvent L f.boundData) ++ [Event.hook]
        ∧ g.bound = true)
      (fun g field err _ hP => ⟨by rw [AddError_trace]; exact hP.1,
        by rw [AddError_bound]; exact hP.2⟩)
      (fun g data langs _ hP => by
        rw [BindData_bound_of_bound L g data langs hP.2]
        exact hP)
      (fun g c _ hP => hP)
      (fun st0 hst0 => by
        rw [hst] at hst0
        injection hst0 with hst0
        subst hst0
        exact ⟨by simp [hlog], hb⟩)
    have hrun : Form.doValidationIfNeeded L (n + 1) f
        = .ok (cleanFuncRunOnce L f.cleanFunc
            { f with validated := true, fields := st.cleaned, cleanedData := st.cleanedData,
                     errors := st.errors, trace := f.trace ++ st.log ++ [.hook] }) := by
      rw [doValidationIfNeeded_unfold L n f hv, hst]
      exact runHook_validated L _ (fun g hg => doValidationIfNeeded_validated L n g hg)
        f.cleanFunc _ rfl
    have hf1eq : f1 = cleanFuncRunOnce L f.cleanFunc
        { f with validated := true, fields := st.cleaned, cleanedData := st.cleanedData,
                 errors := st.errors, trace := f.trace ++ st.log ++ [.hook] } := by
      rw [hf1] at hrun
      injection hrun
    refine ⟨st, f1, hst, by simpa using hcl, hf1eq, hf1, ?_, ?_, ?_, hval1, hT, ?_⟩
    · have h2 := errorsWith_validated (Form.doValidationIfNeeded L (n + 1))
        (fun g hg => doValidationIfNeeded_validated L (n + 1) g hg) f1 hval1
      simp [Form.IsValid, isValidWith, Form.IsBound, hb, hf1, h2, hB]
    · simp [Form.CleanedData, cleanedDataWith, Form.IsBound, hb, hf1]
    · simp [Form.Errors, errorsWith, Form.IsBound, hb, hf1]
    · rw [hT]
      simp [List.count_append, count_hook_cleanEvents]
  · intro g prog m hgv
    exact runHook_validated L _ (fun g hg => doValidationIfNeeded_validated L m g hg) prog g hgv
  · intro g clean m hgv
    exact ⟨doValidationIfNeeded_validated L m _ hgv, fun hgb => hacc (g.SetCleanFunc clean) m hgb hgv⟩

/-- C8 (witness): the form `twoFieldForm` with the clean function `nickTakenHook`,
which calls the accessors and adds one error to `Nick`. The first `IsValid`
call leaves one clean-function event in the log and exactly one added error
under `nick`; a second call, and a call after the same function is installed
again, change nothing. -/
theorem C8_witness_hooked_form :
    hookedForm.bound = true ∧ hookedForm.validated = false
    ∧ hookedForm.cleanFunc = nickTakenHook
    ∧ Form.IsValid sampleLib 1 hookedForm = .ok (hookedValidated, false)
    ∧ hookedValidated.trace
        = [.clean "name".toList [], .clean "nick".toList ["bob".toList], .hook]
    ∧ mapGet hookedValidated.errors "nick".toList = some (some [ErrorWrap (some takenError)])
    ∧ mapHas hookedValidated.cleanedData "nick".toList = false
    ∧ mapGet twoFieldValidated.errors "nick".toList = none
    ∧ Form.IsValid sampleLib 1 hookedValidated = .ok (hookedValidated, false)
    ∧ Form.Errors sampleLib 1 (hookedValidated.SetCleanFunc nickTakenHook)
        = .ok (hookedValidated.SetCleanFunc nickTakenHook, copyErrors hookedValidated.errors)
    ∧ ∃ (st : PassState) (f1 : Form),
        f1 = cleanFuncRunOnce sampleLib nickTakenHook
            { hookedForm with validated := true, fields := st.cleaned,
                              cleanedData := st.cleanedData, errors := st.errors,
                              trace := hookedForm.trace ++ st.log ++ [.hook] }
        ∧ Form.doValidationIfNeeded sampleLib 1 hookedForm = .ok f1
        ∧ f1.trace.count Event.hook = 1 := by
  obtain ⟨st, f1, -, -, h3, h4, -, -, -, -, -, h10⟩ :=
    (C8_clean_function_runs_exactly_once sampleLib hookedForm 0 rfl rfl).1 twoFieldResults rfl
  exact ⟨rfl, rfl, rfl, rfl, rfl, rfl, rfl, rfl, rfl, rfl, st, f1, h3, h4, h10⟩

/-! ## Evaluations at failing inputs -/

/-- C11 (evaluation at the failing input): the form with the one required char
field `name` whose validation function reports no error with the empty slice,
bound to the values `ann` and `bob`. The pass calls `Clean` of the field with
`ann`, the first value, and `Clean` returns `ann` with zero errors; yet the
adapter returns the empty list of values, and `CleanedData()` has no entry for
`name`, whose key is filed under the errors with the empty list. -/
theorem C11_zero_errors_yet_no_cleaned_data :
    mapGet emptySliceForm.boundData "name".toList = some ["ann".toList, "bob".toList]
    ∧ ∃ fld r f1, emptySliceForm.fields = [fld]
      ∧ fld.isSingleValue = true
      ∧ normalizedNameForField sampleLib fld.field = "name".toList
      ∧ fld.CleanValue sampleLib "ann".toList = .ok r
      ∧ r.value = "ann".toList
      ∧ r.errs.len = 0
      ∧ cleanBound sampleLib emptySliceForm.boundData fld = .ok (r.fld, [], some [])
      ∧ Form.CleanedData sampleLib 1 emptySliceForm = .ok (f1, [])
      ∧ Form.Errors sampleLib 1 emptySliceForm = .ok (f1, [("name".toList, some [])])
      ∧ f1.fields.map (fun x => x.field.HasErrors) = [false] :=
  ⟨rfl, _, _, _, rfl, rfl, rfl, rfl, rfl, rfl, rfl, rfl, rfl, rfl⟩

/-- C17 (evaluation at the failing input): on every field. The error
`requiredOverNope` has the code `required`, a customizable code, yet
`CustomizeError` panics on it, because it reads the code `nope` of the `Error`
value in its chain. The error `nopeOverRequired` has the code `nope`, which is
not customizable, yet `CustomizeError` returns on it and files under `required`
the `Error` value of its chain, not the error given. -/
theorem C17_code_read_is_that_of_the_error_in_the_chain (fld : Field) :
    requiredOverNope.ownCode = some RequiredErrorCode
    ∧ RequiredErrorCode ∈ customizableErrors
    ∧ fld.CustomizeError (some requiredOverNope)
        = .error (.userPanic "CustomizeError called with a nonexisting Error code".toList)
    ∧ (errorWrapIfNotAsError (some requiredOverNope)).Code = "nope".toList
    ∧ nopeOverRequired.ownCode = some "nope".toList
    ∧ "nope".toList ∉ customizableErrors
    ∧ fld.CustomizeError (some nopeOverRequired)
        = .ok { fld with customErrors := mapSet fld.customErrors RequiredErrorCode pickOneError }
    ∧ errorWrapIfNotAsError (some nopeOverRequired) = pickOneError
    ∧ pickOneError.toGoError ≠ nopeOverRequired :=
  ⟨rfl, by decide, rfl, rfl, rfl, by decide, rfl, rfl, by decide⟩

/-- X7 (witness on several values): in `manyValuesForm` the values bound to `nick`
are `bob` and `eve`; the pass cleans the field `Nick` with `bob` alone and
`CleanedData()` holds the list with `bob` alone under `nick`. -/
theorem X7_witness_many_values :
    manyValuesForm.bound = true ∧ manyValuesForm.validated = false
    ∧ nickBound ∈ manyValuesForm.fields ∧ nickBound.isSingleValue = true
    ∧ mapGet manyValuesForm.boundData "nick".toList = some ["bob".toList, "eve".toList]
    ∧ firstValue (boundValuesFor manyValuesForm.boundData
        (normalizedNameForField sampleLib nickBound.field)) = "bob".toList
    ∧ nickCleaned.value = "bob".toList
    ∧ ∃ f1, Form.CleanedData sampleLib 1 manyValuesForm = .ok (f1, f1.cleanedData)
      ∧ mapGet f1.cleanedData (normalizedNameForField sampleLib nickBound.field)
          = some [nickCleaned.value] := by
  have hmem : nickBound ∈ manyValuesForm.fields :=
    (List.mem_cons_of_mem _ (List.mem_cons_self _ _) : nickBound ∈ [_, nickBound])
  obtain ⟨f1, h1, -, h3⟩ :=
    (single_value_field_gets_first_bound_value sampleLib manyValuesForm 0 nickBound rfl rfl
      hmem rfl).2.2.1 (by decide) manyValuesResults nickCleaned rfl rfl rfl
  exact ⟨rfl, rfl, hmem, rfl, rfl, rfl, rfl, f1, h1, h3 rfl⟩

end Aform
